import Mathlib

/-! # Deoptimization and safepoint bookkeeping of the s390 Lithium code generator

A shallow embedding of `src/s390/lithium-codegen-s390.cc`.  The code generator
`LCodeGen` is a record of the members the embedded functions read and write, and
every member function becomes a function on that record.  A function that can
stop on an `ASSERT`, on `UNREACHABLE()` or on an out-of-range `ZoneList::at`
returns `Option`, with `none` for the stop.

Classes that the file only uses (`LEnvironment`, `Translation`, `Safepoint`,
the macro assembler) are declared in headers that are not part of the sources
at hand; each is modelled by the smallest record that supports the calls made
on it, and says so in its doc comment.
-/

namespace Lithium

/-! ## Handles, operands, environments -/

/-- Modelled from the spec: `Handle<Object>` (handles.h is absent).  A handle is
the identity of the object it refers to, `none` being the null handle, so that
`is_identical_to` is equality and `is_null` is `isNone`. -/
abbrev Handle := Option Nat

/-- Result of `Handle::is_identical_to`. -/
def Handle.is_identical_to (a b : Handle) : Bool := a == b

/-- Result of `Handle::is_null`. -/
def Handle.is_null (a : Handle) : Bool := a.isNone

/-- Code address of a deoptimization entry. -/
abbrev Address := Nat

/-- Modelled from the spec: the operand kinds of `LOperand` (lithium.h is
absent): register, stack slot, constant, double register, double stack slot,
and the two kinds that never reach the code generator. -/
inductive LOperand.Kind where
  | INVALID
  | UNALLOCATED
  | CONSTANT_OPERAND
  | STACK_SLOT
  | DOUBLE_STACK_SLOT
  | REGISTER
  | DOUBLE_REGISTER
  deriving DecidableEq, Repr

/-- An operand: a kind and an index (`op->index()`). -/
structure LOperand where
  kind : LOperand.Kind
  index : Int
  deriving DecidableEq, Repr

def LOperand.IsStackSlot (op : LOperand) : Bool := op.kind == .STACK_SLOT
def LOperand.IsDoubleStackSlot (op : LOperand) : Bool := op.kind == .DOUBLE_STACK_SLOT
def LOperand.IsRegister (op : LOperand) : Bool := op.kind == .REGISTER
def LOperand.IsDoubleRegister (op : LOperand) : Bool := op.kind == .DOUBLE_REGISTER
def LOperand.IsConstantOperand (op : LOperand) : Bool := op.kind == .CONSTANT_OPERAND

/-- Modelled from the spec: one entry of an environment's value list, "operand+tag
pairs".  `value = none` is `LEnvironment::materialization_marker()`; the two
booleans are what `HasTaggedValueAt` and `HasUint32ValueAt` answer for the
entry. -/
structure EnvValue where
  value : Option LOperand
  is_tagged : Bool
  is_uint32 : Bool
  deriving DecidableEq, Repr

/-- Modelled from the spec: what an environment records for its `i`-th
dematerialized object, read through `ObjectIsDuplicateAt`, `ObjectDuplicateOfAt`,
`ObjectLengthAt` and `ObjectIsArgumentsAt`. -/
inductive ObjectMapping where
  | duplicate (dupe_of : Nat)
  | object (length : Nat) (is_arguments : Bool)
  deriving DecidableEq, Repr

/-- Frame kinds switched on by `WriteTranslation`. -/
inductive FrameType where
  | JS_FUNCTION
  | JS_CONSTRUCT
  | JS_GETTER
  | JS_SETTER
  | ARGUMENTS_ADAPTOR
  | STUB
  deriving DecidableEq, Repr

/-- Modelled from the spec: `LEnvironment` (lithium.h is absent) without its
`outer()` link.  `registered` is the "has been registered" marker that
`HasBeenRegistered` reads and `Register` sets together with the three
indices. -/
structure LEnvironment where
  closure : Handle
  frame_type : FrameType
  ast_id : Int
  parameter_count : Nat
  translation_size : Nat
  values : List EnvValue
  object_mapping : List ObjectMapping
  has_been_used : Bool
  registered : Bool
  deoptimization_index : Int
  translation_index : Int
  pc_offset : Int
  deriving DecidableEq, Repr

def LEnvironment.HasBeenRegistered (e : LEnvironment) : Bool := e.registered

def LEnvironment.set_has_been_used (e : LEnvironment) : LEnvironment :=
  { e with has_been_used := true }

/-- Effect of `environment->Register(deoptimization_index, translation_index, pc_offset)`. -/
def LEnvironment.Register (e : LEnvironment) (deoptimization_index translation_index pc_offset : Int) :
    LEnvironment :=
  { e with registered := true, deoptimization_index := deoptimization_index,
           translation_index := translation_index, pc_offset := pc_offset }

/-! ## Translations -/

/-- Modelled from the spec: the commands a `Translation` appends to the
translation buffer (deoptimizer.h is absent), one constructor per method that
the code generator calls, `BEGIN` being what the constructor of `Translation`
writes. -/
inductive Command where
  | BEGIN (frame_count jsframe_count : Nat)
  | BeginJSFrame (node_id : Int) (literal_id : Int) (height : Int)
  | BeginConstructStubFrame (literal_id : Int) (height : Nat)
  | BeginGetterStubFrame (literal_id : Int)
  | BeginSetterStubFrame (literal_id : Int)
  | BeginCompiledStubFrame
  | BeginArgumentsAdaptorFrame (literal_id : Int) (height : Nat)
  | DuplicateObject (object_index : Nat)
  | BeginArgumentsObject (args_length : Nat)
  | BeginCapturedObject (length : Nat)
  | StoreRegister (reg : Int)
  | StoreInt32Register (reg : Int)
  | StoreUint32Register (reg : Int)
  | StoreDoubleRegister (reg : Int)
  | StoreStackSlot (index : Int)
  | StoreInt32StackSlot (index : Int)
  | StoreUint32StackSlot (index : Int)
  | StoreDoubleStackSlot (index : Int)
  | StoreLiteral (literal_id : Nat)
  deriving DecidableEq, Repr

/-- Modelled from the spec: `Translation::kSelfLiteralId`, the "self" sentinel
written instead of a literal index for the function's own closure: a fixed
negative number, so no literal index; nothing proved depends on which. -/
def kSelfLiteralId : Int := -239

/-! ## Safepoints, jump table, assembler -/

/-- Deopt mode of a safepoint (`Safepoint::DeoptMode`). -/
inductive DeoptMode where
  | kNoLazyDeopt
  | kLazyDeopt
  deriving DecidableEq, Repr

/-- Modelled from the spec: `Safepoint::Kind` (safepoint-table.h is absent), a
bit set over "with registers" and "with doubles". -/
inductive SafepointKind where
  | kSimple
  | kWithRegisters
  | kWithDoubles
  | kWithRegistersAndDoubles
  deriving DecidableEq, Repr

/-- Value of `kind & Safepoint::kWithRegisters`, as a truth value. -/
def SafepointKind.hasRegisters : SafepointKind → Bool
  | .kSimple => false
  | .kWithRegisters => true
  | .kWithDoubles => false
  | .kWithRegistersAndDoubles => true

/-- Which register `DefinePointerRegister` was called with. -/
inductive PointerRegister where
  | allocated (index : Int)
  | kConstantPoolRegister
  deriving DecidableEq, Repr

/-- Modelled from the spec: one row of the safepoint table: the code offset it
is keyed by, the arguments of `DefineSafepoint`, and the locations marked by
`DefinePointerSlot` and `DefinePointerRegister`, in call order. -/
structure Safepoint where
  pc : Nat
  kind : SafepointKind
  arguments : Int
  deopt_mode : DeoptMode
  indexes : List Int
  registers : List PointerRegister
  deriving DecidableEq, Repr

def Safepoint.DefinePointerSlot (s : Safepoint) (index : Int) : Safepoint :=
  { s with indexes := s.indexes ++ [index] }

def Safepoint.DefinePointerRegister (s : Safepoint) (reg : PointerRegister) : Safepoint :=
  { s with registers := s.registers ++ [reg] }

/-- Bailout flavours (`Deoptimizer::BailoutType`). -/
inductive BailoutType where
  | EAGER
  | LAZY
  | SOFT
  deriving DecidableEq, Repr

/-- `Deoptimizer::JumpTableEntry`: the label of an entry is identified with
the entry's position in `deopt_jump_table_`, which only ever grows at its end. -/
structure JumpTableEntry where
  address : Address
  bailout_type : BailoutType
  needs_frame : Bool
  deriving DecidableEq, Repr

/-- Branch conditions; `al` is "always". -/
inductive Condition where
  | al
  | eq
  | ne
  | lt
  | ge
  | le
  | gt
  | overflow
  | nooverflow
  | unordered
  | ordered
  deriving DecidableEq, Repr

/-- Modelled from the spec: a general register (assembler-s390.h is absent): an
allocatable register, named by its allocation index as
`Register::FromAllocationIndex` does, or one of the fixed registers that the
embedded functions name.  The fixed registers are not allocatable. -/
inductive Register where
  | allocated (index : Int)
  | r0
  | r1
  | ip
  | sp
  | fp
  deriving DecidableEq, Repr

/-- A label that lowering code branches to: the assembly label of a block
(`chunk_->GetAssemblyLabel(block_id)`) or a local `Label` of a lowering
function, under the name it has in the source.  A local label belongs to the
code of one Lithium instruction. -/
inductive Label where
  | block (block_id : Int)
  | dividend_is_not_negative
  | done
  | remainder_not_zero
  | no_overflow_possible
  | dividend_not_zero
  | dividend_not_min_int
  | needs_adjustment
  deriving DecidableEq, Repr

/-- An operand of a macro-assembler call of the lowering functions: a register,
an immediate (`Operand(value)`, or a plain integer argument such as a bit
position), a `MemOperand(base, offset)`, or a double register by allocation
index. -/
inductive Operand where
  | reg (r : Register)
  | imm (value : Int)
  | mem (base : Register) (offset : Int)
  | dreg (index : Int)
  deriving DecidableEq, Repr

/-- Names of the macro-assembler calls made by the arithmetic and comparison
lowering functions. -/
inductive Opcode where
  | CmpP
  | Cmp32
  | CmpSmiLiteral
  | cdbr
  | LoadComplementRR
  | ExtractBitRange
  | TestBitRange
  | mov
  | LoadRR
  | srda
  | dr
  | ltr
  | lr
  | lgfr
  | ShiftRight
  | ShiftRightArith
  | Add32
  | AddP
  | AddP_ExtendSrc
  | SubP
  | TruncatingDiv
  | TestIfInt32
  | LoadImmP
  | Move
  | ShiftLeftP
  | MulP
  | Mul
  | msgr
  | mr_z
  | SmiUntag
  | SmiTag
  | XorP
  | CmpLogicalP
  | CmpLogical32
  deriving DecidableEq, Repr

/-- Names of the macro-assembler calls made by the prologue, the deferred-code
pass, the jump table and the safepoint table; the fixed registers of a call are
part of its name.  An operand that the source scales by `kPointerSize` or
`kDoubleSize` is recorded unscaled. -/
inductive Mnemonic where
  | MaybeCallEntryHook
  | stop_at
  | LoadP_r4_receiver
  | CompareRoot_r4_undefined
  | bne_ok
  | LoadP_r4_global_object
  | LoadP_r4_global_receiver
  | StoreP_r4_receiver
  | bind_ok
  | Prologue_stub_frame
  | Prologue_function_frame
  | lay_sp_slots
  | Push_r2_r3
  | mov_r2_slots
  | mov_r3_zap_value
  | bind_loop
  | StoreP_r3_sp_r2
  | BranchOnCount_r2_loop
  | Pop_r2_r3
  | std_double_sp
  | ld_double_sp
  | CallStub_FastNewContext
  | push_r3
  | CallRuntime_NewFunctionContext
  | LoadRR_cp_r2
  | StoreP_r2_fp_context
  | LoadP_r2_fp_parameter
  | StoreP_r2_context_slot
  | RecordWriteContextSlot
  | CallRuntime_TraceEnter
  | RecordPosition
  | bind_entry
  | PushFixedFrame
  | LoadSmiLiteral_scratch0_STUB
  | push_scratch0
  | la_fp_fixed_frame
  | pop_ip
  | PopFixedFrame
  | b_exit
  | bind_jump_table_label
  | mov_ip_entry
  | b_needs_frame
  | bind_needs_frame
  | Call_ip
  | SafepointTable_Emit
  deriving DecidableEq, Repr

/-- Modelled from the spec: the macro assembler is "an opaque emission
service"; an emitted instruction is recorded as the call that emitted it.  The
constructors without arguments stand for the calls of the stress-deopt sequence
of `DeoptimizeIf`, whose operands are fixed; `asm` is a call of the passes
around the body, with the integers computed for it; `ins`, `branch` and `bind`
are the calls of the lowering functions, `branch cond label` being
`b(cond, &label)` and its short forms (`bne(&label)` is `branch ne label`,
`b(&label)` is `branch al label`). -/
inductive Instr where
  | Call (entry : Address)
  | b (cond : Condition) (jump_table_label : Nat)
  | stop (cond : Condition)
  | CallCode (code : Nat) (mode : Nat)
  | CallRuntime (function : Nat) (num_arguments : Int) (save_doubles : Bool)
  | nop
  | Push_r3_scratch
  | mov_scratch_count
  | l_r3_scratch
  | Sub32_r3_1
  | Cmp32_r3_0
  | bne_no_deopt
  | mov_r3_every_n (n : Int)
  | st_r3_scratch
  | Pop_r3_scratch
  | bind_no_deopt
  | asm (name : Mnemonic) (operands : List Int)
  | ins (name : Opcode) (operands : List Operand)
  | branch (cond : Condition) (label : Label)
  | bind (label : Label)
  deriving DecidableEq, Repr

/-! ## The code generator -/

/-- Pass status (`LCodeGenBase::Status`). -/
inductive Status where
  | UNUSED
  | GENERATING
  | DONE
  | ABORTED
  deriving DecidableEq, Repr

/-- What the embedded functions ask of `info()`, of `scope()` and of the code
generator's own frame predicates, with the flags and build constants they
read.  `parameter_context_slots` holds, for each parameter of the scope, the
context index when `IsContextSlot()`; `stop_at_matches` is the `FLAG_stop_at`
test of debug builds. -/
structure CompilationInfo where
  closure : Handle
  IsStub : Bool
  IsOptimizing : Bool
  saves_caller_doubles : Bool
  ShouldTrapOnDeopt : Bool
  FLAG_deopt_every_n_times : Int
  V8_OOL_CONSTANT_POOL : Bool
  V8_TARGET_ARCH_S390X : Bool
  this_has_uses : Bool
  strict_mode_is_sloppy : Bool
  is_native : Bool
  stop_at_matches : Bool
  parameter_context_slots : List (Option Int)
  num_heap_slots : Int
  MIN_CONTEXT_SLOTS : Int
  kMaximumSlots : Int
  NeedsEagerFrame : Bool
  NeedsDeferredFrame : Bool
  GetStackSlotCount : Int
  allocated_double_registers : List Int
  FLAG_debug_code : Bool
  FLAG_trace : Bool
  kNoPosition : Int
  prologue_offset : Option Nat
  no_frame_ranges : List (Nat × Nat)
  deriving DecidableEq, Repr

/-- What the embedded functions ask of `chunk()`: the handle of each constant
operand, by operand index, and the inlined closures. -/
structure LChunk where
  constants : List (Int × Handle)
  inlined_closures : List Handle
  deriving DecidableEq, Repr

/-- What `GenerateDeferredCode` asks of an `LDeferredCode`: its two labels and
the script position of the instruction it belongs to. -/
structure LDeferredCode where
  entry : Nat
  exit : Nat
  instruction_index : Nat
  position : Int
  deriving DecidableEq, Repr

/-- The members of `LCodeGen` used by the embedded functions.  `masm` is the
instruction sequence emitted so far and `pc_offset` its length. -/
structure LCodeGen where
  status_ : Status
  info : CompilationInfo
  chunk : LChunk
  masm : List Instr
  translations_ : List Command
  deoptimizations_ : List LEnvironment
  deoptimization_literals_ : List Handle
  inlined_function_count_ : Nat
  deopt_jump_table_ : List JumpTableEntry
  safepoints_ : List Safepoint
  frame_is_built_ : Bool
  expected_safepoint_kind_ : SafepointKind
  deferred_ : List LDeferredCode
  osr_pc_offset_ : Int
  deriving DecidableEq, Repr

def LCodeGen.pc_offset (cg : LCodeGen) : Nat := cg.masm.length

def LCodeGen.emit (cg : LCodeGen) (i : Instr) : LCodeGen :=
  { cg with masm := cg.masm ++ [i] }

/-- Effect of `LCodeGenBase::Abort`. -/
def LCodeGen.Abort (cg : LCodeGen) : LCodeGen := { cg with status_ := .ABORTED }

def LCodeGen.is_aborted (cg : LCodeGen) : Bool := cg.status_ == .ABORTED

/-- Counted loop `for (int i = start; i < start + count; ++i) body(i)`. -/
def forLoop {σ : Type} (body : Nat → σ → Option σ) : Nat → Nat → σ → Option σ
  | 0, _, s => some s
  | count + 1, i, s => (body i s).bind (forLoop body count (i + 1))

/-! ## Literals -/

/-- The scan of `DefineDeoptimizationLiteral`: the first index `i`, counted from
`start`, at which `deoptimization_literals_[i].is_identical_to(literal)`. -/
def findIdentical (literal : Handle) : List Handle → Nat → Option Nat
  | [], _ => none
  | h :: rest, i => if h.is_identical_to literal then some i else findIdentical literal rest (i + 1)

/-- Embedding of `LCodeGen::DefineDeoptimizationLiteral`. -/
def LCodeGen.DefineDeoptimizationLiteral (cg : LCodeGen) (literal : Handle) : Nat × LCodeGen :=
  let result := cg.deoptimization_literals_.length
  match findIdentical literal cg.deoptimization_literals_ 0 with
  | some i => (i, cg)
  | none => (result, { cg with deoptimization_literals_ := cg.deoptimization_literals_ ++ [literal] })

/-- The loop of `PopulateDeoptimizationLiteralsWithInlinedFunctions`. -/
def defineAll (cg : LCodeGen) : List Handle → LCodeGen
  | [] => cg
  | h :: rest => defineAll (cg.DefineDeoptimizationLiteral h).2 rest

/-- Embedding of `LCodeGen::PopulateDeoptimizationLiteralsWithInlinedFunctions`. -/
def LCodeGen.PopulateDeoptimizationLiteralsWithInlinedFunctions (cg : LCodeGen) : Option LCodeGen :=
  if cg.deoptimization_literals_.length == 0 then
    let cg1 := defineAll cg cg.chunk.inlined_closures
    some { cg1 with inlined_function_count_ := cg1.deoptimization_literals_.length }
  else none

/-! ## Writing translations -/

/-- Effect of calling a method of `Translation`: the command is appended to
`translations_`, the buffer the translation was created on. -/
def LCodeGen.translate (cg : LCodeGen) (c : Command) : LCodeGen :=
  { cg with translations_ := cg.translations_ ++ [c] }

/-- The two cursors `object_index` and `dematerialized_index` that
`WriteTranslation` hands to `AddToTranslation` by pointer. -/
structure Cursors where
  object_index : Nat
  dematerialized_index : Nat
  deriving DecidableEq, Repr

/-- Handle of `chunk()->LookupConstant(op)->handle(isolate())`. -/
def LCodeGen.LookupConstant (cg : LCodeGen) (index : Int) : Option Handle :=
  cg.chunk.constants.lookup index

/-- Embedding of `LCodeGen::AddToTranslation`.  The first argument bounds the
nesting of dematerialized objects: a call for the materialization marker hands
one less to the calls for the object's fields. -/
def LCodeGen.AddToTranslation : Nat → LCodeGen → LEnvironment → Option LOperand → Bool → Bool →
    Cursors → Option (LCodeGen × Cursors)
  | _, cg, _, some op, is_tagged, is_uint32, cur =>
    if op.IsStackSlot then
      if is_tagged then some (cg.translate (.StoreStackSlot op.index), cur)
      else if is_uint32 then some (cg.translate (.StoreUint32StackSlot op.index), cur)
      else some (cg.translate (.StoreInt32StackSlot op.index), cur)
    else if op.IsDoubleStackSlot then some (cg.translate (.StoreDoubleStackSlot op.index), cur)
    else if op.IsRegister then
      if is_tagged then some (cg.translate (.StoreRegister op.index), cur)
      else if is_uint32 then some (cg.translate (.StoreUint32Register op.index), cur)
      else some (cg.translate (.StoreInt32Register op.index), cur)
    else if op.IsDoubleRegister then some (cg.translate (.StoreDoubleRegister op.index), cur)
    else if op.IsConstantOperand then
      match cg.LookupConstant op.index with
      | none => none
      | some literal =>
        let r := cg.DefineDeoptimizationLiteral literal
        some (r.2.translate (.StoreLiteral r.1), cur)
    else none
  | 0, _, _, none, _, _, _ => none
  | fuel + 1, cg, environment, none, _, _, cur =>
    let object_index := cur.object_index
    let cur1 : Cursors := { cur with object_index := cur.object_index + 1 }
    match environment.object_mapping[object_index]? with
    | none => none
    | some (.duplicate dupe_of) => some (cg.translate (.DuplicateObject dupe_of), cur1)
    | some (.object object_length is_arguments) =>
      let cg1 := if is_arguments then cg.translate (.BeginArgumentsObject object_length)
                 else cg.translate (.BeginCapturedObject object_length)
      let dematerialized_index := cur1.dematerialized_index
      let env_offset := environment.translation_size + dematerialized_index
      let cur2 : Cursors :=
        { cur1 with dematerialized_index := cur1.dematerialized_index + object_length }
      forLoop (fun i (s : LCodeGen × Cursors) =>
          match environment.values[env_offset + i]? with
          | none => none
          | some v => LCodeGen.AddToTranslation fuel s.1 environment v.value v.is_tagged v.is_uint32 s.2)
        object_length 0 (cg1, cur2)

/-- The `switch (environment->frame_type())` of `WriteTranslation`. -/
def LCodeGen.beginFrame (cg : LCodeGen) (environment : LEnvironment) (closure_id : Int)
    (translation_size : Nat) (height : Int) : Option LCodeGen :=
  match environment.frame_type with
  | .JS_FUNCTION => some (cg.translate (.BeginJSFrame environment.ast_id closure_id height))
  | .JS_CONSTRUCT => some (cg.translate (.BeginConstructStubFrame closure_id translation_size))
  | .JS_GETTER =>
    if translation_size == 1 && height == 0 then some (cg.translate (.BeginGetterStubFrame closure_id))
    else none
  | .JS_SETTER =>
    if translation_size == 2 && height == 0 then some (cg.translate (.BeginSetterStubFrame closure_id))
    else none
  | .STUB => some (cg.translate .BeginCompiledStubFrame)
  | .ARGUMENTS_ADAPTOR => some (cg.translate (.BeginArgumentsAdaptorFrame closure_id translation_size))

/-- The closure id computed by `WriteTranslation` for a frame, with the code
generator after a possible `DefineDeoptimizationLiteral`. -/
def LCodeGen.closureId (cg : LCodeGen) (environment : LEnvironment) : Int × LCodeGen :=
  let has_closure_id := !cg.info.closure.is_null &&
    !cg.info.closure.is_identical_to environment.closure
  if has_closure_id then
    let r := cg.DefineDeoptimizationLiteral environment.closure
    ((r.1 : Int), r.2)
  else (kSelfLiteralId, cg)

/-- The value loop that ends `WriteTranslation`, both cursors starting at 0. -/
def LCodeGen.writeValues (cg : LCodeGen) (environment : LEnvironment) : Option (LCodeGen × Cursors) :=
  forLoop (fun i (s : LCodeGen × Cursors) =>
      match environment.values[i]? with
      | none => none
      | some v =>
        LCodeGen.AddToTranslation environment.object_mapping.length s.1 environment
          v.value v.is_tagged v.is_uint32 s.2)
    environment.translation_size 0 (cg, { object_index := 0, dematerialized_index := 0 })

/-- Embedding of `LCodeGen::WriteTranslation`.  The argument is the environment
pointer with its `outer()` chain: `[]` is `NULL` and `environment :: outer` an
environment whose `outer()` is `outer`. -/
def LCodeGen.WriteTranslation (cg : LCodeGen) : List LEnvironment → Option LCodeGen
  | [] => some cg
  | environment :: outer =>
    let translation_size := environment.translation_size
    let height : Int := (translation_size : Int) - (environment.parameter_count : Int)
    match LCodeGen.WriteTranslation cg outer with
    | none => none
    | some cg1 =>
      let c := cg1.closureId environment
      match c.2.beginFrame environment c.1 translation_size height with
      | none => none
      | some cg2 => (cg2.writeValues environment).map Prod.fst

/-- The counting loop of `RegisterEnvironmentForDeoptimization`, from the pair
`(frame_count, jsframe_count)` reached so far. -/
def countFrames : List LEnvironment → Nat × Nat → Nat × Nat
  | [], c => c
  | e :: outer, c =>
    countFrames outer (c.1 + 1, if e.frame_type == .JS_FUNCTION then c.2 + 1 else c.2)

/-- Embedding of `LCodeGen::RegisterEnvironmentForDeoptimization`; the result
carries the environment as the call leaves it.  The index of the new
translation is the position of its `BEGIN` command in the buffer. -/
def LCodeGen.RegisterEnvironmentForDeoptimization (cg : LCodeGen) (environment : LEnvironment)
    (outer : List LEnvironment) (mode : DeoptMode) : Option (LCodeGen × LEnvironment) :=
  let environment := environment.set_has_been_used
  if !environment.HasBeenRegistered then
    let counts := countFrames (environment :: outer) (0, 0)
    let index := cg.translations_.length
    let cg1 := cg.translate (.BEGIN counts.1 counts.2)
    match cg1.WriteTranslation (environment :: outer) with
    | none => none
    | some cg2 =>
      let deoptimization_index := cg2.deoptimizations_.length
      let pc_offset := cg2.pc_offset
      let environment1 := environment.Register deoptimization_index index
        (if mode == .kLazyDeopt then (pc_offset : Int) else -1)
      some ({ cg2 with deoptimizations_ := cg2.deoptimizations_ ++ [environment1] }, environment1)
  else some (cg, environment)

/-! ## Deoptimization guards -/

/-- The stress-deopt sequence of `DeoptimizeIf`, emitted when
`FLAG_deopt_every_n_times != 0 && !info()->IsStub()`. -/
def stressDeoptCode (every_n : Int) (entry : Address) : List Instr :=
  [.Push_r3_scratch, .mov_scratch_count, .l_r3_scratch, .Sub32_r3_1, .Cmp32_r3_0, .bne_no_deopt,
   .mov_r3_every_n every_n, .st_r3_scratch, .Pop_r3_scratch, .Call entry, .bind_no_deopt,
   .l_r3_scratch, .Pop_r3_scratch]

/-- The jump-table half of `DeoptimizeIf`: the table after the reuse test. -/
def LCodeGen.jumpTableFor (cg : LCodeGen) (entry : Address) (bailout_type : BailoutType) :
    List JumpTableEntry :=
  match cg.deopt_jump_table_.getLast? with
  | none =>
    cg.deopt_jump_table_ ++
      [{ address := entry, bailout_type := bailout_type, needs_frame := !cg.frame_is_built_ }]
  | some last =>
    if last.address != entry || last.bailout_type != bailout_type ||
        last.needs_frame != !cg.frame_is_built_ then
      cg.deopt_jump_table_ ++
        [{ address := entry, bailout_type := bailout_type, needs_frame := !cg.frame_is_built_ }]
    else cg.deopt_jump_table_

/-- Embedding of `LCodeGen::DeoptimizeIf(cond, environment, bailout_type, cr)`.
`GetDeoptimizationEntry` stands for `Deoptimizer::GetDeoptimizationEntry`
(deoptimizer.cc is absent), `none` being the `NULL` address.  The condition
register `cr` only reaches `stop` and is left out.  The label
`&deopt_jump_table_.last().label` of the branch is the index of the last
entry. -/
def LCodeGen.DeoptimizeIf (GetDeoptimizationEntry : Int → BailoutType → Option Address)
    (cg : LCodeGen) (cond : Condition) (environment : LEnvironment) (outer : List LEnvironment)
    (bailout_type : BailoutType) : Option (LCodeGen × LEnvironment) :=
  match cg.RegisterEnvironmentForDeoptimization environment outer .kNoLazyDeopt with
  | none => none
  | some (cg1, environment1) =>
    if !environment1.HasBeenRegistered then none
    else if !(cg1.info.IsOptimizing || cg1.info.IsStub) then none
    else
      let id := environment1.deoptimization_index
      match GetDeoptimizationEntry id bailout_type with
      | none => some (cg1.Abort, environment1)
      | some entry =>
        let cg2 :=
          if cg1.info.FLAG_deopt_every_n_times != 0 && !cg1.info.IsStub then
            { cg1 with masm := cg1.masm ++ stressDeoptCode cg1.info.FLAG_deopt_every_n_times entry }
          else cg1
        let cg3 := if cg2.info.ShouldTrapOnDeopt then cg2.emit (.stop cond) else cg2
        if !(cg3.info.IsStub || cg3.frame_is_built_) then none
        else if cond == .al && cg3.frame_is_built_ && !cg3.info.saves_caller_doubles then
          some (cg3.emit (.Call entry), environment1)
        else
          let table := cg3.jumpTableFor entry bailout_type
          let cg4 := { cg3 with deopt_jump_table_ := table }
          some (cg4.emit (.b cond (table.length - 1)), environment1)

/-- Embedding of `LCodeGen::DeoptimizeIf(cond, environment, cr)`. -/
def LCodeGen.DeoptimizeIfDefault (GetDeoptimizationEntry : Int → BailoutType → Option Address)
    (cg : LCodeGen) (cond : Condition) (environment : LEnvironment) (outer : List LEnvironment) :
    Option (LCodeGen × LEnvironment) :=
  let bailout_type := if cg.info.IsStub then BailoutType.LAZY else BailoutType.EAGER
  cg.DeoptimizeIf GetDeoptimizationEntry cond environment outer bailout_type

/-! ## Safepoints and calls -/

/-- Modelled from the spec: an `LPointerMap` (lithium.h is absent), given by the
operand list that `GetNormalizedOperands` returns: "the normalized set of
operands live at this point". -/
structure LPointerMap where
  normalized_operands : List LOperand
  deriving DecidableEq, Repr

/-- Modelled from the spec: `SafepointTableBuilder::DefineSafepoint`
(safepoint-table.cc is absent): "writes one table row keyed by the current code
offset"; the row starts with no marked location. -/
def DefineSafepoint (pc : Nat) (kind : SafepointKind) (arguments : Int) (deopt_mode : DeoptMode) :
    Safepoint :=
  { pc := pc, kind := kind, arguments := arguments, deopt_mode := deopt_mode,
    indexes := [], registers := [] }

/-- Body of the operand loop of `RecordSafepoint`. -/
def markPointer (kind : SafepointKind) (safepoint : Safepoint) (pointer : LOperand) : Safepoint :=
  if pointer.IsStackSlot then safepoint.DefinePointerSlot pointer.index
  else if pointer.IsRegister && kind.hasRegisters then
    safepoint.DefinePointerRegister (.allocated pointer.index)
  else safepoint

/-- Embedding of `LCodeGen::RecordSafepoint(pointers, kind, arguments, deopt_mode)`.
The row is stored once the locations are marked; in the source the row is
created first and the `Safepoint` handle fills it in place. -/
def LCodeGen.RecordSafepoint (cg : LCodeGen) (pointers : LPointerMap) (kind : SafepointKind)
    (arguments : Int) (deopt_mode : DeoptMode) : Option LCodeGen :=
  if cg.expected_safepoint_kind_ != kind then none
  else
    let operands := pointers.normalized_operands
    let safepoint := DefineSafepoint cg.pc_offset kind arguments deopt_mode
    let safepoint1 := operands.foldl (markPointer kind) safepoint
    let safepoint2 :=
      if cg.info.V8_OOL_CONSTANT_POOL && kind.hasRegisters then
        safepoint1.DefinePointerRegister .kConstantPoolRegister
      else safepoint1
    some { cg with safepoints_ := cg.safepoints_ ++ [safepoint2] }

/-- Embedding of `LCodeGen::RecordSafepoint(pointers, deopt_mode)`. -/
def LCodeGen.RecordSafepointSimple (cg : LCodeGen) (pointers : LPointerMap) (deopt_mode : DeoptMode) :
    Option LCodeGen :=
  cg.RecordSafepoint pointers .kSimple 0 deopt_mode

/-- Embedding of `LCodeGen::RecordSafepoint(deopt_mode)`. -/
def LCodeGen.RecordSafepointEmpty (cg : LCodeGen) (deopt_mode : DeoptMode) : Option LCodeGen :=
  let empty_pointers : LPointerMap := { normalized_operands := [] }
  cg.RecordSafepointSimple empty_pointers deopt_mode

/-- Embedding of `LCodeGen::RecordSafepointWithRegisters`. -/
def LCodeGen.RecordSafepointWithRegisters (cg : LCodeGen) (pointers : LPointerMap) (arguments : Int)
    (deopt_mode : DeoptMode) : Option LCodeGen :=
  cg.RecordSafepoint pointers .kWithRegisters arguments deopt_mode

/-- Embedding of `LCodeGen::RecordSafepointWithRegistersAndDoubles`. -/
def LCodeGen.RecordSafepointWithRegistersAndDoubles (cg : LCodeGen) (pointers : LPointerMap)
    (arguments : Int) (deopt_mode : DeoptMode) : Option LCodeGen :=
  cg.RecordSafepoint pointers .kWithRegistersAndDoubles arguments deopt_mode

/-- The two values of `LCodeGen::SafepointMode`. -/
inductive SafepointMode where
  | RECORD_SIMPLE_SAFEPOINT
  | RECORD_SAFEPOINT_WITH_REGISTERS_AND_NO_ARGUMENTS
  deriving DecidableEq, Repr

/-- What the call helpers ask of an `LInstruction`: its pointer map. -/
structure LInstruction where
  pointer_map : LPointerMap
  deriving DecidableEq, Repr

/-- Kinds of code object tested by `CallCodeGeneric`. -/
inductive CodeKind where
  | BINARY_OP_IC
  | COMPARE_IC
  | STUB
  | OTHER
  deriving DecidableEq, Repr

/-- A `Handle<Code>`: the identity of the code object and its `kind()`. -/
structure Code where
  id : Nat
  kind : CodeKind
  deriving DecidableEq, Repr

/-- Embedding of `LCodeGen::RecordSafepointWithLazyDeopt`. -/
def LCodeGen.RecordSafepointWithLazyDeopt (cg : LCodeGen) (instr : LInstruction)
    (safepoint_mode : SafepointMode) : Option LCodeGen :=
  if safepoint_mode == .RECORD_SIMPLE_SAFEPOINT then
    cg.RecordSafepointSimple instr.pointer_map .kLazyDeopt
  else if safepoint_mode != .RECORD_SAFEPOINT_WITH_REGISTERS_AND_NO_ARGUMENTS then none
  else cg.RecordSafepointWithRegisters instr.pointer_map 0 .kLazyDeopt

/-- Embedding of `LCodeGen::CallCodeGeneric`; `instr = none` is the `NULL`
instruction that the function asserts against. -/
def LCodeGen.CallCodeGeneric (cg : LCodeGen) (code : Code) (mode : Nat) (instr : Option LInstruction)
    (safepoint_mode : SafepointMode) : Option LCodeGen :=
  match instr with
  | none => none
  | some instr =>
    let cg1 := cg.emit (.CallCode code.id mode)
    match cg1.RecordSafepointWithLazyDeopt instr safepoint_mode with
    | none => none
    | some cg2 =>
      if code.kind == .BINARY_OP_IC || code.kind == .COMPARE_IC then some (cg2.emit .nop)
      else some cg2

/-- Embedding of `LCodeGen::CallCode`. -/
def LCodeGen.CallCode (cg : LCodeGen) (code : Code) (mode : Nat) (instr : Option LInstruction) :
    Option LCodeGen :=
  cg.CallCodeGeneric code mode instr .RECORD_SIMPLE_SAFEPOINT

/-- Embedding of `LCodeGen::CallRuntime(function, num_arguments, instr, save_doubles)`. -/
def LCodeGen.CallRuntime (cg : LCodeGen) (function : Nat) (num_arguments : Int)
    (instr : Option LInstruction) (save_doubles : Bool) : Option LCodeGen :=
  match instr with
  | none => none
  | some instr =>
    let cg1 := cg.emit (.CallRuntime function num_arguments save_doubles)
    cg1.RecordSafepointWithLazyDeopt instr .RECORD_SIMPLE_SAFEPOINT

/-! ## The code generation pass -/

def LCodeGen.asm (cg : LCodeGen) (name : Mnemonic) (operands : List Int) : LCodeGen :=
  cg.emit (.asm name operands)

def LCodeGen.emitAll (cg : LCodeGen) (code : List Instr) : LCodeGen :=
  { cg with masm := cg.masm ++ code }

/-- `scope()->num_parameters()`. -/
def CompilationInfo.num_parameters (info : CompilationInfo) : Nat :=
  info.parameter_context_slots.length

/-- The loop shared by `SaveCallerDoubles` and `RestoreCallerDoubles`: one
access per allocated double register, at `sp + count * kDoubleSize`. -/
def callerDoublesCode (name : Mnemonic) : List Int → Int → List Instr
  | [], _ => []
  | reg :: rest, count => .asm name [reg, count] :: callerDoublesCode name rest (count + 1)

/-- Embedding of `LCodeGen::SaveCallerDoubles`. -/
def LCodeGen.SaveCallerDoubles (cg : LCodeGen) : Option LCodeGen :=
  if !cg.info.saves_caller_doubles then none
  else if !cg.info.NeedsEagerFrame then none
  else some (cg.emitAll (callerDoublesCode .std_double_sp cg.info.allocated_double_registers 0))

/-- Embedding of `LCodeGen::RestoreCallerDoubles`. -/
def LCodeGen.RestoreCallerDoubles (cg : LCodeGen) : Option LCodeGen :=
  if !cg.info.saves_caller_doubles then none
  else if !cg.info.NeedsEagerFrame then none
  else some (cg.emitAll (callerDoublesCode .ld_double_sp cg.info.allocated_double_registers 0))

/-- The parameter loop of `GeneratePrologue`, from parameter `i`. -/
def contextParameterCode (num_parameters : Nat) : List (Option Int) → Nat → List Instr
  | [], _ => []
  | var :: rest, i =>
    (match var with
     | some index =>
       [.asm .LoadP_r2_fp_parameter [(num_parameters : Int) - 1 - (i : Int)],
        .asm .StoreP_r2_context_slot [index], .asm .RecordWriteContextSlot [index]]
     | none => []) ++ contextParameterCode num_parameters rest (i + 1)

/-- The block "Possibly allocate a local context" of `GeneratePrologue`, entered
when `heap_slots > 0`. -/
def LCodeGen.allocateLocalContext (cg : LCodeGen) (heap_slots : Int) : Option LCodeGen :=
  let cg1 :=
    if heap_slots <= cg.info.kMaximumSlots then cg.asm .CallStub_FastNewContext [heap_slots]
    else (cg.asm .push_r3 []).asm .CallRuntime_NewFunctionContext [1]
  match cg1.RecordSafepointEmpty .kNoLazyDeopt with
  | none => none
  | some cg2 =>
    let cg3 := (cg2.asm .LoadRR_cp_r2 []).asm .StoreP_r2_fp_context []
    let num_parameters := cg3.info.num_parameters
    some (cg3.emitAll (contextParameterCode num_parameters cg3.info.parameter_context_slots 0))

/-- First block of `GeneratePrologue`, under `info()->IsOptimizing()`: the entry
hook, the `stop_at` stop of debug builds, and the receiver patch of sloppy
functions. -/
def LCodeGen.prologueEntry (cg : LCodeGen) : LCodeGen :=
  if cg.info.IsOptimizing then
    let cg1 := cg.asm .MaybeCallEntryHook []
    let cg2 := if cg1.info.stop_at_matches then cg1.asm .stop_at [] else cg1
    if cg2.info.this_has_uses && cg2.info.strict_mode_is_sloppy && !cg2.info.is_native then
      let receiver_offset : Int := cg2.info.num_parameters
      cg2.emitAll [.asm .LoadP_r4_receiver [receiver_offset], .asm .CompareRoot_r4_undefined [],
        .asm .bne_ok [], .asm .LoadP_r4_global_object [], .asm .LoadP_r4_global_receiver [],
        .asm .StoreP_r4_receiver [receiver_offset], .asm .bind_ok []]
    else cg2
  else cg

/-- Second block of `GeneratePrologue`: the prologue offset is recorded and,
under `NeedsEagerFrame()`, the frame is built. -/
def LCodeGen.prologueFrame (cg : LCodeGen) : LCodeGen :=
  let cg1 := { cg with info := { cg.info with prologue_offset := some cg.pc_offset } }
  if cg1.info.NeedsEagerFrame then
    let cg2 :=
      cg1.asm (if cg1.info.IsStub then .Prologue_stub_frame else .Prologue_function_frame) []
    { cg2 with frame_is_built_ := true,
               info := { cg2.info with
                         no_frame_ranges := cg2.info.no_frame_ranges ++ [(0, cg2.pc_offset)] } }
  else cg1

/-- Third block of `GeneratePrologue`, "Reserve space for the stack slots
needed by the code". -/
def LCodeGen.prologueSlots (cg : LCodeGen) : LCodeGen :=
  let slots := cg.info.GetStackSlotCount
  if slots > 0 then
    let cg1 := cg.asm .lay_sp_slots [-slots]
    if cg1.info.FLAG_debug_code then
      cg1.emitAll [.asm .Push_r2_r3 [], .asm .mov_r2_slots [slots], .asm .mov_r3_zap_value [],
        .asm .bind_loop [], .asm .StoreP_r3_sp_r2 [], .asm .BranchOnCount_r2_loop [],
        .asm .Pop_r2_r3 []]
    else cg1
  else cg

/-- Embedding of `LCodeGen::GeneratePrologue`; the result is the returned flag
and the code generator. -/
def LCodeGen.GeneratePrologue (cg : LCodeGen) : Option (Bool × LCodeGen) :=
  if cg.status_ != .GENERATING then none
  else
    let cg4 := cg.prologueEntry.prologueFrame.prologueSlots
    match (if cg4.info.saves_caller_doubles then cg4.SaveCallerDoubles else some cg4) with
    | none => none
    | some cg5 =>
      let heap_slots := cg5.info.num_heap_slots - cg5.info.MIN_CONTEXT_SLOTS
      match (if heap_slots > 0 then cg5.allocateLocalContext heap_slots else some cg5) with
      | none => none
      | some cg6 =>
        let cg7 :=
          if cg6.info.FLAG_trace && cg6.info.IsOptimizing then cg6.asm .CallRuntime_TraceEnter [0]
          else cg6
        some (!cg7.is_aborted, cg7)

/-- Code of this repository that the pass calls and that is not in the sources
at hand: `GenerateBody` (lithium-codegen.cc) and the virtual
`LDeferredCode::Generate`, each as its effect on the code generator. -/
structure Collaborators where
  GenerateBody : LCodeGen → LCodeGen
  Generate : LDeferredCode → LCodeGen → LCodeGen

/-- A collaborator writes `status_` through `Abort` only: it leaves the status
as it found it or leaves it `ABORTED`. -/
def Collaborators.AbortOnly (h : Collaborators) : Prop :=
  (∀ cg, (h.GenerateBody cg).status_ = cg.status_ ∨ (h.GenerateBody cg).status_ = .ABORTED) ∧
  (∀ code cg, (h.Generate code cg).status_ = cg.status_ ∨ (h.Generate code cg).status_ = .ABORTED)

/-- Modelled from the spec: `LCodeGenBase::GenerateBody` (lithium-codegen.cc is
absent): the main pass over the instructions, which reports like the other
phases whether the pass was aborted, "once aborted, subsequent phases are
skipped". -/
def LCodeGen.GenerateBody (h : Collaborators) (cg : LCodeGen) : Option (Bool × LCodeGen) :=
  let cg1 := h.GenerateBody cg
  some (!cg1.is_aborted, cg1)

/-- The block "Build frame" of `GenerateDeferredCode`, under
`NeedsDeferredFrame()`. -/
def LCodeGen.buildDeferredFrame (cg : LCodeGen) : Option LCodeGen :=
  if cg.info.NeedsDeferredFrame then
    if cg.frame_is_built_ then none
    else if !cg.info.IsStub then none
    else
      some ({ cg with frame_is_built_ := true }.emitAll
        [.asm .PushFixedFrame [], .asm .LoadSmiLiteral_scratch0_STUB [], .asm .push_scratch0 [],
         .asm .la_fp_fixed_frame []])
  else some cg

/-- The block "Destroy frame" of `GenerateDeferredCode`, under
`NeedsDeferredFrame()`. -/
def LCodeGen.destroyDeferredFrame (cg : LCodeGen) : Option LCodeGen :=
  if cg.info.NeedsDeferredFrame then
    if !cg.frame_is_built_ then none
    else
      some { cg.emitAll [.asm .pop_ip [], .asm .PopFixedFrame []] with frame_is_built_ := false }
  else some cg

/-- The loop of `GenerateDeferredCode` over the deferred blocks still to emit.
`Generate` is taken not to add deferred code. -/
def LCodeGen.deferredLoop (h : Collaborators) : List LDeferredCode → LCodeGen → Option LCodeGen
  | [], cg => some cg
  | code :: rest, cg =>
    if cg.is_aborted then some cg
    else
      let cg1 :=
        if code.position == cg.info.kNoPosition then cg else cg.asm .RecordPosition [code.position]
      let cg2 := cg1.asm .bind_entry [code.entry]
      match cg2.buildDeferredFrame with
      | none => none
      | some cg3 =>
        let cg4 := h.Generate code cg3
        match cg4.destroyDeferredFrame with
        | none => none
        | some cg5 => LCodeGen.deferredLoop h rest (cg5.asm .b_exit [code.exit])

/-- Embedding of `LCodeGen::GenerateDeferredCode`. -/
def LCodeGen.GenerateDeferredCode (h : Collaborators) (cg : LCodeGen) : Option (Bool × LCodeGen) :=
  if cg.status_ != .GENERATING then none
  else
    match LCodeGen.deferredLoop h cg.deferred_ cg with
    | none => none
    | some cg1 => some (!cg1.is_aborted, cg1)

/-- The branch of the jump-table loop for an entry that needs no frame, up to
the call: caller doubles are restored when the compile saves them. -/
def LCodeGen.restoreForJump (cg : LCodeGen) : Option LCodeGen :=
  if cg.info.saves_caller_doubles then
    if !cg.info.IsStub then none else cg.RestoreCallerDoubles
  else some cg

/-- The loop of `GenerateDeoptJumpTable` from entry `i`; `needs_frame_bound`
says whether the label `needs_frame` is bound. -/
def LCodeGen.jumpTableLoop : List JumpTableEntry → Nat → Bool → LCodeGen → Option LCodeGen
  | [], _, _, cg => some cg
  | e :: rest, i, needs_frame_bound, cg =>
    let cg1 := (cg.asm .bind_jump_table_label [i]).asm .mov_ip_entry [e.address]
    if e.needs_frame then
      if cg1.info.saves_caller_doubles then none
      else if needs_frame_bound then
        LCodeGen.jumpTableLoop rest (i + 1) true (cg1.asm .b_needs_frame [])
      else if !cg1.info.IsStub then none
      else
        LCodeGen.jumpTableLoop rest (i + 1) true
          (cg1.emitAll [.asm .bind_needs_frame [], .asm .PushFixedFrame [],
            .asm .LoadSmiLiteral_scratch0_STUB [], .asm .push_scratch0 [], .asm .la_fp_fixed_frame [],
            .asm .Call_ip []])
    else
      match cg1.restoreForJump with
      | none => none
      | some cg2 => LCodeGen.jumpTableLoop rest (i + 1) needs_frame_bound (cg2.asm .Call_ip [])

/-- Embedding of `LCodeGen::GenerateDeoptJumpTable`. -/
def LCodeGen.GenerateDeoptJumpTable (cg : LCodeGen) : Option (Bool × LCodeGen) :=
  match LCodeGen.jumpTableLoop cg.deopt_jump_table_ 0 false cg with
  | none => none
  | some cg1 =>
    let cg2 := if !cg1.is_aborted then { cg1 with status_ := .DONE } else cg1
    some (!cg2.is_aborted, cg2)

/-- Embedding of `LCodeGen::GenerateSafepointTable`. -/
def LCodeGen.GenerateSafepointTable (cg : LCodeGen) : Option (Bool × LCodeGen) :=
  if cg.status_ != .DONE then none
  else
    let cg1 := cg.asm .SafepointTable_Emit [cg.info.GetStackSlotCount]
    some (!cg1.is_aborted, cg1)

/-- The short-circuit `&&` between two phases: the next phase runs on the code
generator the previous one left, and only when that one returned `true`. -/
def andThen (r : Option (Bool × LCodeGen)) (next : LCodeGen → Option (Bool × LCodeGen)) :
    Option (Bool × LCodeGen) :=
  match r with
  | none => none
  | some (false, cg) => some (false, cg)
  | some (true, cg) => next cg

/-- Embedding of `LCodeGen::GenerateCode`. -/
def LCodeGen.GenerateCode (h : Collaborators) (cg : LCodeGen) : Option (Bool × LCodeGen) :=
  if cg.status_ != .UNUSED then none
  else
    let cg0 := { cg with status_ := .GENERATING }
    andThen (andThen (andThen (andThen cg0.GeneratePrologue (LCodeGen.GenerateBody h))
      (LCodeGen.GenerateDeferredCode h)) LCodeGen.GenerateDeoptJumpTable)
      LCodeGen.GenerateSafepointTable

/-! ## Reading a translation back

The deoptimizer that reads translations (deoptimizer.cc) is not in the sources
at hand.  What follows is the reader the spec describes: the value commands of
a frame form a sequence of entries, an object entry holding as many nested
entries as its command declares, and every entry is looked up in a snapshot of
the machine state. -/

/-- A sequence of value entries of a translation: a store command, a
back-reference to an earlier object, or an object with its nested entries,
each followed by the entries after it. -/
inductive Entries where
  | nil
  | store (c : Command) (rest : Entries)
  | duplicate (object_index : Nat) (rest : Entries)
  | object (is_arguments : Bool) (fields : Entries) (rest : Entries)
  deriving DecidableEq, Repr

/-- Number of entries of the sequence, an object with all it holds counting as
one. -/
def Entries.count : Entries → Nat
  | .nil => 0
  | .store _ rest => rest.count + 1
  | .duplicate _ rest => rest.count + 1
  | .object _ _ rest => rest.count + 1

/-- Number of commands the sequence is written with. -/
def Entries.size : Entries → Nat
  | .nil => 0
  | .store _ rest => rest.size + 1
  | .duplicate _ rest => rest.size + 1
  | .object _ fields rest => fields.size + rest.size + 1

/-- The commands of the sequence, an object being declared with the number of
entries it holds. -/
def Entries.flatten : Entries → List Command
  | .nil => []
  | .store c rest => c :: rest.flatten
  | .duplicate k rest => .DuplicateObject k :: rest.flatten
  | .object true fields rest => .BeginArgumentsObject fields.count :: (fields.flatten ++ rest.flatten)
  | .object false fields rest => .BeginCapturedObject fields.count :: (fields.flatten ++ rest.flatten)

/-- The objects of the sequence in the order their commands appear, in the
form an environment records them. -/
def Entries.mapping : Entries → List ObjectMapping
  | .nil => []
  | .store _ rest => rest.mapping
  | .duplicate k rest => .duplicate k :: rest.mapping
  | .object is_arguments fields rest =>
    .object fields.count is_arguments :: (fields.mapping ++ rest.mapping)

/-- Sequence `a` followed by sequence `b`. -/
def Entries.append : Entries → Entries → Entries
  | .nil, b => b
  | .store c rest, b => .store c (rest.append b)
  | .duplicate k rest, b => .duplicate k (rest.append b)
  | .object is_arguments fields rest, b => .object is_arguments fields (rest.append b)

/-- The command stores one plain value. -/
def Command.isStore : Command → Bool
  | .StoreRegister _ => true
  | .StoreInt32Register _ => true
  | .StoreUint32Register _ => true
  | .StoreDoubleRegister _ => true
  | .StoreStackSlot _ => true
  | .StoreInt32StackSlot _ => true
  | .StoreUint32StackSlot _ => true
  | .StoreDoubleStackSlot _ => true
  | .StoreLiteral _ => true
  | _ => false

/-- The command opens a frame. -/
def Command.isBeginFrame : Command → Bool
  | .BeginJSFrame _ _ _ => true
  | .BeginConstructStubFrame _ _ => true
  | .BeginGetterStubFrame _ => true
  | .BeginSetterStubFrame _ => true
  | .BeginCompiledStubFrame => true
  | .BeginArgumentsAdaptorFrame _ _ => true
  | _ => false

/-- The command starts a value entry. -/
def Command.isValue : Command → Bool
  | .DuplicateObject _ => true
  | .BeginArgumentsObject _ => true
  | .BeginCapturedObject _ => true
  | c => c.isStore

/-- Modelled from the spec: reads exactly `n` entries off the front of a
command list, "recursively emitting that many nested descriptors" read
backwards; the result is the entries and the commands left.  The first
argument bounds the number of commands read. -/
def parseFields : Nat → Nat → List Command → Option (Entries × List Command)
  | 0, _, _ => none
  | _ + 1, 0, cs => some (.nil, cs)
  | _ + 1, _ + 1, [] => none
  | fuel + 1, n + 1, c :: cs =>
    match c with
    | .DuplicateObject k =>
      (parseFields fuel n cs).map (fun r => (.duplicate k r.1, r.2))
    | .BeginArgumentsObject len =>
      (parseFields fuel len cs).bind (fun f =>
        (parseFields fuel n f.2).map (fun r => (.object true f.1 r.1, r.2)))
    | .BeginCapturedObject len =>
      (parseFields fuel len cs).bind (fun f =>
        (parseFields fuel n f.2).map (fun r => (.object false f.1 r.1, r.2)))
    | c =>
      if c.isStore then (parseFields fuel n cs).map (fun r => (.store c r.1, r.2))
      else none

/-- Modelled from the spec: reads the value entries of one frame, up to the
next command that is no value command or to the end of the commands. -/
def parseValues : Nat → List Command → Option (Entries × List Command)
  | 0, _ => none
  | _ + 1, [] => some (.nil, [])
  | fuel + 1, c :: cs =>
    match c with
    | .DuplicateObject k =>
      (parseValues fuel cs).map (fun r => (.duplicate k r.1, r.2))
    | .BeginArgumentsObject len =>
      (parseFields fuel len cs).bind (fun f =>
        (parseValues fuel f.2).map (fun r => (.object true f.1 r.1, r.2)))
    | .BeginCapturedObject len =>
      (parseFields fuel len cs).bind (fun f =>
        (parseValues fuel f.2).map (fun r => (.object false f.1 r.1, r.2)))
    | c =>
      if c.isStore then (parseValues fuel cs).map (fun r => (.store c r.1, r.2))
      else some (.nil, c :: cs)

/-- Modelled from the spec: the "captured machine-register/stack-slot
snapshot": the word held by each register, double register and stack slot. -/
structure Snapshot where
  registers : Int → Int
  double_registers : Int → Int
  stack_slots : Int → Int
  double_stack_slots : Int → Int

/-- The (tag, value) of one plain value: how to interpret it and the word, or
for a literal the object, found for it. -/
inductive TaggedValue where
  | tagged (word : Int)
  | int32 (word : Int)
  | uint32 (word : Int)
  | double (word : Int)
  | literal (object : Handle)
  deriving DecidableEq, Repr

/-- A reconstructed sequence of values: plain values with their tags, resolved
back-references and objects expanded to their fields. -/
inductive Reconstructed where
  | nil
  | value (v : TaggedValue) (rest : Reconstructed)
  | duplicate (object_index : Nat) (rest : Reconstructed)
  | object (is_arguments : Bool) (fields : Reconstructed) (rest : Reconstructed)
  deriving DecidableEq, Repr

/-- Modelled from the spec: the (tag, value) a store command stands for in a
snapshot; a literal index is looked up in the literal list. -/
def Command.read (snapshot : Snapshot) (literals : List Handle) : Command → Option TaggedValue
  | .StoreRegister reg => some (.tagged (snapshot.registers reg))
  | .StoreInt32Register reg => some (.int32 (snapshot.registers reg))
  | .StoreUint32Register reg => some (.uint32 (snapshot.registers reg))
  | .StoreDoubleRegister reg => some (.double (snapshot.double_registers reg))
  | .StoreStackSlot index => some (.tagged (snapshot.stack_slots index))
  | .StoreInt32StackSlot index => some (.int32 (snapshot.stack_slots index))
  | .StoreUint32StackSlot index => some (.uint32 (snapshot.stack_slots index))
  | .StoreDoubleStackSlot index => some (.double (snapshot.double_stack_slots index))
  | .StoreLiteral literal_id => literals[literal_id]?.map .literal
  | _ => none

/-- Modelled from the spec: reconstructs the values of a sequence of entries.
`objects` counts the objects met so far in the translation, back-references
included; a back-reference resolves when it names one of them. -/
def Entries.reconstruct (snapshot : Snapshot) (literals : List Handle) :
    Entries → Nat → Option (Reconstructed × Nat)
  | .nil, objects => some (.nil, objects)
  | .store c rest, objects =>
    (c.read snapshot literals).bind (fun v =>
      (rest.reconstruct snapshot literals objects).map (fun r => (.value v r.1, r.2)))
  | .duplicate k rest, objects =>
    if k < objects then
      (rest.reconstruct snapshot literals (objects + 1)).map (fun r => (.duplicate k r.1, r.2))
    else none
  | .object is_arguments fields rest, objects =>
    (fields.reconstruct snapshot literals (objects + 1)).bind (fun f =>
      (rest.reconstruct snapshot literals f.2).map (fun r => (.object is_arguments f.1 r.1, r.2)))

/-- Frame kind a begin-frame command stands for. -/
def Command.frameType : Command → Option FrameType
  | .BeginJSFrame _ _ _ => some .JS_FUNCTION
  | .BeginConstructStubFrame _ _ => some .JS_CONSTRUCT
  | .BeginGetterStubFrame _ => some .JS_GETTER
  | .BeginSetterStubFrame _ => some .JS_SETTER
  | .BeginCompiledStubFrame => some .STUB
  | .BeginArgumentsAdaptorFrame _ _ => some .ARGUMENTS_ADAPTOR
  | _ => none

/-- Modelled from the spec: reads `frames` frames, each a begin-frame command
followed by its value entries, and reconstructs their values in the order
read. -/
def readFrames (snapshot : Snapshot) (literals : List Handle) :
    Nat → List Command → Nat → Option (List (FrameType × Reconstructed))
  | 0, _, _ => some []
  | _ + 1, [], _ => none
  | frames + 1, c :: cs, objects =>
    match c.frameType with
    | none => none
    | some frame_type =>
      match parseValues (cs.length + 1) cs with
      | none => none
      | some (entries, rest) =>
        match entries.reconstruct snapshot literals objects with
        | none => none
        | some (values, objects1) =>
          (readFrames snapshot literals frames rest objects1).map (fun r => (frame_type, values) :: r)

/-- Modelled from the spec: replays the translation that starts at the front of
a command list: the `BEGIN` header gives the number of frames, which are read
outermost first. -/
def readTranslation (snapshot : Snapshot) (literals : List Handle) :
    List Command → Option (List (FrameType × Reconstructed))
  | .BEGIN frame_count _ :: cs => readFrames snapshot literals frame_count cs 0
  | _ => none

/-! ## The values an environment stands for -/

/-- The live values of one frame as the environment lays them out: plain
operands, back-references, and dematerialized objects with their fields, each
with the representation bits of its entry in `values()`. -/
inductive Values where
  | nil
  | plain (op : LOperand) (is_tagged is_uint32 : Bool) (rest : Values)
  | duplicate (dupe_of : Nat) (is_tagged is_uint32 : Bool) (rest : Values)
  | object (is_arguments : Bool) (is_tagged is_uint32 : Bool) (fields : Values) (rest : Values)
  deriving DecidableEq, Repr

/-- The entries of `values()` that hold the sequence itself: an operand for a
plain value, the materialization marker for an object or a back-reference. -/
def Values.slots : Values → List EnvValue
  | .nil => []
  | .plain op is_tagged is_uint32 rest =>
    { value := some op, is_tagged := is_tagged, is_uint32 := is_uint32 } :: rest.slots
  | .duplicate _ is_tagged is_uint32 rest =>
    { value := none, is_tagged := is_tagged, is_uint32 := is_uint32 } :: rest.slots
  | .object _ is_tagged is_uint32 _ rest =>
    { value := none, is_tagged := is_tagged, is_uint32 := is_uint32 } :: rest.slots

/-- The entries of `values()` that hold the fields of the objects of the
sequence: for each object in turn its own fields, then the fields of the
objects among them. -/
def Values.dematerialized : Values → List EnvValue
  | .nil => []
  | .plain _ _ _ rest => rest.dematerialized
  | .duplicate _ _ _ rest => rest.dematerialized
  | .object _ _ _ fields rest => fields.slots ++ (fields.dematerialized ++ rest.dematerialized)

/-- What the environment records for the objects of the sequence. -/
def Values.mapping : Values → List ObjectMapping
  | .nil => []
  | .plain _ _ _ rest => rest.mapping
  | .duplicate k _ _ rest => .duplicate k :: rest.mapping
  | .object is_arguments _ _ fields rest =>
    .object fields.slots.length is_arguments :: (fields.mapping ++ rest.mapping)

/-- Largest nesting of objects in the sequence. -/
def Values.depth : Values → Nat
  | .nil => 0
  | .plain _ _ _ rest => rest.depth
  | .duplicate _ _ _ rest => max 1 rest.depth
  | .object _ _ _ fields rest => max (fields.depth + 1) rest.depth

/-- The (tag, value) of a plain operand in a snapshot: a double operand is a
double, a constant operand its literal object, and a register or stack slot is
tagged, uint32 or int32 as its representation bits say. -/
def TaggedValue.ofOperand (snapshot : Snapshot) (constants : List (Int × Handle))
    (op : LOperand) (is_tagged is_uint32 : Bool) : Option TaggedValue :=
  match op.kind with
  | .STACK_SLOT =>
    some (if is_tagged then .tagged (snapshot.stack_slots op.index)
          else if is_uint32 then .uint32 (snapshot.stack_slots op.index)
          else .int32 (snapshot.stack_slots op.index))
  | .DOUBLE_STACK_SLOT => some (.double (snapshot.double_stack_slots op.index))
  | .REGISTER =>
    some (if is_tagged then .tagged (snapshot.registers op.index)
          else if is_uint32 then .uint32 (snapshot.registers op.index)
          else .int32 (snapshot.registers op.index))
  | .DOUBLE_REGISTER => some (.double (snapshot.double_registers op.index))
  | .CONSTANT_OPERAND => (constants.lookup op.index).map .literal
  | _ => none

/-- The (tag, value) sequence of the values of a frame in a snapshot, with the
objects expanded to their fields; `objects` counts the objects of the
translation before the sequence, and a back-reference has to name one of
them. -/
def Values.expected (snapshot : Snapshot) (constants : List (Int × Handle)) :
    Values → Nat → Option (Reconstructed × Nat)
  | .nil, objects => some (.nil, objects)
  | .plain op is_tagged is_uint32 rest, objects =>
    (TaggedValue.ofOperand snapshot constants op is_tagged is_uint32).bind (fun v =>
      (rest.expected snapshot constants objects).map (fun r => (.value v r.1, r.2)))
  | .duplicate k _ _ rest, objects =>
    if k < objects then
      (rest.expected snapshot constants (objects + 1)).map (fun r => (.duplicate k r.1, r.2))
    else none
  | .object is_arguments _ _ fields rest, objects =>
    (fields.expected snapshot constants (objects + 1)).bind (fun f =>
      (rest.expected snapshot constants f.2).map (fun r => (.object is_arguments f.1 r.1, r.2)))

/-- The environment lays out the sequence `vs`: its first `translation_size`
values are the sequence itself, the values after them the fields of its
objects, and `object_mapping` describes its objects. -/
def LEnvironment.Holds (e : LEnvironment) (vs : Values) : Prop :=
  e.values = vs.slots ++ vs.dematerialized ∧
  e.translation_size = vs.slots.length ∧
  e.object_mapping = vs.mapping

/-- The assertions of `WriteTranslation` on the frame kind hold. -/
def LEnvironment.frameOk (e : LEnvironment) : Bool :=
  match e.frame_type with
  | .JS_GETTER => e.translation_size == 1 && e.parameter_count == 1
  | .JS_SETTER => e.translation_size == 2 && e.parameter_count == 2
  | _ => true

/-- The (tag, value) sequences of a chain of frames, outermost frame first;
the list pairs each environment, innermost first, with its values. -/
def expectedFrames (snapshot : Snapshot) (constants : List (Int × Handle)) :
    List (LEnvironment × Values) → Nat → Option (List (FrameType × Reconstructed) × Nat)
  | [], objects => some ([], objects)
  | (e, vs) :: outer, objects =>
    (expectedFrames snapshot constants outer objects).bind (fun o =>
      (vs.expected snapshot constants o.2).map (fun r => (o.1 ++ [(e.frame_type, r.1)], r.2)))

/-- Between `cg` and `cg1` the commands `cmds` were appended to the translation
buffer, literals were appended to the literal list, and nothing else of the
code generator changed. -/
def LCodeGen.Wrote (cg cg1 : LCodeGen) (cmds : List Command) : Prop :=
  ∃ added, cg1 = { cg with translations_ := cg.translations_ ++ cmds,
                           deoptimization_literals_ := cg.deoptimization_literals_ ++ added }

/-- Every store entry of the sequence is a store command. -/
def Entries.proper : Entries → Bool
  | .nil => true
  | .store c rest => c.isStore && rest.proper
  | .duplicate _ rest => rest.proper
  | .object _ fields rest => fields.proper && rest.proper

/-- The command is the begin-frame command `WriteTranslation` writes for the
environment, whatever closure id it carries. -/
def Command.opensFrameOf (c : Command) (e : LEnvironment) : Bool :=
  match c, e.frame_type with
  | .BeginJSFrame node_id _ height, .JS_FUNCTION =>
    node_id == e.ast_id && height == (e.translation_size : Int) - (e.parameter_count : Int)
  | .BeginConstructStubFrame _ height, .JS_CONSTRUCT => height == e.translation_size
  | .BeginGetterStubFrame _, .JS_GETTER => true
  | .BeginSetterStubFrame _, .JS_SETTER => true
  | .BeginCompiledStubFrame, .STUB => true
  | .BeginArgumentsAdaptorFrame _ height, .ARGUMENTS_ADAPTOR => height == e.translation_size
  | _, _ => false

/-- The commands of a list of frames, each a begin-frame command followed by
the commands of its entries. -/
def frameCommands : List (Command × Entries) → List Command
  | [] => []
  | f :: rest => f.1 :: (f.2.flatten ++ frameCommands rest)

/-- The command is the header a `Translation` starts with. -/
def Command.isBEGIN : Command → Bool
  | .BEGIN _ _ => true
  | _ => false

/-! ## Sample inputs -/

/-- An optimizing compile of a function with closure 0, frame built. -/
def sampleInfo : CompilationInfo :=
  { closure := some 0, IsStub := false, IsOptimizing := true, saves_caller_doubles := false,
    ShouldTrapOnDeopt := false, FLAG_deopt_every_n_times := 0, V8_OOL_CONSTANT_POOL := false,
    V8_TARGET_ARCH_S390X := true, this_has_uses := false, strict_mode_is_sloppy := true, is_native := false,
    stop_at_matches := false, parameter_context_slots := [], num_heap_slots := 0,
    MIN_CONTEXT_SLOTS := 4, kMaximumSlots := 64, NeedsEagerFrame := true,
    NeedsDeferredFrame := false, GetStackSlotCount := 2, allocated_double_registers := [],
    FLAG_debug_code := false, FLAG_trace := false, kNoPosition := -1, prologue_offset := none,
    no_frame_ranges := [] }

/-- A code generator in the middle of the body: three instructions emitted,
one literal defined, constant operand 7 standing for object 42. -/
def sampleCodeGen : LCodeGen :=
  { status_ := .GENERATING, info := sampleInfo,
    chunk := { constants := [(7, some 42)], inlined_closures := [] },
    masm := [.nop, .nop, .nop], translations_ := [], deoptimizations_ := [],
    deoptimization_literals_ := [some 9], inlined_function_count_ := 0,
    deopt_jump_table_ := [], safepoints_ := [], frame_is_built_ := true,
    expected_safepoint_kind_ := .kSimple, deferred_ := [], osr_pc_offset_ := -1 }

/-- The values of the sample inner frame: a tagged stack slot, a captured
object of a constant and a uint32 register, a double register, and a
back-reference to object 0, the arguments object of the outer frame. -/
def sampleValues : Values :=
  .plain { kind := .STACK_SLOT, index := -2 } true false
    (.object false true false
      (.plain { kind := .CONSTANT_OPERAND, index := 7 } true false
        (.plain { kind := .REGISTER, index := 3 } false true .nil))
      (.plain { kind := .DOUBLE_REGISTER, index := 1 } false false
        (.duplicate 0 true false .nil)))

/-- The sample inner frame, of an inlined function with closure 1. -/
def sampleEnvironment : LEnvironment :=
  { closure := some 1, frame_type := .JS_FUNCTION, ast_id := 12, parameter_count := 1,
    translation_size := 4, values := sampleValues.slots ++ sampleValues.dematerialized,
    object_mapping := sampleValues.mapping, has_been_used := false, registered := false,
    deoptimization_index := -1, translation_index := -1, pc_offset := -1 }

/-- The values of the sample outer frame: an int32 stack slot and an
arguments object of one tagged register. -/
def sampleOuterValues : Values :=
  .plain { kind := .STACK_SLOT, index := 0 } false false
    (.object true true false (.plain { kind := .REGISTER, index := 2 } true false .nil) .nil)

/-- The sample outer frame, of the function being compiled. -/
def sampleOuter : LEnvironment :=
  { closure := some 0, frame_type := .JS_FUNCTION, ast_id := 4, parameter_count := 1,
    translation_size := 2, values := sampleOuterValues.slots ++ sampleOuterValues.dematerialized,
    object_mapping := sampleOuterValues.mapping, has_been_used := false, registered := false,
    deoptimization_index := -1, translation_index := -1, pc_offset := -1 }

/-- The commands written when the sample chain is registered. -/
def sampleTranslation : List Command :=
  [.BEGIN 2 2,
   .BeginJSFrame 4 kSelfLiteralId 1, .StoreInt32StackSlot 0, .BeginArgumentsObject 1, .StoreRegister 2,
   .BeginJSFrame 12 1 3, .StoreStackSlot (-2), .BeginCapturedObject 2, .StoreLiteral 2,
   .StoreUint32Register 3, .StoreDoubleRegister 1, .DuplicateObject 0]

/-- The sample inner frame once registered in lazy mode. -/
def sampleRegistered : LEnvironment :=
  { sampleEnvironment with has_been_used := true, registered := true, deoptimization_index := 0,
                           translation_index := 0, pc_offset := 3 }

/-- The sample code generator once the sample chain is registered. -/
def sampleCodeGenAfter : LCodeGen :=
  { sampleCodeGen with translations_ := sampleTranslation, deoptimizations_ := [sampleRegistered],
                       deoptimization_literals_ := [some 9, some 1, some 42] }

/-- The sample code generator after `WriteTranslation` for the sample chain. -/
def sampleWritten : LCodeGen :=
  { sampleCodeGen with translations_ := sampleTranslation.tail,
                       deoptimization_literals_ := [some 9, some 1, some 42] }

/-- The triple a guard asks the jump table for. -/
def LCodeGen.tableEntry (cg : LCodeGen) (entry : Address) (bailout_type : BailoutType) :
    JumpTableEntry :=
  { address := entry, bailout_type := bailout_type, needs_frame := !cg.frame_is_built_ }

/-- The guard `DeoptimizeIf(cond, environment, bailout_type)` passes its
assertions, finds the entry address `entry`, and goes through the jump table
rather than calling the entry directly. -/
def LCodeGen.TakesJumpTable (GetDeoptimizationEntry : Int → BailoutType → Option Address)
    (cg : LCodeGen) (cond : Condition) (environment : LEnvironment) (outer : List LEnvironment)
    (bailout_type : BailoutType) (entry : Address) : Prop :=
  (∃ r, cg.RegisterEnvironmentForDeoptimization environment outer .kNoLazyDeopt = some r ∧
    GetDeoptimizationEntry r.2.deoptimization_index bailout_type = some entry) ∧
  (cg.info.IsOptimizing || cg.info.IsStub) = true ∧
  (cg.info.IsStub || cg.frame_is_built_) = true ∧
  ¬ (cond = .al ∧ cg.frame_is_built_ = true ∧ cg.info.saves_caller_doubles = false)

/-- A table of deoptimization entries in which every id has an entry of either
flavour, at an address made of the id and the flavour. -/
def sampleEntries (id : Int) (bailout_type : BailoutType) : Option Address :=
  some (1000 + 2 * id.toNat + (if bailout_type == .EAGER then 0 else 1))

/-- The sample inner frame once registered by a guard (no lazy deopt). -/
def sampleGuarded : LEnvironment :=
  { sampleEnvironment with has_been_used := true, registered := true, deoptimization_index := 0,
                           translation_index := 0, pc_offset := -1 }

/-- The sample code generator once a guard has registered the sample chain. -/
def sampleCodeGenGuarded : LCodeGen :=
  { sampleCodeGen with translations_ := sampleTranslation, deoptimizations_ := [sampleGuarded],
                       deoptimization_literals_ := [some 9, some 1, some 42] }

/-- The pointer slots a safepoint is to mark for a pointer map: the indices of
its stack-slot operands, in order. -/
def LPointerMap.slotIndices (pointers : LPointerMap) : List Int :=
  (pointers.normalized_operands.filter LOperand.IsStackSlot).map LOperand.index

/-- The registers of the register operands of a pointer map, in order. -/
def LPointerMap.registerOperands (pointers : LPointerMap) : List PointerRegister :=
  (pointers.normalized_operands.filter LOperand.IsRegister).map (fun op => .allocated op.index)

/-- A pointer map with operands of every kind. -/
def samplePointers : LPointerMap :=
  { normalized_operands :=
      [{ kind := .STACK_SLOT, index := 4 }, { kind := .REGISTER, index := 3 },
       { kind := .DOUBLE_STACK_SLOT, index := 6 }, { kind := .STACK_SLOT, index := -1 },
       { kind := .CONSTANT_OPERAND, index := 7 }, { kind := .DOUBLE_REGISTER, index := 0 },
       { kind := .REGISTER, index := 5 }] }

/-- The safepoint row for a pointer map at code offset `pc`: the stack-slot
operands as pointer slots, the register operands as pointer registers when the
kind includes registers, and then the constant pool register in a build with
`V8_OOL_CONSTANT_POOL`. -/
def LCodeGen.safepointRow (cg : LCodeGen) (pc : Nat) (pointers : LPointerMap) (kind : SafepointKind)
    (arguments : Int) (deopt_mode : DeoptMode) : Safepoint :=
  { pc := pc, kind := kind, arguments := arguments, deopt_mode := deopt_mode,
    indexes := pointers.slotIndices,
    registers := (if kind.hasRegisters then pointers.registerOperands else []) ++
      (if cg.info.V8_OOL_CONSTANT_POOL && kind.hasRegisters then [.kConstantPoolRegister]
       else []) }

/-- The safepoint kind a safepoint mode of the call helpers asks for. -/
def SafepointMode.kind : SafepointMode → SafepointKind
  | .RECORD_SIMPLE_SAFEPOINT => .kSimple
  | .RECORD_SAFEPOINT_WITH_REGISTERS_AND_NO_ARGUMENTS => .kWithRegisters

/-- Collaborators for the sample pass: the body emits one instruction and adds
no deferred code, and deferred code emits one instruction. -/
def sampleCollaborators : Collaborators :=
  { GenerateBody := fun cg => cg.emit .nop
    Generate := fun _ cg => cg.emit .nop }

/-- Collaborators whose body aborts the pass. -/
def abortingCollaborators : Collaborators :=
  { GenerateBody := fun cg => cg.Abort
    Generate := fun _ cg => cg.emit .nop }

/-- A code generator before the pass. -/
def sampleUnused : LCodeGen :=
  { sampleCodeGen with status_ := .UNUSED, masm := [], deoptimization_literals_ := [],
                       frame_is_built_ := false }

/-- The list `l` sits in the list `xs` from position `p` on. -/
def listAt {α : Type} (xs : List α) (p : Nat) (l : List α) : Prop :=
  ∀ j, j < l.length → xs[p + j]? = l[j]?

/-- Modelled from the spec: the values reconstructed for a list of frames
already split into their begin-frame command and entries, in the order
read. -/
def reconstructFrames (snapshot : Snapshot) (literals : List Handle) :
    List (Command × Entries) → Nat → Option (List (FrameType × Reconstructed) × Nat)
  | [], objects => some ([], objects)
  | f :: rest, objects =>
    match f.1.frameType with
    | none => none
    | some frame_type =>
      match f.2.reconstruct snapshot literals objects with
      | none => none
      | some (values, objects1) =>
        (reconstructFrames snapshot literals rest objects1).map
          (fun r => ((frame_type, values) :: r.1, r.2))

/-- A snapshot in which every location holds a word that tells it apart. -/
def sampleSnapshot : Snapshot :=
  { registers := fun r => 100 + r, double_registers := fun r => 200 + r,
    stack_slots := fun i => 300 + i, double_stack_slots := fun i => 400 + i }

/-- The (tag, value) sequences of the sample chain in the sample snapshot,
outer frame first. -/
def sampleReconstruction : List (FrameType × Reconstructed) :=
  [(.JS_FUNCTION, .value (.int32 300) (.object true (.value (.tagged 102) .nil) .nil)),
   (.JS_FUNCTION,
    .value (.tagged 298)
      (.object false (.value (.literal (some 42)) (.value (.uint32 103) .nil))
        (.value (.double 201) (.duplicate 0 .nil))))]

/-! ## Lowering of arithmetic instructions -/

/-- `kMinInt`, the least `int32_t`. -/
def kMinInt : Int := -2147483648

/-- The signed value of the low 32 bits of `v`: what an `int32_t` holds. -/
def int32 (v : Int) : Int := (v + 2147483648) % 4294967296 - 2147483648

/-- The signed value of the low 64 bits of `v`. -/
def int64 (v : Int) : Int := (v + 9223372036854775808) % 18446744073709551616 - 9223372036854775808

/-- Modelled from the spec: `Abs` of utils.h (absent), on `int32_t`. -/
def Abs (a : Int) : Int := if a < 0 then int32 (-a) else a

/-- Binary logarithm of `n`, rounded down, for `n` below `2 ^ fuel`. -/
def log2Below : Nat → Nat → Nat
  | 0, _ => 0
  | fuel + 1, n => if n < 2 then 0 else log2Below fuel (n / 2) + 1

/-- Modelled from the spec: `WhichPowerOf2Abs` of utils.h (absent): the exponent
`k` of a divisor `2^k` or `-2^k`, "power-of-two divisors (shift-based)". -/
def WhichPowerOf2Abs (x : Int) : Nat := log2Below 32 x.natAbs

/-- Modelled from the spec: `IsPowerOf2` of utils.h (absent). -/
def IsPowerOf2 (x : Int) : Bool := 0 < x && 2 ^ log2Below 32 x.natAbs == x.natAbs

/-- The flags of a hydrogen value that the embedded lowering functions test. -/
inductive HFlag where
  | kCanOverflow
  | kCanBeDivByZero
  | kBailoutOnMinusZero
  | kAllUsesTruncatingToInt32
  | kLeftCanBeNegative
  | kLeftCanBePositive
  | kLeftCanBeMinInt
  deriving DecidableEq, Repr

/-- What the lowering functions ask of `instr->hydrogen()`: the flags that are
set. -/
structure HValue where
  flags : List HFlag
  deriving DecidableEq, Repr

def HValue.CheckFlag (h : HValue) (f : HFlag) : Bool := h.flags.contains f

/-- `LOperand::Equals`: same kind and same index. -/
def LOperand.Equals (op other : LOperand) : Bool := op == other

/-- Embedding of `LCodeGen::ToRegister(LOperand*)`; `none` when the assertion
`op->IsRegister()` fails. -/
def ToRegister (op : LOperand) : Option Register :=
  if op.IsRegister then some (.allocated op.index) else none

/-- `scratch0()` of lithium-codegen-s390.h (absent); `DoModI` asserts that it is
`r1`. -/
def scratch0 : Register := .r1

/-- `kPointerSize` of the build. -/
def CompilationInfo.kPointerSize (info : CompilationInfo) : Int :=
  if info.V8_TARGET_ARCH_S390X then 8 else 4

/-- Embedding of `ArgumentsOffsetWithoutFrame`; `none` when the assertion
`index < 0` fails. -/
def ArgumentsOffsetWithoutFrame (info : CompilationInfo) (index : Int) : Option Int :=
  if index < 0 then some (-(index + 1) * info.kPointerSize) else none

/-- Code of this repository that the lowering functions call and that is not in
the sources at hand: `Deoptimizer::GetDeoptimizationEntry` (`none` being the
`NULL` address), `StackSlotOffset` of lithium.cc, and
`chunk_->LookupConstant(op)->Integer32Value()` behind `ToInteger32`. -/
structure Externals where
  GetDeoptimizationEntry : Int → BailoutType → Option Address
  StackSlotOffset : Int → Int
  Integer32Value : LOperand → Int

/-- Embedding of `LCodeGen::ToMemOperand`, as the base register and the offset
of the `MemOperand`. -/
def ToMemOperand (x : Externals) (info : CompilationInfo) (op : LOperand) : Option (Register × Int) :=
  if op.IsRegister then none
  else if op.IsDoubleRegister then none
  else if !(op.IsStackSlot || op.IsDoubleStackSlot) then none
  else if info.NeedsEagerFrame then some (.fp, x.StackSlotOffset op.index)
  else (ArgumentsOffsetWithoutFrame info op.index).map (fun offset => (.sp, offset))

/-- One step of a lowering function: a macro-assembler call, or a call of
`DeoptimizeIf(cond, instr->environment())`. -/
inductive Action where
  | emit (i : Instr)
  | DeoptimizeIf (cond : Condition)
  deriving DecidableEq, Repr

def Action.ins (name : Opcode) (operands : List Operand) : Action := .emit (.ins name operands)
def Action.branch (cond : Condition) (label : Label) : Action := .emit (.branch cond label)
def Action.bind (label : Label) : Action := .emit (.bind label)

/-- Runs the steps of a lowering function in order on the code generator and
on the environment of the instruction, which a guard registers. -/
def LCodeGen.perform (x : Externals) (outer : List LEnvironment) :
    List Action → LCodeGen × LEnvironment → Option (LCodeGen × LEnvironment)
  | [], s => some s
  | .emit i :: rest, s => LCodeGen.perform x outer rest (s.1.emit i, s.2)
  | .DeoptimizeIf cond :: rest, s =>
    match s.1.DeoptimizeIfDefault x.GetDeoptimizationEntry cond s.2 outer with
    | none => none
    | some s1 => LCodeGen.perform x outer rest s1

/-- What the lowering functions ask of an instruction with a constant divisor
(`LModByPowerOf2I`, `LModByConstI`, `LDivByPowerOf2I`, `LDivByConstI`,
`LFlooringDivByConstI`); `temp` is read by `DoFlooringDivByConstI` only. -/
structure LDivByConstI where
  dividend : LOperand
  divisor : Int
  result : LOperand
  temp : LOperand
  hydrogen : HValue
  environment : LEnvironment
  deriving DecidableEq, Repr

abbrev LModByConstI := LDivByConstI
abbrev LDivByPowerOf2I := LDivByConstI
abbrev LFlooringDivByConstI := LDivByConstI

/-- What `DoModI` and `DoAddI` ask of an `LModI` and of an `LAddI`. -/
structure LModI where
  left : LOperand
  right : LOperand
  result : LOperand
  hydrogen : HValue
  environment : LEnvironment
  deriving DecidableEq, Repr

abbrev LAddI := LModI

/-- The calls of `LCodeGen::DoModByConstI`, in order.  A non-zero divisor runs
into `ASSERT(0)`, so the calls after it are not reached. -/
def DoModByConstI_steps (instr : LModByConstI) : Option (List Action) :=
  match ToRegister instr.dividend, ToRegister instr.result with
  | some dividend, some result =>
    let divisor := instr.divisor
    if dividend == result then none
    else if divisor == 0 then some [.DeoptimizeIf .al]
    else none
  | _, _ => none

/-- The calls of `LCodeGen::DoDivByPowerOf2I`, in order. -/
def DoDivByPowerOf2I_steps (instr : LDivByPowerOf2I) : Option (List Action) :=
  match ToRegister instr.dividend, ToRegister instr.result with
  | some dividend, some result =>
    let divisor := instr.divisor
    if !(divisor == kMinInt || IsPowerOf2 (Abs divisor)) then none
    else if result == dividend then none
    else
      let hdiv := instr.hydrogen
      let shift := WhichPowerOf2Abs divisor
      some (
        (if hdiv.CheckFlag .kBailoutOnMinusZero && divisor < 0 then
          [.ins .Cmp32 [.reg dividend, .imm 0], .DeoptimizeIf .eq]
        else []) ++
        (if hdiv.CheckFlag .kCanOverflow && divisor == -1 then
          [.ins .Cmp32 [.reg dividend, .imm 0x80000000], .DeoptimizeIf .eq]
        else []) ++
        (if !hdiv.CheckFlag .kAllUsesTruncatingToInt32 && shift != 0 then
          [.ins .TestBitRange [.reg dividend, .imm ((shift : Int) - 1), .imm 0, .reg .r0],
           .DeoptimizeIf .ne]
        else []) ++
        (if divisor == -1 then [.ins .LoadComplementRR [.reg result, .reg dividend]]
        else
          (if shift == 0 then [.ins .LoadRR [.reg result, .reg dividend]]
          else
            (if shift == 1 then [.ins .ShiftRight [.reg result, .reg dividend, .imm 31]]
            else
              [.ins .ShiftRightArith [.reg result, .reg dividend, .imm 31],
               .ins .ShiftRight [.reg result, .reg result, .imm (32 - (shift : Int))]]) ++
            [.ins .Add32 [.reg result, .reg dividend, .reg result],
             .ins .ShiftRightArith [.reg result, .reg result, .imm shift]]) ++
          (if divisor < 0 then [.ins .LoadComplementRR [.reg result, .reg result]] else [])))
  | _, _ => none

/-- The calls of `LCodeGen::DoDivByConstI`, in order.  When not all uses
truncate, a non-zero divisor runs into `ASSERT(0)`. -/
def DoDivByConstI_steps (instr : LDivByConstI) : Option (List Action) :=
  match ToRegister instr.dividend, ToRegister instr.result with
  | some dividend, some result =>
    let divisor := instr.divisor
    if dividend == result then none
    else if divisor == 0 then some [.DeoptimizeIf .al]
    else
      let hdiv := instr.hydrogen
      if !hdiv.CheckFlag .kAllUsesTruncatingToInt32 then none
      else
        some (
          (if hdiv.CheckFlag .kBailoutOnMinusZero && divisor < 0 then
            [.ins .Cmp32 [.reg dividend, .imm 0], .DeoptimizeIf .eq]
          else []) ++
          [.ins .TruncatingDiv [.reg result, .reg dividend, .imm (Abs divisor)]] ++
          (if divisor < 0 then [.ins .LoadComplementRR [.reg result, .reg result]] else []))
  | _, _ => none

/-- The calls of `LCodeGen::DoFlooringDivByConstI`, in order. -/
def DoFlooringDivByConstI_steps (instr : LFlooringDivByConstI) : Option (List Action) :=
  match ToRegister instr.dividend, ToRegister instr.result with
  | some dividend, some result =>
    let divisor := instr.divisor
    if dividend == result then none
    else if divisor == 0 then some [.DeoptimizeIf .al]
    else
      let hdiv := instr.hydrogen
      let minus_zero : List Action :=
        if hdiv.CheckFlag .kBailoutOnMinusZero && divisor < 0 then
          [.ins .Cmp32 [.reg dividend, .imm 0], .DeoptimizeIf .eq]
        else []
      let negate : List Action :=
        if divisor < 0 then [.ins .LoadComplementRR [.reg result, .reg result]] else []
      if (divisor > 0 && !hdiv.CheckFlag .kLeftCanBeNegative) ||
          (divisor < 0 && !hdiv.CheckFlag .kLeftCanBePositive) then
        some (minus_zero ++
          [.ins .TruncatingDiv [.reg result, .reg dividend, .imm (Abs divisor)]] ++ negate)
      else
        match ToRegister instr.temp with
        | none => none
        | some temp =>
          if !(temp != dividend && temp != result) then none
          else
            some (minus_zero ++
              [.ins .Cmp32 [.reg dividend, .imm 0],
               .branch (if divisor > 0 then .lt else .gt) .needs_adjustment,
               .ins .TruncatingDiv [.reg result, .reg dividend, .imm (Abs divisor)]] ++ negate ++
              [.branch .al .done, .bind .needs_adjustment,
               .ins .AddP [.reg temp, .reg dividend, .imm (if divisor > 0 then 1 else -1)],
               .ins .TruncatingDiv [.reg result, .reg temp, .imm (Abs divisor)]] ++ negate ++
              [.ins .SubP [.reg result, .reg result, .imm 1], .bind .done])
  | _, _ => none

/-- The calls of `LCodeGen::DoAddI`, in order.  The build is big-endian, so on
the 64-bit target the low word of a stack slot is read at offset `+ 4`. -/
def DoAddI_steps (x : Externals) (info : CompilationInfo) (instr : LAddI) : Option (List Action) :=
  let left := instr.left
  let right := instr.right
  let result := instr.result
  let checkOverflow :=
    if info.V8_TARGET_ARCH_S390X then instr.hydrogen.CheckFlag .kCanOverflow else true
  let add : Option (List Action) :=
    if right.IsConstantOperand then
      match ToRegister result, ToRegister left with
      | some result_reg, some left_reg =>
        some [.ins (if checkOverflow then .Add32 else .AddP)
          [.reg result_reg, .reg left_reg, .imm (x.Integer32Value right)]]
      | _, _ => none
    else if right.IsRegister then
      match ToRegister result, ToRegister left, ToRegister right with
      | some result_reg, some left_reg, some right_reg =>
        some [.ins (if checkOverflow then .Add32 else .AddP_ExtendSrc)
          [.reg result_reg, .reg left_reg, .reg right_reg]]
      | _, _, _ => none
    else
      let load : Option (List Action) :=
        if !left.Equals result then
          match ToRegister result, ToRegister left with
          | some result_reg, some left_reg => some [.ins .LoadRR [.reg result_reg, .reg left_reg]]
          | _, _ => none
        else some []
      match load, ToMemOperand x info right, ToRegister result with
      | some load, some rightMem, some result_reg =>
        let mem : Operand :=
          if info.V8_TARGET_ARCH_S390X then .mem rightMem.1 (rightMem.2 + 4)
          else .mem rightMem.1 rightMem.2
        some (load ++
          [.ins (if checkOverflow then .Add32 else .AddP_ExtendSrc) [.reg result_reg, mem]])
      | _, _, _ => none
  match add, ToRegister result with
  | some add, some result_reg =>
    some (add ++
      (if info.V8_TARGET_ARCH_S390X && checkOverflow then
        [.ins .lgfr [.reg result_reg, .reg result_reg]]
      else []) ++
      (if instr.hydrogen.CheckFlag .kCanOverflow then [.DeoptimizeIf .overflow] else []))
  | _, _ => none

/-- Runs a lowering function: its calls are performed on the code generator
and on the environment of the instruction. -/
def LCodeGen.lower (x : Externals) (cg : LCodeGen) (steps : Option (List Action))
    (environment : LEnvironment) (outer : List LEnvironment) : Option (LCodeGen × LEnvironment) :=
  match steps with
  | none => none
  | some steps => LCodeGen.perform x outer steps (cg, environment)

/-- Embedding of `LCodeGen::DoModByConstI`. -/
def LCodeGen.DoModByConstI (x : Externals) (cg : LCodeGen) (instr : LModByConstI)
    (outer : List LEnvironment) : Option (LCodeGen × LEnvironment) :=
  cg.lower x (DoModByConstI_steps instr) instr.environment outer

/-- Embedding of `LCodeGen::DoDivByPowerOf2I`. -/
def LCodeGen.DoDivByPowerOf2I (x : Externals) (cg : LCodeGen) (instr : LDivByPowerOf2I)
    (outer : List LEnvironment) : Option (LCodeGen × LEnvironment) :=
  cg.lower x (DoDivByPowerOf2I_steps instr) instr.environment outer

/-- Embedding of `LCodeGen::DoDivByConstI`. -/
def LCodeGen.DoDivByConstI (x : Externals) (cg : LCodeGen) (instr : LDivByConstI)
    (outer : List LEnvironment) : Option (LCodeGen × LEnvironment) :=
  cg.lower x (DoDivByConstI_steps instr) instr.environment outer

/-- Embedding of `LCodeGen::DoFlooringDivByConstI`. -/
def LCodeGen.DoFlooringDivByConstI (x : Externals) (cg : LCodeGen) (instr : LFlooringDivByConstI)
    (outer : List LEnvironment) : Option (LCodeGen × LEnvironment) :=
  cg.lower x (DoFlooringDivByConstI_steps instr) instr.environment outer

/-- Embedding of `LCodeGen::DoAddI`. -/
def LCodeGen.DoAddI (x : Externals) (cg : LCodeGen) (instr : LAddI)
    (outer : List LEnvironment) : Option (LCodeGen × LEnvironment) :=
  cg.lower x (DoAddI_steps x cg.info instr) instr.environment outer

/-! ## Running lowered code

The code that a lowering function emits is run on a machine state to say what
the guards do for given register contents.  The branches of these fragments
go forward, to a label bound later in the fragment or outside it. -/

/-- The condition code of the machine: after a comparison, 0 is "equal", 1 is
"first operand low" and 2 is "first operand high"; after signed arithmetic, 0
is "zero", 1 is "negative", 2 is "positive" and 3 is "overflow". -/
inductive ConditionCode where
  | cc0
  | cc1
  | cc2
  | cc3
  deriving DecidableEq, Repr

/-- The bit of a four-bit branch mask that stands for the condition code. -/
def ConditionCode.select (cc : ConditionCode) (bit0 bit1 bit2 bit3 : Bool) : Bool :=
  match cc with
  | .cc0 => bit0
  | .cc1 => bit1
  | .cc2 => bit2
  | .cc3 => bit3

/-- Modelled from the spec: the condition codes on which a branch with
condition `cond` is taken (constants-s390.h is absent), each condition being a
mask over the four condition codes: `eq` is 1000, `ne` 0111, `lt` 0100, `ge`
1010, `le` 1100, `gt` 0010, and overflow or unordered 0001. -/
def Condition.holds (cond : Condition) (cc : ConditionCode) : Bool :=
  match cond with
  | .al => cc.select true true true true
  | .eq => cc.select true false false false
  | .ne => cc.select false true true true
  | .lt => cc.select false true false false
  | .ge => cc.select true false true false
  | .le => cc.select true true false false
  | .gt => cc.select false false true false
  | .overflow => cc.select false false false true
  | .nooverflow => cc.select true true true false
  | .unordered => cc.select false false false true
  | .ordered => cc.select true true true false

/-- The state of the machine that runs a fragment: the signed contents of the
general registers, the condition code, the signed 32-bit word at each byte
address, and the instructions executed so far. -/
structure Machine where
  reg : Register → Int
  cc : ConditionCode
  mem : Int → Int
  executed : List Instr

/-- Condition code of a signed comparison of `a` with `b`. -/
def compareSigned (a b : Int) : ConditionCode :=
  if a = b then .cc0 else if a < b then .cc1 else .cc2

/-- Condition code of the signed arithmetic result `v`, `fits` saying that it
did not overflow. -/
def arithmeticCode (v : Int) (fits : Bool) : ConditionCode :=
  if fits then compareSigned v 0 else .cc3

/-- The signed value a register of the build holds for `v`: 64 bits wide on
the 64-bit target (`w = true`), 32 bits wide otherwise. -/
def wordP (w : Bool) (v : Int) : Int := if w then int64 v else int32 v

def Machine.set (m : Machine) (r : Register) (v : Int) : Machine :=
  { m with reg := Function.update m.reg r v }

/-- The unsigned value of a register of the build that holds `v`. -/
def unsignedP (w : Bool) (v : Int) : Int :=
  if w then v % 18446744073709551616 else v % 4294967296

/-- A 32-bit instruction writes the low word of its target register; the high
word of a 64-bit register keeps its contents. -/
def writeLow (w : Bool) (old v : Int) : Int :=
  if w then old - old % 4294967296 + v % 4294967296 else int32 v

def Machine.set32 (w : Bool) (m : Machine) (r : Register) (v : Int) : Machine :=
  m.set r (writeLow w (m.reg r) v)

def Machine.setCode (m : Machine) (cc : ConditionCode) : Machine := { m with cc := cc }

/-- The signed 64-bit value of the even-odd register pair `r0:r1`. -/
def Machine.pair (m : Machine) : Int :=
  int32 (m.reg .r0) * 4294967296 + m.reg .r1 % 4294967296

/-- What an instruction does to the machine. -/
inductive Effect where
  | next (m : Machine)
  | fault
  | unmodelled

/-- Modelled from the spec: the effect of the macro-assembler calls of the
multiplication, power-of-two division, flooring division and bounds-check
lowering on the machine (macro-assembler-s390.cc and the instruction set are
absent).  The 32-bit shifts and the logical comparisons take the low word as an
unsigned value, `TruncatingDiv` leaves the quotient truncated toward zero,
`mr_z` leaves the 64-bit product of `r1` and its operand in `r0:r1` (the
comment of `DoMulI`), and `TestIfInt32` compares a value with the sign
extension of its low word, on the 32-bit target the high word with the sign of
the low word.  `SmiUntag` shifts a register right, arithmetically, by the
shift of a small integer (32 on the 64-bit target and 1 otherwise) and
`SmiTag` shifts it left by as much.  Calls outside this list and the list of
`step` are `unmodelled`. -/
def stepMore (w : Bool) (name : Opcode) (operands : List Operand) (m : Machine) : Effect :=
  match name, operands with
  | .AddP, [.reg d, .reg a, .reg b] =>
    let sum := m.reg a + m.reg b
    .next ((m.set d (wordP w sum)).setCode (arithmeticCode sum (wordP w sum == sum)))
  | .SubP, [.reg d, .reg a, .imm v] =>
    let difference := m.reg a - wordP w v
    .next ((m.set d (wordP w difference)).setCode
      (arithmeticCode difference (wordP w difference == difference)))
  | .SubP, [.reg d, .reg a, .reg b] =>
    let difference := m.reg a - m.reg b
    .next ((m.set d (wordP w difference)).setCode
      (arithmeticCode difference (wordP w difference == difference)))
  | .TestBitRange, [.reg s, .imm rangeStart, .imm rangeEnd, .reg scratch] =>
    let v := m.reg s / 2 ^ rangeEnd.toNat % 2 ^ (rangeStart - rangeEnd + 1).toNat
    .next ((m.set scratch v).setCode (if v = 0 then .cc0 else .cc1))
  | .ShiftRight, [.reg d, .reg s, .imm n] =>
    .next (m.set32 w d (m.reg s % 4294967296 / 2 ^ n.toNat))
  | .ShiftRightArith, [.reg d, .reg s, .imm n] =>
    let v := int32 (m.reg s) / 2 ^ n.toNat
    .next ((m.set32 w d v).setCode (compareSigned v 0))
  | .TruncatingDiv, [.reg d, .reg s, .imm divisor] =>
    if divisor = 0 then .unmodelled
    else .next (m.set32 w d ((int32 (m.reg s)).tdiv divisor))
  | .ShiftLeftP, [.reg d, .reg s, .imm n] => .next (m.set d (wordP w (m.reg s * 2 ^ n.toNat)))
  | .LoadImmP, [.reg d, .imm v] => .next (m.set d (wordP w v))
  | .Move, [.reg d, .reg s] => .next (m.set d (m.reg s))
  | .MulP, [.reg d, .imm v] => .next (m.set d (wordP w (m.reg d * wordP w v)))
  | .Mul, [.reg d, .reg a, .reg b] => .next (m.set d (wordP w (m.reg a * m.reg b)))
  | .msgr, [.reg d, .reg s] => .next (m.set d (int64 (m.reg d * m.reg s)))
  | .mr_z, [.reg .r0, .reg b] =>
    let product := int32 (m.reg .r1) * int32 (m.reg b)
    .next ((m.set32 w .r0 (product / 4294967296)).set32 w .r1 product)
  | .TestIfInt32, [.reg a, .reg b, .reg c] =>
    if w then
      .next ((m.set b (int32 (m.reg a))).setCode (compareSigned (int32 (m.reg a)) (m.reg a)))
    else
      let sign := int32 (m.reg b) / 2147483648
      .next ((m.set c sign).setCode (compareSigned sign (int32 (m.reg a))))
  | .CmpLogical32, [.reg a, .imm v] =>
    .next (m.setCode (compareSigned (m.reg a % 4294967296) (v % 4294967296)))
  | .CmpLogical32, [.reg a, .reg b] =>
    .next (m.setCode (compareSigned (m.reg a % 4294967296) (m.reg b % 4294967296)))
  | .CmpLogicalP, [.reg a, .imm v] =>
    .next (m.setCode (compareSigned (unsignedP w (m.reg a)) (unsignedP w v)))
  | .CmpLogicalP, [.reg a, .reg b] =>
    .next (m.setCode (compareSigned (unsignedP w (m.reg a)) (unsignedP w (m.reg b))))
  | .SmiUntag, [.reg d, .reg s] =>
    .next (m.set d (wordP w (m.reg s) / (if w then 4294967296 else 2)))
  | .SmiTag, [.reg d] => .next (m.set d (wordP w (m.reg d * (if w then 4294967296 else 2))))
  | _, _ => .unmodelled

/-- Modelled from the spec: the effect of the macro-assembler calls of the
division, modulo and addition lowering on the machine (macro-assembler-s390.cc
and the instruction set are absent): comparisons set the condition code,
"an instruction variant that sets a condition flag" on overflow, a divide that
takes the 64-bit pair `r0:r1` and leaves the remainder in `r0` and the
quotient in `r1` (the comment of `DoDivI`), raising a fault for a divisor zero
and for a quotient that does not fit 32 bits.  The other calls are left to
`stepMore`. -/
def step (w : Bool) (name : Opcode) (operands : List Operand) (m : Machine) : Effect :=
  match name, operands with
  | .CmpP, [.reg a, .imm v] => .next (m.setCode (compareSigned (m.reg a) (wordP w v)))
  | .Cmp32, [.reg a, .imm v] => .next (m.setCode (compareSigned (int32 (m.reg a)) (int32 v)))
  | .Cmp32, [.reg a, .reg b] =>
    .next (m.setCode (compareSigned (int32 (m.reg a)) (int32 (m.reg b))))
  | .LoadComplementRR, [.reg d, .reg s] =>
    let v := -(m.reg s)
    .next ((m.set d (wordP w v)).setCode (arithmeticCode v (wordP w v == v)))
  | .ExtractBitRange, [.reg d, .reg s, .imm rangeStart, .imm rangeEnd] =>
    let v := m.reg s / 2 ^ rangeEnd.toNat % 2 ^ (rangeStart - rangeEnd + 1).toNat
    .next ((m.set d v).setCode (if v = 0 then .cc0 else .cc1))
  | .mov, [.reg d, .imm v] => .next (m.set d (wordP w v))
  | .LoadRR, [.reg d, .reg s] => .next (m.set d (m.reg s))
  | .srda, [.reg .r0, .imm n] =>
    let v := m.pair / 2 ^ n.toNat
    .next (((m.set32 w .r0 (v / 4294967296)).set32 w .r1 v).setCode (compareSigned v 0))
  | .dr, [.reg .r0, .reg b] =>
    let dividend := m.pair
    let divisor := int32 (m.reg b)
    if divisor = 0 then .fault
    else
      let quotient := dividend.tdiv divisor
      if int32 quotient != quotient then .fault
      else .next ((m.set32 w .r0 (dividend.tmod divisor)).set32 w .r1 quotient)
  | .ltr, [.reg d, .reg s] =>
    let v := int32 (m.reg s)
    .next ((m.set32 w d v).setCode (compareSigned v 0))
  | .lr, [.reg d, .reg s] => .next (m.set32 w d (m.reg s))
  | .lgfr, [.reg d, .reg s] => .next (m.set d (int32 (m.reg s)))
  | .Add32, [.reg d, .reg a, .imm v] =>
    let sum := int32 (m.reg a) + int32 v
    .next ((m.set32 w d sum).setCode (arithmeticCode sum (int32 sum == sum)))
  | .Add32, [.reg d, .reg a, .reg b] =>
    let sum := int32 (m.reg a) + int32 (m.reg b)
    .next ((m.set32 w d sum).setCode (arithmeticCode sum (int32 sum == sum)))
  | .Add32, [.reg d, .mem base offset] =>
    let sum := int32 (m.reg d) + int32 (m.mem (m.reg base + offset))
    .next ((m.set32 w d sum).setCode (arithmeticCode sum (int32 sum == sum)))
  | .AddP, [.reg d, .reg a, .imm v] =>
    let sum := m.reg a + wordP w v
    .next ((m.set d (wordP w sum)).setCode (arithmeticCode sum (wordP w sum == sum)))
  | .AddP_ExtendSrc, [.reg d, .reg a, .reg b] =>
    let sum := m.reg a + int32 (m.reg b)
    .next ((m.set d (wordP w sum)).setCode (arithmeticCode sum (wordP w sum == sum)))
  | .AddP_ExtendSrc, [.reg d, .mem base offset] =>
    let sum := m.reg d + int32 (m.mem (m.reg base + offset))
    .next ((m.set d (wordP w sum)).setCode (arithmeticCode sum (wordP w sum == sum)))
  | _, _ => stepMore w name operands m

/-- How the run of a fragment ends: control runs off its end, leaves for a
label that is not bound later in the fragment, is handed to the deoptimizer by
the guard at position `pc` of the fragment, or stops at position `pc` on a
machine fault or on an instruction outside the model. -/
inductive Outcome where
  | finished (m : Machine)
  | jumped (label : Label) (m : Machine)
  | deoptimized (pc : Nat) (m : Machine)
  | faulted (pc : Nat) (m : Machine)
  | unmodelled (pc : Nat)

def Machine.record (m : Machine) (i : Instr) : Machine := { m with executed := m.executed ++ [i] }

/-- Modelled from the spec: the run of a fragment from position `pc`.  With
`target = some label` a taken branch is looking for the place where `label` is
bound.  A guard of `DeoptimizeIf` is the branch `b cond` to the jump table,
taken when `cond` holds, or the unconditional `Call` of the deoptimization
entry: "a guaranteed, well-defined transfer of control back to a slower
execution tier". -/
def exec (w : Bool) : Option Label → Nat → List Instr → Machine → Outcome
  | none, _, [], m => .finished m
  | some label, _, [], m => .jumped label m
  | some label, pc, i :: rest, m =>
    match i with
    | .bind bound =>
      if bound = label then exec w none (pc + 1) rest m else exec w (some label) (pc + 1) rest m
    | _ => exec w (some label) (pc + 1) rest m
  | none, pc, i :: rest, m =>
    match i with
    | .bind _ => exec w none (pc + 1) rest m
    | .branch cond label =>
      if cond.holds m.cc then exec w (some label) (pc + 1) rest (m.record i)
      else exec w none (pc + 1) rest (m.record i)
    | .b cond _ =>
      if cond.holds m.cc then .deoptimized pc (m.record i)
      else exec w none (pc + 1) rest (m.record i)
    | .Call _ => .deoptimized pc (m.record i)
    | .ins name operands =>
      match step w name operands m with
      | .next m1 => exec w none (pc + 1) rest (m1.record i)
      | .fault => .faulted pc m
      | .unmodelled => .unmodelled pc
    | _ => .unmodelled pc

/-- The code that a guard of `DeoptimizeIf` emits when the stress and trap
flags are off. -/
def guardCode (direct : Bool) (entry : Address) (k : Nat) (cond : Condition) : Instr :=
  if cond == .al && direct then .Call entry else .b cond k

/-- The code of a list of steps, the guard at position `n` of the list calling
the entry `entry n` or branching to the table entry `k n`. -/
def realize (direct : Bool) (entry : Nat → Address) (k : Nat → Nat) : Nat → List Action → List Instr
  | _, [] => []
  | n, .emit i :: rest => i :: realize direct entry k (n + 1) rest
  | n, .DeoptimizeIf cond :: rest =>
    guardCode direct (entry n) (k n) cond :: realize direct entry k (n + 1) rest

/-- The stress-deopt and trap-on-deopt debugging flags are off and every
bailout was prepared, so a guard emits its branch or call and nothing else. -/
def LCodeGen.PlainGuards (x : Externals) (cg : LCodeGen) : Prop :=
  (cg.info.FLAG_deopt_every_n_times != 0 && !cg.info.IsStub) = false ∧
  cg.info.ShouldTrapOnDeopt = false ∧
  ∀ id bailout_type, x.GetDeoptimizationEntry id bailout_type ≠ none

/-- The code emitted between the code generators `cg` and `cg1`. -/
def LCodeGen.codeSince (cg cg1 : LCodeGen) : List Instr := cg1.masm.drop cg.masm.length

/-- The 32-bit value that the right operand of an addition stands for on the
machine `m`: the constant, the low word of the register, or the low word of
the stack slot, which the 64-bit big-endian target keeps four bytes into the
slot. -/
def operandValue32 (x : Externals) (info : CompilationInfo) (m : Machine) (op : LOperand) :
    Option Int :=
  if op.IsConstantOperand then some (int32 (x.Integer32Value op))
  else if op.IsRegister then some (int32 (m.reg (.allocated op.index)))
  else
    (ToMemOperand x info op).map (fun mem =>
      if info.V8_TARGET_ARCH_S390X then int32 (m.mem (m.reg mem.1 + (mem.2 + 4)))
      else int32 (m.mem (m.reg mem.1 + mem.2)))

/-- The instruction is the branch or call of a guard. -/
def Instr.isGuard : Instr → Bool
  | .b _ _ => true
  | .Call _ => true
  | _ => false

/-! ## Branches -/

/-- Modelled from the spec: `NegateCondition` (constants-s390.h is absent): the
condition of the other outcome of a comparison. -/
def NegateCondition : Condition → Condition
  | .eq => .ne
  | .ne => .eq
  | .lt => .ge
  | .ge => .lt
  | .le => .gt
  | .gt => .le
  | .overflow => .nooverflow
  | .nooverflow => .overflow
  | .unordered => .ordered
  | .ordered => .unordered
  | .al => .al

/-- Modelled from the spec: `ReverseCondition` (constants-s390.h is absent): the
condition that holds for the operands in the other order. -/
def ReverseCondition : Condition → Condition
  | .lt => .gt
  | .gt => .lt
  | .le => .ge
  | .ge => .le
  | cond => cond

/-- The comparison tokens, and the two other tokens that `TokenToCondition`
names. -/
inductive Token where
  | EQ
  | EQ_STRICT
  | NE
  | NE_STRICT
  | LT
  | GT
  | LTE
  | GTE
  | IN
  | INSTANCEOF
  deriving DecidableEq, Repr

/-- Embedding of `LCodeGen::TokenToCondition`; `none` is `UNREACHABLE()`. -/
def TokenToCondition : Token → Option Condition
  | .EQ => some .eq
  | .EQ_STRICT => some .eq
  | .NE => some .ne
  | .NE_STRICT => some .ne
  | .LT => some .lt
  | .GT => some .gt
  | .LTE => some .le
  | .GTE => some .ge
  | .IN => none
  | .INSTANCEOF => none

/-- What the branch emitters ask about blocks: `chunk_->LookupDestination` of
lithium.cc and `GetNextEmittedBlock()` of lithium-codegen.cc, both absent. -/
structure Blocks where
  LookupDestination : Int → Int
  GetNextEmittedBlock : Int

/-- `IsNextEmittedBlock` of lithium-codegen-s390.h (absent):
`LookupDestination(block_id) == GetNextEmittedBlock()`. -/
def Blocks.IsNextEmittedBlock (blocks : Blocks) (block_id : Int) : Bool :=
  blocks.LookupDestination block_id == blocks.GetNextEmittedBlock

/-- Embedding of `LCodeGen::EmitGoto`. -/
def LCodeGen.EmitGoto (cg : LCodeGen) (blocks : Blocks) (block : Int) : LCodeGen :=
  if !blocks.IsNextEmittedBlock block then
    cg.emit (.branch .al (.block (blocks.LookupDestination block)))
  else cg

/-- What the branch emitters ask of a control instruction: the ids of its two
successor blocks. -/
structure LControlInstruction where
  true_block_id : Int
  false_block_id : Int
  deriving DecidableEq, Repr

/-- `instr->TrueDestination(chunk_)`. -/
def LControlInstruction.TrueDestination (instr : LControlInstruction) (blocks : Blocks) : Int :=
  blocks.LookupDestination instr.true_block_id

/-- `instr->FalseDestination(chunk_)`. -/
def LControlInstruction.FalseDestination (instr : LControlInstruction) (blocks : Blocks) : Int :=
  blocks.LookupDestination instr.false_block_id

/-- Embedding of `LCodeGen::EmitBranch`. -/
def LCodeGen.EmitBranch (cg : LCodeGen) (blocks : Blocks) (instr : LControlInstruction)
    (cond : Condition) : LCodeGen :=
  let left_block := instr.TrueDestination blocks
  let right_block := instr.FalseDestination blocks
  let next_block := blocks.GetNextEmittedBlock
  if right_block == left_block || cond == .al then cg.EmitGoto blocks left_block
  else if left_block == next_block then
    cg.emit (.branch (NegateCondition cond) (.block right_block))
  else if right_block == next_block then cg.emit (.branch cond (.block left_block))
  else (cg.emit (.branch cond (.block left_block))).emit (.branch .al (.block right_block))

/-- What `DoCompareNumericAndBranch` asks of an `LCompareNumericAndBranch`;
`IsSmi` is `hydrogen_value()->representation().IsSmi()`. -/
structure LCompareNumericAndBranch where
  left : LOperand
  right : LOperand
  op : Token
  is_double : Bool
  IsSmi : Bool
  control : LControlInstruction
  deriving DecidableEq, Repr

/-- Embedding of `LCodeGen::ToDoubleRegister(LOperand*)`, as the allocation
index of the double register. -/
def ToDoubleRegister (op : LOperand) : Option Int :=
  if op.IsDoubleRegister then some op.index else none

/-- The comparison that `DoCompareNumericAndBranch` emits when an operand is
not constant, with the condition to branch on. -/
def LCodeGen.emitComparison (x : Externals) (cg : LCodeGen) (blocks : Blocks)
    (instr : LCompareNumericAndBranch) (cond : Condition) : Option (LCodeGen × Condition) :=
  let left := instr.left
  let right := instr.right
  if instr.is_double then
    match ToDoubleRegister left, ToDoubleRegister right with
    | some l, some r =>
      some ((cg.emit (.ins .cdbr [.dreg l, .dreg r])).emit
        (.branch .unordered (.block (instr.control.FalseDestination blocks))), cond)
    | _, _ => none
  else if right.IsConstantOperand then
    let value := x.Integer32Value right
    match ToRegister left with
    | some l =>
      if instr.IsSmi then some (cg.emit (.ins .CmpSmiLiteral [.reg l, .imm value, .reg .r0]), cond)
      else some (cg.emit (.ins .Cmp32 [.reg l, .imm value]), cond)
    | none => none
  else if left.IsConstantOperand then
    let value := x.Integer32Value left
    match ToRegister right with
    | some r =>
      if instr.IsSmi then
        some (cg.emit (.ins .CmpSmiLiteral [.reg r, .imm value, .reg .r0]), ReverseCondition cond)
      else some (cg.emit (.ins .Cmp32 [.reg r, .imm value]), ReverseCondition cond)
    | none => none
  else
    match ToRegister left, ToRegister right with
    | some l, some r =>
      if instr.IsSmi then some (cg.emit (.ins .CmpP [.reg l, .reg r]), cond)
      else some (cg.emit (.ins .Cmp32 [.reg l, .reg r]), cond)
    | _, _ => none

/-- Embedding of `LCodeGen::DoCompareNumericAndBranch`.  The double value of a
constant operand (`ToDouble`, `none` when `HasDoubleValue()` fails) and
`EvalComparison` on doubles are taken as they are given, over any type `D` of
double values. -/
def LCodeGen.DoCompareNumericAndBranch {D : Type} (x : Externals) (ToDouble : LOperand → Option D)
    (EvalComparison : Token → D → D → Bool) (cg : LCodeGen) (blocks : Blocks)
    (instr : LCompareNumericAndBranch) : Option LCodeGen :=
  let left := instr.left
  let right := instr.right
  match TokenToCondition instr.op with
  | none => none
  | some cond =>
    if left.IsConstantOperand && right.IsConstantOperand then
      match ToDouble left, ToDouble right with
      | some left_val, some right_val =>
        let next_block :=
          if EvalComparison instr.op left_val right_val then instr.control.TrueDestination blocks
          else instr.control.FalseDestination blocks
        some (cg.EmitGoto blocks next_block)
      | _, _ => none
    else
      match cg.emitComparison x blocks instr cond with
      | none => none
      | some (cg1, cond1) => some (cg1.EmitBranch blocks instr.control cond1)

/-- The block that control reaches after a branch sequence: the block of the
label it left for, or the next emitted block when it fell through. -/
def Outcome.reaches (o : Outcome) (blocks : Blocks) (block : Int) : Prop :=
  match o with
  | .jumped (.block target) _ => target = block
  | .finished _ => blocks.GetNextEmittedBlock = block
  | _ => False

/-! ## Multiplication and bounds checks -/

/-- `mask = constant >> 31; constant_abs = (constant + mask) ^ mask` of
`DoMulI`, the sum taken as an `int32_t` and the result as a `uint32_t`. -/
def constantAbs (constant : Int) : Int :=
  let mask := constant >>> 31
  (Int.xor (int32 (constant + mask)) mask) % 4294967296

/-- Modelled from the spec: `WhichPowerOf2` of utils.h (absent): the exponent
`k` of a power of two `2^k`. -/
def WhichPowerOf2 (x : Int) : Nat := log2Below 33 x.natAbs

/-- What `DoMulI` asks of an `LMulI`; `IsSmi` is
`hydrogen()->representation().IsSmi()`. -/
structure LMulI where
  left : LOperand
  right : LOperand
  result : LOperand
  hydrogen : HValue
  IsSmi : Bool
  environment : LEnvironment
  deriving DecidableEq, Repr

/-- The calls of `LCodeGen::DoMulI` for a constant right operand, after the
minus-zero check. -/
def DoMulI_constant (info : CompilationInfo) (instr : LMulI) (result left : Register)
    (constant : Int) : List Action :=
  let scratch := scratch0
  let bailout_on_minus_zero := instr.hydrogen.CheckFlag .kBailoutOnMinusZero
  let can_overflow := instr.hydrogen.CheckFlag .kCanOverflow
  if constant == -1 then
    if can_overflow then
      if !info.V8_TARGET_ARCH_S390X || instr.IsSmi then
        [.ins .LoadComplementRR [.reg result, .reg left], .DeoptimizeIf .overflow]
      else
        [.ins .LoadComplementRR [.reg result, .reg left],
         .ins .TestIfInt32 [.reg result, .reg scratch, .reg .r0], .DeoptimizeIf .ne]
    else [.ins .LoadComplementRR [.reg result, .reg left]]
  else if constant == 0 then
    (if bailout_on_minus_zero then [.ins .Cmp32 [.reg left, .imm 0], .DeoptimizeIf .lt] else []) ++
    [.ins .LoadImmP [.reg result, .imm 0]]
  else if constant == 1 then [.ins .Move [.reg result, .reg left]]
  else
    let constant_abs := constantAbs constant
    let negate : List Action :=
      if constant < 0 then [.ins .LoadComplementRR [.reg result, .reg result]] else []
    if IsPowerOf2 constant_abs then
      let shift := WhichPowerOf2 constant_abs
      [.ins .ShiftLeftP [.reg result, .reg left, .imm shift]] ++ negate
    else if IsPowerOf2 (constant_abs - 1) then
      let shift := WhichPowerOf2 (constant_abs - 1)
      [.ins .ShiftLeftP [.reg scratch, .reg left, .imm shift],
       .ins .AddP [.reg result, .reg scratch, .reg left]] ++ negate
    else if IsPowerOf2 (constant_abs + 1) then
      let shift := WhichPowerOf2 (constant_abs + 1)
      [.ins .ShiftLeftP [.reg scratch, .reg left, .imm shift],
       .ins .SubP [.reg result, .reg scratch, .reg left]] ++ negate
    else
      [.ins .mov [.reg .ip, .imm constant], .ins .Move [.reg result, .reg left],
       .ins .MulP [.reg result, .imm constant]]

/-- The calls of `LCodeGen::DoMulI` for a register right operand. -/
def DoMulI_register (info : CompilationInfo) (instr : LMulI) (result left right : Register) :
    List Action :=
  let scratch := scratch0
  let bailout_on_minus_zero := instr.hydrogen.CheckFlag .kBailoutOnMinusZero
  let can_overflow := instr.hydrogen.CheckFlag .kCanOverflow
  (if can_overflow then
    if info.V8_TARGET_ARCH_S390X then
      (if instr.IsSmi then
        [.ins .SmiUntag [.reg result, .reg left], .ins .SmiUntag [.reg scratch, .reg right],
         .ins .msgr [.reg result, .reg scratch]]
      else [.ins .LoadRR [.reg result, .reg left], .ins .msgr [.reg result, .reg right]]) ++
      [.ins .TestIfInt32 [.reg result, .reg scratch, .reg .r0], .DeoptimizeIf .ne] ++
      (if instr.IsSmi then [.ins .SmiTag [.reg result]] else [])
    else
      (if instr.IsSmi then
        [.ins .SmiUntag [.reg scratch, .reg left], .ins .mr_z [.reg .r0, .reg right],
         .ins .LoadRR [.reg result, .reg scratch]]
      else
        [.ins .LoadRR [.reg scratch, .reg left], .ins .mr_z [.reg .r0, .reg right],
         .ins .LoadRR [.reg result, .reg scratch]]) ++
      [.ins .TestIfInt32 [.reg .r0, .reg result, .reg scratch], .DeoptimizeIf .ne]
  else
    if instr.IsSmi then
      [.ins .SmiUntag [.reg result, .reg left], .ins .Mul [.reg result, .reg result, .reg right]]
    else [.ins .Mul [.reg result, .reg left, .reg right]]) ++
  (if bailout_on_minus_zero then
    (if !info.V8_TARGET_ARCH_S390X || instr.IsSmi then
      [.ins .XorP [.reg .r0, .reg left, .reg right], .branch .ge .done]
    else
      [.ins .XorP [.reg .r0, .reg left, .reg right], .ins .Cmp32 [.reg .r0, .imm 0],
       .branch .ge .done]) ++
    [.ins .CmpP [.reg result, .imm 0], .DeoptimizeIf .eq, .bind .done]
  else [])

/-- The calls of `LCodeGen::DoMulI`, in order; `none` when an assertion
fails. -/
def DoMulI_steps (x : Externals) (info : CompilationInfo) (instr : LMulI) : Option (List Action) :=
  match ToRegister instr.result, ToRegister instr.left with
  | some result, some left =>
    let right_op := instr.right
    let bailout_on_minus_zero := instr.hydrogen.CheckFlag .kBailoutOnMinusZero
    if right_op.IsConstantOperand then
      let constant := x.Integer32Value right_op
      some (
        (if bailout_on_minus_zero && constant < 0 then
          [.ins .CmpP [.reg left, .imm 0], .DeoptimizeIf .eq]
        else []) ++
        DoMulI_constant info instr result left constant)
    else if !right_op.IsRegister then none
    else
      match ToRegister right_op with
      | some right => some (DoMulI_register info instr result left right)
      | none => none
  | _, _ => none

/-- Embedding of `LCodeGen::DoMulI`. -/
def LCodeGen.DoMulI (x : Externals) (cg : LCodeGen) (instr : LMulI)
    (outer : List LEnvironment) : Option (LCodeGen × LEnvironment) :=
  cg.lower x (DoMulI_steps x cg.info instr) instr.environment outer

/-- The representations that `DoBoundsCheck` tells apart. -/
inductive Representation where
  | kNone
  | kSmi
  | kInteger32
  | kDouble
  | kTagged
  deriving DecidableEq, Repr

def Representation.IsSmi (r : Representation) : Bool := r == .kSmi

def Representation.IsSmiOrInteger32 (r : Representation) : Bool := r == .kSmi || r == .kInteger32

/-- What `DoBoundsCheck` asks of an `LBoundsCheck`: its operands, the
representations of the length and of the index of its hydrogen value, and the
two flags of that value. -/
structure LBoundsCheck where
  index : LOperand
  length : LOperand
  length_representation : Representation
  index_representation : Representation
  allow_equality : Bool
  skip_check : Bool
  environment : LEnvironment
  deriving DecidableEq, Repr

/-- The shift of the value in a small integer, `kSmiTagSize + kSmiShiftSize` of
the build: 32 on the 64-bit target and 1 otherwise. -/
def CompilationInfo.kSmiShift (info : CompilationInfo) : Nat :=
  if info.V8_TARGET_ARCH_S390X then 32 else 1

/-- The word of `Smi::FromInt(value)`. -/
def SmiFromInt (info : CompilationInfo) (value : Int) : Int := value * 2 ^ info.kSmiShift

/-- The calls of `LCodeGen::DoBoundsCheck`, in order; `none` when an assertion
fails. -/
def DoBoundsCheck_steps (x : Externals) (info : CompilationInfo) (instr : LBoundsCheck) :
    Option (List Action) :=
  let representation := instr.length_representation
  if !(representation == instr.index_representation) then none
  else if !representation.IsSmiOrInteger32 then none
  else
    let cc : Condition := if instr.allow_equality then .lt else .le
    let compare : Option (List Action × Condition) :=
      if instr.length.IsConstantOperand then
        let length := x.Integer32Value instr.length
        match ToRegister instr.index with
        | some index =>
          some ((if representation.IsSmi then
              [.ins .CmpLogicalP [.reg index, .imm (SmiFromInt info length)]]
            else [.ins .CmpLogical32 [.reg index, .imm length]]), ReverseCondition cc)
        | none => none
      else if instr.index.IsConstantOperand then
        let index := x.Integer32Value instr.index
        match ToRegister instr.length with
        | some length =>
          some ((if representation.IsSmi then
              [.ins .CmpLogicalP [.reg length, .imm (SmiFromInt info index)]]
            else [.ins .CmpLogical32 [.reg length, .imm index]]), cc)
        | none => none
      else
        match ToRegister instr.index, ToRegister instr.length with
        | some index, some length =>
          some ((if representation.IsSmi then [.ins .CmpLogicalP [.reg length, .reg index]]
            else [.ins .CmpLogical32 [.reg length, .reg index]]), cc)
        | _, _ => none
    match compare with
    | none => none
    | some (code, cc) =>
      if info.FLAG_debug_code && instr.skip_check then
        some (code ++ [.branch (NegateCondition cc) .done, .emit (.stop .al), .bind .done])
      else some (code ++ [.DeoptimizeIf cc])

/-- Embedding of `LCodeGen::DoBoundsCheck`. -/
def LCodeGen.DoBoundsCheck (x : Externals) (cg : LCodeGen) (instr : LBoundsCheck)
    (outer : List LEnvironment) : Option (LCodeGen × LEnvironment) :=
  cg.lower x (DoBoundsCheck_steps x cg.info instr) instr.environment outer

/-! ## On-stack replacement -/

/-- Embedding of `LCodeGen::GenerateOsrPrologue`; `UnoptimizedFrameSlots` is
`graph()->osr()->UnoptimizedFrameSlots()`. -/
def LCodeGen.GenerateOsrPrologue (cg : LCodeGen) (UnoptimizedFrameSlots : Int) : Option LCodeGen :=
  if cg.osr_pc_offset_ >= 0 then some cg
  else
    let cg1 := { cg with osr_pc_offset_ := cg.pc_offset }
    let slots := cg1.info.GetStackSlotCount - UnoptimizedFrameSlots
    if !(slots >= 0) then none
    else some (cg1.asm .lay_sp_slots [-slots])

/-- Embedding of `LCodeGen::DoUnknownOSRValue`. -/
def LCodeGen.DoUnknownOSRValue (cg : LCodeGen) (UnoptimizedFrameSlots : Int) : Option LCodeGen :=
  cg.GenerateOsrPrologue UnoptimizedFrameSlots

/-- Embedding of `LCodeGen::DoOsrEntry`. -/
def LCodeGen.DoOsrEntry (cg : LCodeGen) (UnoptimizedFrameSlots : Int) (environment : LEnvironment)
    (outer : List LEnvironment) : Option LCodeGen :=
  if environment.HasBeenRegistered then none
  else
    match cg.RegisterEnvironmentForDeoptimization environment outer .kNoLazyDeopt with
    | none => none
    | some (cg1, _) => cg1.GenerateOsrPrologue UnoptimizedFrameSlots

/-- An instruction of the stream, as far as the OSR prologue goes: an unknown
OSR value, the OSR entry with its environment, or any other instruction, given
by the code it emits. -/
inductive StreamInstruction where
  | LUnknownOSRValue
  | LOsrEntry (environment : LEnvironment) (outer : List LEnvironment)
  | other (code : List Instr)
  deriving DecidableEq, Repr

def StreamInstruction.isOsr : StreamInstruction → Bool
  | .other _ => false
  | _ => true

/-- The code of the instructions of a stream other than the OSR ones. -/
def StreamInstruction.code : StreamInstruction → List Instr
  | .other code => code
  | _ => []

/-- Modelled from the spec: the main pass (`GenerateBody` of lithium-codegen.cc
is absent) on a stream: "the LIR instruction stream is walked once, instruction
by instruction". -/
def LCodeGen.compileStream (UnoptimizedFrameSlots : Int) :
    List StreamInstruction → LCodeGen → Option LCodeGen
  | [], cg => some cg
  | .LUnknownOSRValue :: rest, cg =>
    (cg.DoUnknownOSRValue UnoptimizedFrameSlots).bind
      (LCodeGen.compileStream UnoptimizedFrameSlots rest)
  | .LOsrEntry environment outer :: rest, cg =>
    (cg.DoOsrEntry UnoptimizedFrameSlots environment outer).bind
      (LCodeGen.compileStream UnoptimizedFrameSlots rest)
  | .other code :: rest, cg => LCodeGen.compileStream UnoptimizedFrameSlots rest (cg.emitAll code)

/-! ## Deferred code, block by block -/

/-- `LDeferredCode::Generate` only emits code, registers environments and
records safepoints, or aborts: it appends to the emitted code and leaves the
frame state, the compilation info and the deferred list as they were. -/
def Collaborators.GenerateEmits (h : Collaborators) : Prop :=
  ∀ code cg, (∃ body, (h.Generate code cg).masm = cg.masm ++ body) ∧
    (h.Generate code cg).frame_is_built_ = cg.frame_is_built_ ∧
    (h.Generate code cg).info = cg.info

/-- The code of one deferred block, with `body` for what `Generate` emitted:
the position, the bound entry label, the frame built around the body when a
deferred frame is needed, and the jump to the exit label. -/
def deferredBlockCode (info : CompilationInfo) (code : LDeferredCode) (body : List Instr) :
    List Instr :=
  (if code.position == info.kNoPosition then [] else [.asm .RecordPosition [code.position]]) ++
  [.asm .bind_entry [code.entry]] ++
  (if info.NeedsDeferredFrame then
    [.asm .PushFixedFrame [], .asm .LoadSmiLiteral_scratch0_STUB [], .asm .push_scratch0 [],
     .asm .la_fp_fixed_frame []]
  else []) ++
  body ++
  (if info.NeedsDeferredFrame then [.asm .pop_ip [], .asm .PopFixedFrame []] else []) ++
  [.asm .b_exit [code.exit]]

/-! ## More sample inputs -/

def sampleExternals : Externals :=
  { GetDeoptimizationEntry := sampleEntries
    StackSlotOffset := fun index => -8 * (index + 1) - 24
    Integer32Value := fun op => op.index }

/-- Register 1 holds -7, register 2 holds 2, register 4 holds `kMinInt`,
register 5 holds -1, register 6 holds `0x7FFFFFFF`, the other registers 0;
memory holds 1 everywhere. -/
def sampleMachine : Machine :=
  { reg := fun r =>
      if r = .allocated 1 then -7 else if r = .allocated 2 then 2
      else if r = .allocated 4 then -2147483648 else if r = .allocated 5 then -1
      else if r = .allocated 6 then 2147483647 else 0
    cc := .cc0
    mem := fun _ => 1
    executed := [] }

def sampleRegister (index : Int) : LOperand := { kind := .REGISTER, index := index }

def sampleHydrogen (flags : List HFlag) : HValue := { flags := flags }

/-- The identity on block ids, with block 3 emitted next. -/
def sampleBlocks : Blocks := { LookupDestination := fun b => b, GetNextEmittedBlock := 3 }

/-- Comparison of integers standing for double values. -/
def sampleEvalComparison : Token → Int → Int → Bool
  | .EQ, a, b => a == b
  | .EQ_STRICT, a, b => a == b
  | .NE, a, b => a != b
  | .NE_STRICT, a, b => a != b
  | .LT, a, b => a < b
  | .GT, a, b => b < a
  | .LTE, a, b => a ≤ b
  | .GTE, a, b => b ≤ a
  | _, _, _ => false

/-- An instruction with the constant divisor 0, dividend in register 1 and
result in register 2, that may see a negative dividend and a minus zero. -/
def sampleDivByZero : LDivByConstI :=
  { dividend := sampleRegister 1, divisor := 0, result := sampleRegister 2,
    temp := sampleRegister 3,
    hydrogen := sampleHydrogen [.kBailoutOnMinusZero, .kLeftCanBeNegative],
    environment := sampleEnvironment }

/-- The addition of the constant 1 to register 6 into register 3, with the
hydrogen flags given. -/
def sampleAddI (flags : List HFlag) : LAddI :=
  { left := sampleRegister 6, right := { kind := .CONSTANT_OPERAND, index := 1 },
    result := sampleRegister 3, hydrogen := sampleHydrogen flags,
    environment := sampleEnvironment }

/-- The double value of a constant operand, for the samples: its index. -/
def sampleToDouble (op : LOperand) : Option Int :=
  if op.IsConstantOperand then some op.index else none

/-- The comparison `3 < 5` of two constants, with true block 3 and false
block 4; on `sampleBlocks` the true block is emitted next. -/
def sampleCompare : LCompareNumericAndBranch :=
  { left := { kind := .CONSTANT_OPERAND, index := 3 },
    right := { kind := .CONSTANT_OPERAND, index := 5 },
    op := .LT, is_double := true, IsSmi := false,
    control := { true_block_id := 3, false_block_id := 4 } }

/-- The comparison `5 < 3` of two constants: its false block 4 is not emitted
next on `sampleBlocks`. -/
def sampleCompareFalse : LCompareNumericAndBranch :=
  { sampleCompare with left := { kind := .CONSTANT_OPERAND, index := 5 },
                       right := { kind := .CONSTANT_OPERAND, index := 3 } }

/-- A control instruction whose two successors are block 3, the block that
`sampleBlocks` emits next. -/
def sampleControlSame : LControlInstruction := { true_block_id := 3, false_block_id := 3 }

/-- A control instruction with true block 5 and false block 4, neither of
them emitted next on `sampleBlocks`. -/
def sampleControl : LControlInstruction := { true_block_id := 5, false_block_id := 4 }

/-- The code of the instructions of a stream other than the OSR ones, in
order. -/
def streamCode : List StreamInstruction → List Instr
  | [] => []
  | i :: rest => i.code ++ streamCode rest

/-- A stream with an unknown OSR value between two other instructions, and
the OSR entry and a second unknown OSR value after them. -/
def sampleStream : List StreamInstruction :=
  [.other [.nop], .LUnknownOSRValue, .other [.nop, .nop], .LOsrEntry sampleEnvironment [sampleOuter],
   .LUnknownOSRValue]

/-- The code of the deferred blocks that the loop went through, each given
with the code generator that its `Generate` was called on. -/
def deferredCode (h : Collaborators) (info : CompilationInfo) :
    List (LDeferredCode × LCodeGen) → List Instr
  | [] => []
  | p :: rest =>
    deferredBlockCode info p.1 (p.2.codeSince (h.Generate p.1 p.2)) ++ deferredCode h info rest

/-- A stub compile that needs a deferred frame, with two deferred blocks; the
second one has no position. -/
def sampleDeferring : LCodeGen :=
  { sampleCodeGen with
    info := { sampleInfo with IsStub := true, IsOptimizing := false, NeedsDeferredFrame := true,
                              NeedsEagerFrame := false }
    frame_is_built_ := false
    deferred_ := [{ entry := 10, exit := 11, instruction_index := 2, position := 7 },
                  { entry := 20, exit := 21, instruction_index := 5, position := -1 }] }

/-! ## Running the receiver patch of the prologue -/

/-- The tagged values that the receiver patch tells apart. -/
inductive Tagged where
  | undefined
  | null
  | global_object
  | global_receiver
  | object (id : Nat)
  deriving DecidableEq, Repr

/-- The state the receiver patch runs on: register `r4`, the words of the
stack by their offset from `sp` in pointers, and whether the last comparison
found its operands different. -/
structure PrologueMachine where
  r4 : Tagged
  stack : Int → Tagged
  differs : Bool

/-- Modelled from the spec: the effect of the macro-assembler calls of the
prologue's first block on the receiver (macro-assembler-s390.cc is absent):
the receiver is loaded from and stored to its stack slot, `CompareRoot`
compares with the undefined value, and the two loads fetch the global object
and its global receiver, "the global receiver".  The entry hook and the
`stop_at` stop of debug builds leave the state alone. -/
def prologueStep (name : Mnemonic) (operands : List Int) (m : PrologueMachine) :
    Option PrologueMachine :=
  match name, operands with
  | .MaybeCallEntryHook, [] => some m
  | .stop_at, [] => some m
  | .LoadP_r4_receiver, [receiver_offset] => some { m with r4 := m.stack receiver_offset }
  | .CompareRoot_r4_undefined, [] => some { m with differs := m.r4 != .undefined }
  | .LoadP_r4_global_object, [] => some { m with r4 := .global_object }
  | .LoadP_r4_global_receiver, [] =>
    if m.r4 = .global_object then some { m with r4 := .global_receiver } else none
  | .StoreP_r4_receiver, [receiver_offset] =>
    some { m with stack := Function.update m.stack receiver_offset m.r4 }
  | _, _ => none

/-- Modelled from the spec: the run of the prologue's first block; `skipping`
says that `bne(&ok)` was taken and `ok` is not reached yet.  `none` is an
instruction outside the model. -/
def runPrologue : Bool → List Instr → PrologueMachine → Option PrologueMachine
  | _, [], m => some m
  | true, i :: rest, m =>
    if i = .asm .bind_ok [] then runPrologue false rest m else runPrologue true rest m
  | false, i :: rest, m =>
    match i with
    | .asm .bne_ok [] => runPrologue m.differs rest m
    | .asm .bind_ok [] => runPrologue false rest m
    | .asm name operands => (prologueStep name operands m).bind (runPrologue false rest)
    | _ => none

/-- The instruction belongs to the receiver patch. -/
def Instr.isReceiverPatch : Instr → Bool
  | .asm .LoadP_r4_receiver _ => true
  | .asm .CompareRoot_r4_undefined _ => true
  | .asm .bne_ok _ => true
  | .asm .LoadP_r4_global_object _ => true
  | .asm .LoadP_r4_global_receiver _ => true
  | .asm .StoreP_r4_receiver _ => true
  | .asm .bind_ok _ => true
  | _ => false

/-- Between `cg` and `cg1` code was emitted that holds no instruction of the
receiver patch. -/
def LCodeGen.NoPatchSince (cg cg1 : LCodeGen) : Prop :=
  ∃ code, cg1.masm = cg.masm ++ code ∧ ∀ i ∈ code, i.isReceiverPatch = false

/-- An optimizing compile of a sloppy, non-native function that uses `this`,
with two parameters. -/
def sampleSloppy : LCodeGen :=
  { sampleCodeGen with
    info := { sampleInfo with this_has_uses := true, parameter_context_slots := [none, none] }
    masm := [] }

/-- A stack whose word at offset 2, the receiver of `sampleSloppy`, is the
value given, the other words being object 1. -/
def sampleFrame (receiver : Tagged) : PrologueMachine :=
  { r4 := .object 0, stack := fun offset => if offset = 2 then receiver else .object 1,
    differs := false }

/-- A sequence of calls of `RegisterEnvironmentForDeoptimization`, each with
its environment, the chain of its outer environments and its mode. -/
def LCodeGen.registerAll :
    List (LEnvironment × List LEnvironment × DeoptMode) → LCodeGen → Option LCodeGen
  | [], cg => some cg
  | call :: rest, cg =>
    match cg.RegisterEnvironmentForDeoptimization call.1 call.2.1 call.2.2 with
    | none => none
    | some r => LCodeGen.registerAll rest r.1

/-- Every element of the deoptimization list has its position as its
deoptimization index. -/
def LCodeGen.Indexed (cg : LCodeGen) : Prop :=
  ∀ (i : Nat) (e : LEnvironment), cg.deoptimizations_[i]? = some e → e.deoptimization_index = i

/-! ## The shell's reading of a child's output (d8-posix.cc) -/

/-- The loop of `LengthWithoutIncompleteUtf8`, from `answer` on, with
`multi_byte_bytes_seen` continuation bytes passed.  A byte of the buffer is its
value from 0 to 255; the tests read its low eight bits only, so the sign of
`char` plays no part.  `none` is a read outside the buffer. -/
def LengthWithoutIncompleteUtf8.loop (buffer : List Nat) : Nat → Nat → Option Int
  | 0, _ => some 0
  | answer + 1, multi_byte_bytes_seen =>
    match buffer[answer]? with
    | none => none
    | some c =>
      if c &&& 0x80 == 0x00 then some ((answer : Int) + 1)
      else if c &&& 0xc0 == 0x80 then
        LengthWithoutIncompleteUtf8.loop buffer answer (multi_byte_bytes_seen + 1)
      else if c &&& 0xe0 == 0xc0 then
        if multi_byte_bytes_seen >= 1 then some ((answer : Int) + 1 + 2)
        else some ((answer : Int) + 1 - 1)
      else if c &&& 0xf0 == 0xe0 then
        if multi_byte_bytes_seen >= 2 then some ((answer : Int) + 1 + 3)
        else some ((answer : Int) + 1 - 1)
      else if c &&& 0xf8 == 0xf0 then
        if multi_byte_bytes_seen >= 3 then some ((answer : Int) + 1 + 4)
        else some ((answer : Int) + 1 - 1)
      else some ((answer : Int) + 1)

/-- Embedding of `LengthWithoutIncompleteUtf8(buffer, len)` of d8-posix.cc. -/
def LengthWithoutIncompleteUtf8 (buffer : List Nat) (len : Nat) : Option Int :=
  LengthWithoutIncompleteUtf8.loop buffer len 0

/-- The two assignments of `GetStdout` after a read of `bytes_read` bytes into
a buffer that held `fullness` bytes: the length handed to the string and the
new `fullness`. -/
def GetStdout.consume (buffer : List Nat) (bytes_read fullness : Nat) : Option (Int × Int) :=
  if bytes_read + fullness > 0 then
    (if bytes_read == 0 then some ((bytes_read : Int) + fullness)
     else LengthWithoutIncompleteUtf8 buffer (bytes_read + fullness)).map
      (fun length => (length, (bytes_read : Int) + fullness - length))
  else none

/-- The division of register 1 by the constant `divisor` into register 3, with
the hydrogen flags given. -/
def sampleDivByPowerOf2 (divisor : Int) (flags : List HFlag) : LDivByPowerOf2I :=
  { dividend := sampleRegister 1, divisor := divisor, result := sampleRegister 3,
    temp := sampleRegister 4, hydrogen := sampleHydrogen flags,
    environment := sampleEnvironment }

/-! ## The cursor of dematerialized values -/

/-- An access of `AddToTranslation` to the environment, for the log of the
traced writer: the beginning of the object with index `object_index`, whose
`object_length` nested descriptors start at `env_offset`, and the reading of
`environment->values()->at(position)` by the loop of the call that began the
object `object_index`. -/
inductive Access where
  | begin (object_index env_offset object_length : Nat)
  | read (object_index position : Nat)
  deriving DecidableEq, Repr

/-- An object begun by `AddToTranslation`: its index, the `env_offset` of its
call and its declared length. -/
structure Begun where
  object_index : Nat
  env_offset : Nat
  object_length : Nat
  deriving DecidableEq, Repr

/-- `LCodeGen::AddToTranslation` with a log: the same code, each call handing
back in addition the accesses it made, in order.  The case of an operand that
is not the materialization marker makes no access. -/
def LCodeGen.AddToTranslationTraced : Nat → LCodeGen → LEnvironment → Option LOperand → Bool →
    Bool → Cursors → Option ((LCodeGen × Cursors) × List Access)
  | _, cg, environment, some op, is_tagged, is_uint32, cur =>
    (LCodeGen.AddToTranslation 0 cg environment (some op) is_tagged is_uint32 cur).map
      (fun r => (r, []))
  | 0, _, _, none, _, _, _ => none
  | fuel + 1, cg, environment, none, _, _, cur =>
    let object_index := cur.object_index
    let cur1 : Cursors := { cur with object_index := cur.object_index + 1 }
    match environment.object_mapping[object_index]? with
    | none => none
    | some (.duplicate dupe_of) => some ((cg.translate (.DuplicateObject dupe_of), cur1), [])
    | some (.object object_length is_arguments) =>
      let cg1 := if is_arguments then cg.translate (.BeginArgumentsObject object_length)
                 else cg.translate (.BeginCapturedObject object_length)
      let dematerialized_index := cur1.dematerialized_index
      let env_offset := environment.translation_size + dematerialized_index
      let cur2 : Cursors :=
        { cur1 with dematerialized_index := cur1.dematerialized_index + object_length }
      forLoop (fun i (s : (LCodeGen × Cursors) × List Access) =>
          match environment.values[env_offset + i]? with
          | none => none
          | some v =>
            (LCodeGen.AddToTranslationTraced fuel s.1.1 environment v.value v.is_tagged
                v.is_uint32 s.1.2).map
              (fun r => (r.1, s.2 ++ Access.read object_index (env_offset + i) :: r.2)))
        object_length 0 ((cg1, cur2), [Access.begin object_index env_offset object_length])

/-- The value loop that ends `WriteTranslation`, with the log of the accesses
of its calls of `AddToTranslation`. -/
def LCodeGen.writeValuesTraced (cg : LCodeGen) (environment : LEnvironment) :
    Option ((LCodeGen × Cursors) × List Access) :=
  forLoop (fun i (s : (LCodeGen × Cursors) × List Access) =>
      match environment.values[i]? with
      | none => none
      | some v =>
        (LCodeGen.AddToTranslationTraced environment.object_mapping.length s.1.1 environment
            v.value v.is_tagged v.is_uint32 s.1.2).map
          (fun r => (r.1, s.2 ++ r.2)))
    environment.translation_size 0 ((cg, { object_index := 0, dematerialized_index := 0 }), [])

def Access.begun : Access → Option Begun
  | .begin object_index env_offset object_length => some ⟨object_index, env_offset, object_length⟩
  | .read _ _ => none

/-- The objects begun in a log, in order. -/
def begins (log : List Access) : List Begun := log.filterMap Access.begun

def Access.readBy (object_index : Nat) : Access → Option Nat
  | .begin _ _ _ => none
  | .read owner position => if owner = object_index then some position else none

/-- The positions read by the loop of the object `object_index`, in order. -/
def readsOf (object_index : Nat) (log : List Access) : List Nat :=
  log.filterMap (Access.readBy object_index)

/-- The sum of the declared lengths of the objects. -/
def lengthSum (objects : List Begun) : Nat := (objects.map Begun.object_length).sum

/-- Offsets that follow one another from `base`: each object starts where the
one before it ended. -/
def Chained : Nat → List Begun → Prop
  | _, [] => True
  | base, b :: rest => b.env_offset = base ∧ Chained (base + b.object_length) rest

/-- What a stretch `log` of the log says of the cursors `cur` before it and
`cur1` after it, for the frame of `environment`: the dematerialized
cursor advanced by the lengths of the objects begun, each object begun starts
at the cursor, the objects begun have the indices from `cur` up to `cur1`, in
order, the reads are those of the loops of these objects, or of the loop of
the object `owner` begun earlier, the loop of each object begun read the
positions from its offset on, as many as its length, and that length is the
one the environment records for the object. -/
def Tracks (environment : LEnvironment) (owner : Option Nat) (cur : Cursors)
    (log : List Access) (cur1 : Cursors) : Prop :=
  (∀ id, owner = some id → id < cur.object_index) ∧
  cur.object_index ≤ cur1.object_index ∧
  cur1.dematerialized_index = cur.dematerialized_index + lengthSum (begins log) ∧
  Chained (environment.translation_size + cur.dematerialized_index) (begins log) ∧
  (∀ b ∈ begins log, cur.object_index ≤ b.object_index ∧ b.object_index < cur1.object_index) ∧
  (∀ id p, Access.read id p ∈ log →
    owner = some id ∨ (cur.object_index ≤ id ∧ id < cur1.object_index)) ∧
  (∀ b ∈ begins log, readsOf b.object_index log = List.range' b.env_offset b.object_length) ∧
  ((begins log).map Begun.object_index).Pairwise (· < ·) ∧
  (∀ b ∈ begins log, ∃ is_arguments,
    environment.object_mapping[b.object_index]? = some (.object b.object_length is_arguments))

/-- The operand of a bounds check stands for the 32-bit value `v` on the
machine `m`: a constant operand is that constant, and a register holds the
value, as a small integer when the representation is Smi. -/
def OperandHolds (x : Externals) (info : CompilationInfo) (m : Machine)
    (representation : Representation) (op : LOperand) (v : Int) : Prop :=
  if op.IsConstantOperand then x.Integer32Value op = v
  else if representation.IsSmi then m.reg (.allocated op.index) = SmiFromInt info v
  else int32 (m.reg (.allocated op.index)) = v

/-- The value fits a small integer of the build when the representation is
Smi, and an `int32_t` otherwise. -/
def FitsRepresentation (info : CompilationInfo) (representation : Representation) (v : Int) :
    Prop :=
  if representation.IsSmi && !info.V8_TARGET_ARCH_S390X then -1073741824 ≤ v ∧ v < 1073741824
  else -2147483648 ≤ v ∧ v < 2147483648

/-- A debug build of the sample code generator. -/
def sampleDebug : LCodeGen :=
  { sampleCodeGen with info := { sampleInfo with FLAG_debug_code := true } }

/-- A bounds check of the index in register 1 against the length in register
2, with the flags given. -/
def sampleBoundsCheck (skip_check : Bool) : LBoundsCheck :=
  { index := sampleRegister 1, length := sampleRegister 2,
    length_representation := .kInteger32, index_representation := .kInteger32,
    allow_equality := false, skip_check := skip_check, environment := sampleEnvironment }

/-- The flooring division of register 1 by the constant 2 into register 3,
with a temporary in register 4, for a dividend of either sign. -/
def sampleFlooringDiv : LFlooringDivByConstI :=
  { dividend := sampleRegister 1, divisor := 2, result := sampleRegister 3,
    temp := sampleRegister 4,
    hydrogen := sampleHydrogen [.kLeftCanBeNegative, .kLeftCanBePositive],
    environment := sampleEnvironment }

/-- The flooring division of register 4, which holds `kMinInt` on the sample
machine, by the constant `divisor` into register 3, for a dividend that is not
positive. -/
def sampleFlooringMinInt (divisor : Int) : LFlooringDivByConstI :=
  { dividend := sampleRegister 4, divisor := divisor, result := sampleRegister 3,
    temp := sampleRegister 7, hydrogen := sampleHydrogen [.kLeftCanBeNegative],
    environment := sampleEnvironment }

/-- The multiplication of register 1 by the constant `constant` into register
3, with the hydrogen flags given. -/
def sampleMulI (constant : Int) (flags : List HFlag) : LMulI :=
  { left := sampleRegister 1, right := { kind := .CONSTANT_OPERAND, index := constant },
    result := sampleRegister 3, hydrogen := sampleHydrogen flags, IsSmi := false,
    environment := sampleEnvironment }

/-! # Theorems -/

/-! ## Literals -/

theorem findIdentical_none (l : Handle) (lits : List Handle) (start : Nat) :
    findIdentical l lits start = none ↔ l ∉ lits := by
  induction lits generalizing start with
  | nil => simp [findIdentical]
  | cons h t ih =>
    simp only [findIdentical, Handle.is_identical_to]
    by_cases hh : h = l
    · subst hh; simp
    · have : ¬ l = h := fun e => hh e.symm
      simp [hh, this, ih]

theorem findIdentical_some (l : Handle) (lits : List Handle) (start i : Nat)
    (h : findIdentical l lits start = some i) :
    start ≤ i ∧ lits[i - start]? = some l ∧ ∀ j, j < i - start → lits[j]? ≠ some l := by
  induction lits generalizing start with
  | nil => simp [findIdentical] at h
  | cons a t ih =>
    simp only [findIdentical, Handle.is_identical_to] at h
    by_cases ha : a = l
    · subst ha
      simp at h
      subst h
      simp
    · simp [ha] at h
      obtain ⟨h1, h2, h3⟩ := ih (start + 1) h
      have e : i - start = (i - (start + 1)) + 1 := by omega
      refine ⟨by omega, ?_, ?_⟩
      · rw [e]; simpa using h2
      · intro j hj
        cases j with
        | zero => simpa using ha
        | succ j => simpa using h3 j (by omega)

/-- A literal list is extended at its end only. -/
theorem DefineDeoptimizationLiteral_extends (cg : LCodeGen) (l : Handle) :
    ∃ added, (cg.DefineDeoptimizationLiteral l).2 =
        { cg with deoptimization_literals_ := cg.deoptimization_literals_ ++ added } ∧
      (cg.deoptimization_literals_ ++ added)[(cg.DefineDeoptimizationLiteral l).1]? = some l := by
  unfold LCodeGen.DefineDeoptimizationLiteral
  cases hf : findIdentical l cg.deoptimization_literals_ 0 with
  | none =>
    refine ⟨[l], rfl, ?_⟩
    simp
  | some i =>
    refine ⟨[], by simp, ?_⟩
    have := (findIdentical_some l _ 0 i hf).2.1
    simpa using this

/-- C10.  `DefineDeoptimizationLiteral(l)`: when a literal identical to `l` is
in the list, the list (and the rest of the code generator) is unchanged and the
result is the index of the first such literal; when there is none, `l` is
appended after the unchanged earlier entries and the result is the old length.
A second call with the same literal returns the same index and changes
nothing, and a list without duplicates stays without duplicates. -/
theorem DefineDeoptimizationLiteral_deduplicates (cg : LCodeGen) (l : Handle) :
    (l ∈ cg.deoptimization_literals_ →
      (cg.DefineDeoptimizationLiteral l).2 = cg ∧
      cg.deoptimization_literals_[(cg.DefineDeoptimizationLiteral l).1]? = some l ∧
      ∀ j, j < (cg.DefineDeoptimizationLiteral l).1 → cg.deoptimization_literals_[j]? ≠ some l) ∧
    (l ∉ cg.deoptimization_literals_ →
      (cg.DefineDeoptimizationLiteral l).1 = cg.deoptimization_literals_.length ∧
      (cg.DefineDeoptimizationLiteral l).2 =
        { cg with deoptimization_literals_ := cg.deoptimization_literals_ ++ [l] }) ∧
    (cg.DefineDeoptimizationLiteral l).2.DefineDeoptimizationLiteral l =
      cg.DefineDeoptimizationLiteral l ∧
    (cg.deoptimization_literals_.Nodup →
      (cg.DefineDeoptimizationLiteral l).2.deoptimization_literals_.Nodup) := by
  unfold LCodeGen.DefineDeoptimizationLiteral
  cases hf : findIdentical l cg.deoptimization_literals_ 0 with
  | some i =>
    have hs := findIdentical_some l _ 0 i hf
    refine ⟨fun _ => ⟨rfl, by simpa using hs.2.1, fun j hj => hs.2.2 j (by simpa using hj)⟩,
      fun hn => absurd ((findIdentical_none l _ 0).2 hn) (by simp [hf]), ?_, fun hd => hd⟩
    simp [hf]
  | none =>
    have hn := (findIdentical_none l _ 0).1 hf
    refine ⟨fun hm => absurd hm hn, fun _ => ⟨rfl, rfl⟩, ?_, fun hd => ?_⟩
    · have hfound : findIdentical l (cg.deoptimization_literals_ ++ [l]) 0 =
          some cg.deoptimization_literals_.length := by
        cases hg : findIdentical l (cg.deoptimization_literals_ ++ [l]) 0 with
        | none =>
          have := (findIdentical_none l _ 0).1 hg
          simp at this
        | some k =>
          have hk := findIdentical_some l _ 0 k hg
          have hlt : k < (cg.deoptimization_literals_ ++ [l]).length :=
            (List.getElem?_eq_some_iff.1 hk.2.1).1
          by_cases hkl : k < cg.deoptimization_literals_.length
          · have h1 := hk.2.1
            simp only [Nat.sub_zero] at h1
            rw [List.getElem?_append_left hkl] at h1
            exact absurd (List.getElem?_mem h1) hn
          · simp at hlt
            congr 1
            omega
      simp [hfound]
    · simpa [List.nodup_append] using ⟨hd, hn⟩

/-- Witness of C10: in the sample code generator, whose literal list is
`[some 9]`, literal 9 is found at index 0 and literal 7 is appended at index
1. -/
theorem DefineDeoptimizationLiteral_deduplicates_witness :
    (sampleCodeGen.DefineDeoptimizationLiteral (some 9)).2 = sampleCodeGen ∧
    sampleCodeGen.deoptimization_literals_[(sampleCodeGen.DefineDeoptimizationLiteral (some 9)).1]? =
      some (some 9) ∧
    (sampleCodeGen.DefineDeoptimizationLiteral (some 7)).1 = 1 ∧
    (sampleCodeGen.DefineDeoptimizationLiteral (some 7)).2 =
      { sampleCodeGen with deoptimization_literals_ := [some 9, some 7] } :=
  ⟨((DefineDeoptimizationLiteral_deduplicates sampleCodeGen (some 9)).1 (by decide)).1,
   ((DefineDeoptimizationLiteral_deduplicates sampleCodeGen (some 9)).1 (by decide)).2.1,
   ((DefineDeoptimizationLiteral_deduplicates sampleCodeGen (some 7)).2.1 (by decide)).1,
   ((DefineDeoptimizationLiteral_deduplicates sampleCodeGen (some 7)).2.1 (by decide)).2⟩

/-! ## What the translation writer appends -/

theorem Wrote.refl (cg : LCodeGen) : cg.Wrote cg [] := ⟨[], by simp⟩

theorem Wrote.trans {cg cg1 cg2 : LCodeGen} {a b : List Command}
    (h1 : cg.Wrote cg1 a) (h2 : cg1.Wrote cg2 b) : cg.Wrote cg2 (a ++ b) := by
  obtain ⟨x, rfl⟩ := h1
  obtain ⟨y, rfl⟩ := h2
  exact ⟨x ++ y, by simp⟩

theorem Wrote.translate (cg : LCodeGen) (c : Command) : cg.Wrote (cg.translate c) [c] :=
  ⟨[], by simp [LCodeGen.translate]⟩

theorem Wrote.define (cg : LCodeGen) (l : Handle) :
    cg.Wrote (cg.DefineDeoptimizationLiteral l).2 [] := by
  obtain ⟨added, h, _⟩ := DefineDeoptimizationLiteral_extends cg l
  exact ⟨added, by rw [h]; simp⟩

theorem Entries.flatten_append (a b : Entries) : (a.append b).flatten = a.flatten ++ b.flatten := by
  induction a with
  | nil => rfl
  | store c rest ih => simp [Entries.append, Entries.flatten, ih]
  | duplicate k rest ih => simp [Entries.append, Entries.flatten, ih]
  | object is_arguments fields rest _ ih =>
    cases is_arguments <;> simp [Entries.append, Entries.flatten, ih]

theorem Entries.count_append (a b : Entries) : (a.append b).count = a.count + b.count := by
  induction a with
  | nil => simp [Entries.append, Entries.count]
  | store c rest ih => simp [Entries.append, Entries.count, ih]; omega
  | duplicate k rest ih => simp [Entries.append, Entries.count, ih]; omega
  | object is_arguments fields rest _ ih => simp [Entries.append, Entries.count, ih]; omega

theorem Entries.proper_append (a b : Entries) :
    (a.append b).proper = (a.proper && b.proper) := by
  induction a with
  | nil => simp [Entries.append, Entries.proper]
  | store c rest ih => simp [Entries.append, Entries.proper, ih, Bool.and_assoc]
  | duplicate k rest ih => simp [Entries.append, Entries.proper, ih]
  | object is_arguments fields rest _ ih => simp [Entries.append, Entries.proper, ih, Bool.and_assoc]

theorem Entries.mapping_append (a b : Entries) : (a.append b).mapping = a.mapping ++ b.mapping := by
  induction a with
  | nil => rfl
  | store c rest ih => simp [Entries.append, Entries.mapping, ih]
  | duplicate k rest ih => simp [Entries.append, Entries.mapping, ih]
  | object is_arguments fields rest _ ih => simp [Entries.append, Entries.mapping, ih]

theorem Wrote.store_case (cg : LCodeGen) (cur : Cursors) (r : LCodeGen × Cursors) (c : Command)
    (hc : c.isStore = true) (h : some (cg.translate c, cur) = some r) :
    r.2 = cur ∧ ∃ c, c.isStore = true ∧ cg.Wrote r.1 [c] := by
  cases h
  exact ⟨rfl, c, hc, Wrote.translate _ _⟩

/-- A call of `AddToTranslation` for an operand appends one store command and
leaves the cursors alone. -/
theorem AddToTranslation_operand (fuel : Nat) (cg : LCodeGen) (environment : LEnvironment)
    (op : LOperand) (is_tagged is_uint32 : Bool) (cur : Cursors) (r : LCodeGen × Cursors)
    (h : LCodeGen.AddToTranslation fuel cg environment (some op) is_tagged is_uint32 cur = some r) :
    r.2 = cur ∧ ∃ c, c.isStore = true ∧ cg.Wrote r.1 [c] := by
  simp only [LCodeGen.AddToTranslation] at h
  split_ifs at h
  all_goals first
    | exact Wrote.store_case _ _ _ _ (by rfl) h
    | exact absurd h (by simp)
    | skip
  cases hc : cg.LookupConstant op.index with
  | none => simp [hc] at h
  | some literal =>
    simp only [hc, Option.some.injEq] at h
    subst h
    refine ⟨rfl, .StoreLiteral (cg.DefineDeoptimizationLiteral literal).1, rfl, ?_⟩
    simpa using Wrote.trans (Wrote.define cg literal) (Wrote.translate _ _)

/-- What one successful step of the translation writer does: it appends the
commands of `n` entries, and the objects among them are the next objects of
the environment. -/
theorem forLoop_entries (environment : LEnvironment)
    (step : LCodeGen → Option LOperand → Bool → Bool → Cursors → Option (LCodeGen × Cursors))
    (hstep : ∀ cg op is_tagged is_uint32 cur r, step cg op is_tagged is_uint32 cur = some r →
      ∃ es : Entries, es.proper = true ∧ es.count = 1 ∧ cg.Wrote r.1 es.flatten ∧
        environment.object_mapping.take r.2.object_index =
          environment.object_mapping.take cur.object_index ++ es.mapping)
    (f : Nat → Nat) (count : Nat) :
    ∀ (i : Nat) (s r : LCodeGen × Cursors),
      forLoop (fun i (s : LCodeGen × Cursors) =>
          match environment.values[f i]? with
          | none => none
          | some v => step s.1 v.value v.is_tagged v.is_uint32 s.2) count i s = some r →
      ∃ es : Entries, es.proper = true ∧ es.count = count ∧ s.1.Wrote r.1 es.flatten ∧
        environment.object_mapping.take r.2.object_index =
          environment.object_mapping.take s.2.object_index ++ es.mapping := by
  induction count with
  | zero =>
    intro i s r h
    simp only [forLoop, Option.some.injEq] at h
    subst h
    exact ⟨.nil, rfl, rfl, Wrote.refl _, by simp [Entries.mapping]⟩
  | succ n ih =>
    intro i s r h
    simp only [forLoop] at h
    cases hv : environment.values[f i]? with
    | none => simp [hv] at h
    | some v =>
      simp only [hv] at h
      cases hs : step s.1 v.value v.is_tagged v.is_uint32 s.2 with
      | none => simp [hs] at h
      | some s1 =>
        simp only [hs, Option.some_bind] at h
        obtain ⟨e1, hp1, hc1, hw1, hm1⟩ := hstep _ _ _ _ _ _ hs
        obtain ⟨e2, hp2, hc2, hw2, hm2⟩ := ih _ _ _ h
        refine ⟨e1.append e2, ?_, ?_, ?_, ?_⟩
        · rw [Entries.proper_append, hp1, hp2]; rfl
        · rw [Entries.count_append, hc1, hc2]; omega
        · rw [Entries.flatten_append]; exact Wrote.trans hw1 hw2
        · rw [Entries.mapping_append, hm2, hm1, List.append_assoc]

/-- Every successful call of `AddToTranslation` appends the commands of exactly
one entry; an object is declared with the number of entries written for it,
which is the length the environment records for it. -/
theorem AddToTranslation_entries (environment : LEnvironment) (fuel : Nat) :
    ∀ (cg : LCodeGen) (op : Option LOperand) (is_tagged is_uint32 : Bool) (cur : Cursors)
      (r : LCodeGen × Cursors),
      LCodeGen.AddToTranslation fuel cg environment op is_tagged is_uint32 cur = some r →
      ∃ es : Entries, es.proper = true ∧ es.count = 1 ∧ cg.Wrote r.1 es.flatten ∧
        environment.object_mapping.take r.2.object_index =
          environment.object_mapping.take cur.object_index ++ es.mapping := by
  induction fuel with
  | zero =>
    intro cg op is_tagged is_uint32 cur r h
    cases op with
    | none => simp [LCodeGen.AddToTranslation] at h
    | some op =>
      obtain ⟨hcur, c, hst, hw⟩ := AddToTranslation_operand _ _ _ _ _ _ _ _ h
      exact ⟨.store c .nil, by simp [Entries.proper, hst], rfl, hw, by
        simp [Entries.mapping, hcur]⟩
  | succ fuel ih =>
    intro cg op is_tagged is_uint32 cur r h
    cases op with
    | some op =>
      obtain ⟨hcur, c, hst, hw⟩ := AddToTranslation_operand _ _ _ _ _ _ _ _ h
      exact ⟨.store c .nil, by simp [Entries.proper, hst], rfl, hw, by
        simp [Entries.mapping, hcur]⟩
    | none =>
      simp only [LCodeGen.AddToTranslation] at h
      cases hm : environment.object_mapping[cur.object_index]? with
      | none => simp [hm] at h
      | some m =>
        have htake : environment.object_mapping.take (cur.object_index + 1) =
            environment.object_mapping.take cur.object_index ++ [m] := by
          rw [List.take_succ, hm]; rfl
        cases m with
        | duplicate dupe_of =>
          simp only [hm, Option.some.injEq] at h
          subst h
          exact ⟨.duplicate dupe_of .nil, rfl, rfl, Wrote.translate _ _, by
            simpa [Entries.mapping] using htake⟩
        | object object_length is_arguments =>
          simp only [hm] at h
          obtain ⟨fields, hp, hc, hw, hmap⟩ :=
            forLoop_entries environment (LCodeGen.AddToTranslation fuel · environment) ih
              (fun i => environment.translation_size + cur.dematerialized_index + i)
              object_length 0 _ r h
          refine ⟨.object is_arguments fields .nil, by simp [Entries.proper, hp], rfl, ?_, ?_⟩
          · cases is_arguments
            · simpa [Entries.flatten, hc] using Wrote.trans (Wrote.translate _ _) hw
            · simpa [Entries.flatten, hc] using Wrote.trans (Wrote.translate _ _) hw
          · simp only [Entries.mapping, hc, List.append_nil]
            rw [hmap]
            simp only [htake, List.append_assoc, List.singleton_append]

/-- The value loop of `WriteTranslation` appends the commands of exactly
`translation_size` entries, whose objects are the first objects of the
environment. -/
theorem writeValues_entries (cg : LCodeGen) (environment : LEnvironment) (r : LCodeGen × Cursors)
    (h : cg.writeValues environment = some r) :
    ∃ es : Entries, es.proper = true ∧ es.count = environment.translation_size ∧
      cg.Wrote r.1 es.flatten ∧ environment.object_mapping.take r.2.object_index = es.mapping := by
  obtain ⟨es, hp, hc, hw, hm⟩ :=
    forLoop_entries environment
      (LCodeGen.AddToTranslation environment.object_mapping.length · environment)
      (AddToTranslation_entries environment _) (fun i => i) environment.translation_size 0 _ r h
  exact ⟨es, hp, hc, hw, by simpa using hm⟩

theorem Wrote.closureId (cg : LCodeGen) (environment : LEnvironment) :
    cg.Wrote (cg.closureId environment).2 [] := by
  unfold LCodeGen.closureId
  simp only []
  split_ifs
  · exact Wrote.define _ _
  · exact Wrote.refl _

theorem beginFrame_writes (cg cg1 : LCodeGen) (environment : LEnvironment) (closure_id : Int)
    (h : cg.beginFrame environment closure_id environment.translation_size
      ((environment.translation_size : Int) - (environment.parameter_count : Int)) = some cg1) :
    ∃ c, c.opensFrameOf environment = true ∧ cg.Wrote cg1 [c] := by
  unfold LCodeGen.beginFrame at h
  cases hf : environment.frame_type <;> simp only [hf] at h
  all_goals first
    | (simp only [Option.some.injEq] at h; subst h
       exact ⟨_, by simp [Command.opensFrameOf, hf], Wrote.translate _ _⟩)
    | (split_ifs at h
       simp only [Option.some.injEq] at h; subst h
       exact ⟨_, by simp [Command.opensFrameOf, hf], Wrote.translate _ _⟩)

theorem frameCommands_append (a b : List (Command × Entries)) :
    frameCommands (a ++ b) = frameCommands a ++ frameCommands b := by
  induction a with
  | nil => rfl
  | cons f rest ih => simp [frameCommands, ih]

/-- `WriteTranslation` appends, for each environment of the chain from the
outermost to the innermost, its begin-frame command followed by the commands
of exactly `translation_size` entries. -/
theorem WriteTranslation_frames (chain : List LEnvironment) :
    ∀ (cg cg1 : LCodeGen), cg.WriteTranslation chain = some cg1 →
      ∃ frames : List (Command × Entries),
        cg.Wrote cg1 (frameCommands frames) ∧
        List.Forall₂ (fun f e => f.1.opensFrameOf e = true ∧ f.2.proper = true ∧
          f.2.count = e.translation_size ∧
          ∃ k, e.object_mapping.take k = f.2.mapping) frames chain.reverse := by
  induction chain with
  | nil =>
    intro cg cg1 h
    simp only [LCodeGen.WriteTranslation, Option.some.injEq] at h
    subst h
    exact ⟨[], Wrote.refl _, by simp⟩
  | cons environment outer ih =>
    intro cg cg1 h
    simp only [LCodeGen.WriteTranslation] at h
    cases ho : cg.WriteTranslation outer with
    | none => simp [ho] at h
    | some cg2 =>
      simp only [ho] at h
      obtain ⟨frames, hw, hall⟩ := ih _ _ ho
      cases hb : (cg2.closureId environment).2.beginFrame environment (cg2.closureId environment).1
          environment.translation_size
          ((environment.translation_size : Int) - (environment.parameter_count : Int)) with
      | none => simp [hb] at h
      | some cg3 =>
        simp only [hb] at h
        cases hv : cg3.writeValues environment with
        | none => simp [hv] at h
        | some r =>
          simp only [hv, Option.map_some', Option.some.injEq] at h
          subst h
          obtain ⟨c, hc, hwc⟩ := beginFrame_writes _ _ _ _ hb
          obtain ⟨es, hp, hcount, hwv, hm⟩ := writeValues_entries _ _ _ hv
          refine ⟨frames ++ [(c, es)], ?_, ?_⟩
          · rw [frameCommands_append]
            have := Wrote.trans hw (Wrote.trans (Wrote.closureId cg2 environment)
              (Wrote.trans hwc hwv))
            simpa [frameCommands] using this
          · rw [List.reverse_cons]
            exact List.rel_append hall
              (List.Forall₂.cons ⟨hc, hp, hcount, _, hm⟩ List.Forall₂.nil)

theorem countFrames_eq (chain : List LEnvironment) :
    ∀ c : Nat × Nat, countFrames chain c =
      (c.1 + chain.length, c.2 + chain.countP (fun e => e.frame_type == .JS_FUNCTION)) := by
  induction chain with
  | nil => intro c; simp [countFrames]
  | cons e outer ih =>
    intro c
    simp only [countFrames, ih, List.length_cons, List.countP_cons]
    split_ifs <;> simp <;> omega

theorem Command.isValue_not_frame (c : Command) (h : c.isValue = true) :
    c.isBeginFrame = false ∧ c.isBEGIN = false := by
  cases c <;> simp_all [Command.isValue, Command.isStore, Command.isBeginFrame, Command.isBEGIN]

theorem Command.isStore_isValue (c : Command) (h : c.isStore = true) : c.isValue = true := by
  cases c <;> simp_all [Command.isValue, Command.isStore]

theorem Command.opensFrameOf_isBeginFrame (c : Command) (e : LEnvironment)
    (h : c.opensFrameOf e = true) : c.isBeginFrame = true ∧ c.isBEGIN = false := by
  cases c <;> simp_all [Command.opensFrameOf, Command.isBeginFrame, Command.isBEGIN]

theorem Entries.flatten_isValue (es : Entries) (hp : es.proper = true) :
    ∀ c ∈ es.flatten, c.isValue = true := by
  induction es with
  | nil => simp [Entries.flatten]
  | store c rest ih =>
    simp only [Entries.proper, Bool.and_eq_true] at hp
    intro d hd
    simp only [Entries.flatten, List.mem_cons] at hd
    rcases hd with rfl | hd
    · exact Command.isStore_isValue _ hp.1
    · exact ih hp.2 d hd
  | duplicate k rest ih =>
    simp only [Entries.proper] at hp
    intro d hd
    simp only [Entries.flatten, List.mem_cons] at hd
    rcases hd with rfl | hd
    · rfl
    · exact ih hp d hd
  | object is_arguments fields rest ihf ihr =>
    simp only [Entries.proper, Bool.and_eq_true] at hp
    intro d hd
    cases is_arguments <;>
    · simp only [Entries.flatten, List.mem_cons, List.mem_append] at hd
      rcases hd with rfl | hd | hd
      · rfl
      · exact ihf hp.1 d hd
      · exact ihr hp.2 d hd

theorem Entries.flatten_filter (es : Entries) (hp : es.proper = true) :
    es.flatten.filter Command.isBeginFrame = [] ∧ es.flatten.filter Command.isBEGIN = [] := by
  constructor <;>
  · rw [List.filter_eq_nil_iff]
    intro c hc
    have := Command.isValue_not_frame c (Entries.flatten_isValue es hp c hc)
    simp [this.1, this.2]

/-- Among the commands of well-formed frames, the begin-frame commands are the
frames' own, in order, and none is a `BEGIN` header. -/
theorem frameCommands_filter (frames : List (Command × Entries)) (chain : List LEnvironment)
    (h : List.Forall₂ (fun f e => f.1.opensFrameOf e = true ∧ f.2.proper = true ∧
          f.2.count = e.translation_size ∧
          ∃ k, e.object_mapping.take k = f.2.mapping) frames chain) :
    (frameCommands frames).filter Command.isBeginFrame = frames.map Prod.fst ∧
    (frameCommands frames).filter Command.isBEGIN = [] ∧
    List.Forall₂ (fun c e => c.opensFrameOf e = true) (frames.map Prod.fst) chain := by
  induction h with
  | nil => simp [frameCommands]
  | cons hfe _ ih =>
    obtain ⟨ho, hp, _, _⟩ := hfe
    have hb := Command.opensFrameOf_isBeginFrame _ _ ho
    have hf := Entries.flatten_filter _ hp
    refine ⟨?_, ?_, ?_⟩
    · simp [frameCommands, List.filter_cons, hb.1, hf.1, ih.1]
    · simp [frameCommands, List.filter_cons, hb.2, hf.2, ih.2.1]
    · exact List.Forall₂.cons ho ih.2.2

theorem Forall₂_snoc_change {α β : Type} {R : α → β → Prop} {a b : β} (hab : ∀ f, R f a → R f b) :
    ∀ (l : List β) (frames : List α),
      List.Forall₂ R frames (l ++ [a]) → List.Forall₂ R frames (l ++ [b])
  | [], _, h => by
    cases h with
    | cons hx hr => cases hr; exact List.Forall₂.cons (hab _ hx) List.Forall₂.nil
  | x :: l, _, h => by
    cases h with
    | cons hx hr => exact List.Forall₂.cons hx (Forall₂_snoc_change hab l _ hr)

/-- What a first registration does to the code generator and the environment. -/
theorem RegisterEnvironmentForDeoptimization_fresh (cg cg1 : LCodeGen)
    (environment environment1 : LEnvironment) (outer : List LEnvironment) (mode : DeoptMode)
    (hreg : environment.HasBeenRegistered = false)
    (h : cg.RegisterEnvironmentForDeoptimization environment outer mode = some (cg1, environment1)) :
    ∃ (frames : List (Command × Entries)) (cg2 : LCodeGen),
      cg.Wrote cg2 (.BEGIN (outer.length + 1)
          ((environment :: outer).countP (fun e => e.frame_type == .JS_FUNCTION)) ::
        frameCommands frames) ∧
      List.Forall₂ (fun f e => f.1.opensFrameOf e = true ∧ f.2.proper = true ∧
          f.2.count = e.translation_size ∧
          ∃ k, e.object_mapping.take k = f.2.mapping) frames (environment :: outer).reverse ∧
      environment1 = environment.set_has_been_used.Register cg.deoptimizations_.length
        cg.translations_.length (if mode == .kLazyDeopt then (cg.pc_offset : Int) else -1) ∧
      cg1 = { cg2 with deoptimizations_ := cg.deoptimizations_ ++ [environment1] } := by
  unfold LCodeGen.RegisterEnvironmentForDeoptimization at h
  have hreg' : environment.set_has_been_used.HasBeenRegistered = false := hreg
  simp only [hreg', Bool.not_false, if_true] at h
  split at h
  · cases h
  · rename_i cg2 hw
    simp only [Option.some.injEq, Prod.mk.injEq] at h
    obtain ⟨hcg, henv⟩ := h
    obtain ⟨frames, hwr, hall⟩ := WriteTranslation_frames _ _ _ hw
    have hwr2 := Wrote.trans (Wrote.translate cg _) hwr
    obtain ⟨added, hcg2⟩ := hwr2
    have hd : cg2.deoptimizations_ = cg.deoptimizations_ := by rw [hcg2]
    have hpc : cg2.pc_offset = cg.pc_offset := by rw [hcg2]; rfl
    subst henv
    subst hcg
    refine ⟨frames, cg2, ⟨added, ?_⟩, ?_, ?_, ?_⟩
    · rw [hcg2]
      simp [countFrames_eq, LEnvironment.set_has_been_used, List.countP_cons]
    · have hrev : (environment.set_has_been_used :: outer).reverse =
          outer.reverse ++ [environment.set_has_been_used] := by simp
      have hrev2 : (environment :: outer).reverse = outer.reverse ++ [environment] := by simp
      rw [hrev] at hall
      rw [hrev2]
      refine Forall₂_snoc_change ?_ _ _ hall
      intro f hf
      simpa [Command.opensFrameOf, LEnvironment.set_has_been_used] using hf
    · simp [hd, hpc]
    · simp [hd, hpc]

/-! ## Reading entries back -/

/-- Reading `count` entries off the commands of a sequence gives the sequence
back and leaves what follows it. -/
theorem parseFields_flatten (es : Entries) :
    ∀ (_ : es.proper = true) (tail : List Command) (fuel : Nat), es.size < fuel →
      parseFields fuel es.count (es.flatten ++ tail) = some (es, tail) := by
  induction es with
  | nil =>
    intro _ tail fuel hf
    cases fuel with
    | zero => omega
    | succ fuel => simp [Entries.count, Entries.flatten, parseFields]
  | store c rest ih =>
    intro hp tail fuel hf
    simp only [Entries.proper, Bool.and_eq_true] at hp
    simp only [Entries.size] at hf
    cases fuel with
    | zero => omega
    | succ fuel =>
      have := ih hp.2 tail fuel (by omega)
      have hc := hp.1
      cases c <;> simp_all [Entries.count, Entries.flatten, parseFields, Command.isStore]
  | duplicate k rest ih =>
    intro hp tail fuel hf
    simp only [Entries.proper] at hp
    simp only [Entries.size] at hf
    cases fuel with
    | zero => omega
    | succ fuel =>
      have := ih hp tail fuel (by omega)
      simp [Entries.count, Entries.flatten, parseFields, this]
  | object is_arguments fields rest ihf ihr =>
    intro hp tail fuel hf
    simp only [Entries.proper, Bool.and_eq_true] at hp
    simp only [Entries.size] at hf
    cases fuel with
    | zero => omega
    | succ fuel =>
      have h1 := ihf hp.1 (rest.flatten ++ tail) fuel (by omega)
      have h2 := ihr hp.2 tail fuel (by omega)
      cases is_arguments <;>
        simp [Entries.count, Entries.flatten, parseFields, h1, h2, List.append_assoc]

theorem parseValues_store (c : Command) (hc : c.isStore = true) (fuel : Nat) (cs : List Command) :
    parseValues (fuel + 1) (c :: cs) = (parseValues fuel cs).map (fun r => (.store c r.1, r.2)) := by
  cases c
  all_goals first
    | (simp [Command.isStore] at hc; done)
    | simp only [parseValues, Command.isStore, if_true]

theorem parseValues_stop (c : Command) (hc : c.isValue = false) (fuel : Nat) (cs : List Command) :
    parseValues (fuel + 1) (c :: cs) = some (.nil, c :: cs) := by
  cases c
  all_goals first
    | (simp [Command.isValue, Command.isStore] at hc; done)
    | simp [parseValues, Command.isStore]

/-- Reading the values of a frame off the commands of a sequence gives the
sequence back when what follows is no value command. -/
theorem parseValues_flatten (es : Entries) :
    ∀ (_ : es.proper = true) (tail : List Command) (fuel : Nat), es.size < fuel →
      (∀ c ∈ tail.head?, c.isValue = false) →
      parseValues fuel (es.flatten ++ tail) = some (es, tail) := by
  induction es with
  | nil =>
    intro _ tail fuel hf ht
    cases fuel with
    | zero => omega
    | succ fuel =>
      cases tail with
      | nil => simp [Entries.flatten, parseValues]
      | cons c t =>
        have hc : c.isValue = false := ht c (by simp)
        simpa [Entries.flatten] using parseValues_stop c hc fuel t
  | store c rest ih =>
    intro hp tail fuel hf ht
    simp only [Entries.proper, Bool.and_eq_true] at hp
    simp only [Entries.size] at hf
    cases fuel with
    | zero => omega
    | succ fuel =>
      have := ih hp.2 tail fuel (by omega) ht
      simp only [Entries.flatten, List.cons_append]
      rw [parseValues_store c hp.1, this]
      rfl
  | duplicate k rest ih =>
    intro hp tail fuel hf ht
    simp only [Entries.proper] at hp
    simp only [Entries.size] at hf
    cases fuel with
    | zero => omega
    | succ fuel =>
      have := ih hp tail fuel (by omega) ht
      simp [Entries.flatten, parseValues, this]
  | object is_arguments fields rest _ ihr =>
    intro hp tail fuel hf ht
    simp only [Entries.proper, Bool.and_eq_true] at hp
    simp only [Entries.size] at hf
    cases fuel with
    | zero => omega
    | succ fuel =>
      have h1 := parseFields_flatten fields hp.1 (rest.flatten ++ tail) fuel (by omega)
      have h2 := ihr hp.2 tail fuel (by omega) ht
      cases is_arguments <;>
        simp [Entries.flatten, parseValues, h1, h2, List.append_assoc]

theorem Entries.size_eq_length (es : Entries) : es.size = es.flatten.length := by
  induction es with
  | nil => rfl
  | store c rest ih => simp [Entries.size, Entries.flatten, ih]
  | duplicate k rest ih => simp [Entries.size, Entries.flatten, ih]
  | object is_arguments fields rest ihf ihr =>
    cases is_arguments <;> simp [Entries.size, Entries.flatten, ihf, ihr]

/-! ## Registration -/

/-- A call on an environment that is already registered only sets
`has_been_used`. -/
theorem RegisterEnvironmentForDeoptimization_registered (cg : LCodeGen) (environment : LEnvironment)
    (outer : List LEnvironment) (mode : DeoptMode) (hreg : environment.HasBeenRegistered = true) :
    cg.RegisterEnvironmentForDeoptimization environment outer mode =
      some (cg, environment.set_has_been_used) := by
  have hreg' : environment.set_has_been_used.HasBeenRegistered = true := hreg
  unfold LCodeGen.RegisterEnvironmentForDeoptimization
  simp only [hreg', Bool.not_true, Bool.false_eq_true, if_false]

/-- C1.  Registration is idempotent.  Whenever a call of
`RegisterEnvironmentForDeoptimization` returns, a second call on the
environment it leaves, in any deopt mode, changes neither the code generator
(no translation command written, no entry appended to `deoptimizations_`) nor
the environment (same deoptimization index, translation index and pc offset).
A call on an environment that is already registered only sets
`has_been_used`; a call on one that is not writes exactly one translation
header and appends exactly one entry, so two calls leave one translation. -/
theorem RegisterEnvironmentForDeoptimization_idempotent (cg cg1 : LCodeGen)
    (environment environment1 : LEnvironment) (outer : List LEnvironment) (mode mode2 : DeoptMode)
    (h : cg.RegisterEnvironmentForDeoptimization environment outer mode = some (cg1, environment1)) :
    cg1.RegisterEnvironmentForDeoptimization environment1 outer mode2 = some (cg1, environment1) ∧
    (environment.HasBeenRegistered = true →
      cg1 = cg ∧ environment1 = environment.set_has_been_used) ∧
    (environment.HasBeenRegistered = false →
      (cg1.translations_.filter Command.isBEGIN).length =
        (cg.translations_.filter Command.isBEGIN).length + 1 ∧
      cg1.deoptimizations_ = cg.deoptimizations_ ++ [environment1]) := by
  cases hreg : environment.HasBeenRegistered with
  | true =>
    rw [RegisterEnvironmentForDeoptimization_registered cg environment outer mode hreg] at h
    simp only [Option.some.injEq, Prod.mk.injEq] at h
    obtain ⟨rfl, rfl⟩ := h
    exact ⟨RegisterEnvironmentForDeoptimization_registered _ _ outer mode2 hreg,
      fun _ => ⟨rfl, rfl⟩, (fun hc => by cases hc)⟩
  | false =>
    obtain ⟨frames, cg2, ⟨added, hcg2⟩, hall, henv, hcg⟩ :=
      RegisterEnvironmentForDeoptimization_fresh cg cg1 environment environment1 outer mode hreg h
    have hr1 : environment1.set_has_been_used = environment1 := by rw [henv]; rfl
    have hr2 : environment1.HasBeenRegistered = true := by rw [henv]; rfl
    refine ⟨?_, (fun hc => by cases hc), fun _ => ⟨?_, ?_⟩⟩
    · unfold LCodeGen.RegisterEnvironmentForDeoptimization
      simp only [hr1, hr2, Bool.not_true, Bool.false_eq_true, if_false]
    · have hf := (frameCommands_filter frames _ hall).2.1
      rw [hcg, hcg2]
      simp [List.filter_cons, Command.isBEGIN, hf]
    · rw [hcg]

/-- Witness of C1: the sample chain is registered, then registered again. -/
theorem RegisterEnvironmentForDeoptimization_idempotent_witness :
    sampleCodeGen.RegisterEnvironmentForDeoptimization sampleEnvironment [sampleOuter] .kLazyDeopt =
      some (sampleCodeGenAfter, sampleRegistered) ∧
    sampleCodeGenAfter.RegisterEnvironmentForDeoptimization sampleRegistered [sampleOuter]
      .kNoLazyDeopt = some (sampleCodeGenAfter, sampleRegistered) :=
  ⟨by decide,
   (RegisterEnvironmentForDeoptimization_idempotent sampleCodeGen sampleCodeGenAfter sampleEnvironment
      sampleRegistered [sampleOuter] .kLazyDeopt .kNoLazyDeopt (by decide)).1⟩

/-- C5.  Registering an unregistered environment creates the translation with
`frame_count` the length of the outer chain, the environment included, and
`jsframe_count` the number of `JS_FUNCTION` environments of the chain; the
commands written after that header hold exactly `frame_count` begin-frame
commands, which are those of the chain's environments from the outermost
(first) to the registered one (last). -/
theorem RegisterEnvironmentForDeoptimization_frame_header (cg cg1 : LCodeGen)
    (environment environment1 : LEnvironment) (outer : List LEnvironment) (mode : DeoptMode)
    (hreg : environment.HasBeenRegistered = false)
    (h : cg.RegisterEnvironmentForDeoptimization environment outer mode = some (cg1, environment1)) :
    ∃ rest : List Command,
      cg1.translations_ = cg.translations_ ++
        .BEGIN (outer.length + 1)
          ((environment :: outer).countP (fun e => e.frame_type == .JS_FUNCTION)) :: rest ∧
      (rest.filter Command.isBeginFrame).length = outer.length + 1 ∧
      List.Forall₂ (fun c e => c.opensFrameOf e = true) (rest.filter Command.isBeginFrame)
        (environment :: outer).reverse := by
  obtain ⟨frames, cg2, ⟨added, hcg2⟩, hall, _, hcg⟩ :=
    RegisterEnvironmentForDeoptimization_fresh cg cg1 environment environment1 outer mode hreg h
  obtain ⟨hf, _, hrel⟩ := frameCommands_filter frames _ hall
  refine ⟨frameCommands frames, ?_, ?_, ?_⟩
  · rw [hcg, hcg2]
  · rw [hf, List.length_map, hall.length_eq]
    simp
  · rw [hf]
    exact hrel

/-- Witness of C5: the sample chain of two `JS_FUNCTION` frames. -/
theorem RegisterEnvironmentForDeoptimization_frame_header_witness :
    sampleCodeGen.RegisterEnvironmentForDeoptimization sampleEnvironment [sampleOuter] .kLazyDeopt =
      some (sampleCodeGenAfter, sampleRegistered) ∧
    ∃ rest : List Command,
      sampleCodeGenAfter.translations_ = sampleCodeGen.translations_ ++
        .BEGIN ([sampleOuter].length + 1)
          ((sampleEnvironment :: [sampleOuter]).countP (fun e => e.frame_type == .JS_FUNCTION)) ::
          rest ∧
      (rest.filter Command.isBeginFrame).length = [sampleOuter].length + 1 ∧
      List.Forall₂ (fun c e => c.opensFrameOf e = true) (rest.filter Command.isBeginFrame)
        (sampleEnvironment :: [sampleOuter]).reverse :=
  ⟨by decide,
   RegisterEnvironmentForDeoptimization_frame_header sampleCodeGen sampleCodeGenAfter
     sampleEnvironment sampleRegistered [sampleOuter] .kLazyDeopt (by decide) (by decide)⟩

/-- C4.  For the frame of `environment` written by `WriteTranslation`: after
the frames of the outer chain come the frame's begin-frame command and the
commands of a sequence of exactly `translation_size` entries (an object with
all it holds, or a back-reference, being one entry).  Every object of the
sequence is declared with the number of entries written for it, and that
number is the length the environment records for the object.  Read back as
`translation_size` entries, the value commands give that sequence with no
command left. -/
theorem WriteTranslation_translation_size (cg cg1 : LCodeGen) (environment : LEnvironment)
    (outer : List LEnvironment) (h : cg.WriteTranslation (environment :: outer) = some cg1) :
    ∃ (cg0 : LCodeGen) (c : Command) (es : Entries),
      cg.WriteTranslation outer = some cg0 ∧
      cg0.Wrote cg1 (c :: es.flatten) ∧
      c.opensFrameOf environment = true ∧
      es.count = environment.translation_size ∧
      (∃ k, environment.object_mapping.take k = es.mapping) ∧
      parseFields (es.flatten.length + 1) environment.translation_size es.flatten =
        some (es, []) := by
  simp only [LCodeGen.WriteTranslation] at h
  cases ho : cg.WriteTranslation outer with
  | none => simp [ho] at h
  | some cg2 =>
    simp only [ho] at h
    cases hb : (cg2.closureId environment).2.beginFrame environment (cg2.closureId environment).1
        environment.translation_size
        ((environment.translation_size : Int) - (environment.parameter_count : Int)) with
    | none => simp [hb] at h
    | some cg3 =>
      simp only [hb] at h
      cases hv : cg3.writeValues environment with
      | none => simp [hv] at h
      | some r =>
        simp only [hv, Option.map_some', Option.some.injEq] at h
        subst h
        obtain ⟨c, hc, hwc⟩ := beginFrame_writes _ _ _ _ hb
        obtain ⟨es, hp, hcount, hwv, hm⟩ := writeValues_entries _ _ _ hv
        refine ⟨cg2, c, es, rfl, ?_, hc, hcount, ⟨_, hm⟩, ?_⟩
        · simpa using Wrote.trans (Wrote.closureId cg2 environment) (Wrote.trans hwc hwv)
        · have := parseFields_flatten es hp [] (es.flatten.length + 1)
            (by rw [Entries.size_eq_length]; omega)
          rw [hcount, List.append_nil] at this
          exact this

/-- Witness of C4: the inner frame of the sample chain. -/
theorem WriteTranslation_translation_size_witness :
    sampleCodeGen.WriteTranslation [sampleEnvironment, sampleOuter] = some sampleWritten ∧
    ∃ (cg0 : LCodeGen) (c : Command) (es : Entries),
      sampleCodeGen.WriteTranslation [sampleOuter] = some cg0 ∧
      cg0.Wrote sampleWritten (c :: es.flatten) ∧
      c.opensFrameOf sampleEnvironment = true ∧
      es.count = sampleEnvironment.translation_size ∧
      (∃ k, sampleEnvironment.object_mapping.take k = es.mapping) ∧
      parseFields (es.flatten.length + 1) sampleEnvironment.translation_size es.flatten =
        some (es, []) :=
  ⟨by decide,
   WriteTranslation_translation_size sampleCodeGen sampleWritten sampleEnvironment [sampleOuter]
     (by decide)⟩

/-! ## Deoptimization guards -/

/-- Registration touches the translation buffer, the literals and the list of
registered environments only, and always leaves the environment registered. -/
theorem RegisterEnvironmentForDeoptimization_preserves (cg cg1 : LCodeGen)
    (environment environment1 : LEnvironment) (outer : List LEnvironment) (mode : DeoptMode)
    (h : cg.RegisterEnvironmentForDeoptimization environment outer mode = some (cg1, environment1)) :
    environment1.HasBeenRegistered = true ∧
    ∃ t l d, cg1 = { cg with translations_ := t, deoptimization_literals_ := l,
                             deoptimizations_ := d } := by
  cases hreg : environment.HasBeenRegistered with
  | true =>
    rw [RegisterEnvironmentForDeoptimization_registered cg environment outer mode hreg] at h
    simp only [Option.some.injEq, Prod.mk.injEq] at h
    obtain ⟨rfl, rfl⟩ := h
    exact ⟨hreg, cg.translations_, cg.deoptimization_literals_, cg.deoptimizations_, rfl⟩
  | false =>
    obtain ⟨frames, cg2, ⟨added, hcg2⟩, _, henv, hcg⟩ :=
      RegisterEnvironmentForDeoptimization_fresh cg cg1 environment environment1 outer mode hreg h
    subst hcg2
    exact ⟨by rw [henv]; rfl, _, _, _, hcg⟩

/-- The reuse test of the jump table: the table ends with the guard's triple
afterwards; it is unchanged when it ended with that triple before, and grows
by that triple otherwise. -/
theorem jumpTableFor_spec (cg : LCodeGen) (entry : Address) (bailout_type : BailoutType) :
    (cg.jumpTableFor entry bailout_type).getLast? = some (cg.tableEntry entry bailout_type) ∧
    (cg.deopt_jump_table_.getLast? = some (cg.tableEntry entry bailout_type) →
      cg.jumpTableFor entry bailout_type = cg.deopt_jump_table_) ∧
    (cg.deopt_jump_table_.getLast? ≠ some (cg.tableEntry entry bailout_type) →
      cg.jumpTableFor entry bailout_type =
        cg.deopt_jump_table_ ++ [cg.tableEntry entry bailout_type]) := by
  unfold LCodeGen.jumpTableFor LCodeGen.tableEntry
  cases hl : cg.deopt_jump_table_.getLast? with
  | none => simp
  | some last =>
    obtain ⟨a, b, n⟩ := last
    by_cases h1 : a = entry <;> by_cases h2 : b = bailout_type <;>
      cases n <;> cases hb : cg.frame_is_built_ <;> simp [h1, h2, hl]

/-- What `DeoptimizeIf` does on the jump-table path: the code generator it
leaves differs from the one it found in the registration data, the jump table
and the emitted code, which ends with the branch to the last table entry. -/
theorem DeoptimizeIf_table_path (G : Int → BailoutType → Option Address) (cg : LCodeGen)
    (cond : Condition) (environment : LEnvironment) (outer : List LEnvironment)
    (bailout_type : BailoutType) (entry : Address)
    (h : cg.TakesJumpTable G cond environment outer bailout_type entry) :
    ∃ (cg2 : LCodeGen) (environment1 : LEnvironment) (pre : List Instr),
      cg.DeoptimizeIf G cond environment outer bailout_type = some (cg2, environment1) ∧
      cg2.masm = cg.masm ++ pre ++ [.b cond (cg2.deopt_jump_table_.length - 1)] ∧
      cg2.deopt_jump_table_ = cg.jumpTableFor entry bailout_type ∧
      (cg.info.FLAG_deopt_every_n_times = 0 → cg.info.ShouldTrapOnDeopt = false → pre = []) ∧
      (cg.RegisterEnvironmentForDeoptimization environment outer .kNoLazyDeopt).map Prod.snd =
        some environment1 := by
  obtain ⟨⟨⟨cg1, environment1⟩, hr, hentry⟩, ha1, ha2, hpath⟩ := h
  obtain ⟨hreg, t, l, d, hcg1⟩ :=
    RegisterEnvironmentForDeoptimization_preserves cg cg1 environment environment1 outer _ hr
  have hfalse : (cond == Condition.al && cg.frame_is_built_ && !cg.info.saves_caller_doubles) =
      false := by
    cases hc : cond == Condition.al <;> cases hb : cg.frame_is_built_ <;>
      cases hs : cg.info.saves_caller_doubles <;> simp_all
  subst hcg1
  simp only at hentry
  by_cases hs : (cg.info.FLAG_deopt_every_n_times != 0 && !cg.info.IsStub) = true <;>
  by_cases ht : cg.info.ShouldTrapOnDeopt = true <;>
  · unfold LCodeGen.DeoptimizeIf
    simp only [hr, hreg, ha1, ha2, hentry, hfalse, hs, ht, Bool.not_true, Bool.false_eq_true,
      if_false, if_true, LCodeGen.emit]
    refine ⟨_, _,
      (if cg.info.FLAG_deopt_every_n_times != 0 && !cg.info.IsStub then
          stressDeoptCode cg.info.FLAG_deopt_every_n_times entry else []) ++
        (if cg.info.ShouldTrapOnDeopt then [.stop cond] else []), rfl, ?_, ?_, ?_, ?_⟩
    · simp [hs, ht]
    · rfl
    · intro h0 ht0
      simp_all
    · rfl

/-- C2.  Jump-table deduplication.  A guard that goes through the jump table
with entry address `entry` branches to the last table entry, which carries the
guard's triple (address, bailout type, needs_frame = not `frame_is_built_`):
the table is unchanged when it already ended with that triple, and otherwise
grows by exactly that entry.  For any later guard on the jump-table path, the
table having only grown in between: if the table is still the one the first
guard left and the triples are equal, the table stays as it is and both guards
branch to the same entry; if the triples differ, the two guards branch to
different entries. -/
theorem DeoptimizeIf_jump_table_deduplication (G : Int → BailoutType → Option Address)
    (cg : LCodeGen) (cond : Condition) (environment : LEnvironment) (outer : List LEnvironment)
    (bailout_type : BailoutType) (entry : Address)
    (h : cg.TakesJumpTable G cond environment outer bailout_type entry) :
    ∃ (cg2 : LCodeGen) (environment1 : LEnvironment) (i : Nat),
      cg.DeoptimizeIf G cond environment outer bailout_type = some (cg2, environment1) ∧
      cg2.masm.getLast? = some (.b cond i) ∧
      i + 1 = cg2.deopt_jump_table_.length ∧
      cg2.deopt_jump_table_[i]? = some (cg.tableEntry entry bailout_type) ∧
      (cg.deopt_jump_table_.getLast? = some (cg.tableEntry entry bailout_type) →
        cg2.deopt_jump_table_ = cg.deopt_jump_table_) ∧
      (cg.deopt_jump_table_.getLast? ≠ some (cg.tableEntry entry bailout_type) →
        cg2.deopt_jump_table_ = cg.deopt_jump_table_ ++ [cg.tableEntry entry bailout_type]) ∧
      ∀ (cg3 : LCodeGen) (cond3 : Condition) (environment3 : LEnvironment)
        (outer3 : List LEnvironment) (bailout_type3 : BailoutType) (entry3 : Address),
        cg3.TakesJumpTable G cond3 environment3 outer3 bailout_type3 entry3 →
        cg2.deopt_jump_table_ <+: cg3.deopt_jump_table_ →
        ∃ (cg4 : LCodeGen) (environment4 : LEnvironment) (j : Nat),
          cg3.DeoptimizeIf G cond3 environment3 outer3 bailout_type3 = some (cg4, environment4) ∧
          cg4.masm.getLast? = some (.b cond3 j) ∧
          (cg3.deopt_jump_table_ = cg2.deopt_jump_table_ →
            cg3.tableEntry entry3 bailout_type3 = cg.tableEntry entry bailout_type →
            cg4.deopt_jump_table_ = cg2.deopt_jump_table_ ∧ j = i) ∧
          (cg3.tableEntry entry3 bailout_type3 ≠ cg.tableEntry entry bailout_type → j ≠ i) := by
  obtain ⟨cg2, environment1, pre, hd, hm, ht, _, _⟩ :=
    DeoptimizeIf_table_path G cg cond environment outer bailout_type entry h
  obtain ⟨hlast, hsame, hnew⟩ := jumpTableFor_spec cg entry bailout_type
  rw [← ht] at hlast hsame hnew
  have hne : cg2.deopt_jump_table_ ≠ [] := by
    intro hnil
    rw [hnil] at hlast
    simp at hlast
  have hlen : 0 < cg2.deopt_jump_table_.length := List.length_pos.2 hne
  have hi : cg2.deopt_jump_table_[cg2.deopt_jump_table_.length - 1]? =
      some (cg.tableEntry entry bailout_type) := by
    rw [← List.getLast?_eq_getElem?]; exact hlast
  refine ⟨cg2, environment1, cg2.deopt_jump_table_.length - 1, hd, by simp [hm], by omega, hi,
    hsame, hnew, ?_⟩
  intro cg3 cond3 environment3 outer3 bailout_type3 entry3 h3 hpre
  obtain ⟨cg4, environment4, pre3, hd3, hm3, ht3, _, _⟩ :=
    DeoptimizeIf_table_path G cg3 cond3 environment3 outer3 bailout_type3 entry3 h3
  obtain ⟨hlast3, hsame3, hnew3⟩ := jumpTableFor_spec cg3 entry3 bailout_type3
  rw [← ht3] at hlast3 hsame3 hnew3
  refine ⟨cg4, environment4, cg4.deopt_jump_table_.length - 1, hd3, by simp [hm3], ?_, ?_⟩
  · intro htab htrip
    have : cg4.deopt_jump_table_ = cg3.deopt_jump_table_ := by
      apply hsame3
      rw [htab, htrip]
      exact hlast
    rw [this, htab]
    exact ⟨rfl, rfl⟩
  · intro hdiff hji
    have hj : cg4.deopt_jump_table_[cg4.deopt_jump_table_.length - 1]? =
        some (cg3.tableEntry entry3 bailout_type3) := by
      rw [← List.getLast?_eq_getElem?]; exact hlast3
    have hpre4 : cg2.deopt_jump_table_ <+: cg4.deopt_jump_table_ := by
      by_cases hc : cg3.deopt_jump_table_.getLast? = some (cg3.tableEntry entry3 bailout_type3)
      · rw [hsame3 hc]; exact hpre
      · rw [hnew3 hc]; exact hpre.trans (List.prefix_append _ _)
    obtain ⟨rest, hrest⟩ := hpre4
    have hi4 : cg4.deopt_jump_table_[cg2.deopt_jump_table_.length - 1]? =
        some (cg.tableEntry entry bailout_type) := by
      rw [← hrest, List.getElem?_append_left (by omega)]
      exact hi
    rw [hji, hi4] at hj
    exact hdiff (Option.some.inj hj).symm

/-- Witness of C2: a guard on condition `eq` in the sample code generator,
whose jump table is empty. -/
theorem DeoptimizeIf_jump_table_deduplication_witness :
    sampleCodeGen.TakesJumpTable sampleEntries .eq sampleEnvironment [sampleOuter] .EAGER 1000 ∧
    ∃ (cg2 : LCodeGen) (environment1 : LEnvironment) (i : Nat),
      sampleCodeGen.DeoptimizeIf sampleEntries .eq sampleEnvironment [sampleOuter] .EAGER =
        some (cg2, environment1) ∧
      cg2.masm.getLast? = some (.b .eq i) ∧
      i + 1 = cg2.deopt_jump_table_.length ∧
      cg2.deopt_jump_table_[i]? = some (sampleCodeGen.tableEntry 1000 .EAGER) :=
  have hyp : sampleCodeGen.TakesJumpTable sampleEntries .eq sampleEnvironment [sampleOuter]
      .EAGER 1000 :=
    ⟨⟨(sampleCodeGenGuarded, sampleGuarded), by decide, by decide⟩, by decide, by decide, by decide⟩
  ⟨hyp,
   match DeoptimizeIf_jump_table_deduplication sampleEntries sampleCodeGen .eq sampleEnvironment
      [sampleOuter] .EAGER 1000 hyp with
   | ⟨cg2, environment1, i, h1, h2, h3, h4, _⟩ => ⟨cg2, environment1, i, h1, h2, h3, h4⟩⟩

/-- C9.  With the stress and trap flags off and the entry address found:
when the condition is `al`, the frame is built and caller doubles are not
saved, `DeoptimizeIf` emits the direct call to the entry and nothing else, and
leaves the jump table as it was; in every other case it emits the conditional
branch to the last jump-table entry and nothing else, so no direct call. -/
theorem DeoptimizeIf_direct_call (G : Int → BailoutType → Option Address) (cg : LCodeGen)
    (cond : Condition) (environment : LEnvironment) (outer : List LEnvironment)
    (bailout_type : BailoutType) (entry : Address) (r : LCodeGen × LEnvironment)
    (hstress : cg.info.FLAG_deopt_every_n_times = 0) (htrap : cg.info.ShouldTrapOnDeopt = false)
    (hr : cg.RegisterEnvironmentForDeoptimization environment outer .kNoLazyDeopt = some r)
    (hentry : G r.2.deoptimization_index bailout_type = some entry)
    (ha1 : (cg.info.IsOptimizing || cg.info.IsStub) = true)
    (ha2 : (cg.info.IsStub || cg.frame_is_built_) = true) :
    ∃ cg2 : LCodeGen,
      cg.DeoptimizeIf G cond environment outer bailout_type = some (cg2, r.2) ∧
      ((cond = .al ∧ cg.frame_is_built_ = true ∧ cg.info.saves_caller_doubles = false) →
        cg2.masm = cg.masm ++ [.Call entry] ∧ cg2.deopt_jump_table_ = cg.deopt_jump_table_) ∧
      (¬ (cond = .al ∧ cg.frame_is_built_ = true ∧ cg.info.saves_caller_doubles = false) →
        cg2.masm = cg.masm ++ [.b cond (cg2.deopt_jump_table_.length - 1)] ∧
        cg2.deopt_jump_table_.getLast? = some (cg.tableEntry entry bailout_type)) := by
  by_cases hpath : cond = .al ∧ cg.frame_is_built_ = true ∧ cg.info.saves_caller_doubles = false
  · obtain ⟨cg1, environment1⟩ := r
    obtain ⟨hreg, t, l, d, hcg1⟩ :=
      RegisterEnvironmentForDeoptimization_preserves cg cg1 environment environment1 outer _ hr
    subst hcg1
    simp only at hentry
    have htrue : (cond == Condition.al && cg.frame_is_built_ && !cg.info.saves_caller_doubles) =
        true := by
      obtain ⟨hc, hb, hs⟩ := hpath
      simp [hc, hb, hs]
    have hstress' : (cg.info.FLAG_deopt_every_n_times != 0 && !cg.info.IsStub) = false := by
      simp [hstress]
    unfold LCodeGen.DeoptimizeIf
    simp only [hr, hreg, ha1, ha2, hentry, hstress', htrap, htrue, Bool.not_true,
      Bool.false_eq_true, if_false, LCodeGen.emit, if_true]
    exact ⟨_, rfl, fun _ => ⟨rfl, rfl⟩, fun hn => absurd hpath hn⟩
  · obtain ⟨cg2, environment1, pre, hd, hm, ht, hpre, henv⟩ :=
      DeoptimizeIf_table_path G cg cond environment outer bailout_type entry
        ⟨⟨r, hr, hentry⟩, ha1, ha2, hpath⟩
    rw [hr] at henv
    simp only [Option.map_some', Option.some.injEq] at henv
    subst henv
    refine ⟨cg2, hd, fun hp => absurd hp hpath, fun _ => ⟨?_, ?_⟩⟩
    · rw [hm, hpre hstress htrap]; simp
    · rw [ht]; exact (jumpTableFor_spec cg entry bailout_type).1

/-- Witness of C9: an unconditional guard in the sample code generator, whose
frame is built and which saves no caller doubles. -/
theorem DeoptimizeIf_direct_call_witness :
    ∃ cg2 : LCodeGen,
      sampleCodeGen.DeoptimizeIf sampleEntries .al sampleEnvironment [sampleOuter] .EAGER =
        some (cg2, sampleGuarded) ∧
      cg2.masm = sampleCodeGen.masm ++ [.Call 1000] ∧
      cg2.deopt_jump_table_ = sampleCodeGen.deopt_jump_table_ :=
  match DeoptimizeIf_direct_call sampleEntries sampleCodeGen .al sampleEnvironment [sampleOuter]
      .EAGER 1000 (sampleCodeGenGuarded, sampleGuarded) (by decide) (by decide) (by decide)
      (by decide) (by decide) (by decide) with
  | ⟨cg2, h1, h2, _⟩ => ⟨cg2, h1, (h2 (by decide)).1, (h2 (by decide)).2⟩

/-! ## Safepoints -/

theorem foldl_markPointer (kind : SafepointKind) (operands : List LOperand) :
    ∀ safepoint : Safepoint,
      operands.foldl (markPointer kind) safepoint =
        { safepoint with
          indexes := safepoint.indexes ++
            (operands.filter LOperand.IsStackSlot).map LOperand.index,
          registers := safepoint.registers ++
            (if kind.hasRegisters then
              (operands.filter LOperand.IsRegister).map (fun op => .allocated op.index)
             else []) } := by
  induction operands with
  | nil => intro safepoint; cases hk : kind.hasRegisters <;> simp
  | cons op rest ih =>
    intro safepoint
    rw [List.foldl_cons, ih]
    obtain ⟨k, i⟩ := op
    cases k <;> cases hk : kind.hasRegisters <;>
      simp [markPointer, LOperand.IsStackSlot, LOperand.IsRegister, Safepoint.DefinePointerSlot,
        Safepoint.DefinePointerRegister, hk, List.filter_cons]

/-- The row `RecordSafepoint` adds when its kind assertion holds. -/
theorem RecordSafepoint_row (cg : LCodeGen) (pointers : LPointerMap) (kind : SafepointKind)
    (arguments : Int) (deopt_mode : DeoptMode) (hk : cg.expected_safepoint_kind_ = kind) :
    cg.RecordSafepoint pointers kind arguments deopt_mode =
      some { cg with safepoints_ := cg.safepoints_ ++
        [cg.safepointRow cg.pc_offset pointers kind arguments deopt_mode] } := by
  unfold LCodeGen.RecordSafepoint LCodeGen.safepointRow
  simp only [hk, bne_self_eq_false, Bool.false_eq_true, if_false, foldl_markPointer,
    DefineSafepoint, LPointerMap.slotIndices, LPointerMap.registerOperands, List.nil_append]
  cases hr : kind.hasRegisters <;> cases ho : cg.info.V8_OOL_CONSTANT_POOL <;>
    simp [Safepoint.DefinePointerRegister]

/-- C6.  When its kind assertion holds, `RecordSafepoint(pointers, kind,
arguments, deopt_mode)` adds one safepoint, at the current code offset.  Its
pointer slots are exactly the indices of the stack-slot operands of the
normalized pointer map.  Its pointer registers are the registers of the
register operands of the map when the kind includes the with-registers bit,
and none of them when it does not; the only other register ever marked is the
constant pool register of a `V8_OOL_CONSTANT_POOL` build, which is no operand
of the map.  Operands of the other kinds mark nothing.  With an empty pointer
map no location is marked, by `RecordSafepoint(deopt_mode)`, which builds the
empty map, and by the general function whenever the constant pool register is
not in play. -/
theorem RecordSafepoint_marks (cg : LCodeGen) (pointers : LPointerMap) (kind : SafepointKind)
    (arguments : Int) (deopt_mode : DeoptMode) (hk : cg.expected_safepoint_kind_ = kind) :
    ∃ safepoint : Safepoint,
      cg.RecordSafepoint pointers kind arguments deopt_mode =
        some { cg with safepoints_ := cg.safepoints_ ++ [safepoint] } ∧
      safepoint.pc = cg.pc_offset ∧ safepoint.kind = kind ∧ safepoint.arguments = arguments ∧
      safepoint.deopt_mode = deopt_mode ∧
      safepoint.indexes =
        (pointers.normalized_operands.filter LOperand.IsStackSlot).map LOperand.index ∧
      (∀ op ∈ pointers.normalized_operands, op.IsRegister = true →
        (PointerRegister.allocated op.index ∈ safepoint.registers ↔ kind.hasRegisters = true)) ∧
      (∀ reg ∈ safepoint.registers, reg = .kConstantPoolRegister ∨
        ∃ op ∈ pointers.normalized_operands, op.IsRegister = true ∧ reg = .allocated op.index) ∧
      (.kConstantPoolRegister ∈ safepoint.registers ↔
        (cg.info.V8_OOL_CONSTANT_POOL = true ∧ kind.hasRegisters = true)) ∧
      (pointers.normalized_operands = [] →
        (cg.info.V8_OOL_CONSTANT_POOL = false ∨ kind.hasRegisters = false) →
        safepoint.indexes = [] ∧ safepoint.registers = []) ∧
      (kind = .kSimple →
        cg.RecordSafepointEmpty deopt_mode =
          some { cg with safepoints_ := cg.safepoints_ ++
            [{ pc := cg.pc_offset, kind := .kSimple, arguments := 0, deopt_mode := deopt_mode,
               indexes := [], registers := [] }] }) := by
  refine ⟨_, RecordSafepoint_row cg pointers kind arguments deopt_mode hk, rfl, rfl, rfl, rfl, rfl,
    ?_, ?_, ?_, ?_, ?_⟩
  · intro op hop hreg
    cases hr : kind.hasRegisters <;> cases ho : cg.info.V8_OOL_CONSTANT_POOL <;>
      simp [LCodeGen.safepointRow, LPointerMap.registerOperands, hr, ho]
    all_goals exact ⟨op, ⟨hop, hreg⟩, rfl⟩
  · intro reg hmem
    simp only [LCodeGen.safepointRow, List.mem_append] at hmem
    rcases hmem with hmem | hmem
    · right
      split_ifs at hmem with hr
      · simp only [LPointerMap.registerOperands, List.mem_map, List.mem_filter] at hmem
        obtain ⟨op, ⟨h1, h2⟩, h3⟩ := hmem
        exact ⟨op, h1, h2, h3.symm⟩
      · simp at hmem
    · left
      split_ifs at hmem
      · simpa using hmem
      · simp at hmem
  · cases hr : kind.hasRegisters <;> cases ho : cg.info.V8_OOL_CONSTANT_POOL <;>
      simp [LCodeGen.safepointRow, LPointerMap.registerOperands, hr, ho]
  · intro hnil hor
    rcases hor with ho | hr
    · cases hr : kind.hasRegisters <;>
        simp [LCodeGen.safepointRow, LPointerMap.registerOperands, LPointerMap.slotIndices, hr, ho,
          hnil]
    · simp [LCodeGen.safepointRow, LPointerMap.slotIndices, hr, hnil]
  · intro hs
    subst hs
    unfold LCodeGen.RecordSafepointEmpty LCodeGen.RecordSafepointSimple
    rw [RecordSafepoint_row _ _ _ _ _ hk]
    simp [LCodeGen.safepointRow, LPointerMap.slotIndices, SafepointKind.hasRegisters]

/-- Witness of C6: a with-registers safepoint for the sample pointer map. -/
theorem RecordSafepoint_marks_witness :
    ∃ safepoint : Safepoint,
      LCodeGen.RecordSafepoint { sampleCodeGen with expected_safepoint_kind_ := .kWithRegisters }
        samplePointers .kWithRegisters 2 .kNoLazyDeopt =
        some { sampleCodeGen with expected_safepoint_kind_ := .kWithRegisters,
                                  safepoints_ := [safepoint] } ∧
      safepoint.pc = 3 ∧ safepoint.indexes = [4, -1] ∧
      safepoint.registers = [.allocated 3, .allocated 5] :=
  match RecordSafepoint_marks { sampleCodeGen with expected_safepoint_kind_ := .kWithRegisters }
      samplePointers .kWithRegisters 2 .kNoLazyDeopt rfl with
  | ⟨safepoint, h1, h2, _, _, _, h3, _⟩ =>
    have h4 : safepoint = LCodeGen.safepointRow
        { sampleCodeGen with expected_safepoint_kind_ := .kWithRegisters } 3 samplePointers
        .kWithRegisters 2 .kNoLazyDeopt := by
      have h5 := RecordSafepoint_row
        { sampleCodeGen with expected_safepoint_kind_ := .kWithRegisters } samplePointers
        .kWithRegisters 2 .kNoLazyDeopt rfl
      rw [h5] at h1
      simp only [Option.some.injEq, LCodeGen.mk.injEq, List.append_cancel_left_eq,
        List.cons.injEq, and_true, true_and] at h1
      exact h1.symm
    ⟨safepoint, h1, h2, h3, by rw [h4]; decide⟩

/-- C7.  Each of `CallCodeGeneric`, `CallCode` and `CallRuntime`, when its
assertions hold, emits the call and adds exactly one safepoint, keyed by the
code offset right after the call, so before any other instruction: a
lazy-deopt safepoint built from the pointer map of the calling instruction,
simple, or with registers and zero arguments when the safepoint mode asks for
registers.  The only instruction that can follow is the `nop` that
`CallCodeGeneric` emits after the safepoint for the two inline-cache kinds. -/
theorem Call_records_safepoint (cg : LCodeGen) (code : Code) (mode : Nat) (instr : LInstruction)
    (safepoint_mode : SafepointMode) (function : Nat) (num_arguments : Int) (save_doubles : Bool) :
    (cg.expected_safepoint_kind_ = safepoint_mode.kind →
      cg.CallCodeGeneric code mode (some instr) safepoint_mode =
        some { cg with
          masm := cg.masm ++ [.CallCode code.id mode] ++
            (if code.kind == .BINARY_OP_IC || code.kind == .COMPARE_IC then [.nop] else []),
          safepoints_ := cg.safepoints_ ++
            [cg.safepointRow (cg.pc_offset + 1) instr.pointer_map safepoint_mode.kind 0
              .kLazyDeopt] }) ∧
    (cg.expected_safepoint_kind_ = .kSimple →
      cg.CallCode code mode (some instr) =
        some { cg with
          masm := cg.masm ++ [.CallCode code.id mode] ++
            (if code.kind == .BINARY_OP_IC || code.kind == .COMPARE_IC then [.nop] else []),
          safepoints_ := cg.safepoints_ ++
            [cg.safepointRow (cg.pc_offset + 1) instr.pointer_map .kSimple 0 .kLazyDeopt] }) ∧
    (cg.expected_safepoint_kind_ = .kSimple →
      cg.CallRuntime function num_arguments (some instr) save_doubles =
        some { cg with
          masm := cg.masm ++ [.CallRuntime function num_arguments save_doubles],
          safepoints_ := cg.safepoints_ ++
            [cg.safepointRow (cg.pc_offset + 1) instr.pointer_map .kSimple 0 .kLazyDeopt] }) := by
  have key : ∀ (i : Instr) (sm : SafepointMode), cg.expected_safepoint_kind_ = sm.kind →
      (cg.emit i).RecordSafepointWithLazyDeopt instr sm =
        some { cg with masm := cg.masm ++ [i],
                       safepoints_ := cg.safepoints_ ++
                         [cg.safepointRow (cg.pc_offset + 1) instr.pointer_map sm.kind 0
                           .kLazyDeopt] } := by
    intro i sm hk
    cases sm
    · unfold LCodeGen.RecordSafepointWithLazyDeopt LCodeGen.RecordSafepointSimple
      simp only [beq_self_eq_true, if_true]
      rw [RecordSafepoint_row _ _ _ _ _ (by simpa [LCodeGen.emit] using hk)]
      simp [LCodeGen.emit, LCodeGen.safepointRow, LCodeGen.pc_offset, SafepointMode.kind]
    · unfold LCodeGen.RecordSafepointWithLazyDeopt LCodeGen.RecordSafepointWithRegisters
      simp only [reduceCtorEq, beq_iff_eq, if_false, bne_self_eq_false, Bool.false_eq_true]
      rw [RecordSafepoint_row _ _ _ _ _ (by simpa [LCodeGen.emit] using hk)]
      simp [LCodeGen.emit, LCodeGen.safepointRow, LCodeGen.pc_offset, SafepointMode.kind]
  have generic : ∀ sm : SafepointMode, cg.expected_safepoint_kind_ = sm.kind →
      cg.CallCodeGeneric code mode (some instr) sm =
        some { cg with
          masm := cg.masm ++ [.CallCode code.id mode] ++
            (if code.kind == .BINARY_OP_IC || code.kind == .COMPARE_IC then [.nop] else []),
          safepoints_ := cg.safepoints_ ++
            [cg.safepointRow (cg.pc_offset + 1) instr.pointer_map sm.kind 0 .kLazyDeopt] } := by
    intro sm hk
    unfold LCodeGen.CallCodeGeneric
    simp only [key _ sm hk]
    split_ifs <;> simp [LCodeGen.emit]
  refine ⟨generic safepoint_mode, fun hk => generic .RECORD_SIMPLE_SAFEPOINT hk, fun hk => ?_⟩
  unfold LCodeGen.CallRuntime
  exact key _ .RECORD_SIMPLE_SAFEPOINT hk

/-- Witness of C7: a call of a compare inline cache from the sample code
generator, three instructions into the code. -/
theorem Call_records_safepoint_witness :
    sampleCodeGen.CallCode { id := 11, kind := .COMPARE_IC } 0 (some { pointer_map := samplePointers }) =
      some { sampleCodeGen with
        masm := [.nop, .nop, .nop, .CallCode 11 0, .nop],
        safepoints_ := [{ pc := 4, kind := .kSimple, arguments := 0, deopt_mode := .kLazyDeopt,
                          indexes := [4, -1], registers := [] }] } :=
  (Call_records_safepoint sampleCodeGen { id := 11, kind := .COMPARE_IC } 0
    { pointer_map := samplePointers } .RECORD_SIMPLE_SAFEPOINT 0 0 false).2.1 rfl

/-! ## The pass -/

theorem asm_status (cg : LCodeGen) (name : Mnemonic) (operands : List Int) :
    (cg.asm name operands).status_ = cg.status_ := rfl

theorem emitAll_status (cg : LCodeGen) (code : List Instr) : (cg.emitAll code).status_ = cg.status_ :=
  rfl

theorem prologueEntry_status (cg : LCodeGen) : cg.prologueEntry.status_ = cg.status_ := by
  unfold LCodeGen.prologueEntry
  simp only []
  split_ifs <;> rfl

theorem prologueFrame_status (cg : LCodeGen) : cg.prologueFrame.status_ = cg.status_ := by
  unfold LCodeGen.prologueFrame
  simp only []
  split_ifs <;> rfl

theorem prologueSlots_status (cg : LCodeGen) : cg.prologueSlots.status_ = cg.status_ := by
  unfold LCodeGen.prologueSlots
  simp only []
  split_ifs <;> rfl

theorem SaveCallerDoubles_status (cg cg1 : LCodeGen) (h : cg.SaveCallerDoubles = some cg1) :
    cg1.status_ = cg.status_ := by
  unfold LCodeGen.SaveCallerDoubles at h
  split_ifs at h
  cases h
  rfl

theorem RestoreCallerDoubles_status (cg cg1 : LCodeGen) (h : cg.RestoreCallerDoubles = some cg1) :
    cg1.status_ = cg.status_ := by
  unfold LCodeGen.RestoreCallerDoubles at h
  split_ifs at h
  cases h
  rfl

theorem RecordSafepoint_status (cg cg1 : LCodeGen) (pointers : LPointerMap) (kind : SafepointKind)
    (arguments : Int) (deopt_mode : DeoptMode)
    (h : cg.RecordSafepoint pointers kind arguments deopt_mode = some cg1) :
    cg1.status_ = cg.status_ := by
  unfold LCodeGen.RecordSafepoint at h
  simp only [] at h
  split_ifs at h
  all_goals
    cases h
    rfl

theorem allocateLocalContext_status (cg cg1 : LCodeGen) (heap_slots : Int)
    (h : cg.allocateLocalContext heap_slots = some cg1) : cg1.status_ = cg.status_ := by
  unfold LCodeGen.allocateLocalContext at h
  simp only [] at h
  split at h
  · cases h
  · rename_i cg2 hs
    cases h
    have := RecordSafepoint_status _ _ _ _ _ _ hs
    simp only [emitAll_status, asm_status, this]
    split_ifs <;> rfl

/-- `GeneratePrologue` never writes the status: it returns `true` and leaves
the pass `GENERATING`. -/
theorem GeneratePrologue_status (cg : LCodeGen) (r : Bool × LCodeGen)
    (h : cg.GeneratePrologue = some r) :
    cg.status_ = .GENERATING ∧ r.1 = true ∧ r.2.status_ = .GENERATING := by
  unfold LCodeGen.GeneratePrologue at h
  split_ifs at h with hg
  have hgen : cg.status_ = .GENERATING := by simpa using hg
  simp only [] at h
  have h4 : cg.prologueEntry.prologueFrame.prologueSlots.status_ = .GENERATING := by
    rw [prologueSlots_status, prologueFrame_status, prologueEntry_status, hgen]
  split at h
  · cases h
  · rename_i cg5 h5
    have hs5 : cg5.status_ = .GENERATING := by
      split_ifs at h5
      · rw [SaveCallerDoubles_status _ _ h5, h4]
      · cases h5; exact h4
    split at h
    · cases h
    · rename_i cg6 h6
      have hs6 : cg6.status_ = .GENERATING := by
        split_ifs at h6
        · rw [allocateLocalContext_status _ _ _ h6, hs5]
        · cases h6; exact hs5
      cases h
      refine ⟨hgen, ?_, ?_⟩
      · split_ifs <;> simp [LCodeGen.is_aborted, asm_status, hs6]
      · split_ifs <;> simp [asm_status, hs6]

theorem buildDeferredFrame_status (cg cg1 : LCodeGen) (h : cg.buildDeferredFrame = some cg1) :
    cg1.status_ = cg.status_ := by
  unfold LCodeGen.buildDeferredFrame at h
  split_ifs at h <;> cases h <;> rfl

theorem destroyDeferredFrame_status (cg cg1 : LCodeGen) (h : cg.destroyDeferredFrame = some cg1) :
    cg1.status_ = cg.status_ := by
  unfold LCodeGen.destroyDeferredFrame at h
  split_ifs at h <;> cases h <;> rfl

theorem deferredLoop_status (h : Collaborators) (hh : h.AbortOnly) (codes : List LDeferredCode) :
    ∀ (cg cg1 : LCodeGen), LCodeGen.deferredLoop h codes cg = some cg1 →
      cg1.status_ = cg.status_ ∨ cg1.status_ = .ABORTED := by
  induction codes with
  | nil =>
    intro cg cg1 hl
    simp only [LCodeGen.deferredLoop, Option.some.injEq] at hl
    subst hl
    exact Or.inl rfl
  | cons code rest ih =>
    intro cg cg1 hl
    simp only [LCodeGen.deferredLoop] at hl
    split at hl
    · cases hl; exact Or.inl rfl
    · split at hl
      · cases hl
      · rename_i cg3 h3
        have hs3 : cg3.status_ = cg.status_ := by
          rw [buildDeferredFrame_status _ _ h3, asm_status]
          split_ifs <;> rfl
        split at hl
        · cases hl
        · rename_i cg5 h5
          have hs5 := destroyDeferredFrame_status _ _ h5
          rcases ih _ _ hl with h1 | h1
          · rw [asm_status, hs5] at h1
            rcases hh.2 code cg3 with h2 | h2
            · left; rw [h1, h2, hs3]
            · right; rw [h1, h2]
          · right; exact h1

theorem restoreForJump_status (cg cg1 : LCodeGen) (h : cg.restoreForJump = some cg1) :
    cg1.status_ = cg.status_ := by
  unfold LCodeGen.restoreForJump at h
  split_ifs at h
  · exact RestoreCallerDoubles_status _ _ h
  · cases h; rfl

theorem jumpTableLoop_status (entries : List JumpTableEntry) :
    ∀ (i : Nat) (bound : Bool) (cg cg1 : LCodeGen),
      LCodeGen.jumpTableLoop entries i bound cg = some cg1 → cg1.status_ = cg.status_ := by
  induction entries with
  | nil =>
    intro i bound cg cg1 hl
    simp only [LCodeGen.jumpTableLoop, Option.some.injEq] at hl
    subst hl
    rfl
  | cons e rest ih =>
    intro i bound cg cg1 hl
    simp only [LCodeGen.jumpTableLoop] at hl
    split at hl
    · split_ifs at hl
      · have := ih _ _ _ _ hl
        exact this
      · have := ih _ _ _ _ hl
        exact this
    · split at hl
      · cases hl
      · rename_i cg2 h2
        have h3 := ih _ _ _ _ hl
        rw [h3, asm_status, restoreForJump_status _ _ h2]
        rfl

/-- C8.  The pass state machine.  `GenerateCode` asserts the status `UNUSED`
and sets `GENERATING`; the prologue runs first and leaves the status alone.
The body runs next: if it ends `ABORTED`, `GenerateCode` returns `false` with
the code generator as the body left it, so no later phase ran.  Otherwise the
deferred code runs: if it ends `ABORTED`, `GenerateCode` returns `false` with
the code generator as the deferred code left it.  Otherwise the status is
still `GENERATING`, the jump table runs and sets `DONE`, and the safepoint
table runs on a `DONE` pass and ends it.  The status is `DONE` at the end if
and only if `GenerateCode` returns `true`, and it is `ABORTED` otherwise. -/
theorem GenerateCode_state_machine (h : Collaborators) (hh : h.AbortOnly) (cg : LCodeGen)
    (r : Bool × LCodeGen) (hr : cg.GenerateCode h = some r) :
    cg.status_ = .UNUSED ∧
    (r.1 = true ↔ r.2.status_ = .DONE) ∧
    (r.1 = false ↔ r.2.status_ = .ABORTED) ∧
    ∃ p : LCodeGen,
      LCodeGen.GeneratePrologue { cg with status_ := .GENERATING } = some (true, p) ∧
      p.status_ = .GENERATING ∧
      ((h.GenerateBody p).status_ = .ABORTED → r = (false, h.GenerateBody p)) ∧
      ((h.GenerateBody p).status_ ≠ .ABORTED →
        (h.GenerateBody p).status_ = .GENERATING ∧
        ∃ d : LCodeGen,
          LCodeGen.GenerateDeferredCode h (h.GenerateBody p) = some (!d.is_aborted, d) ∧
          (d.status_ = .ABORTED → r = (false, d)) ∧
          (d.status_ ≠ .ABORTED →
            d.status_ = .GENERATING ∧
            ∃ j : LCodeGen,
              d.GenerateDeoptJumpTable = some (true, j) ∧ j.status_ = .DONE ∧
              j.GenerateSafepointTable = some r ∧ r.1 = true)) := by
  unfold LCodeGen.GenerateCode at hr
  split_ifs at hr with hu
  have hunused : cg.status_ = .UNUSED := by simpa using hu
  simp only [] at hr
  cases hp : LCodeGen.GeneratePrologue { cg with status_ := .GENERATING } with
  | none => simp [hp, andThen] at hr
  | some pr =>
    obtain ⟨pb, p⟩ := pr
    obtain ⟨_, hpb, hps⟩ := GeneratePrologue_status _ _ hp
    simp only at hpb hps
    subst hpb
    simp only [hp, andThen, LCodeGen.GenerateBody] at hr
    have hbody := hh.1 p
    rw [hps] at hbody
    by_cases hba : (h.GenerateBody p).status_ = .ABORTED
    · have hab : (h.GenerateBody p).is_aborted = true := by simp [LCodeGen.is_aborted, hba]
      simp only [hab, Bool.not_true, Option.some.injEq] at hr
      subst hr
      refine ⟨hunused, by simp [hba], by simp [hba], p, rfl, hps, fun _ => rfl,
        fun hn => absurd hba hn⟩
    · have hbg : (h.GenerateBody p).status_ = .GENERATING := by
        rcases hbody with h1 | h1
        · exact h1
        · exact absurd h1 hba
      have hab : (h.GenerateBody p).is_aborted = false := by simp [LCodeGen.is_aborted, hbg]
      simp only [hab, Bool.not_false] at hr
      unfold LCodeGen.GenerateDeferredCode at hr
      simp only [hbg, bne_self_eq_false, Bool.false_eq_true, if_false] at hr
      cases hd : LCodeGen.deferredLoop h (h.GenerateBody p).deferred_ (h.GenerateBody p) with
      | none => simp [hd] at hr
      | some d =>
        simp only [hd] at hr
        have hds := deferredLoop_status h hh _ _ _ hd
        rw [hbg] at hds
        have hdef : LCodeGen.GenerateDeferredCode h (h.GenerateBody p) =
            some (!d.is_aborted, d) := by
          unfold LCodeGen.GenerateDeferredCode
          simp [hbg, hd]
        by_cases hda : d.status_ = .ABORTED
        · have hdab : d.is_aborted = true := by simp [LCodeGen.is_aborted, hda]
          simp only [hdab, Bool.not_true, Option.some.injEq] at hr
          subst hr
          refine ⟨hunused, by simp [hda], by simp [hda], p, rfl, hps,
            fun hn => absurd hn hba, fun _ => ⟨hbg, d, hdef, fun _ => rfl,
              fun hn => absurd hda hn⟩⟩
        · have hdg : d.status_ = .GENERATING := by
            rcases hds with h1 | h1
            · exact h1
            · exact absurd h1 hda
          have hdab : d.is_aborted = false := by simp [LCodeGen.is_aborted, hdg]
          simp only [hdab, Bool.not_false] at hr
          cases hj : LCodeGen.jumpTableLoop d.deopt_jump_table_ 0 false d with
          | none => simp [LCodeGen.GenerateDeoptJumpTable, hj] at hr
          | some j =>
            have hjs : j.status_ = .GENERATING := by
              rw [jumpTableLoop_status _ _ _ _ _ hj, hdg]
            have hjt : d.GenerateDeoptJumpTable = some (true, { j with status_ := .DONE }) := by
              unfold LCodeGen.GenerateDeoptJumpTable
              simp [hj, LCodeGen.is_aborted, hjs]
            simp only [hjt] at hr
            have hst : r = (true, ({ j with status_ := .DONE } : LCodeGen).asm
                .SafepointTable_Emit [j.info.GetStackSlotCount]) := by
              unfold LCodeGen.GenerateSafepointTable at hr
              simpa [LCodeGen.is_aborted, asm_status, eq_comm] using hr
            refine ⟨hunused, by simp [hst, asm_status], by simp [hst, asm_status], p, rfl, hps,
              fun hn => absurd hn hba, fun _ => ⟨hbg, d, hdef, fun hn => absurd hn hda,
                fun _ => ⟨hdg, _, hjt, rfl, hr, by simp [hst]⟩⟩⟩

/-- Witness of C8: a pass that runs to `DONE` and a pass whose body aborts. -/
theorem GenerateCode_state_machine_witness :
    (∃ r, sampleUnused.GenerateCode sampleCollaborators = some r ∧ r.1 = true ∧
      r.2.status_ = .DONE) ∧
    (∃ r, sampleUnused.GenerateCode abortingCollaborators = some r ∧ r.1 = false ∧
      r.2.status_ = .ABORTED) :=
  ⟨match hg : sampleUnused.GenerateCode sampleCollaborators with
    | some r =>
      have hs := GenerateCode_state_machine sampleCollaborators
        ⟨fun _ => Or.inl rfl, fun _ _ => Or.inl rfl⟩ sampleUnused r hg
      have hd : r.1 = true := by
        have h1 : (sampleUnused.GenerateCode sampleCollaborators).map Prod.fst = some true := by
          decide
        rw [hg] at h1
        simpa using h1
      ⟨r, rfl, hd, hs.2.1.1 hd⟩
    | none => absurd hg (by decide),
   match hg : sampleUnused.GenerateCode abortingCollaborators with
    | some r =>
      have hs := GenerateCode_state_machine abortingCollaborators
        ⟨fun _ => Or.inr rfl, fun _ _ => Or.inl rfl⟩ sampleUnused r hg
      have hd : r.1 = false := by
        have h1 : (sampleUnused.GenerateCode abortingCollaborators).map Prod.fst = some false := by
          decide
        rw [hg] at h1
        simpa using h1
      ⟨r, rfl, hd, hs.2.2.1.1 hd⟩
    | none => absurd hg (by decide)⟩

/-! ## Round trip of a translation -/

theorem listAt_cons {α : Type} {xs : List α} {p : Nat} {a : α} {l : List α}
    (h : listAt xs p (a :: l)) : xs[p]? = some a ∧ listAt xs (p + 1) l := by
  refine ⟨by simpa using h 0 (by simp), fun j hj => ?_⟩
  have := h (j + 1) (by simp; omega)
  simpa [Nat.add_assoc, Nat.add_comm 1 j] using this

theorem listAt_append {α : Type} {xs : List α} {p : Nat} {l1 l2 : List α}
    (h : listAt xs p (l1 ++ l2)) : listAt xs p l1 ∧ listAt xs (p + l1.length) l2 := by
  refine ⟨fun j hj => ?_, fun j hj => ?_⟩
  · have := h j (by simp; omega)
    rw [this, List.getElem?_append_left hj]
  · have := h (l1.length + j) (by simp; omega)
    rw [Nat.add_assoc, this, List.getElem?_append_right (by omega)]
    simp

theorem listAt_self {α : Type} (pre l post : List α) : listAt (pre ++ l ++ post) pre.length l := by
  intro j hj
  rw [List.append_assoc, List.getElem?_append_right (by omega)]
  simp [List.getElem?_append_left hj]

theorem Wrote.chunk {cg cg1 : LCodeGen} {cmds : List Command} (h : cg.Wrote cg1 cmds) :
    cg1.chunk = cg.chunk := by
  obtain ⟨added, rfl⟩ := h
  rfl

theorem Wrote.literals {cg cg1 : LCodeGen} {cmds : List Command} (h : cg.Wrote cg1 cmds) :
    cg.deoptimization_literals_ <+: cg1.deoptimization_literals_ := by
  obtain ⟨added, rfl⟩ := h
  exact List.prefix_append _ _

theorem prefix_getElem? {α : Type} {l1 l2 : List α} (h : l1 <+: l2) {i : Nat} {a : α}
    (hi : l1[i]? = some a) : l2[i]? = some a := by
  obtain ⟨t, rfl⟩ := h
  have hlt : i < l1.length := (List.getElem?_eq_some_iff.1 hi).1
  rw [List.getElem?_append_left hlt]
  exact hi

/-- A call of `AddToTranslation` for an operand that has a (tag, value) in the
snapshot succeeds, and the store command it writes reads back as that
(tag, value) in any later literal list. -/
theorem AddToTranslation_operand_read (snapshot : Snapshot) (fuel : Nat) (cg : LCodeGen)
    (environment : LEnvironment) (op : LOperand) (is_tagged is_uint32 : Bool) (cur : Cursors)
    (v : TaggedValue)
    (hv : TaggedValue.ofOperand snapshot cg.chunk.constants op is_tagged is_uint32 = some v) :
    ∃ (cg1 : LCodeGen) (c : Command),
      LCodeGen.AddToTranslation fuel cg environment (some op) is_tagged is_uint32 cur =
        some (cg1, cur) ∧
      cg.Wrote cg1 [c] ∧ c.isStore = true ∧
      ∀ L, cg1.deoptimization_literals_ <+: L → c.read snapshot L = some v := by
  obtain ⟨kind, index⟩ := op
  cases kind
  case INVALID => simp [TaggedValue.ofOperand] at hv
  case UNALLOCATED => simp [TaggedValue.ofOperand] at hv
  case CONSTANT_OPERAND =>
    simp only [TaggedValue.ofOperand, Option.map_eq_some'] at hv
    obtain ⟨literal, hl, rfl⟩ := hv
    obtain ⟨added, hd, hidx⟩ := DefineDeoptimizationLiteral_extends cg literal
    refine ⟨_, .StoreLiteral (cg.DefineDeoptimizationLiteral literal).1, ?_,
      Wrote.trans (Wrote.define cg literal) (Wrote.translate _ _), rfl, ?_⟩
    · simp [LCodeGen.AddToTranslation, LOperand.IsStackSlot, LOperand.IsDoubleStackSlot,
        LOperand.IsRegister, LOperand.IsDoubleRegister, LOperand.IsConstantOperand,
        LCodeGen.LookupConstant, hl]
    · intro L hL
      have h1 : ((cg.DefineDeoptimizationLiteral literal).2.translate
          (.StoreLiteral (cg.DefineDeoptimizationLiteral literal).1)).deoptimization_literals_ =
          cg.deoptimization_literals_ ++ added := by
        rw [hd]; rfl
      rw [h1] at hL
      simp only [Command.read, Option.map_eq_some']
      exact ⟨literal, prefix_getElem? hL hidx, rfl⟩
  case STACK_SLOT =>
    simp only [TaggedValue.ofOperand, Option.some.injEq] at hv
    subst hv
    refine ⟨_, (if is_tagged then .StoreStackSlot index else if is_uint32 then
      .StoreUint32StackSlot index else .StoreInt32StackSlot index), ?_, Wrote.translate _ _, ?_, ?_⟩
    · cases is_tagged <;> cases is_uint32 <;>
        simp [LCodeGen.AddToTranslation, LOperand.IsStackSlot]
    · cases is_tagged <;> cases is_uint32 <;> rfl
    · intro L _
      cases is_tagged <;> cases is_uint32 <;> rfl
  case REGISTER =>
    simp only [TaggedValue.ofOperand, Option.some.injEq] at hv
    subst hv
    refine ⟨_, (if is_tagged then .StoreRegister index else if is_uint32 then
      .StoreUint32Register index else .StoreInt32Register index), ?_, Wrote.translate _ _, ?_, ?_⟩
    · cases is_tagged <;> cases is_uint32 <;>
        simp [LCodeGen.AddToTranslation, LOperand.IsStackSlot, LOperand.IsDoubleStackSlot,
          LOperand.IsRegister]
    · cases is_tagged <;> cases is_uint32 <;> rfl
    · intro L _
      cases is_tagged <;> cases is_uint32 <;> rfl
  case DOUBLE_STACK_SLOT =>
    simp only [TaggedValue.ofOperand, Option.some.injEq] at hv
    subst hv
    refine ⟨_, .StoreDoubleStackSlot index, ?_, Wrote.translate _ _, rfl, fun _ _ => rfl⟩
    simp [LCodeGen.AddToTranslation, LOperand.IsStackSlot, LOperand.IsDoubleStackSlot]
  case DOUBLE_REGISTER =>
    simp only [TaggedValue.ofOperand, Option.some.injEq] at hv
    subst hv
    refine ⟨_, .StoreDoubleRegister index, ?_, Wrote.translate _ _, rfl, fun _ _ => rfl⟩
    simp [LCodeGen.AddToTranslation, LOperand.IsStackSlot, LOperand.IsDoubleStackSlot,
      LOperand.IsRegister, LOperand.IsDoubleRegister]

/-- The write loop over a sequence of values laid out in the environment
succeeds, moves the two cursors past the objects and fields of the sequence,
and appends commands that read back as the (tag, value) sequence expected of
the values. -/
theorem writeLoop_roundtrip (snapshot : Snapshot) (environment : LEnvironment) (vs : Values) :
    ∀ (fuel : Nat) (g : Nat → Nat) (i0 : Nat) (cg : LCodeGen) (cur : Cursors) (objects : Nat)
      (E : Reconstructed) (objects1 : Nat),
      vs.depth ≤ fuel →
      (∀ j, j < vs.slots.length → environment.values[g (i0 + j)]? = vs.slots[j]?) →
      listAt environment.values (environment.translation_size + cur.dematerialized_index)
        vs.dematerialized →
      listAt environment.object_mapping cur.object_index vs.mapping →
      vs.expected snapshot cg.chunk.constants objects = some (E, objects1) →
      ∃ (cg1 : LCodeGen) (cur1 : Cursors) (es : Entries),
        forLoop (fun i (s : LCodeGen × Cursors) =>
            match environment.values[g i]? with
            | none => none
            | some v =>
              LCodeGen.AddToTranslation fuel s.1 environment v.value v.is_tagged v.is_uint32 s.2)
          vs.slots.length i0 (cg, cur) = some (cg1, cur1) ∧
        cur1.object_index = cur.object_index + vs.mapping.length ∧
        cur1.dematerialized_index = cur.dematerialized_index + vs.dematerialized.length ∧
        cg.Wrote cg1 es.flatten ∧ es.proper = true ∧ es.count = vs.slots.length ∧
        ∀ L, cg1.deoptimization_literals_ <+: L →
          es.reconstruct snapshot L objects = some (E, objects1) := by
  induction vs with
  | nil =>
    intro fuel g i0 cg cur objects E objects1 _ _ _ _ hE
    simp only [Values.expected, Option.some.injEq, Prod.mk.injEq] at hE
    obtain ⟨rfl, rfl⟩ := hE
    exact ⟨cg, cur, .nil, rfl, rfl, rfl, Wrote.refl _, rfl, rfl, fun _ _ => rfl⟩
  | plain op t u rest ih =>
    intro fuel g i0 cg cur objects E objects1 hd hS hD hM hE
    simp only [Values.expected, Option.bind_eq_some, Option.map_eq_some'] at hE
    obtain ⟨v, hv, r, hr, hEq⟩ := hE
    have h0 : environment.values[g i0]? =
        some { value := some op, is_tagged := t, is_uint32 := u } := by
      simpa [Values.slots] using hS 0 (by simp [Values.slots])
    obtain ⟨cg1, c, hadd, hw1, hst, hread⟩ :=
      AddToTranslation_operand_read snapshot fuel cg environment op t u cur v hv
    have hS' : ∀ j, j < rest.slots.length →
        environment.values[g (i0 + 1 + j)]? = rest.slots[j]? := by
      intro j hj
      have := hS (j + 1) (by simp [Values.slots]; omega)
      simpa [Values.slots, Nat.add_assoc, Nat.add_comm 1 j] using this
    rw [← Wrote.chunk hw1] at hr
    obtain ⟨cg2, cur2, es, hloop, ho, hdm, hw2, hp, hc, hrec⟩ :=
      ih fuel g (i0 + 1) cg1 cur objects r.1 r.2 (by simpa [Values.depth] using hd) hS'
        (by simpa [Values.dematerialized] using hD) (by simpa [Values.mapping] using hM)
        (by simpa using hr)
    refine ⟨cg2, cur2, .store c es, ?_, by simpa [Values.mapping] using ho,
      by simpa [Values.dematerialized] using hdm,
      by simpa [Entries.flatten] using Wrote.trans hw1 hw2,
      by simp [Entries.proper, hst, hp], by simp [Entries.count, Values.slots, hc], ?_⟩
    · simp only [Values.slots, List.length_cons, forLoop, h0, hadd, Option.some_bind]
      exact hloop
    · intro L hL
      simp only [Entries.reconstruct, hread L ((Wrote.literals hw2).trans hL), hrec L hL,
        Option.some_bind, Option.map_some']
      rw [← hEq]
  | duplicate k t u rest ih =>
    intro fuel g i0 cg cur objects E objects1 hd hS hD hM hE
    simp only [Values.expected] at hE
    split_ifs at hE with hk
    simp only [Option.map_eq_some'] at hE
    obtain ⟨r, hr, hEq⟩ := hE
    have h0 : environment.values[g i0]? =
        some { value := none, is_tagged := t, is_uint32 := u } := by
      simpa [Values.slots] using hS 0 (by simp [Values.slots])
    obtain ⟨hm0, hM'⟩ := listAt_cons (by simpa [Values.mapping] using hM)
    obtain ⟨fuel', rfl⟩ : ∃ f, fuel = f + 1 := by
      have : 1 ≤ fuel := by
        simp only [Values.depth] at hd
        omega
      exact ⟨fuel - 1, by omega⟩
    have hadd : LCodeGen.AddToTranslation (fuel' + 1) cg environment none t u cur =
        some (cg.translate (.DuplicateObject k),
          { object_index := cur.object_index + 1,
            dematerialized_index := cur.dematerialized_index }) := by
      simp [LCodeGen.AddToTranslation, hm0]
    have hS' : ∀ j, j < rest.slots.length →
        environment.values[g (i0 + 1 + j)]? = rest.slots[j]? := by
      intro j hj
      have := hS (j + 1) (by simp [Values.slots]; omega)
      simpa [Values.slots, Nat.add_assoc, Nat.add_comm 1 j] using this
    obtain ⟨cg2, cur2, es, hloop, ho, hdm, hw2, hp, hc, hrec⟩ :=
      ih (fuel' + 1) g (i0 + 1) (cg.translate (.DuplicateObject k))
        { object_index := cur.object_index + 1, dematerialized_index := cur.dematerialized_index }
        (objects + 1) r.1 r.2
        (by simp only [Values.depth] at hd; omega) hS'
        (by simpa [Values.dematerialized] using hD) hM' (by simpa using hr)
    refine ⟨cg2, cur2, .duplicate k es, ?_, ?_, by simpa [Values.dematerialized] using hdm,
      by simpa [Entries.flatten] using Wrote.trans (Wrote.translate cg _) hw2,
      by simp [Entries.proper, hp], by simp [Entries.count, Values.slots, hc], ?_⟩
    · simp only [Values.slots, List.length_cons, forLoop, h0, hadd, Option.some_bind]
      exact hloop
    · simp only [Values.mapping, List.length_cons]
      simp only at ho
      omega
    · intro L hL
      simp only [Entries.reconstruct, hk, if_true, hrec L hL, Option.map_some']
      rw [← hEq]
  | object a t u fields rest ihf ihr =>
    intro fuel g i0 cg cur objects E objects1 hd hS hD hM hE
    simp only [Values.expected, Option.bind_eq_some, Option.map_eq_some'] at hE
    obtain ⟨f, hf, r, hr, hEq⟩ := hE
    have h0 : environment.values[g i0]? =
        some { value := none, is_tagged := t, is_uint32 := u } := by
      simpa [Values.slots] using hS 0 (by simp [Values.slots])
    obtain ⟨hm0, hM'⟩ := listAt_cons (by simpa [Values.mapping] using hM)
    obtain ⟨hMf, hMr⟩ := listAt_append hM'
    obtain ⟨hDs, hD'⟩ := listAt_append (by simpa [Values.dematerialized] using hD)
    obtain ⟨hDf, hDr⟩ := listAt_append hD'
    obtain ⟨fuel', rfl⟩ : ∃ f, fuel = f + 1 := by
      have : 1 ≤ fuel := by
        simp only [Values.depth] at hd
        omega
      exact ⟨fuel - 1, by omega⟩
    obtain ⟨cg1, cur1, fs, hloop1, ho1, hdm1, hw1, hp1, hc1, hrec1⟩ :=
      ihf fuel' (fun i => environment.translation_size + cur.dematerialized_index + i) 0
        (cg.translate (if a then .BeginArgumentsObject fields.slots.length
          else .BeginCapturedObject fields.slots.length))
        { object_index := cur.object_index + 1,
          dematerialized_index := cur.dematerialized_index + fields.slots.length }
        (objects + 1) f.1 f.2
        (by simp only [Values.depth] at hd; omega)
        (by intro j hj; simpa using hDs j hj)
        (by simpa [Nat.add_assoc] using hDf) hMf (by simpa using hf)
    have hadd : LCodeGen.AddToTranslation (fuel' + 1) cg environment none t u cur =
        some (cg1, cur1) := by
      simp only [LCodeGen.AddToTranslation, hm0]
      cases a <;> simpa using hloop1
    have hS' : ∀ j, j < rest.slots.length →
        environment.values[g (i0 + 1 + j)]? = rest.slots[j]? := by
      intro j hj
      have := hS (j + 1) (by simp [Values.slots]; omega)
      simpa [Values.slots, Nat.add_assoc, Nat.add_comm 1 j] using this
    have hwb : cg.Wrote cg1 ((if a then Command.BeginArgumentsObject fields.slots.length
        else Command.BeginCapturedObject fields.slots.length) :: fs.flatten) := by
      simpa using Wrote.trans (Wrote.translate cg _) hw1
    rw [← Wrote.chunk hwb] at hr
    obtain ⟨cg2, cur2, es, hloop, ho, hdm, hw2, hp, hc, hrec⟩ :=
      ihr (fuel' + 1) g (i0 + 1) cg1 cur1 f.2 r.1 r.2
        (by simp only [Values.depth] at hd; omega) hS'
        (by rw [hdm1]; simpa [Nat.add_assoc] using hDr)
        (by rw [ho1]; simpa [Nat.add_assoc] using hMr) (by simpa using hr)
    refine ⟨cg2, cur2, .object a fs es, ?_, ?_, ?_, ?_, by simp [Entries.proper, hp1, hp],
      by simp [Entries.count, Values.slots, hc], ?_⟩
    · simp only [Values.slots, List.length_cons, forLoop, h0, hadd, Option.some_bind]
      exact hloop
    · simp only [Values.mapping, List.length_cons, List.length_append]
      simp only at ho1
      omega
    · simp only [Values.dematerialized, List.length_append]
      simp only at hdm1
      omega
    · have := Wrote.trans hwb hw2
      cases a <;> simpa [Entries.flatten, hc1] using this
    · intro L hL
      simp only [Entries.reconstruct, hrec1 L ((Wrote.literals hw2).trans hL), hrec L hL,
        Option.some_bind, Option.map_some']
      rw [← hEq]

theorem Values.depth_le_mapping (vs : Values) : vs.depth ≤ vs.mapping.length := by
  induction vs with
  | nil => simp [Values.depth]
  | plain op t u rest ih => simpa [Values.depth, Values.mapping] using ih
  | duplicate k t u rest ih =>
    simp only [Values.depth, Values.mapping, List.length_cons]
    omega
  | object a t u fields rest ihf ihr =>
    simp only [Values.depth, Values.mapping, List.length_cons, List.length_append]
    omega

/-- The value loop of `WriteTranslation` on an environment that lays out the
values `vs`. -/
theorem writeValues_roundtrip (snapshot : Snapshot) (cg : LCodeGen) (environment : LEnvironment)
    (vs : Values) (objects : Nat) (E : Reconstructed) (objects1 : Nat)
    (hH : environment.Holds vs)
    (hE : vs.expected snapshot cg.chunk.constants objects = some (E, objects1)) :
    ∃ (cg1 : LCodeGen) (cur1 : Cursors) (es : Entries),
      cg.writeValues environment = some (cg1, cur1) ∧ cg.Wrote cg1 es.flatten ∧
      es.proper = true ∧
      ∀ L, cg1.deoptimization_literals_ <+: L →
        es.reconstruct snapshot L objects = some (E, objects1) := by
  obtain ⟨hv, hts, hm⟩ := hH
  obtain ⟨cg1, cur1, es, hloop, _, _, hw, hp, _, hrec⟩ :=
    writeLoop_roundtrip snapshot environment vs environment.object_mapping.length (fun i => i) 0
      cg { object_index := 0, dematerialized_index := 0 } objects E objects1
      (by rw [hm]; exact Values.depth_le_mapping vs)
      (by
        intro j hj
        rw [hv]
        simp [List.getElem?_append_left hj])
      (by
        rw [hv, hts]
        simpa using listAt_self vs.slots vs.dematerialized [])
      (by
        rw [hm]
        simpa using listAt_self [] vs.mapping [])
      hE
  refine ⟨cg1, cur1, es, ?_, hw, hp, hrec⟩
  unfold LCodeGen.writeValues
  rw [hts]
  exact hloop

theorem beginFrame_ok (cg : LCodeGen) (environment : LEnvironment) (closure_id : Int)
    (h : environment.frameOk = true) :
    ∃ c, cg.beginFrame environment closure_id environment.translation_size
        ((environment.translation_size : Int) - (environment.parameter_count : Int)) =
        some (cg.translate c) ∧
      c.frameType = some environment.frame_type := by
  unfold LCodeGen.beginFrame
  unfold LEnvironment.frameOk at h
  cases hf : environment.frame_type <;> simp only [hf] at h ⊢
  case JS_GETTER =>
    simp only [Bool.and_eq_true, beq_iff_eq] at h
    exact ⟨.BeginGetterStubFrame closure_id, by simp [h.1, h.2], rfl⟩
  case JS_SETTER =>
    simp only [Bool.and_eq_true, beq_iff_eq] at h
    exact ⟨.BeginSetterStubFrame closure_id, by simp [h.1, h.2], rfl⟩
  all_goals exact ⟨_, rfl, rfl⟩

theorem reconstructFrames_snoc (snapshot : Snapshot) (L : List Handle)
    (frames : List (Command × Entries)) :
    ∀ (x : Command × Entries) (objects n1 n2 : Nat) (RA : List (FrameType × Reconstructed))
      (frame_type : FrameType) (R : Reconstructed),
      reconstructFrames snapshot L frames objects = some (RA, n1) →
      x.1.frameType = some frame_type →
      x.2.reconstruct snapshot L n1 = some (R, n2) →
      reconstructFrames snapshot L (frames ++ [x]) objects = some (RA ++ [(frame_type, R)], n2) := by
  induction frames with
  | nil =>
    intro x objects n1 n2 RA frame_type R hA hx hR
    simp only [reconstructFrames, Option.some.injEq, Prod.mk.injEq] at hA
    obtain ⟨rfl, rfl⟩ := hA
    simp [reconstructFrames, hx, hR]
  | cons f rest ih =>
    intro x objects n1 n2 RA frame_type R hA hx hR
    simp only [reconstructFrames] at hA
    cases hft : f.1.frameType with
    | none => simp [hft] at hA
    | some ft =>
      simp only [hft] at hA
      cases hfr : f.2.reconstruct snapshot L objects with
      | none => simp [hfr] at hA
      | some fr =>
        obtain ⟨values, objects1⟩ := fr
        simp only [hfr, Option.map_eq_some'] at hA
        obtain ⟨r, hr, hEq⟩ := hA
        simp only [Prod.mk.injEq] at hEq
        obtain ⟨rfl, rfl⟩ := hEq
        have := ih x objects1 r.2 n2 r.1 frame_type R (by simpa using hr) hx hR
        simp [reconstructFrames, hft, hfr, this]

theorem Command.frameType_not_value (c : Command) (h : c.frameType.isSome = true) :
    c.isValue = false := by
  cases c <;> simp_all [Command.frameType, Command.isValue, Command.isStore]

/-- Reading frames off the commands of a list of frames reconstructs the
frames one after the other. -/
theorem readFrames_frameCommands (snapshot : Snapshot) (L : List Handle)
    (frames : List (Command × Entries)) :
    ∀ (objects : Nat),
      (∀ f ∈ frames, f.1.frameType.isSome = true ∧ f.2.proper = true) →
      readFrames snapshot L frames.length (frameCommands frames) objects =
        (reconstructFrames snapshot L frames objects).map Prod.fst := by
  induction frames with
  | nil => intro objects _; simp [readFrames, reconstructFrames, frameCommands]
  | cons f rest ih =>
    intro objects hall
    obtain ⟨hft, hp⟩ := hall f (by simp)
    obtain ⟨ft, hft'⟩ := Option.isSome_iff_exists.1 hft
    have hparse : parseValues ((f.2.flatten ++ frameCommands rest).length + 1)
        (f.2.flatten ++ frameCommands rest) = some (f.2, frameCommands rest) := by
      apply parseValues_flatten f.2 hp
      · rw [Entries.size_eq_length]
        simp
        omega
      · intro c hc
        cases rest with
        | nil => simp [frameCommands] at hc
        | cons f2 rest2 =>
          simp only [frameCommands, List.head?_cons, Option.mem_def, Option.some.injEq] at hc
          subst hc
          exact Command.frameType_not_value _ (hall f2 (by simp)).1
    simp only [List.length_cons, frameCommands, readFrames, hft', hparse, reconstructFrames]
    cases hr : f.2.reconstruct snapshot L objects with
    | none => simp
    | some fr =>
      obtain ⟨values, objects1⟩ := fr
      simp only [ih objects1 (fun g hg => hall g (by simp [hg]))]
      cases reconstructFrames snapshot L rest objects1 <;> simp

/-- `WriteTranslation` on a chain of environments that lay out their values
succeeds and appends frames that reconstruct to the (tag, value) sequences
expected of the chain, outermost frame first. -/
theorem WriteTranslation_roundtrip (snapshot : Snapshot) (chain : List (LEnvironment × Values)) :
    ∀ (cg : LCodeGen) (objects : Nat) (E : List (FrameType × Reconstructed)) (objects1 : Nat),
      (∀ p ∈ chain, p.1.Holds p.2 ∧ p.1.frameOk = true) →
      expectedFrames snapshot cg.chunk.constants chain objects = some (E, objects1) →
      ∃ (cg1 : LCodeGen) (frames : List (Command × Entries)),
        cg.WriteTranslation (chain.map Prod.fst) = some cg1 ∧
        cg.Wrote cg1 (frameCommands frames) ∧ frames.length = chain.length ∧
        (∀ f ∈ frames, f.1.frameType.isSome = true ∧ f.2.proper = true) ∧
        ∀ L, cg1.deoptimization_literals_ <+: L →
          reconstructFrames snapshot L frames objects = some (E, objects1) := by
  induction chain with
  | nil =>
    intro cg objects E objects1 _ hE
    simp only [expectedFrames, Option.some.injEq, Prod.mk.injEq] at hE
    obtain ⟨rfl, rfl⟩ := hE
    exact ⟨cg, [], rfl, Wrote.refl _, rfl, by simp, fun _ _ => rfl⟩
  | cons p outer ih =>
    intro cg objects E objects1 hwf hE
    obtain ⟨e, vs⟩ := p
    simp only [expectedFrames, Option.bind_eq_some, Option.map_eq_some'] at hE
    obtain ⟨o, ho, r, hr, hEq⟩ := hE
    simp only [Prod.mk.injEq] at hEq
    obtain ⟨rfl, rfl⟩ := hEq
    obtain ⟨hH, hok⟩ := hwf (e, vs) (by simp)
    obtain ⟨cg2, framesO, hwo, hw2, hlen, hall, hrecO⟩ :=
      ih cg objects o.1 o.2 (fun q hq => hwf q (by simp [hq])) (by simpa using ho)
    have hwc := Wrote.closureId cg2 e
    obtain ⟨c, hb, hft⟩ := beginFrame_ok (cg2.closureId e).2 e (cg2.closureId e).1 hok
    have hw3 := Wrote.trans hw2 (Wrote.trans hwc (Wrote.translate _ c))
    rw [← Wrote.chunk hw3] at hr
    obtain ⟨cg1, cur1, es, hv, hw4, hp, hrec⟩ :=
      writeValues_roundtrip snapshot _ e vs o.2 r.1 r.2 hH (by simpa using hr)
    refine ⟨cg1, framesO ++ [(c, es)], ?_, ?_, by simp [hlen], ?_, ?_⟩
    · simp only [List.map_cons, LCodeGen.WriteTranslation, hwo, hb, hv, Option.map_some']
    · rw [frameCommands_append]
      have := Wrote.trans hw3 hw4
      simpa [frameCommands] using this
    · intro f hf
      rcases List.mem_append.1 hf with hf | hf
      · exact hall f hf
      · simp only [List.mem_singleton] at hf
        subst hf
        exact ⟨by simp [hft], hp⟩
    · intro L hL
      have hL2 : cg2.deoptimization_literals_ <+: L :=
        ((Wrote.literals (Wrote.trans hwc (Wrote.translate _ c))).trans
          (Wrote.literals hw4)).trans hL
      exact reconstructFrames_snoc snapshot L framesO (c, es) objects o.2 r.2 o.1 e.frame_type r.1
        (hrecO L hL2) hft (hrec L hL)

/-- C3.  Translation round trip.  Take an unregistered environment and its
outer chain, each environment laying out a sequence of values (plain operands,
dematerialized objects with their fields nested to any depth, back-references)
and passing the frame assertions, and a snapshot of the registers, double
registers and stack slots in which the values of the chain have (tag, value)
sequences `E`, outermost frame first.  Then registration succeeds, and
replaying the translation it wrote, from the translation index it recorded,
against the snapshot and the literal list reconstructs exactly `E`. -/
theorem translation_round_trip (snapshot : Snapshot) (cg : LCodeGen) (environment : LEnvironment)
    (vs : Values) (outer : List (LEnvironment × Values)) (mode : DeoptMode)
    (E : List (FrameType × Reconstructed)) (objects : Nat)
    (hreg : environment.HasBeenRegistered = false)
    (hwf : ∀ p ∈ (environment, vs) :: outer, p.1.Holds p.2 ∧ p.1.frameOk = true)
    (hE : expectedFrames snapshot cg.chunk.constants ((environment, vs) :: outer) 0 =
      some (E, objects)) :
    ∃ (cg1 : LCodeGen) (environment1 : LEnvironment),
      cg.RegisterEnvironmentForDeoptimization environment (outer.map Prod.fst) mode =
        some (cg1, environment1) ∧
      readTranslation snapshot cg1.deoptimization_literals_
        (cg1.translations_.drop environment1.translation_index.toNat) = some E := by
  have hwf' : ∀ p ∈ (environment.set_has_been_used, vs) :: outer,
      p.1.Holds p.2 ∧ p.1.frameOk = true := by
    intro p hp
    rcases List.mem_cons.1 hp with rfl | hp
    · exact hwf (environment, vs) (by simp)
    · exact hwf p (by simp [hp])
  have hE' : expectedFrames snapshot
      (cg.translate (.BEGIN (countFrames (environment.set_has_been_used :: outer.map Prod.fst)
        (0, 0)).1 (countFrames (environment.set_has_been_used :: outer.map Prod.fst)
        (0, 0)).2)).chunk.constants
      ((environment.set_has_been_used, vs) :: outer) 0 = some (E, objects) := hE
  obtain ⟨cg2, frames, hw, hwr, hlen, hall, hrec⟩ :=
    WriteTranslation_roundtrip snapshot ((environment.set_has_been_used, vs) :: outer) _ 0 E
      objects hwf' hE'
  obtain ⟨added, hcg2⟩ := Wrote.trans (Wrote.translate cg _) hwr
  have hreg' : environment.set_has_been_used.HasBeenRegistered = false := hreg
  unfold LCodeGen.RegisterEnvironmentForDeoptimization
  simp only [hreg', Bool.not_false, if_true]
  simp only [List.map_cons] at hw
  rw [hw]
  refine ⟨_, _, rfl, ?_⟩
  have hread := readFrames_frameCommands snapshot cg2.deoptimization_literals_ frames 0 hall
  rw [hrec _ List.prefix_rfl] at hread
  have htr : cg2.translations_ = cg.translations_ ++
      (.BEGIN (countFrames (environment.set_has_been_used :: outer.map Prod.fst) (0, 0)).1
        (countFrames (environment.set_has_been_used :: outer.map Prod.fst) (0, 0)).2 ::
        frameCommands frames) := by
    rw [hcg2]; simp
  have hcount : (countFrames (environment.set_has_been_used :: outer.map Prod.fst) (0, 0)).1 =
      frames.length := by
    rw [countFrames_eq, hlen]; simp
  simp only [LEnvironment.Register, Int.toNat_ofNat, htr, List.drop_left, readTranslation,
    hcount, hread, Option.map_some']

/-- Witness of C3: the sample chain, whose inner frame holds a captured object
with a constant and a back-reference to the arguments object of the outer
frame. -/
theorem translation_round_trip_witness :
    ∃ (cg1 : LCodeGen) (environment1 : LEnvironment),
      sampleCodeGen.RegisterEnvironmentForDeoptimization sampleEnvironment
        ([(sampleOuter, sampleOuterValues)].map Prod.fst) .kLazyDeopt = some (cg1, environment1) ∧
      readTranslation sampleSnapshot cg1.deoptimization_literals_
        (cg1.translations_.drop environment1.translation_index.toNat) =
        some sampleReconstruction :=
  translation_round_trip sampleSnapshot sampleCodeGen sampleEnvironment sampleValues
    [(sampleOuter, sampleOuterValues)] .kLazyDeopt sampleReconstruction 3 (by decide)
    (by
      intro p hp
      simp only [List.mem_cons, List.mem_singleton, List.not_mem_nil, or_false] at hp
      rcases hp with rfl | rfl
      · exact ⟨⟨rfl, rfl, rfl⟩, rfl⟩
      · exact ⟨⟨rfl, rfl, rfl⟩, rfl⟩)
    (by decide)

/-! ## Code of the lowering functions -/


/-- What a guard emits when the stress and trap flags are off and the bailout
was prepared: one instruction, the call of the entry or the branch to the jump
table; the flags and the frame state stay as they were. -/
theorem DeoptimizeIfDefault_plain (x : Externals) (cg cg1 : LCodeGen) (cond : Condition)
    (e e1 : LEnvironment) (outer : List LEnvironment) (hp : cg.PlainGuards x)
    (h : cg.DeoptimizeIfDefault x.GetDeoptimizationEntry cond e outer = some (cg1, e1)) :
    ∃ entry k,
      cg1.masm = cg.masm ++
        [guardCode (cg.frame_is_built_ && !cg.info.saves_caller_doubles) entry k cond] ∧
      cg1.info = cg.info ∧ cg1.frame_is_built_ = cg.frame_is_built_ := by
  obtain ⟨hs, ht, hG⟩ := hp
  unfold LCodeGen.DeoptimizeIfDefault LCodeGen.DeoptimizeIf at h
  cases hr : cg.RegisterEnvironmentForDeoptimization e outer .kNoLazyDeopt with
  | none => simp [hr] at h
  | some r =>
    obtain ⟨cg2, e2⟩ := r
    obtain ⟨hreg, t, l, d, hcg2⟩ :=
      RegisterEnvironmentForDeoptimization_preserves cg cg2 e e2 outer _ hr
    subst hcg2
    simp only [hr, hreg, Bool.not_true, Bool.false_eq_true, if_false] at h
    split at h
    · cases h
    · cases hg : x.GetDeoptimizationEntry e2.deoptimization_index
          (if cg.info.IsStub = true then BailoutType.LAZY else BailoutType.EAGER) with
      | none => exact absurd hg (hG _ _)
      | some entry =>
        simp only [hg, hs, ht, Bool.false_eq_true, if_false] at h
        split at h
        · cases h
        · split at h
          · rename_i hc
            simp only [Option.some.injEq, Prod.mk.injEq] at h
            obtain ⟨rfl, rfl⟩ := h
            refine ⟨entry, 0, ?_, rfl, rfl⟩
            rw [Bool.and_assoc] at hc
            simp [guardCode, LCodeGen.emit, hc]
          · rename_i hc
            simp only [Option.some.injEq, Prod.mk.injEq] at h
            obtain ⟨rfl, rfl⟩ := h
            rw [Bool.and_assoc] at hc
            exact ⟨entry, _, by
              simp only [guardCode, LCodeGen.emit, hc, if_false, Bool.false_eq_true]
              rfl, rfl, rfl⟩


/-- The code of a list of steps depends on the entries and table indices from
the first position of the list on. -/
theorem realize_congr (direct : Bool) (entry entry2 : Nat → Address) (k k2 : Nat → Nat)
    (steps : List Action) :
    ∀ n, (∀ j, n ≤ j → entry j = entry2 j) → (∀ j, n ≤ j → k j = k2 j) →
      realize direct entry k n steps = realize direct entry2 k2 n steps := by
  induction steps with
  | nil => intro n _ _; rfl
  | cons a rest ih =>
    intro n he hk
    have hr := ih (n + 1) (fun j hj => he j (by omega)) (fun j hj => hk j (by omega))
    cases a with
    | emit i => simp only [realize, hr]
    | DeoptimizeIf cond => simp only [realize, hr, he n (le_refl n), hk n (le_refl n)]

/-- The code of a list of steps performed with the stress and trap flags off:
each step emits its instruction and each guard one branch or call. -/
theorem perform_realize (x : Externals) (outer : List LEnvironment) (steps : List Action) :
    ∀ (n : Nat) (cg cg1 : LCodeGen) (e e1 : LEnvironment), cg.PlainGuards x →
      LCodeGen.perform x outer steps (cg, e) = some (cg1, e1) →
      ∃ (entry : Nat → Address) (k : Nat → Nat),
        cg1.masm = cg.masm ++
          realize (cg.frame_is_built_ && !cg.info.saves_caller_doubles) entry k n steps ∧
        cg1.info = cg.info ∧ cg1.frame_is_built_ = cg.frame_is_built_ := by
  induction steps with
  | nil =>
    intro n cg cg1 e e1 _ h
    simp only [LCodeGen.perform, Option.some.injEq, Prod.mk.injEq] at h
    obtain ⟨rfl, rfl⟩ := h
    exact ⟨fun _ => 0, fun _ => 0, by simp [realize], rfl, rfl⟩
  | cons a rest ih =>
    intro n cg cg1 e e1 hp h
    cases a with
    | emit i =>
      simp only [LCodeGen.perform] at h
      obtain ⟨entry, k, hm, hi, hf⟩ := ih (n + 1) (cg.emit i) cg1 e e1 hp h
      refine ⟨entry, k, ?_, hi, hf⟩
      rw [hm]
      simp [realize, LCodeGen.emit]
    | DeoptimizeIf cond =>
      simp only [LCodeGen.perform] at h
      cases hd : cg.DeoptimizeIfDefault x.GetDeoptimizationEntry cond e outer with
      | none => simp [hd] at h
      | some s =>
        obtain ⟨cg2, e2⟩ := s
        simp only [hd] at h
        obtain ⟨entry0, k0, hm0, hi0, hf0⟩ := DeoptimizeIfDefault_plain x cg cg2 cond e e2 outer hp hd
        have hp2 : cg2.PlainGuards x := by
          unfold LCodeGen.PlainGuards at hp ⊢
          rw [hi0]
          exact hp
        obtain ⟨entry, k, hm, hi, hf⟩ := ih (n + 1) cg2 cg1 e2 e1 hp2 h
        refine ⟨fun j => if j = n then entry0 else entry j, fun j => if j = n then k0 else k j,
          ?_, hi.trans hi0, hf.trans hf0⟩
        rw [hm, hm0, hi0, hf0]
        simp only [realize, List.append_assoc, List.singleton_append, if_true]
        rw [realize_congr _ entry (fun j => if j = n then entry0 else entry j) k
          (fun j => if j = n then k0 else k j) rest (n + 1)
          (fun j hj => by simp [show j ≠ n by omega])
          (fun j hj => by simp [show j ≠ n by omega])]


theorem holds_eq_compare (a b : Int) : Condition.eq.holds (compareSigned a b) = decide (a = b) := by
  unfold compareSigned; by_cases h1 : a = b <;> by_cases h2 : a < b <;>
    simp [Condition.holds, ConditionCode.select, h1, h2]

theorem holds_lt_compare (a b : Int) : Condition.lt.holds (compareSigned a b) = decide (a < b) := by
  unfold compareSigned; by_cases h1 : a = b <;> by_cases h2 : a < b <;>
    simp [Condition.holds, ConditionCode.select, h1, h2]

theorem holds_ge_compare (a b : Int) : Condition.ge.holds (compareSigned a b) = decide (b ≤ a) := by
  unfold compareSigned; by_cases h1 : a = b <;> by_cases h2 : a < b <;>
    simp [Condition.holds, ConditionCode.select, h1, h2] <;> omega

theorem holds_gt_compare (a b : Int) : Condition.gt.holds (compareSigned a b) = decide (b < a) := by
  unfold compareSigned; by_cases h1 : a = b <;> by_cases h2 : a < b <;>
    simp [Condition.holds, ConditionCode.select, h1, h2] <;> omega

theorem holds_le_compare (a b : Int) : Condition.le.holds (compareSigned a b) = decide (a ≤ b) := by
  unfold compareSigned; by_cases h1 : a = b <;> by_cases h2 : a < b <;>
    simp [Condition.holds, ConditionCode.select, h1, h2] <;> omega

theorem int32_zero : int32 0 = 0 := by decide
theorem int32_hex : int32 0x80000000 = kMinInt := by decide

@[simp] theorem Machine.record_cc (m : Machine) (i : Instr) : (m.record i).cc = m.cc := rfl
@[simp] theorem Machine.record_reg (m : Machine) (i : Instr) : (m.record i).reg = m.reg := rfl
@[simp] theorem Machine.record_mem (m : Machine) (i : Instr) : (m.record i).mem = m.mem := rfl
@[simp] theorem Machine.setCode_cc (m : Machine) (c : ConditionCode) : (m.setCode c).cc = c := rfl
@[simp] theorem Machine.setCode_reg (m : Machine) (c : ConditionCode) : (m.setCode c).reg = m.reg := rfl
@[simp] theorem Machine.setCode_mem (m : Machine) (c : ConditionCode) : (m.setCode c).mem = m.mem := rfl
@[simp] theorem Machine.set_cc (m : Machine) (r : Register) (v : Int) : (m.set r v).cc = m.cc := rfl
@[simp] theorem Machine.set_reg (m : Machine) (r : Register) (v : Int) :
    (m.set r v).reg = Function.update m.reg r v := rfl
@[simp] theorem Machine.set_mem (m : Machine) (r : Register) (v : Int) : (m.set r v).mem = m.mem := rfl
@[simp] theorem Machine.set32_cc (w : Bool) (m : Machine) (r : Register) (v : Int) :
    (m.set32 w r v).cc = m.cc := rfl
@[simp] theorem Machine.set32_reg (w : Bool) (m : Machine) (r : Register) (v : Int) :
    (m.set32 w r v).reg = Function.update m.reg r (writeLow w (m.reg r) v) := rfl
@[simp] theorem Machine.set32_mem (w : Bool) (m : Machine) (r : Register) (v : Int) :
    (m.set32 w r v).mem = m.mem := rfl
theorem realize_append (direct : Bool) (entry : Nat → Address) (k : Nat → Nat) (a b : List Action) :
    ∀ n, realize direct entry k n (a ++ b) =
      realize direct entry k n a ++ realize direct entry k (n + a.length) b := by
  induction a with
  | nil => intro n; simp [realize]
  | cons s rest ih =>
    intro n
    cases s <;> simp [realize, ih, Nat.add_assoc, Nat.add_comm 1]

@[simp] theorem guardCode_eq (d : Bool) (e : Address) (k : Nat) :
    guardCode d e k .eq = .b .eq k := by cases d <;> rfl
@[simp] theorem guardCode_ne (d : Bool) (e : Address) (k : Nat) :
    guardCode d e k .ne = .b .ne k := by cases d <;> rfl
@[simp] theorem guardCode_lt (d : Bool) (e : Address) (k : Nat) :
    guardCode d e k .lt = .b .lt k := by cases d <;> rfl
@[simp] theorem guardCode_overflow (d : Bool) (e : Address) (k : Nat) :
    guardCode d e k .overflow = .b .overflow k := by cases d <;> rfl

/-- The code that a lowering function emits with the stress and trap flags
off. -/
theorem lower_code (x : Externals) (cg : LCodeGen) (steps : List Action) (e : LEnvironment)
    (outer : List LEnvironment) (r : LCodeGen × LEnvironment) (hp : cg.PlainGuards x)
    (h : cg.lower x (some steps) e outer = some r) :
    ∃ (entry : Nat → Address) (k : Nat → Nat),
      cg.codeSince r.1 =
        realize (cg.frame_is_built_ && !cg.info.saves_caller_doubles) entry k 0 steps := by
  obtain ⟨cg1, e1⟩ := r
  obtain ⟨entry, k, hm, _, _⟩ := perform_realize x outer steps 0 cg cg1 e e1 hp h
  exact ⟨entry, k, by simp [LCodeGen.codeSince, hm]⟩


/-! ## Running a fragment, one instruction at a time -/

theorem exec_nil (w : Bool) (pc : Nat) (m : Machine) : exec w none pc [] m = .finished m := rfl

theorem exec_seek_nil (w : Bool) (label : Label) (pc : Nat) (m : Machine) :
    exec w (some label) pc [] m = .jumped label m := rfl

theorem exec_seek_bind (w : Bool) (label bound : Label) (pc : Nat) (rest : List Instr)
    (m : Machine) :
    exec w (some label) pc (.bind bound :: rest) m =
      if bound = label then exec w none (pc + 1) rest m
      else exec w (some label) (pc + 1) rest m := rfl

theorem exec_seek_ins (w : Bool) (label : Label) (pc : Nat) (name : Opcode)
    (operands : List Operand) (rest : List Instr) (m : Machine) :
    exec w (some label) pc (.ins name operands :: rest) m = exec w (some label) (pc + 1) rest m :=
  rfl

theorem exec_seek_branch (w : Bool) (label target : Label) (pc : Nat) (cond : Condition)
    (rest : List Instr) (m : Machine) :
    exec w (some label) pc (.branch cond target :: rest) m =
      exec w (some label) (pc + 1) rest m := rfl

theorem exec_bind (w : Bool) (bound : Label) (pc : Nat) (rest : List Instr) (m : Machine) :
    exec w none pc (.bind bound :: rest) m = exec w none (pc + 1) rest m := rfl

theorem exec_branch (w : Bool) (target : Label) (pc : Nat) (cond : Condition)
    (rest : List Instr) (m : Machine) :
    exec w none pc (.branch cond target :: rest) m =
      if cond.holds m.cc then exec w (some target) (pc + 1) rest (m.record (.branch cond target))
      else exec w none (pc + 1) rest (m.record (.branch cond target)) := rfl

theorem exec_b (w : Bool) (pc : Nat) (cond : Condition) (k : Nat) (rest : List Instr)
    (m : Machine) :
    exec w none pc (.b cond k :: rest) m =
      if cond.holds m.cc then .deoptimized pc (m.record (.b cond k))
      else exec w none (pc + 1) rest (m.record (.b cond k)) := rfl

theorem exec_Call (w : Bool) (pc : Nat) (entry : Address) (rest : List Instr) (m : Machine) :
    exec w none pc (.Call entry :: rest) m = .deoptimized pc (m.record (.Call entry)) := rfl

theorem exec_ins (w : Bool) (pc : Nat) (name : Opcode) (operands : List Operand)
    (rest : List Instr) (m m1 : Machine) (h : step w name operands m = .next m1) :
    exec w none pc (.ins name operands :: rest) m =
      exec w none (pc + 1) rest (m1.record (.ins name operands)) := by
  simp only [exec, h]

theorem exec_ins_fault (w : Bool) (pc : Nat) (name : Opcode) (operands : List Operand)
    (rest : List Instr) (m : Machine) (h : step w name operands m = .fault) :
    exec w none pc (.ins name operands :: rest) m = .faulted pc m := by
  simp only [exec, h]

theorem exec_Cmp32_imm (w : Bool) (pc : Nat) (a : Register) (v : Int) (rest : List Instr)
    (m : Machine) :
    exec w none pc (.ins .Cmp32 [.reg a, .imm v] :: rest) m =
      exec w none (pc + 1) rest
        ((m.setCode (compareSigned (int32 (m.reg a)) (int32 v))).record
          (.ins .Cmp32 [.reg a, .imm v])) :=
  exec_ins w pc _ _ rest m _ rfl

theorem exec_Cmp32_reg (w : Bool) (pc : Nat) (a b : Register) (rest : List Instr) (m : Machine) :
    exec w none pc (.ins .Cmp32 [.reg a, .reg b] :: rest) m =
      exec w none (pc + 1) rest
        ((m.setCode (compareSigned (int32 (m.reg a)) (int32 (m.reg b)))).record
          (.ins .Cmp32 [.reg a, .reg b])) :=
  exec_ins w pc _ _ rest m _ rfl

theorem exec_CmpP_imm (w : Bool) (pc : Nat) (a : Register) (v : Int) (rest : List Instr)
    (m : Machine) :
    exec w none pc (.ins .CmpP [.reg a, .imm v] :: rest) m =
      exec w none (pc + 1) rest
        ((m.setCode (compareSigned (m.reg a) (wordP w v))).record
          (.ins .CmpP [.reg a, .imm v])) :=
  exec_ins w pc _ _ rest m _ rfl


theorem int32_range (v : Int) : -2147483648 ≤ int32 v ∧ int32 v < 2147483648 := by
  unfold int32; omega

theorem int32_of_range (v : Int) (h1 : -2147483648 ≤ v) (h2 : v < 2147483648) : int32 v = v := by
  unfold int32; omega

theorem int32_int32 (v : Int) : int32 (int32 v) = int32 v := by
  unfold int32; omega

theorem int32_writeLow (w : Bool) (old v : Int) : int32 (writeLow w old v) = int32 v := by
  unfold writeLow int32; cases w <;> simp <;> omega

theorem writeLow_emod (w : Bool) (old v : Int) :
    writeLow w old v % 4294967296 = v % 4294967296 := by
  unfold writeLow int32; cases w <;> simp <;> omega


theorem exec_LoadRR (w : Bool) (pc : Nat) (d s : Register) (rest : List Instr) (m : Machine) :
    exec w none pc (.ins .LoadRR [.reg d, .reg s] :: rest) m =
      exec w none (pc + 1) rest ((m.set d (m.reg s)).record (.ins .LoadRR [.reg d, .reg s])) :=
  exec_ins w pc _ _ rest m _ rfl

theorem exec_dr_zero (w : Bool) (pc : Nat) (b : Register) (rest : List Instr) (m : Machine)
    (h0 : int32 (m.reg b) = 0) :
    exec w none pc (.ins .dr [.reg .r0, .reg b] :: rest) m = .faulted pc m := by
  apply exec_ins_fault
  simp only [step, h0, if_true]

theorem exec_lr (w : Bool) (pc : Nat) (d s : Register) (rest : List Instr) (m : Machine) :
    exec w none pc (.ins .lr [.reg d, .reg s] :: rest) m =
      exec w none (pc + 1) rest ((m.set32 w d (m.reg s)).record (.ins .lr [.reg d, .reg s])) :=
  exec_ins w pc _ _ rest m _ rfl

theorem ToRegister_allocated (op : LOperand) (r : Register) (h : ToRegister op = some r) :
    r = .allocated op.index := by
  unfold ToRegister at h
  split_ifs at h
  cases h
  rfl

theorem exec_LoadComplementRR (w : Bool) (pc : Nat) (d s : Register) (rest : List Instr)
    (m : Machine) :
    exec w none pc (.ins .LoadComplementRR [.reg d, .reg s] :: rest) m =
      exec w none (pc + 1) rest
        (((m.set d (wordP w (-(m.reg s)))).setCode
          (arithmeticCode (-(m.reg s)) (wordP w (-(m.reg s)) == -(m.reg s)))).record
            (.ins .LoadComplementRR [.reg d, .reg s])) :=
  exec_ins w pc _ _ rest m _ rfl

theorem exec_mov (w : Bool) (pc : Nat) (d : Register) (v : Int) (rest : List Instr)
    (m : Machine) :
    exec w none pc (.ins .mov [.reg d, .imm v] :: rest) m =
      exec w none (pc + 1) rest ((m.set d (wordP w v)).record (.ins .mov [.reg d, .imm v])) :=
  exec_ins w pc _ _ rest m _ rfl

theorem WhichPowerOf2Abs_pow (k : Nat) (hk : k ≤ 31) :
    WhichPowerOf2Abs (2 ^ k) = k ∧ WhichPowerOf2Abs (-2 ^ k) = k := by
  interval_cases k <;> exact ⟨by decide, by decide⟩

theorem wordP_emod_pow (w : Bool) (v : Int) (k : Nat) (hk : k ≤ 31) :
    wordP w v % 2 ^ k = v % 2 ^ k := by
  interval_cases k <;> cases w <;> simp [wordP, int32, int64] <;> omega

theorem wordP_of_range (w : Bool) (v : Int) (h1 : -2147483648 ≤ v) (h2 : v < 2147483648) :
    wordP w v = v := by
  cases w <;> simp [wordP, int32, int64] <;> omega

theorem pow_two_bounds (k : Nat) (hk : k ≤ 31) : (0 : Int) < 2 ^ k ∧ (2 : Int) ^ k ≤ 2147483648 := by
  interval_cases k <;> simp


theorem holds_al (cc : ConditionCode) : Condition.al.holds cc = true := by
  cases cc <;> rfl

theorem exec_guard_al (w : Bool) (pc : Nat) (d : Bool) (e : Address) (k : Nat)
    (rest : List Instr) (m : Machine) :
    exec w none pc (guardCode d e k .al :: rest) m =
      .deoptimized pc (m.record (guardCode d e k .al)) := by
  cases d <;> simp [guardCode, exec_Call, exec_b, holds_al]

theorem extract_low (v : Int) (k : Nat) :
    v / 2 ^ (0 : Int).toNat % 2 ^ ((k : Int) - 1 - 0 + 1).toNat = v % 2 ^ k := by
  have h : ((k : Int) - 1 - 0 + 1).toNat = k := by omega
  rw [h]
  simp


theorem holds_overflow_arith (v : Int) (fits : Bool) :
    Condition.overflow.holds (arithmeticCode v fits) = !fits := by
  cases fits
  · rfl
  · simp only [arithmeticCode, if_true, compareSigned]
    split_ifs <;> rfl

theorem exec_Add32_imm (w : Bool) (pc : Nat) (d a : Register) (v : Int) (rest : List Instr)
    (m : Machine) :
    exec w none pc (.ins .Add32 [.reg d, .reg a, .imm v] :: rest) m =
      exec w none (pc + 1) rest
        (((m.set32 w d (int32 (m.reg a) + int32 v)).setCode
          (arithmeticCode (int32 (m.reg a) + int32 v)
            (int32 (int32 (m.reg a) + int32 v) == int32 (m.reg a) + int32 v))).record
              (.ins .Add32 [.reg d, .reg a, .imm v])) :=
  exec_ins w pc _ _ rest m _ rfl

theorem exec_Add32_reg (w : Bool) (pc : Nat) (d a b : Register) (rest : List Instr)
    (m : Machine) :
    exec w none pc (.ins .Add32 [.reg d, .reg a, .reg b] :: rest) m =
      exec w none (pc + 1) rest
        (((m.set32 w d (int32 (m.reg a) + int32 (m.reg b))).setCode
          (arithmeticCode (int32 (m.reg a) + int32 (m.reg b))
            (int32 (int32 (m.reg a) + int32 (m.reg b)) ==
              int32 (m.reg a) + int32 (m.reg b)))).record
                (.ins .Add32 [.reg d, .reg a, .reg b])) :=
  exec_ins w pc _ _ rest m _ rfl

theorem exec_Add32_mem (w : Bool) (pc : Nat) (d base : Register) (offset : Int)
    (rest : List Instr) (m : Machine) :
    exec w none pc (.ins .Add32 [.reg d, .mem base offset] :: rest) m =
      exec w none (pc + 1) rest
        (((m.set32 w d (int32 (m.reg d) + int32 (m.mem (m.reg base + offset)))).setCode
          (arithmeticCode (int32 (m.reg d) + int32 (m.mem (m.reg base + offset)))
            (int32 (int32 (m.reg d) + int32 (m.mem (m.reg base + offset))) ==
              int32 (m.reg d) + int32 (m.mem (m.reg base + offset))))).record
                (.ins .Add32 [.reg d, .mem base offset])) :=
  exec_ins w pc _ _ rest m _ rfl

theorem exec_AddP_imm (w : Bool) (pc : Nat) (d a : Register) (v : Int) (rest : List Instr)
    (m : Machine) :
    exec w none pc (.ins .AddP [.reg d, .reg a, .imm v] :: rest) m =
      exec w none (pc + 1) rest
        (((m.set d (wordP w (m.reg a + wordP w v))).setCode
          (arithmeticCode (m.reg a + wordP w v)
            (wordP w (m.reg a + wordP w v) == m.reg a + wordP w v))).record
              (.ins .AddP [.reg d, .reg a, .imm v])) :=
  exec_ins w pc _ _ rest m _ rfl

theorem exec_AddP_ExtendSrc_reg (w : Bool) (pc : Nat) (d a b : Register) (rest : List Instr)
    (m : Machine) :
    exec w none pc (.ins .AddP_ExtendSrc [.reg d, .reg a, .reg b] :: rest) m =
      exec w none (pc + 1) rest
        (((m.set d (wordP w (m.reg a + int32 (m.reg b)))).setCode
          (arithmeticCode (m.reg a + int32 (m.reg b))
            (wordP w (m.reg a + int32 (m.reg b)) == m.reg a + int32 (m.reg b)))).record
              (.ins .AddP_ExtendSrc [.reg d, .reg a, .reg b])) :=
  exec_ins w pc _ _ rest m _ rfl

theorem exec_AddP_ExtendSrc_mem (w : Bool) (pc : Nat) (d base : Register) (offset : Int)
    (rest : List Instr) (m : Machine) :
    exec w none pc (.ins .AddP_ExtendSrc [.reg d, .mem base offset] :: rest) m =
      exec w none (pc + 1) rest
        (((m.set d (wordP w (m.reg d + int32 (m.mem (m.reg base + offset))))).setCode
          (arithmeticCode (m.reg d + int32 (m.mem (m.reg base + offset)))
            (wordP w (m.reg d + int32 (m.mem (m.reg base + offset))) ==
              m.reg d + int32 (m.mem (m.reg base + offset))))).record
                (.ins .AddP_ExtendSrc [.reg d, .mem base offset])) :=
  exec_ins w pc _ _ rest m _ rfl

theorem exec_lgfr (w : Bool) (pc : Nat) (d s : Register) (rest : List Instr) (m : Machine) :
    exec w none pc (.ins .lgfr [.reg d, .reg s] :: rest) m =
      exec w none (pc + 1) rest ((m.set d (int32 (m.reg s))).record (.ins .lgfr [.reg d, .reg s])) :=
  exec_ins w pc _ _ rest m _ rfl

theorem ToMemOperand_base (x : Externals) (info : CompilationInfo) (op : LOperand)
    (mem : Register × Int) (h : ToMemOperand x info op = some mem) :
    mem.1 = .fp ∨ mem.1 = .sp := by
  unfold ToMemOperand at h
  split_ifs at h
  · cases h; left; rfl
  · cases ha : ArgumentsOffsetWithoutFrame info op.index with
    | none => simp [ha] at h
    | some offset =>
      simp only [ha, Option.map_some', Option.some.injEq] at h
      subst h; right; rfl

/-- A guard emits branches, calls, stops and the stress sequence: none of the
macro-assembler calls of the lowering functions. -/
theorem DeoptimizeIf_no_ins (G : Int → BailoutType → Option Address) (cg : LCodeGen)
    (cond : Condition) (e : LEnvironment) (outer : List LEnvironment) (bailout_type : BailoutType)
    (r : LCodeGen × LEnvironment) (h : cg.DeoptimizeIf G cond e outer bailout_type = some r)
    (name : Opcode) (operands : List Operand) : .ins name operands ∉ cg.codeSince r.1 := by
  unfold LCodeGen.DeoptimizeIf at h
  cases hr : cg.RegisterEnvironmentForDeoptimization e outer .kNoLazyDeopt with
  | none => simp [hr] at h
  | some r1 =>
    obtain ⟨cg2, e2⟩ := r1
    obtain ⟨hreg, t, l, d, hcg2⟩ :=
      RegisterEnvironmentForDeoptimization_preserves cg cg2 e e2 outer _ hr
    subst hcg2
    simp only [hr, hreg, Bool.not_true, Bool.false_eq_true, if_false] at h
    split at h
    · cases h
    · cases hg : G e2.deoptimization_index bailout_type with
      | none =>
        simp only [hg, Option.some.injEq] at h
        subst h
        simp [LCodeGen.codeSince, LCodeGen.Abort]
      | some entry =>
        simp only [hg] at h
        split_ifs at h <;> cases h <;>
          simp [LCodeGen.codeSince, LCodeGen.emit, stressDeoptCode]

/-- C11.  With the constant divisor 0, `DoDivByConstI`, `DoModByConstI` and
`DoFlooringDivByConstI` each do what the one call `DeoptimizeIf(al,
instr->environment())` does and return, whatever the hydrogen flags of the
instruction are: the code they emit holds no macro-assembler call of the
lowering functions (no division, multiplication or other arithmetic), and with
the stress and trap flags off it is one unconditional guard, which hands every
run to the deoptimizer, whatever the registers hold. -/
theorem division_by_constant_zero (x : Externals) (cg : LCodeGen) (outer : List LEnvironment)
    (instr : LDivByConstI) (dividend result : Register)
    (hd : ToRegister instr.dividend = some dividend) (hr : ToRegister instr.result = some result)
    (hne : dividend ≠ result) (h0 : instr.divisor = 0) :
    cg.DoDivByConstI x instr outer =
      cg.DeoptimizeIfDefault x.GetDeoptimizationEntry .al instr.environment outer ∧
    cg.DoModByConstI x instr outer =
      cg.DeoptimizeIfDefault x.GetDeoptimizationEntry .al instr.environment outer ∧
    cg.DoFlooringDivByConstI x instr outer =
      cg.DeoptimizeIfDefault x.GetDeoptimizationEntry .al instr.environment outer ∧
    ∀ r, cg.DeoptimizeIfDefault x.GetDeoptimizationEntry .al instr.environment outer = some r →
      (∀ name operands, .ins name operands ∉ cg.codeSince r.1) ∧
      (cg.PlainGuards x →
        (∃ i, cg.codeSince r.1 = [i] ∧ i.isGuard = true) ∧
        ∀ m, ∃ m1, exec cg.info.V8_TARGET_ARCH_S390X none 0 (cg.codeSince r.1) m =
          .deoptimized 0 m1) := by
  have hs : ∀ s : LCodeGen × LEnvironment,
      (match cg.DeoptimizeIfDefault x.GetDeoptimizationEntry .al s.2 outer with
        | none => none
        | some s1 => LCodeGen.perform x outer [] s1) =
      cg.DeoptimizeIfDefault x.GetDeoptimizationEntry .al s.2 outer := by
    intro s
    cases cg.DeoptimizeIfDefault x.GetDeoptimizationEntry .al s.2 outer <;> rfl
  have hbne : (dividend == result) = false := by simpa using hne
  refine ⟨?_, ?_, ?_, ?_⟩
  · simp only [LCodeGen.DoDivByConstI, DoDivByConstI_steps, hd, hr, hbne, h0, LCodeGen.lower,
      LCodeGen.perform, Bool.false_eq_true, if_false, beq_self_eq_true, if_true]
    exact hs (cg, instr.environment)
  · simp only [LCodeGen.DoModByConstI, DoModByConstI_steps, hd, hr, hbne, h0, LCodeGen.lower,
      LCodeGen.perform, Bool.false_eq_true, if_false, beq_self_eq_true, if_true]
    exact hs (cg, instr.environment)
  · simp only [LCodeGen.DoFlooringDivByConstI, DoFlooringDivByConstI_steps, hd, hr, hbne, h0,
      LCodeGen.lower, LCodeGen.perform, Bool.false_eq_true, if_false, beq_self_eq_true, if_true]
    exact hs (cg, instr.environment)
  · intro r h
    refine ⟨fun name operands => DeoptimizeIf_no_ins _ cg _ _ outer _ r h name operands, ?_⟩
    intro hp
    obtain ⟨cg1, e1⟩ := r
    obtain ⟨entry, k, hm, -, -⟩ := DeoptimizeIfDefault_plain x cg cg1 .al _ e1 outer hp h
    have hcode : cg.codeSince cg1 =
        [guardCode (cg.frame_is_built_ && !cg.info.saves_caller_doubles) entry k .al] := by
      simp [LCodeGen.codeSince, hm]
    simp only [hcode]
    refine ⟨⟨_, rfl, ?_⟩, fun m => ?_⟩
    · unfold guardCode; split_ifs <;> rfl
    · exact ⟨_, exec_guard_al _ _ _ _ _ _ _⟩

theorem division_by_constant_zero_witness :
    sampleDivByZero.divisor = 0 ∧
    sampleCodeGen.DoModByConstI sampleExternals sampleDivByZero [] =
      sampleCodeGen.DeoptimizeIfDefault sampleExternals.GetDeoptimizationEntry .al
        sampleDivByZero.environment [] :=
  ⟨rfl, (division_by_constant_zero sampleExternals sampleCodeGen [] sampleDivByZero
    (.allocated 1) (.allocated 2) rfl rfl (by decide) rfl).2.1⟩

/-! ## The guard of `kMinInt / -1` -/

theorem samplePlainGuards : sampleCodeGen.PlainGuards sampleExternals :=
  ⟨by decide, by decide, fun id t => by simp [sampleExternals, sampleEntries]⟩

/-- C15.  With the stress and trap flags off, for a constant, register or
stack-slot right operand: the code of `DoAddI` holds a guard exactly when the
hydrogen value has `kCanOverflow`.  With the flag the guard is the last
instruction, a branch on the overflow condition after a 32-bit add, and the
run is handed to the deoptimizer when the sum of the 32-bit operands does not
fit 32 bits, and otherwise ends with the sum in the result register.  Without
the flag the run always ends and the low 32 bits of the result register are
those of the sum. -/
theorem overflow_checked_add (x : Externals) (cg : LCodeGen) (outer : List LEnvironment)
    (m : Machine) (hp : cg.PlainGuards x) :
    ∀ (instr : LAddI) (r : LCodeGen × LEnvironment) (left result : Register) (y : Int),
      cg.DoAddI x instr outer = some r → ToRegister instr.left = some left →
      ToRegister instr.result = some result →
      operandValue32 x cg.info m instr.right = some y →
      ((cg.codeSince r.1).any Instr.isGuard = instr.hydrogen.CheckFlag .kCanOverflow) ∧
      (instr.hydrogen.CheckFlag .kCanOverflow = true →
        (∃ k, (cg.codeSince r.1).getLast? = some (.b .overflow k)) ∧
        (∃ operands, .ins .Add32 operands ∈ cg.codeSince r.1) ∧
        (int32 (int32 (m.reg left) + y) ≠ int32 (m.reg left) + y →
          ∃ pc m1, exec cg.info.V8_TARGET_ARCH_S390X none 0 (cg.codeSince r.1) m =
            .deoptimized pc m1) ∧
        (int32 (int32 (m.reg left) + y) = int32 (m.reg left) + y →
          ∃ m1, exec cg.info.V8_TARGET_ARCH_S390X none 0 (cg.codeSince r.1) m = .finished m1 ∧
            int32 (m1.reg result) = int32 (m.reg left) + y)) ∧
      (instr.hydrogen.CheckFlag .kCanOverflow = false →
        ∃ m1, exec cg.info.V8_TARGET_ARCH_S390X none 0 (cg.codeSince r.1) m = .finished m1 ∧
          m1.reg result % 4294967296 = (int32 (m.reg left) + y) % 4294967296) := by
  intro instr r left result y h hl hres hy
  have hla := ToRegister_allocated _ _ hl
  have hresa := ToRegister_allocated _ _ hres
  unfold LCodeGen.DoAddI DoAddI_steps at h
  unfold operandValue32 at hy
  simp only [hl, hres] at h
  by_cases hc : instr.right.IsConstantOperand = true
  · simp only [hc, if_true, Option.some.injEq] at h hy
    obtain ⟨entry, k, hcode⟩ := lower_code x cg _ _ outer r hp h
    rw [hcode]
    generalize cg.info.V8_TARGET_ARCH_S390X = w at *
    subst hy
    cases hf : instr.hydrogen.CheckFlag .kCanOverflow <;> cases w <;>
    · simp only [List.append_assoc, List.cons_append, List.nil_append, realize, Action.ins,
        Action.branch, Action.bind, guardCode_overflow, Bool.false_eq_true, if_false,
        if_true, List.length_nil, List.length_cons, Nat.zero_add, Nat.reduceAdd, Bool.and_false,
        Bool.and_true, Bool.false_and, Bool.true_and, realize_append, List.append_nil]
      simp only [exec_Add32_imm, exec_AddP_imm, exec_lgfr, exec_b, exec_nil, holds_overflow_arith,
        Machine.record_cc, Machine.setCode_cc, Machine.set_cc]
      refine ⟨by simp [Instr.isGuard], ?_, ?_⟩
      · first
        | (intro hF; cases hF; done)
        | (intro _
           refine ⟨⟨_, rfl⟩, ⟨_, by
             first
             | exact List.mem_cons_self _ _
             | exact List.mem_cons_of_mem _ (List.mem_cons_self _ _)⟩, ?_, ?_⟩
           · intro hov
             simp [hov]
           · intro hov
             simp [hov, int32_writeLow, int32_int32])
      · first
        | (intro hF; cases hF; done)
        | (intro _
           refine ⟨_, rfl, ?_⟩
           simp [writeLow_emod, wordP, int32, int64]
           try omega)
  · by_cases hr : instr.right.IsRegister = true
    · have hrr : ToRegister instr.right = some (.allocated instr.right.index) := by
        simp [ToRegister, hr]
      simp only [hc, hr, hrr, if_true, if_false, Bool.false_eq_true, Option.some.injEq] at h hy
      obtain ⟨entry, k, hcode⟩ := lower_code x cg _ _ outer r hp h
      rw [hcode]
      generalize cg.info.V8_TARGET_ARCH_S390X = w at *
      subst hy
      cases hf : instr.hydrogen.CheckFlag .kCanOverflow <;> cases w <;>
      · simp only [List.append_assoc, List.cons_append, List.nil_append, realize, Action.ins,
          Action.branch, Action.bind, guardCode_overflow, Bool.false_eq_true, if_false,
          if_true, List.length_nil, List.length_cons, Nat.zero_add, Nat.reduceAdd, Bool.and_false,
          Bool.and_true, Bool.false_and, Bool.true_and, realize_append, List.append_nil]
        simp only [exec_Add32_reg, exec_AddP_ExtendSrc_reg, exec_lgfr, exec_b, exec_nil, holds_overflow_arith,
          Machine.record_cc, Machine.setCode_cc, Machine.set_cc]
        refine ⟨by simp [Instr.isGuard], ?_, ?_⟩
        · first
          | (intro hF; cases hF; done)
          | (intro _
             refine ⟨⟨_, rfl⟩, ⟨_, by
               first
               | exact List.mem_cons_self _ _
               | exact List.mem_cons_of_mem _ (List.mem_cons_self _ _)⟩, ?_, ?_⟩
             · intro hov
               simp [hov]
             · intro hov
               simp [hov, int32_writeLow, int32_int32])
        · first
          | (intro hF; cases hF; done)
          | (intro _
             refine ⟨_, rfl, ?_⟩
             simp [writeLow_emod, wordP, int32, int64]
             try omega)
    · cases hmem : ToMemOperand x cg.info instr.right with
      | none => simp [hc, hr, hmem] at hy
      | some mem =>
        obtain ⟨base, offset⟩ := mem
        have hbase := ToMemOperand_base _ _ _ _ hmem
        simp only [hc, hr, hmem, if_true, if_false, Bool.false_eq_true, Option.some.injEq,
          Option.map_some'] at h hy
        subst hresa
        by_cases he : instr.left.Equals instr.result = true
        · have hlr : left = .allocated instr.result.index := by
            have : instr.left = instr.result := by simpa [LOperand.Equals] using he
            rw [this] at hla; exact hla
          subst hlr
          simp only [he, Bool.not_true, Bool.false_eq_true, if_false] at h
          obtain ⟨entry, k, hcode⟩ := lower_code x cg _ _ outer r hp h
          rw [hcode]
          generalize cg.info.V8_TARGET_ARCH_S390X = w at *
          rcases hbase with hb | hb <;> simp only at hb <;> subst hb <;>
          cases hf : instr.hydrogen.CheckFlag .kCanOverflow <;> cases w <;>
          · simp only [if_true, if_false, Bool.false_eq_true] at hy
            subst hy
            simp only [List.append_assoc, List.cons_append, List.nil_append, realize, Action.ins,
              Action.branch, Action.bind, guardCode_overflow, Bool.false_eq_true, if_false,
              if_true, List.length_nil, List.length_cons, Nat.zero_add, Nat.reduceAdd, Bool.and_false,
              Bool.and_true, Bool.false_and, Bool.true_and, realize_append, List.append_nil]
            simp only [exec_LoadRR, exec_Add32_mem, exec_AddP_ExtendSrc_mem, exec_lgfr, exec_b, exec_nil, holds_overflow_arith,
              Machine.record_cc, Machine.setCode_cc, Machine.set_cc, Machine.record_reg, Machine.set_reg,
              Machine.record_mem, Machine.set_mem, Function.update_same, ne_eq, reduceCtorEq,
              not_false_eq_true, Function.update_noteq]
            refine ⟨by simp [Instr.isGuard], ?_, ?_⟩
            · first
              | (intro hF; cases hF; done)
              | (intro _
                 refine ⟨⟨_, rfl⟩, ⟨_, by
                   first
                   | exact List.mem_cons_self _ _
                   | exact List.mem_cons_of_mem _ (List.mem_cons_self _ _)⟩, ?_, ?_⟩
                 · intro hov
                   simp [hov]
                 · intro hov
                   simp [hov, int32_writeLow, int32_int32])
            · first
              | (intro hF; cases hF; done)
              | (intro _
                 refine ⟨_, rfl, ?_⟩
                 simp [writeLow_emod, wordP, int32, int64]
                 try omega)
        · subst hla
          have he2 : instr.left.Equals instr.result = false := by simpa using he
          simp only [he2, Bool.not_false, if_true] at h
          obtain ⟨entry, k, hcode⟩ := lower_code x cg _ _ outer r hp h
          rw [hcode]
          generalize cg.info.V8_TARGET_ARCH_S390X = w at *
          rcases hbase with hb | hb <;> simp only at hb <;> subst hb <;>
          cases hf : instr.hydrogen.CheckFlag .kCanOverflow <;> cases w <;>
          · simp only [if_true, if_false, Bool.false_eq_true] at hy
            subst hy
            simp only [List.append_assoc, List.cons_append, List.nil_append, realize, Action.ins,
              Action.branch, Action.bind, guardCode_overflow, Bool.false_eq_true, if_false,
              if_true, List.length_nil, List.length_cons, Nat.zero_add, Nat.reduceAdd, Bool.and_false,
              Bool.and_true, Bool.false_and, Bool.true_and, realize_append, List.append_nil]
            simp only [exec_LoadRR, exec_Add32_mem, exec_AddP_ExtendSrc_mem, exec_lgfr, exec_b, exec_nil, holds_overflow_arith,
              Machine.record_cc, Machine.setCode_cc, Machine.set_cc, Machine.record_reg, Machine.set_reg,
              Machine.record_mem, Machine.set_mem, Function.update_same, ne_eq, reduceCtorEq,
              not_false_eq_true, Function.update_noteq]
            refine ⟨by simp [Instr.isGuard], ?_, ?_⟩
            · first
              | (intro hF; cases hF; done)
              | (intro _
                 refine ⟨⟨_, rfl⟩, ⟨_, by
                   first
                   | exact List.mem_cons_self _ _
                   | exact List.mem_cons_of_mem _ (List.mem_cons_self _ _)⟩, ?_, ?_⟩
                 · intro hov
                   simp [hov]
                 · intro hov
                   simp [hov, int32_writeLow, int32_int32])
            · first
              | (intro hF; cases hF; done)
              | (intro _
                 refine ⟨_, rfl, ?_⟩
                 simp [writeLow_emod, wordP, int32, int64]
                 try omega)

theorem overflow_checked_add_witness :
    (∃ r pc m1, sampleCodeGen.DoAddI sampleExternals (sampleAddI [.kCanOverflow]) [sampleOuter] =
        some r ∧
      exec true none 0 (sampleCodeGen.codeSince r.1) sampleMachine = .deoptimized pc m1) ∧
    (∃ r m1, sampleCodeGen.DoAddI sampleExternals (sampleAddI []) [sampleOuter] = some r ∧
      exec true none 0 (sampleCodeGen.codeSince r.1) sampleMachine = .finished m1 ∧
      m1.reg (.allocated 3) % 4294967296 = 0x80000000) :=
  ⟨(⟨_, rfl⟩ : ∃ r, sampleCodeGen.DoAddI sampleExternals (sampleAddI [.kCanOverflow])
      [sampleOuter] = some r).elim
    fun r hr =>
      match ((overflow_checked_add sampleExternals sampleCodeGen [sampleOuter] sampleMachine
        samplePlainGuards (sampleAddI [.kCanOverflow]) r (.allocated 6) (.allocated 3) 1 hr rfl
        rfl (by decide)).2.1 (by decide)).2.2.1 (by decide) with
      | ⟨pc, m1, h1⟩ => ⟨r, pc, m1, hr, h1⟩,
   (⟨_, rfl⟩ : ∃ r, sampleCodeGen.DoAddI sampleExternals (sampleAddI []) [sampleOuter] =
      some r).elim
    fun r hr =>
      match (overflow_checked_add sampleExternals sampleCodeGen [sampleOuter] sampleMachine
        samplePlainGuards (sampleAddI []) r (.allocated 6) (.allocated 3) 1 hr rfl
        rfl (by decide)).2.2 (by decide) with
      | ⟨m1, h1, h2⟩ => ⟨r, m1, hr, h1, h2.trans (by decide)⟩⟩

/-! ## Comparison of two constants -/

/-- What `EmitGoto` emits: nothing for the block emitted next, and otherwise
the unconditional jump. -/
theorem EmitGoto_code (cg : LCodeGen) (blocks : Blocks) (block : Int) :
    cg.codeSince (cg.EmitGoto blocks block) =
      if blocks.LookupDestination block = blocks.GetNextEmittedBlock then []
      else [.branch .al (.block (blocks.LookupDestination block))] := by
  unfold LCodeGen.EmitGoto Blocks.IsNextEmittedBlock
  by_cases h : blocks.LookupDestination block = blocks.GetNextEmittedBlock
  · simp [h, LCodeGen.codeSince]
  · simp [h, LCodeGen.codeSince, LCodeGen.emit]

/-- The code of `EmitGoto` takes control to the destination of the block. -/
theorem EmitGoto_reaches (cg : LCodeGen) (blocks : Blocks) (block : Int) (w : Bool) (m : Machine) :
    (exec w none 0 (cg.codeSince (cg.EmitGoto blocks block)) m).reaches blocks
      (blocks.LookupDestination block) := by
  rw [EmitGoto_code]
  split_ifs with h
  · simp [exec_nil, Outcome.reaches, h]
  · simp [exec_branch, exec_seek_nil, holds_al, Outcome.reaches]

/-- C16 as stated fails: for the comparison `3 < 5` of two constants whose true
block is the block emitted next, `DoCompareNumericAndBranch` emits no
instruction at all, so no jump to the true destination. -/
theorem DoCompareNumericAndBranch_emits_no_jump :
    sampleEvalComparison sampleCompare.op 3 5 = true ∧
    sampleToDouble sampleCompare.left = some 3 ∧ sampleToDouble sampleCompare.right = some 5 ∧
    (sampleCodeGen.DoCompareNumericAndBranch sampleExternals sampleToDouble sampleEvalComparison
      sampleBlocks sampleCompare).map sampleCodeGen.codeSince = some [] := by
  refine ⟨by decide, by decide, by decide, ?_⟩
  decide

/-- C16, amended.  When both operands are constant operands with double
values, `DoCompareNumericAndBranch` returns and emits no comparison and no
conditional branch: it emits what `EmitGoto` emits for the true destination
when `EvalComparison(op, left, right)` holds and for the false destination
otherwise, which is nothing when that destination is the block emitted next
and one unconditional jump to it otherwise.  Either way control reaches that
destination. -/
theorem static_comparison_folding {D : Type} (x : Externals) (ToDouble : LOperand → Option D)
    (EvalComparison : Token → D → D → Bool) (cg : LCodeGen) (blocks : Blocks)
    (instr : LCompareNumericAndBranch) (cond : Condition) (left_val right_val : D) (dest : Int)
    (hop : TokenToCondition instr.op = some cond)
    (hl : instr.left.IsConstantOperand = true) (hr : instr.right.IsConstantOperand = true)
    (hlv : ToDouble instr.left = some left_val) (hrv : ToDouble instr.right = some right_val)
    (hdest : dest = if EvalComparison instr.op left_val right_val then
        instr.control.TrueDestination blocks else instr.control.FalseDestination blocks)
    (hidem : ∀ b, blocks.LookupDestination (blocks.LookupDestination b) =
      blocks.LookupDestination b) :
    ∃ cg1, cg.DoCompareNumericAndBranch x ToDouble EvalComparison blocks instr = some cg1 ∧
      cg.codeSince cg1 =
        (if dest = blocks.GetNextEmittedBlock then [] else [.branch .al (.block dest)]) ∧
      ∀ w m, (exec w none 0 (cg.codeSince cg1) m).reaches blocks dest := by
  have hd : blocks.LookupDestination dest = dest := by
    rw [hdest]
    split_ifs
    · exact hidem _
    · exact hidem _
  refine ⟨cg.EmitGoto blocks dest, ?_, ?_, ?_⟩
  · simp only [LCodeGen.DoCompareNumericAndBranch, hop, hl, hr, hlv, hrv, Bool.and_self, if_true,
      hdest]
  · rw [EmitGoto_code, hd]
  · intro w m
    have h := EmitGoto_reaches cg blocks dest w m
    rw [hd] at h
    exact h

theorem static_comparison_folding_witness :
    ∃ cg1, sampleCodeGen.DoCompareNumericAndBranch sampleExternals sampleToDouble
        sampleEvalComparison sampleBlocks sampleCompareFalse = some cg1 ∧
      sampleCodeGen.codeSince cg1 = [.branch .al (.block 4)] ∧
      ∀ w m, (exec w none 0 (sampleCodeGen.codeSince cg1) m).reaches sampleBlocks 4 :=
  static_comparison_folding sampleExternals sampleToDouble sampleEvalComparison sampleCodeGen
    sampleBlocks sampleCompareFalse .lt 5 3 4 rfl rfl rfl rfl rfl (by decide) (fun _ => rfl)

/-! ## Branches on a condition -/

/-- On the condition codes of a comparison a negated condition holds exactly
when the condition does not. -/
theorem NegateCondition_holds (cond : Condition) (cc : ConditionCode) (hc : cond ≠ .al)
    (hcc : cc ≠ .cc3) : (NegateCondition cond).holds cc = !cond.holds cc := by
  cases cond <;> cases cc <;> first | rfl | exact absurd rfl hc | exact absurd rfl hcc

/-- C17 as stated fails: with the true block, the false block and the block
emitted next all the same, `EmitBranch` emits no jump at all. -/
theorem EmitBranch_emits_no_jump :
    sampleControlSame.TrueDestination sampleBlocks = sampleControlSame.FalseDestination sampleBlocks ∧
    sampleControlSame.TrueDestination sampleBlocks = sampleBlocks.GetNextEmittedBlock ∧
    sampleCodeGen.codeSince (sampleCodeGen.EmitBranch sampleBlocks sampleControlSame .eq) = [] := by
  decide

/-- C17, amended.  For the true destination `T`, the false destination `F`, the
block `N` emitted next and the condition `cond`, `EmitBranch` emits: when
`T = F` or `cond` is `al`, what `EmitGoto` emits for `T`, which is nothing when
`T = N` and one unconditional jump to `T` otherwise; else, when `T = N`, one
conditional jump on the negated condition to `F`; else, when `F = N`, one
conditional jump on `cond` to `T`; else a conditional jump on `cond` to `T`
followed by an unconditional jump to `F`.  On a machine on which the negated
condition holds exactly when `cond` does not, control reaches `T` when `cond`
holds and `F` when it does not, falling through to `N` included. -/
theorem EmitBranch_three_way (cg : LCodeGen) (blocks : Blocks) (instr : LControlInstruction)
    (cond : Condition) (T F N : Int)
    (hT : T = instr.TrueDestination blocks) (hF : F = instr.FalseDestination blocks)
    (hN : N = blocks.GetNextEmittedBlock)
    (hidem : ∀ b, blocks.LookupDestination (blocks.LookupDestination b) =
      blocks.LookupDestination b) :
    cg.codeSince (cg.EmitBranch blocks instr cond) =
      (if F = T ∨ cond = .al then (if T = N then [] else [.branch .al (.block T)])
       else if T = N then [.branch (NegateCondition cond) (.block F)]
       else if F = N then [.branch cond (.block T)]
       else [.branch cond (.block T), .branch .al (.block F)]) ∧
    ∀ (w : Bool) (m : Machine),
      (cond ≠ .al → (NegateCondition cond).holds m.cc = !cond.holds m.cc) →
      (exec w none 0 (cg.codeSince (cg.EmitBranch blocks instr cond)) m).reaches blocks
        (if cond.holds m.cc then T else F) := by
  have hTT : blocks.LookupDestination T = T := by rw [hT]; exact hidem _
  have hcode : cg.codeSince (cg.EmitBranch blocks instr cond) =
      (if F = T ∨ cond = .al then (if T = N then [] else [.branch .al (.block T)])
       else if T = N then [.branch (NegateCondition cond) (.block F)]
       else if F = N then [.branch cond (.block T)]
       else [.branch cond (.block T), .branch .al (.block F)]) := by
    unfold LCodeGen.EmitBranch
    simp only [← hT, ← hF, ← hN, Bool.or_eq_true, beq_iff_eq]
    by_cases h1 : F = T ∨ cond = .al
    · simp only [h1, if_true, EmitGoto_code, hTT, ← hN]
    · simp only [h1, if_false]
      by_cases h2 : T = N
      · simp [h2, LCodeGen.codeSince, LCodeGen.emit]
      · by_cases h3 : F = N
        · simp [h2, h3, LCodeGen.codeSince, LCodeGen.emit]
        · simp [h2, h3, LCodeGen.codeSince, LCodeGen.emit]
  refine ⟨hcode, ?_⟩
  intro w m hneg
  rw [hcode]
  by_cases h1 : F = T ∨ cond = .al
  · have hdest : (if cond.holds m.cc = true then T else F) = T := by
      rcases h1 with h1 | h1
      · simp [h1]
      · simp [h1, holds_al]
    rw [hdest]
    simp only [h1, if_true]
    by_cases h2 : T = N
    · simp [h2, exec_nil, Outcome.reaches, hN]
    · simp [h2, exec_branch, exec_seek_nil, holds_al, Outcome.reaches]
  · simp only [h1, if_false]
    have hal : cond ≠ .al := fun h => h1 (Or.inr h)
    have hn := hneg hal
    by_cases h2 : T = N
    · simp only [h2, if_true, exec_branch, hn]
      cases hc : cond.holds m.cc
      · simp [exec_seek_nil, Outcome.reaches]
      · simp [exec_nil, Outcome.reaches, hN]
    · by_cases h3 : F = N
      · simp only [h2, h3, if_true, if_false, exec_branch]
        cases hc : cond.holds m.cc
        · simp [exec_nil, Outcome.reaches, hN]
        · simp [exec_seek_nil, Outcome.reaches]
      · simp only [h2, h3, if_false, exec_branch]
        cases hc : cond.holds m.cc
        · simp [exec_branch, exec_seek_nil, holds_al, Outcome.reaches]
        · simp [exec_seek_branch, exec_seek_nil, Outcome.reaches]

theorem EmitBranch_three_way_witness :
    sampleCodeGen.codeSince (sampleCodeGen.EmitBranch sampleBlocks sampleControl .lt) =
      [.branch .lt (.block 5), .branch .al (.block 4)] ∧
    (exec true none 0 (sampleCodeGen.codeSince (sampleCodeGen.EmitBranch sampleBlocks
      sampleControl .lt)) sampleMachine).reaches sampleBlocks 4 :=
  ⟨(EmitBranch_three_way sampleCodeGen sampleBlocks sampleControl .lt 5 4 3 rfl rfl rfl
      (fun _ => rfl)).1,
   (EmitBranch_three_way sampleCodeGen sampleBlocks sampleControl .lt 5 4 3 rfl rfl rfl
      (fun _ => rfl)).2 true sampleMachine (fun _ => rfl)⟩

/-! ## The OSR prologue -/

theorem streamCode_append (a b : List StreamInstruction) :
    streamCode (a ++ b) = streamCode a ++ streamCode b := by
  induction a with
  | nil => rfl
  | cons i rest ih => simp [streamCode, ih]

/-- Once the OSR offset is recorded, `GenerateOsrPrologue` returns at once. -/
theorem GenerateOsrPrologue_done (cg : LCodeGen) (U : Int) (h : 0 ≤ cg.osr_pc_offset_) :
    cg.GenerateOsrPrologue U = some cg := by
  unfold LCodeGen.GenerateOsrPrologue
  simp [h]

/-- The first run of `GenerateOsrPrologue` records the offset and emits the
adjustment. -/
theorem GenerateOsrPrologue_first (cg : LCodeGen) (U : Int) (h : cg.osr_pc_offset_ < 0)
    (hs : 0 ≤ cg.info.GetStackSlotCount - U) :
    cg.GenerateOsrPrologue U =
      some (({ cg with osr_pc_offset_ := cg.pc_offset } : LCodeGen).asm .lay_sp_slots
        [-(cg.info.GetStackSlotCount - U)]) := by
  unfold LCodeGen.GenerateOsrPrologue
  have h1 : ¬ (cg.osr_pc_offset_ ≥ 0) := by omega
  simp [h1, hs]

/-- What `GenerateOsrPrologue` returns from a negative offset. -/
theorem GenerateOsrPrologue_some (cg cg1 : LCodeGen) (U : Int) (hneg : cg.osr_pc_offset_ < 0)
    (h : cg.GenerateOsrPrologue U = some cg1) :
    cg1 = ({ cg with osr_pc_offset_ := cg.pc_offset } : LCodeGen).asm .lay_sp_slots
      [-(cg.info.GetStackSlotCount - U)] := by
  by_cases hs : 0 ≤ cg.info.GetStackSlotCount - U
  · rw [GenerateOsrPrologue_first cg U hneg hs] at h
    cases h; rfl
  · unfold LCodeGen.GenerateOsrPrologue at h
    have h1 : ¬ (cg.osr_pc_offset_ ≥ 0) := by omega
    simp [h1, hs] at h

/-- Whatever `GenerateOsrPrologue` returns has the offset recorded. -/
theorem GenerateOsrPrologue_recorded (cg cg1 : LCodeGen) (U : Int)
    (h : cg.GenerateOsrPrologue U = some cg1) : 0 ≤ cg1.osr_pc_offset_ := by
  by_cases h1 : 0 ≤ cg.osr_pc_offset_
  · rw [GenerateOsrPrologue_done cg U h1] at h
    cases h; exact h1
  · rw [GenerateOsrPrologue_some cg cg1 U (by omega) h]
    simp [LCodeGen.asm, LCodeGen.emit]

/-- With the offset recorded, `DoOsrEntry` registers its environment and emits
nothing. -/
theorem DoOsrEntry_done (cg cg1 : LCodeGen) (U : Int) (environment : LEnvironment)
    (outer : List LEnvironment) (hd : 0 ≤ cg.osr_pc_offset_)
    (h : cg.DoOsrEntry U environment outer = some cg1) :
    cg1.masm = cg.masm ∧ cg1.osr_pc_offset_ = cg.osr_pc_offset_ ∧ cg1.info = cg.info := by
  unfold LCodeGen.DoOsrEntry at h
  split_ifs at h
  cases hr : cg.RegisterEnvironmentForDeoptimization environment outer .kNoLazyDeopt with
  | none => simp [hr] at h
  | some r =>
    obtain ⟨cg2, e2⟩ := r
    obtain ⟨-, t, l, d, hcg2⟩ :=
      RegisterEnvironmentForDeoptimization_preserves cg cg2 environment e2 outer _ hr
    simp only [hr] at h
    rw [GenerateOsrPrologue_done cg2 U (by rw [hcg2]; exact hd)] at h
    cases h
    subst hcg2
    exact ⟨rfl, rfl, rfl⟩

/-- The first OSR instruction of the pass emits the adjustment and records the
offset of the code emitted so far. -/
theorem DoOsrEntry_first (cg cg1 : LCodeGen) (U : Int) (environment : LEnvironment)
    (outer : List LEnvironment) (hd : cg.osr_pc_offset_ < 0)
    (h : cg.DoOsrEntry U environment outer = some cg1) :
    cg1.masm = cg.masm ++ [.asm .lay_sp_slots [-(cg.info.GetStackSlotCount - U)]] ∧
    cg1.osr_pc_offset_ = cg.pc_offset ∧ cg1.info = cg.info := by
  unfold LCodeGen.DoOsrEntry at h
  split_ifs at h
  cases hr : cg.RegisterEnvironmentForDeoptimization environment outer .kNoLazyDeopt with
  | none => simp [hr] at h
  | some r =>
    obtain ⟨cg2, e2⟩ := r
    obtain ⟨-, t, l, d, hcg2⟩ :=
      RegisterEnvironmentForDeoptimization_preserves cg cg2 environment e2 outer _ hr
    simp only [hr] at h
    subst hcg2
    rw [GenerateOsrPrologue_some _ cg1 U (by exact hd) h]
    exact ⟨rfl, rfl, rfl⟩

/-- After the offset is recorded, a stream emits the code of its other
instructions and nothing else. -/
theorem compileStream_done (U : Int) (stream : List StreamInstruction) :
    ∀ cg cg1 : LCodeGen, 0 ≤ cg.osr_pc_offset_ →
      LCodeGen.compileStream U stream cg = some cg1 →
      cg1.masm = cg.masm ++ streamCode stream ∧ cg1.osr_pc_offset_ = cg.osr_pc_offset_ := by
  induction stream with
  | nil =>
    intro cg cg1 _ h
    simp only [LCodeGen.compileStream, Option.some.injEq] at h
    subst h
    simp [streamCode]
  | cons i rest ih =>
    intro cg cg1 hd h
    cases i with
    | LUnknownOSRValue =>
      simp only [LCodeGen.compileStream, LCodeGen.DoUnknownOSRValue,
        GenerateOsrPrologue_done cg U hd, Option.some_bind] at h
      simpa [streamCode, StreamInstruction.code] using ih cg cg1 hd h
    | LOsrEntry environment outer =>
      simp only [LCodeGen.compileStream] at h
      cases hr : cg.DoOsrEntry U environment outer with
      | none => simp [hr] at h
      | some cg2 =>
        simp only [hr, Option.some_bind] at h
        obtain ⟨hm, ho, -⟩ := DoOsrEntry_done cg cg2 U environment outer hd hr
        obtain ⟨h1, h2⟩ := ih cg2 cg1 (by rw [ho]; exact hd) h
        simp [streamCode, StreamInstruction.code, h1, h2, hm, ho]
    | other code =>
      simp only [LCodeGen.compileStream] at h
      obtain ⟨h1, h2⟩ := ih (cg.emitAll code) cg1 hd h
      simp [streamCode, StreamInstruction.code, h1, h2, LCodeGen.emitAll]

/-- Instructions other than the OSR ones leave the OSR offset alone. -/
theorem compileStream_no_osr (U : Int) (stream : List StreamInstruction) :
    ∀ cg : LCodeGen, (∀ i ∈ stream, i.isOsr = false) →
      LCodeGen.compileStream U stream cg = some (cg.emitAll (streamCode stream)) := by
  induction stream with
  | nil => intro cg _; simp [LCodeGen.compileStream, streamCode, LCodeGen.emitAll]
  | cons i rest ih =>
    intro cg hall
    have hi := hall i (List.mem_cons_self _ _)
    cases i with
    | LUnknownOSRValue => simp [StreamInstruction.isOsr] at hi
    | LOsrEntry environment outer => simp [StreamInstruction.isOsr] at hi
    | other code =>
      simp only [LCodeGen.compileStream]
      rw [ih _ (fun j hj => hall j (List.mem_cons_of_mem _ hj))]
      simp [streamCode, StreamInstruction.code, LCodeGen.emitAll]

theorem compileStream_append (U : Int) (a b : List StreamInstruction) :
    ∀ cg : LCodeGen, LCodeGen.compileStream U (a ++ b) cg =
      (LCodeGen.compileStream U a cg).bind (LCodeGen.compileStream U b) := by
  induction a with
  | nil => intro cg; simp [LCodeGen.compileStream]
  | cons i rest ih =>
    intro cg
    cases i with
    | LUnknownOSRValue =>
      simp only [List.cons_append, LCodeGen.compileStream]
      cases cg.DoUnknownOSRValue U with
      | none => rfl
      | some cg2 => simp [ih]
    | LOsrEntry environment outer =>
      simp only [List.cons_append, LCodeGen.compileStream]
      cases cg.DoOsrEntry U environment outer with
      | none => rfl
      | some cg2 => simp [ih]
    | other code =>
      simp only [List.cons_append, LCodeGen.compileStream]
      exact ih _

/-- C18.  `GenerateOsrPrologue` returns at once, emitting nothing, when
`osr_pc_offset_` is not negative; when it is negative (and the slot assertion
holds) it records the current offset and emits the stack-pointer adjustment.
After it has run, every later call, from `DoUnknownOSRValue` or from
`DoOsrEntry`, emits nothing and leaves `osr_pc_offset_` as it is.  So over an
instruction stream compiled from a negative offset the adjustment is emitted
once, at the first unknown-OSR-value or OSR-entry instruction, between the
code of the instructions before it and of those after it, and not at all when
the stream has no such instruction. -/
theorem OsrPrologue_fires_once (U : Int) (cg : LCodeGen) :
    (0 ≤ cg.osr_pc_offset_ → cg.GenerateOsrPrologue U = some cg) ∧
    (cg.osr_pc_offset_ < 0 → 0 ≤ cg.info.GetStackSlotCount - U →
      ∃ cg1, cg.GenerateOsrPrologue U = some cg1 ∧ cg1.osr_pc_offset_ = cg.pc_offset ∧
        cg.codeSince cg1 = [.asm .lay_sp_slots [-(cg.info.GetStackSlotCount - U)]]) ∧
    (∀ cg1, cg.GenerateOsrPrologue U = some cg1 →
      cg1.GenerateOsrPrologue U = some cg1 ∧ cg1.DoUnknownOSRValue U = some cg1 ∧
      ∀ environment outer cg2, cg1.DoOsrEntry U environment outer = some cg2 →
        cg1.codeSince cg2 = [] ∧ cg2.osr_pc_offset_ = cg1.osr_pc_offset_) ∧
    (∀ stream cg1, cg.osr_pc_offset_ < 0 → LCodeGen.compileStream U stream cg = some cg1 →
      ((∀ i ∈ stream, i.isOsr = false) →
        cg.codeSince cg1 = streamCode stream ∧ cg1.osr_pc_offset_ = cg.osr_pc_offset_) ∧
      (∀ before i after, stream = before ++ i :: after → (∀ j ∈ before, j.isOsr = false) →
        i.isOsr = true →
        cg.codeSince cg1 = streamCode before ++
          [.asm .lay_sp_slots [-(cg.info.GetStackSlotCount - U)]] ++ streamCode after ∧
        cg1.osr_pc_offset_ = cg.pc_offset + (streamCode before).length)) := by
  refine ⟨GenerateOsrPrologue_done cg U, ?_, ?_, ?_⟩
  · intro h hs
    refine ⟨_, GenerateOsrPrologue_first cg U h hs, rfl, ?_⟩
    simp [LCodeGen.codeSince, LCodeGen.asm, LCodeGen.emit]
  · intro cg1 h
    have hd := GenerateOsrPrologue_recorded cg cg1 U h
    refine ⟨GenerateOsrPrologue_done cg1 U hd, GenerateOsrPrologue_done cg1 U hd, ?_⟩
    intro environment outer cg2 h2
    obtain ⟨hm, ho, -⟩ := DoOsrEntry_done cg1 cg2 U environment outer hd h2
    exact ⟨by simp [LCodeGen.codeSince, hm], ho⟩
  · intro stream cg1 hneg h
    constructor
    · intro hall
      rw [compileStream_no_osr U stream cg hall] at h
      cases h
      simp [LCodeGen.codeSince, LCodeGen.emitAll]
    · intro before i after hstream hbefore hi
      subst hstream
      rw [compileStream_append, compileStream_no_osr U before cg hbefore, Option.some_bind] at h
      have hfirst : ∃ cg2, LCodeGen.compileStream U after cg2 = some cg1 ∧
          cg2.masm = (cg.emitAll (streamCode before)).masm ++
            [.asm .lay_sp_slots [-(cg.info.GetStackSlotCount - U)]] ∧
          cg2.osr_pc_offset_ = (cg.emitAll (streamCode before)).pc_offset := by
        cases i with
        | other code => simp [StreamInstruction.isOsr] at hi
        | LUnknownOSRValue =>
          simp only [LCodeGen.compileStream, LCodeGen.DoUnknownOSRValue] at h
          cases hg : (cg.emitAll (streamCode before)).GenerateOsrPrologue U with
          | none => simp [hg] at h
          | some cg2 =>
            simp only [hg, Option.some_bind] at h
            refine ⟨cg2, h, ?_⟩
            rw [GenerateOsrPrologue_some _ cg2 U (by simp only [LCodeGen.emitAll]; exact hneg) hg]
            exact ⟨rfl, rfl⟩
        | LOsrEntry environment outer =>
          simp only [LCodeGen.compileStream] at h
          cases hg : (cg.emitAll (streamCode before)).DoOsrEntry U environment outer with
          | none => simp [hg] at h
          | some cg2 =>
            simp only [hg, Option.some_bind] at h
            obtain ⟨hm, ho, -⟩ := DoOsrEntry_first _ cg2 U environment outer
              (by simp only [LCodeGen.emitAll]; exact hneg) hg
            exact ⟨cg2, h, hm, ho⟩
      obtain ⟨cg2, hrest, hm, ho⟩ := hfirst
      obtain ⟨h1, h2⟩ := compileStream_done U after cg2 cg1
        (by rw [ho]; exact Int.ofNat_nonneg _) hrest
      constructor
      · simp [LCodeGen.codeSince, h1, hm, LCodeGen.emitAll]
      · rw [h2, ho]
        simp [LCodeGen.pc_offset, LCodeGen.emitAll]

theorem OsrPrologue_fires_once_witness :
    ∃ cg1, LCodeGen.compileStream 1 sampleStream sampleCodeGen = some cg1 ∧
      sampleCodeGen.codeSince cg1 = [.nop, .asm .lay_sp_slots [-1], .nop, .nop] ∧
      cg1.osr_pc_offset_ = 4 :=
  (⟨_, rfl⟩ : ∃ cg1, LCodeGen.compileStream 1 sampleStream sampleCodeGen = some cg1).elim
    fun cg1 h =>
      ⟨cg1, h,
        (((OsrPrologue_fires_once 1 sampleCodeGen).2.2.2 sampleStream cg1 (by decide) h).2
          [.other [.nop]] .LUnknownOSRValue
          [.other [.nop, .nop], .LOsrEntry sampleEnvironment [sampleOuter], .LUnknownOSRValue]
          rfl (by decide) rfl).1,
        (((OsrPrologue_fires_once 1 sampleCodeGen).2.2.2 sampleStream cg1 (by decide) h).2
          [.other [.nop]] .LUnknownOSRValue
          [.other [.nop, .nop], .LOsrEntry sampleEnvironment [sampleOuter], .LUnknownOSRValue]
          rfl (by decide) rfl).2⟩

/-! ## Deferred code -/

/-- The loop of `GenerateDeferredCode`, block by block. -/
theorem deferredLoop_blocks (h : Collaborators) (hh : h.GenerateEmits)
    (codes : List LDeferredCode) :
    ∀ (cg cg1 : LCodeGen), LCodeGen.deferredLoop h codes cg = some cg1 →
      ∃ processed : List (LDeferredCode × LCodeGen),
        processed.map Prod.fst <+: codes ∧
        cg1.masm = cg.masm ++ deferredCode h cg.info processed ∧
        cg1.frame_is_built_ = cg.frame_is_built_ ∧ cg1.info = cg.info ∧
        (processed.map Prod.fst = codes ∨ cg1.is_aborted = true) ∧
        ∀ p ∈ processed, p.2.is_aborted = false ∧
          p.2.frame_is_built_ = (cg.info.NeedsDeferredFrame || cg.frame_is_built_) := by
  induction codes with
  | nil =>
    intro cg cg1 hl
    simp only [LCodeGen.deferredLoop, Option.some.injEq] at hl
    subst hl
    exact ⟨[], by simp, by simp [deferredCode], rfl, rfl, Or.inl rfl, by simp⟩
  | cons code rest ih =>
    intro cg cg1 hl
    simp only [LCodeGen.deferredLoop] at hl
    by_cases ha : cg.is_aborted = true
    · simp only [ha, if_true, Option.some.injEq] at hl
      subst hl
      exact ⟨[], by simp, by simp [deferredCode], rfl, rfl, Or.inr ha, by simp⟩
    · simp only [ha, Bool.false_eq_true, if_false] at hl
      generalize hcg2 : (LCodeGen.asm (if (code.position == cg.info.kNoPosition) = true then cg
        else cg.asm .RecordPosition [code.position]) .bind_entry [code.entry]) = cg2 at hl
      have h2m : cg2.masm = cg.masm ++
          ((if code.position == cg.info.kNoPosition then []
            else [.asm .RecordPosition [code.position]]) ++ [.asm .bind_entry [code.entry]]) := by
        subst hcg2
        split_ifs <;> simp [LCodeGen.asm, LCodeGen.emit]
      have h2f : cg2.frame_is_built_ = cg.frame_is_built_ := by
        subst hcg2
        split_ifs <;> rfl
      have h2i : cg2.info = cg.info := by
        subst hcg2
        split_ifs <;> rfl
      have h2s : cg2.is_aborted = cg.is_aborted := by
        subst hcg2
        split_ifs <;> rfl
      cases h3 : cg2.buildDeferredFrame with
      | none => simp [h3] at hl
      | some cg3 =>
        simp only [h3] at hl
        cases h5 : (h.Generate code cg3).destroyDeferredFrame with
        | none => simp [h5] at hl
        | some cg5 =>
          simp only [h5] at hl
          obtain ⟨⟨body, hb⟩, hgf, hgi⟩ := hh code cg3
          have hbody : cg3.codeSince (h.Generate code cg3) = body := by
            simp [LCodeGen.codeSince, hb]
          obtain ⟨processed, hpre, hm, hf, hi, hall, hp⟩ := ih _ _ hl
          have h3facts : cg3.masm = cg2.masm ++
              (if cg.info.NeedsDeferredFrame then
                [.asm .PushFixedFrame [], .asm .LoadSmiLiteral_scratch0_STUB [],
                 .asm .push_scratch0 [], .asm .la_fp_fixed_frame []]
              else []) ∧ cg3.info = cg.info ∧
              cg3.frame_is_built_ = (cg.info.NeedsDeferredFrame || cg.frame_is_built_) ∧
              cg3.is_aborted = cg.is_aborted ∧
              (cg.info.NeedsDeferredFrame = true → cg.frame_is_built_ = false) := by
            unfold LCodeGen.buildDeferredFrame at h3
            rw [h2i] at h3
            cases hn : cg.info.NeedsDeferredFrame
            · simp only [hn, Bool.false_eq_true, if_false, Option.some.injEq] at h3
              subst h3
              simp [h2i, h2f, h2s]
            · simp only [hn, if_true] at h3
              split_ifs at h3 with hfb hst
              have h3e := Option.some.inj h3
              have hfb2 : cg.frame_is_built_ = false := by
                rw [← h2f]; simpa using hfb
              have h2t : (cg2.status_ == .ABORTED) = (cg.status_ == .ABORTED) := h2s
              rw [← h3e]
              simp [LCodeGen.emitAll, hfb2, LCodeGen.is_aborted, h2t]
          obtain ⟨h3m, h3i, h3f, h3s, h3n⟩ := h3facts
          have h5facts : cg5.masm = (h.Generate code cg3).masm ++
              (if cg.info.NeedsDeferredFrame then [.asm .pop_ip [], .asm .PopFixedFrame []]
              else []) ∧ cg5.info = cg.info ∧ cg5.frame_is_built_ = cg.frame_is_built_ := by
            unfold LCodeGen.destroyDeferredFrame at h5
            rw [hgi, h3i] at h5
            cases hn : cg.info.NeedsDeferredFrame
            · simp only [hn, Bool.false_eq_true, if_false, Option.some.injEq] at h5
              subst h5
              simp [hgi, h3i, hgf, h3f, hn]
            · simp only [hn, if_true] at h5
              split_ifs at h5
              have h5e := Option.some.inj h5
              rw [← h5e]
              simp [LCodeGen.emitAll, hgi, h3i, h3n hn]
          obtain ⟨h5m, h5i, h5f⟩ := h5facts
          refine ⟨(code, cg3) :: processed, ?_, ?_, ?_, ?_, ?_, ?_⟩
          · simpa using (List.prefix_cons_inj code).2 hpre
          · rw [hm]
            simp only [LCodeGen.asm, LCodeGen.emit, h5m, hb, h3m, h2m, deferredCode,
              deferredBlockCode, hbody, h5i, List.append_assoc]
          · rw [hf]; exact h5f
          · rw [hi]; exact h5i
          · rcases hall with hall | hall
            · left; simp [hall]
            · right; exact hall
          · intro p hpm
            rcases List.mem_cons.1 hpm with hpe | hpe
            · subst hpe
              exact ⟨by rw [h3s]; simpa using ha, h3f⟩
            · have := hp p hpe
              simp only [LCodeGen.asm, LCodeGen.emit, h5i, h5f] at this
              obtain ⟨q1, q2⟩ := this
              refine ⟨q1, ?_⟩
              rw [q2]

/-- C19.  When `GenerateDeferredCode` returns, the code it emitted is the code
of the deferred blocks it went through, one after the other in the order of
the deferred list: each block binds its entry label and ends with the jump to
its exit label, around the code that `Generate` emitted, and when a deferred
frame is needed `Generate` runs with `frame_is_built_` true, between the code
that builds the frame and the code that destroys it.  `frame_is_built_` has its
initial value afterwards.  The blocks gone through are a prefix of the deferred
list, the whole list unless the pass was aborted, and no block is begun once
the pass is aborted; the call returns whether the pass is not aborted.  The
call returns whenever the pass is generating and, if a deferred frame is needed,
the compile is a stub and no frame is built. -/
theorem GenerateDeferredCode_order_and_framing (h : Collaborators) (hh : h.GenerateEmits)
    (cg : LCodeGen) :
    (cg.status_ = .GENERATING →
      (cg.info.NeedsDeferredFrame = true → cg.frame_is_built_ = false ∧ cg.info.IsStub = true) →
      ∃ r, cg.GenerateDeferredCode h = some r) ∧
    ∀ (ok : Bool) (cg1 : LCodeGen), cg.GenerateDeferredCode h = some (ok, cg1) →
      ∃ processed : List (LDeferredCode × LCodeGen),
        processed.map Prod.fst <+: cg.deferred_ ∧
        cg.codeSince cg1 = deferredCode h cg.info processed ∧
        cg1.frame_is_built_ = cg.frame_is_built_ ∧
        ok = !cg1.is_aborted ∧
        (processed.map Prod.fst = cg.deferred_ ∨ cg1.is_aborted = true) ∧
        ∀ p ∈ processed, p.2.is_aborted = false ∧
          p.2.frame_is_built_ = (cg.info.NeedsDeferredFrame || cg.frame_is_built_) := by
  constructor
  · intro hs hn
    unfold LCodeGen.GenerateDeferredCode
    simp only [hs, bne_self_eq_false, Bool.false_eq_true, if_false]
    suffices hsuf : ∀ (codes : List LDeferredCode) (c : LCodeGen), c.info = cg.info →
        c.frame_is_built_ = cg.frame_is_built_ → ∃ c1, LCodeGen.deferredLoop h codes c = some c1 by
      obtain ⟨c1, hc1⟩ := hsuf cg.deferred_ cg rfl rfl
      exact ⟨_, by rw [hc1]⟩
    intro codes
    induction codes with
    | nil => intro c _ _; exact ⟨c, rfl⟩
    | cons code rest ih =>
      intro c hci hcf
      simp only [LCodeGen.deferredLoop]
      by_cases ha : c.is_aborted = true
      · exact ⟨c, by simp [ha]⟩
      · simp only [ha, Bool.false_eq_true, if_false]
        generalize hcg2 : (LCodeGen.asm (if (code.position == c.info.kNoPosition) = true then c
          else c.asm .RecordPosition [code.position]) .bind_entry [code.entry]) = cg2
        have h2f : cg2.frame_is_built_ = cg.frame_is_built_ := by
          subst hcg2
          split_ifs <;> exact hcf
        have h2i : cg2.info = cg.info := by
          subst hcg2
          split_ifs <;> exact hci
        cases hnd : cg.info.NeedsDeferredFrame
        · have h3 : cg2.buildDeferredFrame = some cg2 := by
            simp [LCodeGen.buildDeferredFrame, h2i, hnd]
          have h5 : (h.Generate code cg2).destroyDeferredFrame = some (h.Generate code cg2) := by
            simp [LCodeGen.destroyDeferredFrame, (hh code cg2).2.2, h2i, hnd]
          simp only [h3, h5]
          exact ih _ (by simp [LCodeGen.asm, LCodeGen.emit, (hh code cg2).2.2, h2i])
            (by simp [LCodeGen.asm, LCodeGen.emit, (hh code cg2).2.1, h2f])
        · obtain ⟨hfb, hst⟩ := hn hnd
          have h3 : cg2.buildDeferredFrame = some ({ cg2 with frame_is_built_ := true }.emitAll
              [.asm .PushFixedFrame [], .asm .LoadSmiLiteral_scratch0_STUB [],
               .asm .push_scratch0 [], .asm .la_fp_fixed_frame []]) := by
            simp [LCodeGen.buildDeferredFrame, h2i, hnd, h2f, hfb, hst]
          simp only [h3]
          generalize hcg3 : ({ cg2 with frame_is_built_ := true }.emitAll
              [.asm .PushFixedFrame [], .asm .LoadSmiLiteral_scratch0_STUB [],
               .asm .push_scratch0 [], .asm .la_fp_fixed_frame []] : LCodeGen) = cg3
          have h3i : cg3.info = cg.info := by subst hcg3; exact h2i
          have h3f : cg3.frame_is_built_ = true := by subst hcg3; rfl
          have h5 : (h.Generate code cg3).destroyDeferredFrame =
              some { (h.Generate code cg3).emitAll [.asm .pop_ip [], .asm .PopFixedFrame []] with
                frame_is_built_ := false } := by
            simp [LCodeGen.destroyDeferredFrame, (hh code cg3).2.2, (hh code cg3).2.1, h3i, hnd,
              h3f]
          simp only [h5]
          exact ih _ (by simp [LCodeGen.asm, LCodeGen.emit, LCodeGen.emitAll, (hh code cg3).2.2,
            h3i]) (by simp [LCodeGen.asm, LCodeGen.emit, hfb])
  · intro ok cg1 hr
    unfold LCodeGen.GenerateDeferredCode at hr
    split_ifs at hr
    cases hd : LCodeGen.deferredLoop h cg.deferred_ cg with
    | none => simp [hd] at hr
    | some cg2 =>
      simp only [hd, Option.some.injEq, Prod.mk.injEq] at hr
      obtain ⟨hok, hcg⟩ := hr
      subst hcg
      obtain ⟨processed, hpre, hm, hf, -, hall, hp⟩ := deferredLoop_blocks h hh _ _ _ hd
      exact ⟨processed, hpre, by simp [LCodeGen.codeSince, hm], hf, hok.symm, hall, hp⟩

theorem GenerateDeferredCode_order_and_framing_witness :
    ∃ cg1, sampleDeferring.GenerateDeferredCode sampleCollaborators = some (true, cg1) ∧
      cg1.frame_is_built_ = false ∧
      ∃ processed : List (LDeferredCode × LCodeGen),
        processed.map Prod.fst = sampleDeferring.deferred_ ∧
        sampleDeferring.codeSince cg1 =
          deferredCode sampleCollaborators sampleDeferring.info processed :=
  (⟨_, rfl⟩ : ∃ cg1, sampleDeferring.GenerateDeferredCode sampleCollaborators =
      some (true, cg1)).elim
    fun cg1 hr =>
      match (GenerateDeferredCode_order_and_framing sampleCollaborators
        (fun _ _ => ⟨⟨[.nop], rfl⟩, rfl, rfl⟩) sampleDeferring).2 true cg1 hr with
      | ⟨processed, _, hcode, hf, hok, hall, _⟩ =>
        ⟨cg1, hr, hf, processed,
          hall.resolve_right (by
            have h1 : cg1.is_aborted = false := by simpa using hok.symm
            simp [h1]),
          hcode⟩

/-! ## More instructions, one at a time -/

theorem exec_CmpLogical32_imm (w : Bool) (pc : Nat) (a : Register) (v : Int) (rest : List Instr)
    (m : Machine) :
    exec w none pc (.ins .CmpLogical32 [.reg a, .imm v] :: rest) m =
      exec w none (pc + 1) rest
        ((m.setCode (compareSigned (m.reg a % 4294967296) (v % 4294967296))).record
          (.ins .CmpLogical32 [.reg a, .imm v])) :=
  exec_ins w pc _ _ rest m _ rfl

theorem exec_CmpLogical32_reg (w : Bool) (pc : Nat) (a b : Register) (rest : List Instr)
    (m : Machine) :
    exec w none pc (.ins .CmpLogical32 [.reg a, .reg b] :: rest) m =
      exec w none (pc + 1) rest
        ((m.setCode (compareSigned (m.reg a % 4294967296) (m.reg b % 4294967296))).record
          (.ins .CmpLogical32 [.reg a, .reg b])) :=
  exec_ins w pc _ _ rest m _ rfl

theorem exec_CmpLogicalP_imm (w : Bool) (pc : Nat) (a : Register) (v : Int) (rest : List Instr)
    (m : Machine) :
    exec w none pc (.ins .CmpLogicalP [.reg a, .imm v] :: rest) m =
      exec w none (pc + 1) rest
        ((m.setCode (compareSigned (unsignedP w (m.reg a)) (unsignedP w v))).record
          (.ins .CmpLogicalP [.reg a, .imm v])) :=
  exec_ins w pc _ _ rest m _ rfl

theorem exec_CmpLogicalP_reg (w : Bool) (pc : Nat) (a b : Register) (rest : List Instr)
    (m : Machine) :
    exec w none pc (.ins .CmpLogicalP [.reg a, .reg b] :: rest) m =
      exec w none (pc + 1) rest
        ((m.setCode (compareSigned (unsignedP w (m.reg a)) (unsignedP w (m.reg b)))).record
          (.ins .CmpLogicalP [.reg a, .reg b])) :=
  exec_ins w pc _ _ rest m _ rfl

theorem exec_TestBitRange (w : Bool) (pc : Nat) (s scratch : Register) (rangeStart rangeEnd : Int)
    (rest : List Instr) (m : Machine) :
    exec w none pc (.ins .TestBitRange [.reg s, .imm rangeStart, .imm rangeEnd, .reg scratch]
        :: rest) m =
      exec w none (pc + 1) rest
        (((m.set scratch (m.reg s / 2 ^ rangeEnd.toNat %
            2 ^ (rangeStart - rangeEnd + 1).toNat)).setCode
          (if m.reg s / 2 ^ rangeEnd.toNat % 2 ^ (rangeStart - rangeEnd + 1).toNat = 0
            then .cc0 else .cc1)).record
          (.ins .TestBitRange [.reg s, .imm rangeStart, .imm rangeEnd, .reg scratch])) :=
  exec_ins w pc _ _ rest m _ rfl

theorem exec_ShiftRight (w : Bool) (pc : Nat) (d s : Register) (n : Int) (rest : List Instr)
    (m : Machine) :
    exec w none pc (.ins .ShiftRight [.reg d, .reg s, .imm n] :: rest) m =
      exec w none (pc + 1) rest
        ((m.set32 w d (m.reg s % 4294967296 / 2 ^ n.toNat)).record
          (.ins .ShiftRight [.reg d, .reg s, .imm n])) :=
  exec_ins w pc _ _ rest m _ rfl

theorem exec_ShiftRightArith (w : Bool) (pc : Nat) (d s : Register) (n : Int) (rest : List Instr)
    (m : Machine) :
    exec w none pc (.ins .ShiftRightArith [.reg d, .reg s, .imm n] :: rest) m =
      exec w none (pc + 1) rest
        (((m.set32 w d (int32 (m.reg s) / 2 ^ n.toNat)).setCode
          (compareSigned (int32 (m.reg s) / 2 ^ n.toNat) 0)).record
          (.ins .ShiftRightArith [.reg d, .reg s, .imm n])) :=
  exec_ins w pc _ _ rest m _ rfl

theorem exec_TruncatingDiv (w : Bool) (pc : Nat) (d s : Register) (divisor : Int)
    (rest : List Instr) (m : Machine) (h0 : divisor ≠ 0) :
    exec w none pc (.ins .TruncatingDiv [.reg d, .reg s, .imm divisor] :: rest) m =
      exec w none (pc + 1) rest
        ((m.set32 w d ((int32 (m.reg s)).tdiv divisor)).record
          (.ins .TruncatingDiv [.reg d, .reg s, .imm divisor])) := by
  apply exec_ins
  show stepMore w .TruncatingDiv [.reg d, .reg s, .imm divisor] m = _
  simp only [stepMore, h0, if_false]

theorem exec_AddP_reg (w : Bool) (pc : Nat) (d a b : Register) (rest : List Instr)
    (m : Machine) :
    exec w none pc (.ins .AddP [.reg d, .reg a, .reg b] :: rest) m =
      exec w none (pc + 1) rest
        (((m.set d (wordP w (m.reg a + m.reg b))).setCode
          (arithmeticCode (m.reg a + m.reg b)
            (wordP w (m.reg a + m.reg b) == m.reg a + m.reg b))).record
          (.ins .AddP [.reg d, .reg a, .reg b])) :=
  exec_ins w pc _ _ rest m _ rfl

theorem exec_SubP_reg (w : Bool) (pc : Nat) (d a b : Register) (rest : List Instr)
    (m : Machine) :
    exec w none pc (.ins .SubP [.reg d, .reg a, .reg b] :: rest) m =
      exec w none (pc + 1) rest
        (((m.set d (wordP w (m.reg a - m.reg b))).setCode
          (arithmeticCode (m.reg a - m.reg b)
            (wordP w (m.reg a - m.reg b) == m.reg a - m.reg b))).record
          (.ins .SubP [.reg d, .reg a, .reg b])) :=
  exec_ins w pc _ _ rest m _ rfl

theorem exec_SubP_imm (w : Bool) (pc : Nat) (d a : Register) (v : Int) (rest : List Instr)
    (m : Machine) :
    exec w none pc (.ins .SubP [.reg d, .reg a, .imm v] :: rest) m =
      exec w none (pc + 1) rest
        (((m.set d (wordP w (m.reg a - wordP w v))).setCode
          (arithmeticCode (m.reg a - wordP w v)
            (wordP w (m.reg a - wordP w v) == m.reg a - wordP w v))).record
          (.ins .SubP [.reg d, .reg a, .imm v])) :=
  exec_ins w pc _ _ rest m _ rfl

theorem exec_ShiftLeftP (w : Bool) (pc : Nat) (d s : Register) (n : Int) (rest : List Instr)
    (m : Machine) :
    exec w none pc (.ins .ShiftLeftP [.reg d, .reg s, .imm n] :: rest) m =
      exec w none (pc + 1) rest
        ((m.set d (wordP w (m.reg s * 2 ^ n.toNat))).record
          (.ins .ShiftLeftP [.reg d, .reg s, .imm n])) :=
  exec_ins w pc _ _ rest m _ rfl

theorem exec_LoadImmP (w : Bool) (pc : Nat) (d : Register) (v : Int) (rest : List Instr)
    (m : Machine) :
    exec w none pc (.ins .LoadImmP [.reg d, .imm v] :: rest) m =
      exec w none (pc + 1) rest
        ((m.set d (wordP w v)).record (.ins .LoadImmP [.reg d, .imm v])) :=
  exec_ins w pc _ _ rest m _ rfl

theorem exec_Move (w : Bool) (pc : Nat) (d s : Register) (rest : List Instr) (m : Machine) :
    exec w none pc (.ins .Move [.reg d, .reg s] :: rest) m =
      exec w none (pc + 1) rest ((m.set d (m.reg s)).record (.ins .Move [.reg d, .reg s])) :=
  exec_ins w pc _ _ rest m _ rfl

theorem exec_MulP (w : Bool) (pc : Nat) (d : Register) (v : Int) (rest : List Instr)
    (m : Machine) :
    exec w none pc (.ins .MulP [.reg d, .imm v] :: rest) m =
      exec w none (pc + 1) rest
        ((m.set d (wordP w (m.reg d * wordP w v))).record (.ins .MulP [.reg d, .imm v])) :=
  exec_ins w pc _ _ rest m _ rfl

theorem exec_Mul (w : Bool) (pc : Nat) (d a b : Register) (rest : List Instr) (m : Machine) :
    exec w none pc (.ins .Mul [.reg d, .reg a, .reg b] :: rest) m =
      exec w none (pc + 1) rest
        ((m.set d (wordP w (m.reg a * m.reg b))).record (.ins .Mul [.reg d, .reg a, .reg b])) :=
  exec_ins w pc _ _ rest m _ rfl

theorem exec_TestIfInt32_wide (pc : Nat) (a b c : Register) (rest : List Instr) (m : Machine) :
    exec true none pc (.ins .TestIfInt32 [.reg a, .reg b, .reg c] :: rest) m =
      exec true none (pc + 1) rest
        (((m.set b (int32 (m.reg a))).setCode (compareSigned (int32 (m.reg a)) (m.reg a))).record
          (.ins .TestIfInt32 [.reg a, .reg b, .reg c])) :=
  exec_ins true pc _ _ rest m _ rfl

theorem exec_SmiTag (w : Bool) (pc : Nat) (d : Register) (rest : List Instr) (m : Machine) :
    exec w none pc (.ins .SmiTag [.reg d] :: rest) m =
      exec w none (pc + 1) rest
        ((m.set d (wordP w (m.reg d * (if w then 4294967296 else 2)))).record
          (.ins .SmiTag [.reg d])) :=
  exec_ins w pc _ _ rest m _ rfl

theorem exec_unmodelled (w : Bool) (pc : Nat) (name : Opcode) (operands : List Operand)
    (rest : List Instr) (m : Machine) (h : step w name operands m = .unmodelled) :
    exec w none pc (.ins name operands :: rest) m = .unmodelled pc := by
  simp only [exec, h]

theorem guardCode_le (d : Bool) (e : Address) (k : Nat) : guardCode d e k .le = .b .le k := by
  simp [guardCode]

theorem guardCode_gt (d : Bool) (e : Address) (k : Nat) : guardCode d e k .gt = .b .gt k := by
  simp [guardCode]

theorem guardCode_ge (d : Bool) (e : Address) (k : Nat) : guardCode d e k .ge = .b .ge k := by
  simp [guardCode]

/-! ## Truncating and flooring division -/

theorem fdiv_neg_neg (a b : Int) : (-a).fdiv (-b) = a.fdiv b := by
  rcases a with (_ | m) | m <;> rcases b with (_ | n) | n <;> first | rfl | simp

theorem tdiv_of_pos (x c : Int) (hc : 0 < c) :
    x.tdiv c = if 0 ≤ x then x / c else -((-x) / c) := by
  split_ifs with h
  · exact Int.tdiv_eq_ediv h (le_of_lt hc)
  · have h1 : 0 ≤ -x := by omega
    have := Int.tdiv_eq_ediv h1 (le_of_lt hc)
    rw [← this, Int.neg_tdiv, neg_neg]

/-- Rounding up through rounding down. -/
theorem ediv_add_pred (x c : Int) (hc : 0 < c) : (x + (c - 1)) / c = -((-x) / c) := by
  have h1 := Int.emod_add_ediv (-x) c
  have h2 := Int.emod_nonneg (-x) (ne_of_gt hc)
  have h3 := Int.emod_lt_of_pos (-x) hc
  have hx : x + (c - 1) = (c - 1 - (-x) % c) + c * (-((-x) / c)) := by
    have : c * (-((-x) / c)) = -(c * ((-x) / c)) := by ring
    rw [this]; omega
  rw [hx, Int.add_mul_ediv_left _ _ (ne_of_gt hc)]
  have : (c - 1 - -x % c) / c = 0 := Int.ediv_eq_zero_of_lt (by omega) (by omega)
  rw [this]; simp

/-- Flooring division through truncating division, as `DoFlooringDivByConstI`
computes it. -/
theorem fdiv_through_tdiv (x d : Int) (hd : d ≠ 0) :
    x.fdiv d =
      if 0 < d then (if 0 ≤ x then x.tdiv d else (x + 1).tdiv d - 1)
      else (if x ≤ 0 then -(x.tdiv (-d)) else -((x - 1).tdiv (-d)) - 1) := by
  have key : ∀ y c : Int, 0 < c → y.fdiv c = if 0 ≤ y then y.tdiv c else (y + 1).tdiv c - 1 := by
    intro y c hc
    rw [Int.fdiv_eq_ediv y (le_of_lt hc)]
    split_ifs with hy
    · exact (Int.tdiv_eq_ediv hy (le_of_lt hc)).symm
    · rw [tdiv_of_pos _ _ hc]
      have hy1 : ¬ (0 ≤ y + 1) ∨ y = -1 := by omega
      rcases hy1 with hy1 | hy1
      · simp only [hy1, if_false]
        have h1 := ediv_add_pred (y + 1) c hc
        have h3 : y + 1 + (c - 1) = y + c * 1 := by ring
        rw [h3, Int.add_mul_ediv_left _ _ (ne_of_gt hc)] at h1
        omega
      · subst hy1
        have hq : ((c - 1) + c * (-1)) / c = -1 := by
          rw [Int.add_mul_ediv_left _ _ (ne_of_gt hc),
            Int.ediv_eq_zero_of_lt (by omega) (by omega)]
          simp
        have h9 : (c - 1) + c * (-1) = -1 := by ring
        rw [h9] at hq
        simp [hq]
  by_cases hpos : 0 < d
  · simp only [hpos, if_true]
    exact key x d hpos
  · have hneg : 0 < -d := by omega
    simp only [hpos, if_false]
    rw [← fdiv_neg_neg, key (-x) (-d) hneg]
    by_cases hx : x ≤ 0
    · have : 0 ≤ -x := by omega
      simp only [this, hx, if_true, Int.neg_tdiv]
    · have : ¬ (0 ≤ -x) := by omega
      simp only [this, hx, if_false]
      have : -x + 1 = -(x - 1) := by ring
      rw [this, Int.neg_tdiv]

/-! ## Multiplication by a constant: arithmetic -/

theorem xor_neg_one (v : Int) : Int.xor v (-1) = -v - 1 := by
  cases v with
  | ofNat n =>
    show Int.xor (Int.ofNat n) (Int.negSucc 0) = _
    simp only [Int.xor, Nat.xor_zero]
    rw [Int.negSucc_eq]
    simp
    omega
  | negSucc n =>
    show Int.xor (Int.negSucc n) (Int.negSucc 0) = _
    simp only [Int.xor, Nat.xor_zero]
    rw [Int.negSucc_eq]
    simp

theorem xor_zero_right (v : Int) : Int.xor v 0 = v := by
  cases v with
  | ofNat n =>
    show Int.xor (Int.ofNat n) (Int.ofNat 0) = _
    simp only [Int.xor, Nat.xor_zero]
    rfl
  | negSucc n =>
    show Int.xor (Int.negSucc n) (Int.ofNat 0) = _
    simp only [Int.xor, Nat.xor_zero]

theorem shiftRight_31 (c : Int) : c >>> (31 : Int) = c / 2 ^ 31 := by
  cases c with
  | ofNat n =>
    show ((n : Int) >>> ((31 : Nat) : Int)) = _
    rw [Int.shiftRight_coe_nat, Nat.shiftRight_eq_div_pow]
    norm_cast
  | negSucc n =>
    show (Int.negSucc n >>> ((31 : Nat) : Int)) = _
    rw [Int.shiftRight_negSucc, Nat.shiftRight_eq_div_pow, Int.negSucc_eq, Int.negSucc_eq]
    push_cast
    omega

/-- The mask-and-xor of `DoMulI` is the absolute value, `0x80000000` for
`kMinInt`. -/
theorem constantAbs_eq (c : Int) (h1 : -2147483648 ≤ c) (h2 : c < 2147483648) :
    constantAbs c = if c < 0 then -c else c := by
  unfold constantAbs
  simp only [shiftRight_31]
  by_cases hc : c < 0
  · have hm : c / 2 ^ 31 = -1 := by omega
    simp only [hm, hc, if_true, xor_neg_one]
    unfold int32
    omega
  · have hm : c / 2 ^ 31 = 0 := by omega
    simp only [hm, hc, if_false, xor_zero_right]
    unfold int32
    omega

theorem log2Below_succ : ∀ (f n : Nat), n < 2 ^ (f + 1) → log2Below (f + 1) n = log2Below f n := by
  intro f
  induction f with
  | zero =>
    intro n hn
    have h2 : n < 2 := by simpa using hn
    simp [log2Below, h2]
  | succ f ih =>
    intro n hn
    by_cases h2 : n < 2
    · simp [log2Below, h2]
    · have hh : n / 2 < 2 ^ (f + 1) := by
        rw [Nat.div_lt_iff_lt_mul (by decide)]
        rw [pow_succ] at hn
        exact hn
      have e1 : log2Below (f + 1 + 1) n = log2Below (f + 1) (n / 2) + 1 := by
        rw [log2Below]; simp [h2]
      have e2 : log2Below (f + 1) n = log2Below f (n / 2) + 1 := by
        rw [log2Below]; simp [h2]
      rw [e1, e2, ih _ hh]

/-- A power of two below `2^32` is two to its `WhichPowerOf2`. -/
theorem IsPowerOf2_spec (v : Int) (hv : v < 4294967296) (h : IsPowerOf2 v = true) :
    v = 2 ^ WhichPowerOf2 v ∧ WhichPowerOf2 v ≤ 31 := by
  unfold IsPowerOf2 at h
  simp only [Bool.and_eq_true, decide_eq_true_eq, beq_iff_eq] at h
  obtain ⟨h0, hpow⟩ := h
  have hn : v.natAbs < 2 ^ 32 := by omega
  have hk : WhichPowerOf2 v = log2Below 32 v.natAbs := by
    unfold WhichPowerOf2
    exact log2Below_succ 32 _ (by omega)
  rw [hk]
  constructor
  · have hv2 : v = (v.natAbs : Int) := by omega
    have h3 : ((2 ^ log2Below 32 v.natAbs : Nat) : Int) = (v.natAbs : Int) := by rw [hpow]
    rw [Nat.cast_pow] at h3
    exact hv2.trans h3.symm
  · by_contra hgt
    have h32 : 32 ≤ log2Below 32 v.natAbs := by omega
    have hle : 2 ^ 32 ≤ 2 ^ log2Below 32 v.natAbs := Nat.pow_le_pow_right (by decide) h32
    omega

theorem wordP_emod32 (w : Bool) (v : Int) : wordP w v % 4294967296 = v % 4294967296 := by
  cases w <;> simp [wordP, int32, int64] <;> omega

theorem low32_neg (w : Bool) (a b : Int) (h : a % 4294967296 = b % 4294967296) :
    wordP w (-a) % 4294967296 = (-b) % 4294967296 := by
  rw [wordP_emod32]; omega

theorem low32_add (w : Bool) (a b x : Int) (h : a % 4294967296 = b % 4294967296) :
    wordP w (a + x) % 4294967296 = (b + x) % 4294967296 := by
  rw [wordP_emod32]; omega

theorem low32_sub (w : Bool) (a b x : Int) (h : a % 4294967296 = b % 4294967296) :
    wordP w (a - x) % 4294967296 = (b - x) % 4294967296 := by
  rw [wordP_emod32]; omega

theorem DoMulI_constant_run (info : CompilationInfo) (instr : LMulI) (d : Bool)
    (entry : Nat → Address) (k : Nat → Nat) (i t : Int) (c : Int) (h1 : -2147483648 ≤ c)
    (h2 : c < 2147483648) (n pc : Nat) (m : Machine) :
    (∀ m1, exec info.V8_TARGET_ARCH_S390X none pc
        (realize d entry k n (DoMulI_constant info instr (.allocated t) (.allocated i) c)) m =
          .finished m1 →
      m1.reg (.allocated t) % 4294967296 = (m.reg (.allocated i) * c) % 4294967296) ∧
    (instr.hydrogen.CheckFlag .kBailoutOnMinusZero = false →
      (instr.hydrogen.CheckFlag .kCanOverflow = false ∨ c ≠ -1) →
      ∃ m1, exec info.V8_TARGET_ARCH_S390X none pc
        (realize d entry k n (DoMulI_constant info instr (.allocated t) (.allocated i) c)) m =
          .finished m1) := by
  unfold DoMulI_constant
  have hs1 : Register.allocated i ≠ scratch0 := by unfold scratch0; simp
  have hs2 : Register.allocated t ≠ scratch0 := by unfold scratch0; simp
  have hs3 : Register.allocated i ≠ .ip := by simp
  have hs4 : Register.allocated t ≠ .ip := by simp
  generalize scratch0 = scratch at *
  by_cases hm1 : c = -1
  · subst hm1
    simp only [beq_self_eq_true, if_true]
    cases hov : instr.hydrogen.CheckFlag .kCanOverflow
    · simp only [Bool.false_eq_true, if_false, realize, Action.ins]
      rw [exec_LoadComplementRR, exec_nil]
      constructor
      · intro m1 hm1
        cases hm1
        simp only [Machine.record_reg, Machine.setCode_reg, Machine.set_reg, Function.update_same]
        rw [wordP_emod32]
        simp
      · intro _ _
        exact ⟨_, rfl⟩
    · simp only [if_true]
      refine ⟨?_, fun _ hh => by simp at hh⟩
      cases hw : info.V8_TARGET_ARCH_S390X <;> cases hs : instr.IsSmi <;>
        simp only [Bool.not_true, Bool.not_false, Bool.or_true, Bool.true_or, Bool.or_false,
          Bool.false_or, Bool.or_self, if_true, if_false, Bool.false_eq_true, realize, Action.ins,
          guardCode_overflow, guardCode_ne, exec_LoadComplementRR, exec_TestIfInt32_wide, exec_b,
          exec_nil] <;>
        intro m1 hm1 <;>
        split_ifs at hm1 <;>
        cases hm1 <;>
        simp only [Machine.record_reg, Machine.setCode_reg, Machine.set_reg, Function.update_same,
          Function.update_noteq hs2, ne_eq, not_false_eq_true] <;>
        rw [wordP_emod32] <;>
        simp
  · have hm1b : (c == -1) = false := by simpa using hm1
    simp only [hm1b, Bool.false_eq_true, if_false]
    by_cases h0 : c = 0
    · subst h0
      simp only [beq_self_eq_true, if_true]
      cases hmz : instr.hydrogen.CheckFlag .kBailoutOnMinusZero <;>
        simp only [Bool.false_eq_true, if_true, if_false, realize, Action.ins, guardCode_lt,
          List.nil_append, List.cons_append, exec_Cmp32_imm, exec_b, exec_LoadImmP, exec_nil]
      · constructor
        · intro m1 hm1
          cases hm1
          simp only [Machine.record_reg, Machine.set_reg, Function.update_same]
          rw [wordP_emod32]
          simp
        · intro _ _
          exact ⟨_, rfl⟩
      · refine ⟨?_, fun hh => by simp at hh⟩
        intro m1 hm1
        split_ifs at hm1
        cases hm1
        simp only [Machine.record_reg, Machine.set_reg, Machine.setCode_reg, Function.update_same]
        rw [wordP_emod32]
        simp
    · have h0b : (c == 0) = false := by simpa using h0
      simp only [h0b, Bool.false_eq_true, if_false]
      by_cases h1c : c = 1
      · subst h1c
        simp only [beq_self_eq_true, if_true, realize, Action.ins, exec_Move, exec_nil]
        constructor
        · intro m1 hm1
          cases hm1
          simp only [Machine.record_reg, Machine.set_reg, Function.update_same]
          simp
        · intro _ _
          exact ⟨_, rfl⟩
      · have h1b : (c == 1) = false := by simpa using h1c
        simp only [h1b, Bool.false_eq_true, if_false]
        have ha := constantAbs_eq c h1 h2
        generalize constantAbs c = a at ha ⊢
        have ha32 : a < 4294967296 := by split_ifs at ha <;> omega
        generalize hw : info.V8_TARGET_ARCH_S390X = w
        by_cases hp : IsPowerOf2 a = true
        · obtain ⟨hk, hk31⟩ := IsPowerOf2_spec (a) (by omega) hp
          generalize WhichPowerOf2 (a) = s at hk hk31 ⊢
          by_cases hneg : c < 0
          · have hc : c = -2 ^ s := by rw [if_pos hneg] at ha; omega
            subst hc
            simp only [hp, hneg, if_true, if_false, Bool.false_eq_true, realize, Action.ins,
              List.cons_append, List.nil_append, List.append_nil, exec_ShiftLeftP, exec_AddP_reg,
              exec_SubP_reg, exec_LoadComplementRR, exec_nil]
            constructor
            · intro m1 hm1
              cases hm1
              simp only [Machine.record_reg, Machine.set_reg, Machine.setCode_reg,
                Function.update_same, Function.update_noteq hs1, Function.update_noteq hs2, ne_eq,
                not_false_eq_true, Int.toNat_ofNat]
              exact (low32_neg w _ _ (wordP_emod32 w _)).trans (by congr 1; ring)
            · intro _ _
              exact ⟨_, rfl⟩
          · have hc : c = 2 ^ s := by rw [if_neg hneg] at ha; omega
            subst hc
            simp only [hp, hneg, if_true, if_false, Bool.false_eq_true, realize, Action.ins,
              List.cons_append, List.nil_append, List.append_nil, exec_ShiftLeftP, exec_AddP_reg,
              exec_SubP_reg, exec_LoadComplementRR, exec_nil]
            constructor
            · intro m1 hm1
              cases hm1
              simp only [Machine.record_reg, Machine.set_reg, Machine.setCode_reg,
                Function.update_same, Function.update_noteq hs1, Function.update_noteq hs2, ne_eq,
                not_false_eq_true, Int.toNat_ofNat]
              exact wordP_emod32 w _
            · intro _ _
              exact ⟨_, rfl⟩
        have hp1 : IsPowerOf2 a = false := by simpa using hp
        clear hp
        by_cases hp : IsPowerOf2 (a - 1) = true
        · obtain ⟨hk, hk31⟩ := IsPowerOf2_spec (a - 1) (by omega) hp
          generalize WhichPowerOf2 (a - 1) = s at hk hk31 ⊢
          by_cases hneg : c < 0
          · have hc : c = -(2 ^ s + 1) := by rw [if_pos hneg] at ha; omega
            subst hc
            simp only [hp1, hp, hneg, if_true, if_false, Bool.false_eq_true, realize, Action.ins,
              List.cons_append, List.nil_append, List.append_nil, exec_ShiftLeftP, exec_AddP_reg,
              exec_SubP_reg, exec_LoadComplementRR, exec_nil]
            constructor
            · intro m1 hm1
              cases hm1
              simp only [Machine.record_reg, Machine.set_reg, Machine.setCode_reg,
                Function.update_same, Function.update_noteq hs1, Function.update_noteq hs2, ne_eq,
                not_false_eq_true, Int.toNat_ofNat]
              exact (low32_neg w _ _ (low32_add w _ _ _ (wordP_emod32 w _))).trans (by congr 1; ring)
            · intro _ _
              exact ⟨_, rfl⟩
          · have hc : c = 2 ^ s + 1 := by rw [if_neg hneg] at ha; omega
            subst hc
            simp only [hp1, hp, hneg, if_true, if_false, Bool.false_eq_true, realize, Action.ins,
              List.cons_append, List.nil_append, List.append_nil, exec_ShiftLeftP, exec_AddP_reg,
              exec_SubP_reg, exec_LoadComplementRR, exec_nil]
            constructor
            · intro m1 hm1
              cases hm1
              simp only [Machine.record_reg, Machine.set_reg, Machine.setCode_reg,
                Function.update_same, Function.update_noteq hs1, Function.update_noteq hs2, ne_eq,
                not_false_eq_true, Int.toNat_ofNat]
              exact (low32_add w _ _ _ (wordP_emod32 w _)).trans (by congr 1; ring)
            · intro _ _
              exact ⟨_, rfl⟩
        have hp2 : IsPowerOf2 (a - 1) = false := by simpa using hp
        clear hp
        by_cases hp : IsPowerOf2 (a + 1) = true
        · obtain ⟨hk, hk31⟩ := IsPowerOf2_spec (a + 1) (by omega) hp
          generalize WhichPowerOf2 (a + 1) = s at hk hk31 ⊢
          by_cases hneg : c < 0
          · have hc : c = -(2 ^ s - 1) := by rw [if_pos hneg] at ha; omega
            subst hc
            simp only [hp1, hp2, hp, hneg, if_true, if_false, Bool.false_eq_true, realize, Action.ins,
              List.cons_append, List.nil_append, List.append_nil, exec_ShiftLeftP, exec_AddP_reg,
              exec_SubP_reg, exec_LoadComplementRR, exec_nil]
            constructor
            · intro m1 hm1
              cases hm1
              simp only [Machine.record_reg, Machine.set_reg, Machine.setCode_reg,
                Function.update_same, Function.update_noteq hs1, Function.update_noteq hs2, ne_eq,
                not_false_eq_true, Int.toNat_ofNat]
              exact (low32_neg w _ _ (low32_sub w _ _ _ (wordP_emod32 w _))).trans (by congr 1; ring)
            · intro _ _
              exact ⟨_, rfl⟩
          · have hc : c = 2 ^ s - 1 := by rw [if_neg hneg] at ha; omega
            subst hc
            simp only [hp1, hp2, hp, hneg, if_true, if_false, Bool.false_eq_true, realize, Action.ins,
              List.cons_append, List.nil_append, List.append_nil, exec_ShiftLeftP, exec_AddP_reg,
              exec_SubP_reg, exec_LoadComplementRR, exec_nil]
            constructor
            · intro m1 hm1
              cases hm1
              simp only [Machine.record_reg, Machine.set_reg, Machine.setCode_reg,
                Function.update_same, Function.update_noteq hs1, Function.update_noteq hs2, ne_eq,
                not_false_eq_true, Int.toNat_ofNat]
              exact (low32_sub w _ _ _ (wordP_emod32 w _)).trans (by congr 1; ring)
            · intro _ _
              exact ⟨_, rfl⟩
        have hp3 : IsPowerOf2 (a + 1) = false := by simpa using hp
        simp only [hp1, hp2, hp3, if_false, Bool.false_eq_true, realize, Action.ins, exec_mov,
          exec_Move, exec_MulP, exec_nil]
        constructor
        · intro m1 hm1
          cases hm1
          simp only [Machine.record_reg, Machine.set_reg, Function.update_same,
            Function.update_noteq hs3, Function.update_noteq hs4, ne_eq, not_false_eq_true]
          rw [wordP_emod32, wordP_of_range w c h1 h2]
        · intro _ _
          exact ⟨_, rfl⟩

/-- The code of `DoMulI` for a constant right operand `c`: a run that reaches
its end leaves `x * c` modulo `2^32` in the low word of the result, and the run
reaches its end when no minus-zero bailout and, for -1, no overflow check is
asked for. -/
theorem DoMulI_constant_operand_run (x : Externals) (cg : LCodeGen) (outer : List LEnvironment)
    (m : Machine) (hp : cg.PlainGuards x) (instr : LMulI) (r : LCodeGen × LEnvironment)
    (left result : Register)
    (h : cg.DoMulI x instr outer = some r)
    (hl : ToRegister instr.left = some left) (hres : ToRegister instr.result = some result)
    (hc : instr.right.IsConstantOperand = true)
    (h1b : -2147483648 ≤ x.Integer32Value instr.right)
    (h2 : x.Integer32Value instr.right < 2147483648) :
    (∀ m1, exec cg.info.V8_TARGET_ARCH_S390X none 0 (cg.codeSince r.1) m = .finished m1 →
      m1.reg result % 4294967296 =
        (m.reg left * x.Integer32Value instr.right) % 4294967296) ∧
    (instr.hydrogen.CheckFlag .kBailoutOnMinusZero = false →
      (instr.hydrogen.CheckFlag .kCanOverflow = false ∨ x.Integer32Value instr.right ≠ -1) →
      ∃ m1, exec cg.info.V8_TARGET_ARCH_S390X none 0 (cg.codeSince r.1) m = .finished m1 ∧
        m1.reg result % 4294967296 =
          (m.reg left * x.Integer32Value instr.right) % 4294967296) := by
  have hla := ToRegister_allocated _ _ hl
  have hra := ToRegister_allocated _ _ hres
  subst hla hra
  unfold LCodeGen.DoMulI DoMulI_steps at h
  simp only [hl, hres, hc, if_true] at h
  obtain ⟨entry, k, hcode⟩ := lower_code x cg _ _ outer r hp h
  rw [hcode]
  generalize x.Integer32Value instr.right = c at *
  suffices hmain : (∀ m1, exec cg.info.V8_TARGET_ARCH_S390X none 0
        (realize (cg.frame_is_built_ && !cg.info.saves_caller_doubles) entry k 0
          ((if (instr.hydrogen.CheckFlag .kBailoutOnMinusZero && decide (c < 0)) = true then
              [Action.ins .CmpP [.reg (.allocated instr.left.index), .imm 0],
                Action.DeoptimizeIf .eq]
            else []) ++
            DoMulI_constant cg.info instr (.allocated instr.result.index)
              (.allocated instr.left.index) c)) m = .finished m1 →
      m1.reg (.allocated instr.result.index) % 4294967296 =
        (m.reg (.allocated instr.left.index) * c) % 4294967296) ∧
      (instr.hydrogen.CheckFlag .kBailoutOnMinusZero = false →
        (instr.hydrogen.CheckFlag .kCanOverflow = false ∨ c ≠ -1) →
        ∃ m1, exec cg.info.V8_TARGET_ARCH_S390X none 0
          (realize (cg.frame_is_built_ && !cg.info.saves_caller_doubles) entry k 0
            ((if (instr.hydrogen.CheckFlag .kBailoutOnMinusZero && decide (c < 0)) = true then
                [Action.ins .CmpP [.reg (.allocated instr.left.index), .imm 0],
                  Action.DeoptimizeIf .eq]
              else []) ++
              DoMulI_constant cg.info instr (.allocated instr.result.index)
                (.allocated instr.left.index) c)) m = .finished m1) by
    refine ⟨hmain.1, fun hmz hov => ?_⟩
    obtain ⟨m1, hm1⟩ := hmain.2 hmz hov
    exact ⟨m1, hm1, hmain.1 m1 hm1⟩
  by_cases hpre : (instr.hydrogen.CheckFlag .kBailoutOnMinusZero && decide (c < 0)) = true
  · simp only [hpre, if_true, List.cons_append, List.nil_append, realize, Action.ins,
      guardCode_eq, exec_CmpP_imm, exec_b]
    have hmz : instr.hydrogen.CheckFlag .kBailoutOnMinusZero = true := by
      simp only [Bool.and_eq_true] at hpre
      exact hpre.1
    have hcore := DoMulI_constant_run cg.info instr (cg.frame_is_built_ && !cg.info.saves_caller_doubles) entry k instr.left.index
      instr.result.index c h1b h2
    refine ⟨?_, fun hh => by simp [hmz] at hh⟩
    intro m1 hm1
    split_ifs at hm1
    exact ((hcore _ _ _).1 m1 hm1).trans (by simp)
  · simp only [hpre, if_false, List.nil_append, Bool.false_eq_true]
    exact DoMulI_constant_run cg.info instr (cg.frame_is_built_ && !cg.info.saves_caller_doubles) entry k instr.left.index
      instr.result.index c h1b h2 0 0 m

/-! ## Division by a power of two: arithmetic -/

/-- The shift-and-add of `DoDivByPowerOf2I` for a shift of at least two: adding
`2^k - 1` to a negative dividend before the arithmetic shift truncates toward
zero. -/
theorem shift_add_tdiv (x : Int) (k : Nat) (h2 : 2 ≤ k) (hk : k ≤ 31)
    (hx1 : -2147483648 ≤ x) (hx2 : x < 2147483648) :
    int32 (x + int32 (x / 2147483648 % 4294967296 / 2 ^ (32 - k))) / 2 ^ k = x.tdiv (2 ^ k) := by
  rw [tdiv_of_pos x (2 ^ k) (by positivity)]
  unfold int32
  interval_cases k <;> simp only [Nat.reduceSub, Int.reducePow] <;> split_ifs <;> omega

theorem shift_add_tdiv_one (v : Int) :
    int32 (int32 v + int32 (v % 4294967296 / 2147483648)) / 2 = (int32 v).tdiv 2 := by
  rw [tdiv_of_pos _ 2 (by decide)]
  unfold int32
  split_ifs <;> omega

theorem int32_emod_pow (v : Int) (k : Nat) (hk : k ≤ 31) : int32 v % 2 ^ k = v % 2 ^ k :=
  wordP_emod_pow false v k hk

theorem int32_congr (a b : Int) (h : a % 4294967296 = b % 4294967296) : int32 a = int32 b := by
  unfold int32; omega

theorem int32_neg_writeLow (w1 w2 : Bool) (old q : Int) :
    int32 (wordP w1 (-(writeLow w2 old q))) = int32 (-q) := by
  apply int32_congr
  rw [wordP_emod32]
  have h := writeLow_emod w2 old q
  omega

theorem holds_ne_test (v : Int) :
    Condition.ne.holds (if v = 0 then ConditionCode.cc0 else .cc1) = decide (v ≠ 0) := by
  split_ifs with h <;> simp [h] <;> rfl

/-! ## The receiver patch of the prologue -/

theorem NoPatchSince_refl (cg : LCodeGen) : cg.NoPatchSince cg := ⟨[], by simp, by simp⟩

theorem NoPatchSince_trans {cg cg1 cg2 : LCodeGen} (h1 : cg.NoPatchSince cg1)
    (h2 : cg1.NoPatchSince cg2) : cg.NoPatchSince cg2 := by
  obtain ⟨a, ha, hpa⟩ := h1
  obtain ⟨b, hb, hpb⟩ := h2
  refine ⟨a ++ b, by rw [hb, ha, List.append_assoc], ?_⟩
  intro i hi
  rcases List.mem_append.1 hi with hi | hi
  · exact hpa i hi
  · exact hpb i hi

theorem NoPatchSince_emitAll (cg : LCodeGen) (code : List Instr)
    (h : ∀ i ∈ code, i.isReceiverPatch = false) : cg.NoPatchSince (cg.emitAll code) :=
  ⟨code, rfl, h⟩

theorem NoPatchSince_asm (cg : LCodeGen) (name : Mnemonic) (operands : List Int)
    (h : (Instr.asm name operands).isReceiverPatch = false) :
    cg.NoPatchSince (cg.asm name operands) :=
  ⟨[.asm name operands], rfl, by simpa using h⟩

theorem callerDoublesCode_no_patch (name : Mnemonic)
    (hn : ∀ operands, (Instr.asm name operands).isReceiverPatch = false) (regs : List Int) :
    ∀ count, ∀ i ∈ callerDoublesCode name regs count, i.isReceiverPatch = false := by
  induction regs with
  | nil => intro count i hi; simp [callerDoublesCode] at hi
  | cons reg rest ih =>
    intro count i hi
    simp only [callerDoublesCode, List.mem_cons] at hi
    rcases hi with hi | hi
    · subst hi; exact hn _
    · exact ih _ i hi

theorem contextParameterCode_no_patch (num_parameters : Nat) (vars : List (Option Int)) :
    ∀ k, ∀ i ∈ contextParameterCode num_parameters vars k, i.isReceiverPatch = false := by
  induction vars with
  | nil => intro k i hi; simp [contextParameterCode] at hi
  | cons var rest ih =>
    intro k i hi
    simp only [contextParameterCode, List.mem_append] at hi
    rcases hi with hi | hi
    · cases var with
      | none => simp at hi
      | some index =>
        simp only [List.mem_cons, List.mem_singleton, List.not_mem_nil, or_false] at hi
        rcases hi with hi | hi | hi <;> subst hi <;> rfl
    · exact ih _ i hi

theorem prologueFrame_no_patch (cg : LCodeGen) : cg.NoPatchSince cg.prologueFrame := by
  unfold LCodeGen.prologueFrame
  simp only []
  split_ifs
  · exact ⟨[.asm .Prologue_stub_frame []], rfl, by simp [Instr.isReceiverPatch]⟩
  · exact ⟨[.asm .Prologue_function_frame []], rfl, by simp [Instr.isReceiverPatch]⟩
  · exact ⟨[], by simp, by simp⟩

theorem prologueSlots_no_patch (cg : LCodeGen) : cg.NoPatchSince cg.prologueSlots := by
  unfold LCodeGen.prologueSlots
  simp only []
  split_ifs
  · refine ⟨_, by simp only [LCodeGen.emitAll, LCodeGen.asm, LCodeGen.emit,
      List.append_assoc]; rfl, ?_⟩
    intro i hi
    simp only [List.singleton_append, List.mem_cons, List.not_mem_nil, or_false] at hi
    rcases hi with hi | hi | hi | hi | hi | hi | hi | hi <;> subst hi <;> rfl
  · exact NoPatchSince_asm _ .lay_sp_slots _ rfl
  · exact NoPatchSince_refl _

theorem allocateLocalContext_no_patch (cg cg1 : LCodeGen) (heap_slots : Int)
    (h : cg.allocateLocalContext heap_slots = some cg1) : cg.NoPatchSince cg1 := by
  unfold LCodeGen.allocateLocalContext at h
  simp only [] at h
  split at h
  · cases h
  · rename_i cg2 h2
    cases h
    have hrec : ∀ c c2 : LCodeGen, c.RecordSafepointEmpty .kNoLazyDeopt = some c2 →
        c.NoPatchSince c2 := by
      intro c c2 hc
      unfold LCodeGen.RecordSafepointEmpty LCodeGen.RecordSafepointSimple
        LCodeGen.RecordSafepoint at hc
      simp only [] at hc
      split_ifs at hc
      all_goals
        cases hc
        exact ⟨[], by simp, by simp⟩
    refine NoPatchSince_trans ?_ (NoPatchSince_trans (hrec _ _ h2) ?_)
    · split_ifs
      · exact NoPatchSince_asm _ .CallStub_FastNewContext _ rfl
      · exact NoPatchSince_trans (NoPatchSince_asm _ .push_r3 _ rfl)
          (NoPatchSince_asm _ .CallRuntime_NewFunctionContext _ rfl)
    · refine NoPatchSince_trans (NoPatchSince_asm _ .LoadRR_cp_r2 _ rfl)
        (NoPatchSince_trans (NoPatchSince_asm _ .StoreP_r2_fp_context _ rfl)
          (NoPatchSince_emitAll _ _ ?_))
      exact contextParameterCode_no_patch _ _ _

/-- After its first block `GeneratePrologue` emits no instruction of the
receiver patch. -/
theorem GeneratePrologue_no_patch (cg : LCodeGen) (r : Bool × LCodeGen)
    (h : cg.GeneratePrologue = some r) : cg.prologueEntry.NoPatchSince r.2 := by
  unfold LCodeGen.GeneratePrologue at h
  split_ifs at h with hg
  simp only [] at h
  have h4 : cg.prologueEntry.NoPatchSince cg.prologueEntry.prologueFrame.prologueSlots :=
    NoPatchSince_trans (prologueFrame_no_patch _) (prologueSlots_no_patch _)
  split at h
  · cases h
  · rename_i cg5 h5
    have hs5 : cg.prologueEntry.NoPatchSince cg5 := by
      split_ifs at h5
      · unfold LCodeGen.SaveCallerDoubles at h5
        split_ifs at h5
        cases h5
        exact NoPatchSince_trans h4 (NoPatchSince_emitAll _ _
          (callerDoublesCode_no_patch .std_double_sp (fun _ => rfl) _ _))
      · cases h5; exact h4
    split at h
    · cases h
    · rename_i cg6 h6
      have hs6 : cg.prologueEntry.NoPatchSince cg6 := by
        split_ifs at h6
        · exact NoPatchSince_trans hs5 (allocateLocalContext_no_patch _ _ _ h6)
        · cases h6; exact hs5
      cases h
      simp only []
      split_ifs
      · exact NoPatchSince_trans hs6 (NoPatchSince_asm _ .CallRuntime_TraceEnter _ rfl)
      · exact hs6

/-- C21 as stated fails: the receiver patch leaves a null receiver as it is. -/
theorem prologueEntry_keeps_null :
    sampleSloppy.info.IsOptimizing = true ∧ sampleSloppy.info.this_has_uses = true ∧
    sampleSloppy.info.strict_mode_is_sloppy = true ∧ sampleSloppy.info.is_native = false ∧
    (runPrologue false (sampleSloppy.codeSince sampleSloppy.prologueEntry)
      (sampleFrame .null)).map (fun m => m.stack 2) = some .null := by
  decide

/-- C21, amended.  In an optimizing compile of a function that uses `this`, is
sloppy and is not native, the first block of the prologue emits the receiver
patch after the entry hook (and the `stop_at` stop), and the patch replaces a
receiver that is the undefined value with the global receiver and leaves every
other receiver, null included, and every other stack word unchanged.  In every
other compile neither that block nor the rest of `GeneratePrologue` emits an
instruction of the receiver patch. -/
theorem receiver_patching (cg : LCodeGen) :
    (cg.info.IsOptimizing = true → cg.info.this_has_uses = true →
      cg.info.strict_mode_is_sloppy = true → cg.info.is_native = false →
      cg.codeSince cg.prologueEntry =
        [.asm .MaybeCallEntryHook []] ++
        (if cg.info.stop_at_matches then [.asm .stop_at []] else []) ++
        [.asm .LoadP_r4_receiver [cg.info.num_parameters], .asm .CompareRoot_r4_undefined [],
         .asm .bne_ok [], .asm .LoadP_r4_global_object [], .asm .LoadP_r4_global_receiver [],
         .asm .StoreP_r4_receiver [cg.info.num_parameters], .asm .bind_ok []] ∧
      ∀ m : PrologueMachine, ∃ m1,
        runPrologue false (cg.codeSince cg.prologueEntry) m = some m1 ∧
        m1.stack cg.info.num_parameters =
          (if m.stack cg.info.num_parameters = .undefined then .global_receiver
           else m.stack cg.info.num_parameters) ∧
        ∀ offset, offset ≠ (cg.info.num_parameters : Int) → m1.stack offset = m.stack offset) ∧
    (¬ (cg.info.IsOptimizing = true ∧ cg.info.this_has_uses = true ∧
        cg.info.strict_mode_is_sloppy = true ∧ cg.info.is_native = false) →
      (∀ i ∈ cg.codeSince cg.prologueEntry, i.isReceiverPatch = false) ∧
      ∀ r, cg.GeneratePrologue = some r → ∀ i ∈ cg.codeSince r.2, i.isReceiverPatch = false) := by
  constructor
  · intro ho ht hs hn
    have hcode : cg.codeSince cg.prologueEntry =
        [.asm .MaybeCallEntryHook []] ++
        (if cg.info.stop_at_matches then [.asm .stop_at []] else []) ++
        [.asm .LoadP_r4_receiver [cg.info.num_parameters], .asm .CompareRoot_r4_undefined [],
         .asm .bne_ok [], .asm .LoadP_r4_global_object [], .asm .LoadP_r4_global_receiver [],
         .asm .StoreP_r4_receiver [cg.info.num_parameters], .asm .bind_ok []] := by
      unfold LCodeGen.prologueEntry
      cases hst : cg.info.stop_at_matches <;>
        simp [ho, ht, hs, hn, hst, LCodeGen.asm, LCodeGen.emit, LCodeGen.emitAll,
          LCodeGen.codeSince]
    refine ⟨hcode, fun m => ?_⟩
    rw [hcode]
    cases hst : cg.info.stop_at_matches <;>
    · by_cases hu : m.stack cg.info.num_parameters = .undefined
      · refine ⟨{ r4 := .global_receiver,
                  stack := Function.update m.stack cg.info.num_parameters .global_receiver,
                  differs := false }, ?_, ?_, ?_⟩
        · simp [runPrologue, prologueStep, hu]
        · simp [hu]
        · intro offset hoff
          simp [Function.update_noteq hoff]
      · have hb : (m.stack cg.info.num_parameters != .undefined) = true := by simpa using hu
        refine ⟨{ m with r4 := m.stack cg.info.num_parameters, differs := true }, ?_, ?_, ?_⟩
        · simp [runPrologue, prologueStep, hb]
        · simp [hu]
        · intro offset _
          rfl
  · intro hnot
    have hentry : ∀ i ∈ cg.codeSince cg.prologueEntry, i.isReceiverPatch = false := by
      intro i hi
      unfold LCodeGen.prologueEntry at hi
      by_cases ho : cg.info.IsOptimizing = true
      · have hc : (cg.info.this_has_uses && cg.info.strict_mode_is_sloppy &&
            !cg.info.is_native) = false := by
          cases ht : cg.info.this_has_uses <;> cases hs : cg.info.strict_mode_is_sloppy <;>
            cases hn : cg.info.is_native <;> simp_all
        cases hst : cg.info.stop_at_matches <;>
          simp [ho, hc, hst, LCodeGen.asm, LCodeGen.emit, LCodeGen.codeSince] at hi
        · subst hi; rfl
        · rcases hi with hi | hi <;> subst hi <;> rfl
      · simp [ho, LCodeGen.codeSince] at hi
    refine ⟨hentry, ?_⟩
    intro r hr i hi
    obtain ⟨rest, hrest, hp⟩ := GeneratePrologue_no_patch cg r hr
    have hpre : ∃ first, cg.prologueEntry.masm = cg.masm ++ first := by
      unfold LCodeGen.prologueEntry
      simp only []
      split_ifs <;> simp [LCodeGen.asm, LCodeGen.emit, LCodeGen.emitAll]
    obtain ⟨first, hfirst⟩ := hpre
    have hcs : cg.codeSince cg.prologueEntry = first := by
      simp [LCodeGen.codeSince, hfirst]
    rw [hcs] at hentry
    have : cg.codeSince r.2 = first ++ rest := by
      simp [LCodeGen.codeSince, hrest, hfirst]
    rw [this] at hi
    rcases List.mem_append.1 hi with hi | hi
    · exact hentry i hi
    · exact hp i hi

theorem receiver_patching_witness :
    ∃ m1, runPrologue false (sampleSloppy.codeSince sampleSloppy.prologueEntry)
        (sampleFrame .undefined) = some m1 ∧
      m1.stack 2 = .global_receiver ∧ m1.stack 1 = .object 1 :=
  match ((receiver_patching sampleSloppy).1 rfl rfl rfl rfl).2 (sampleFrame .undefined) with
  | ⟨m1, h1, h2, h3⟩ => ⟨m1, h1, h2, h3 1 (by decide)⟩

/-! ## Registration bookkeeping -/

/-- A registration keeps the deoptimization list indexed by position. -/
theorem RegisterEnvironmentForDeoptimization_indexed (cg cg1 : LCodeGen)
    (environment environment1 : LEnvironment) (outer : List LEnvironment) (mode : DeoptMode)
    (hi : cg.Indexed)
    (h : cg.RegisterEnvironmentForDeoptimization environment outer mode = some (cg1, environment1)) :
    cg1.Indexed := by
  cases hreg : environment.HasBeenRegistered with
  | true =>
    rw [RegisterEnvironmentForDeoptimization_registered cg environment outer mode hreg] at h
    cases h
    exact hi
  | false =>
    obtain ⟨frames, cg2, -, -, henv, hcg⟩ :=
      RegisterEnvironmentForDeoptimization_fresh cg cg1 environment environment1 outer mode hreg h
    intro i e hget
    rw [hcg] at hget
    simp only at hget
    by_cases hlt : i < cg.deoptimizations_.length
    · rw [List.getElem?_append_left hlt] at hget
      exact hi i e hget
    · have hge : cg.deoptimizations_.length ≤ i := by omega
      rw [List.getElem?_append_right hge] at hget
      cases hd : i - cg.deoptimizations_.length with
      | zero =>
        rw [hd] at hget
        simp only [List.getElem?_cons_zero, Option.some.injEq] at hget
        rw [← hget, henv]
        simp only [LEnvironment.Register]
        omega
      | succ n =>
        rw [hd] at hget
        simp at hget

/-- C22.  Registering an environment that is not yet registered gives it the
number of environments registered before it as its deoptimization index, the
position at which its translation begins in the buffer as its translation
index, and the current code offset as its pc offset when the mode is lazy and
-1 otherwise, and appends it at the end of the deoptimization list.  So after
any sequence of registrations on an indexed list, an empty one included, the
element at position `i` of the list has deoptimization index `i`. -/
theorem registration_bookkeeping (cg : LCodeGen) :
    (∀ (cg1 : LCodeGen) (environment environment1 : LEnvironment) (outer : List LEnvironment)
        (mode : DeoptMode), environment.HasBeenRegistered = false →
      cg.RegisterEnvironmentForDeoptimization environment outer mode = some (cg1, environment1) →
      environment1.deoptimization_index = cg.deoptimizations_.length ∧
      environment1.translation_index = cg.translations_.length ∧
      cg1.translations_[cg.translations_.length]? = some (.BEGIN (outer.length + 1)
        ((environment :: outer).countP (fun e => e.frame_type == .JS_FUNCTION))) ∧
      environment1.pc_offset = (if mode = .kLazyDeopt then (cg.pc_offset : Int) else -1) ∧
      environment1.HasBeenRegistered = true ∧
      cg1.deoptimizations_ = cg.deoptimizations_ ++ [environment1]) ∧
    (∀ (calls : List (LEnvironment × List LEnvironment × DeoptMode)) (cg1 : LCodeGen),
      cg.Indexed → LCodeGen.registerAll calls cg = some cg1 →
      ∀ (i : Nat) (e : LEnvironment), cg1.deoptimizations_[i]? = some e →
        e.deoptimization_index = i) := by
  constructor
  · intro cg1 environment environment1 outer mode hreg h
    obtain ⟨frames, cg2, ⟨added, hw⟩, -, henv, hcg⟩ :=
      RegisterEnvironmentForDeoptimization_fresh cg cg1 environment environment1 outer mode hreg h
    refine ⟨by rw [henv]; rfl, by rw [henv]; rfl, ?_, ?_, by rw [henv]; rfl, ?_⟩
    · rw [hcg, hw]
      simp only
      rw [List.getElem?_append_right (le_refl _)]
      simp
    · rw [henv]
      simp only [LEnvironment.Register]
      cases mode <;> simp
    · rw [hcg]
  · intro calls
    induction calls generalizing cg with
    | nil =>
      intro cg1 hi h
      simp only [LCodeGen.registerAll, Option.some.injEq] at h
      subst h
      exact hi
    | cons call rest ih =>
      intro cg1 hi h
      simp only [LCodeGen.registerAll] at h
      cases hr : cg.RegisterEnvironmentForDeoptimization call.1 call.2.1 call.2.2 with
      | none => simp [hr] at h
      | some r =>
        simp only [hr] at h
        obtain ⟨cg2, e2⟩ := r
        exact ih cg2 cg1 (RegisterEnvironmentForDeoptimization_indexed cg cg2 _ e2 _ _ hi hr) h

theorem registration_bookkeeping_witness :
    ∃ cg1, LCodeGen.registerAll
        [(sampleEnvironment, [sampleOuter], .kLazyDeopt), (sampleOuter, [], .kNoLazyDeopt)]
        sampleCodeGen = some cg1 ∧
      (cg1.deoptimizations_.map LEnvironment.deoptimization_index = [0, 1]) ∧
      ∀ (i : Nat) (e : LEnvironment), cg1.deoptimizations_[i]? = some e →
        e.deoptimization_index = i :=
  (⟨_, rfl⟩ : ∃ cg1, LCodeGen.registerAll
      [(sampleEnvironment, [sampleOuter], .kLazyDeopt), (sampleOuter, [], .kNoLazyDeopt)]
      sampleCodeGen = some cg1).elim
    fun cg1 h =>
      ⟨cg1, h, by rw [← Option.some.inj h]; decide,
        (registration_bookkeeping sampleCodeGen).2 _ cg1
          (fun i e hget => by simp [sampleCodeGen] at hget) h⟩

/-! ## The length without an incomplete UTF-8 sequence -/

/-- C23.  `LengthWithoutIncompleteUtf8` on buffers that end with a complete
sequence: for the one-byte sequence it returns `len`, but for the complete
two-, three- and four-byte sequences it returns `len + 1`, one more than the
whole buffer; on buffers that end inside a sequence it returns the length of
the prefix before the lead byte. -/
theorem LengthWithoutIncompleteUtf8_complete_sequence :
    LengthWithoutIncompleteUtf8 [0x41] 1 = some 1 ∧
    LengthWithoutIncompleteUtf8 [0xC3, 0xA9] 2 = some 3 ∧
    LengthWithoutIncompleteUtf8 [0x41, 0xE2, 0x82, 0xAC] 4 = some 5 ∧
    LengthWithoutIncompleteUtf8 [0xF0, 0x9F, 0x98, 0x80] 4 = some 5 ∧
    LengthWithoutIncompleteUtf8 [0x41, 0xC3] 2 = some 1 ∧
    LengthWithoutIncompleteUtf8 [0x41, 0xE2, 0x82] 3 = some 1 ∧
    LengthWithoutIncompleteUtf8 [0x41, 0x42, 0xF0, 0x9F, 0x98] 5 = some 2 := by
  decide

/-- C30.  `LengthWithoutIncompleteUtf8` leaves the buffer: for the two bytes of
a complete two-byte sequence it returns 3, more than `len = 2`, and `GetStdout`
then hands 3 bytes to the string and is left with a `fullness` of -1. -/
theorem LengthWithoutIncompleteUtf8_exceeds_len :
    LengthWithoutIncompleteUtf8 [0xC3, 0xA9] 2 = some 3 ∧ ¬ ((3 : Int) ≤ 2) ∧
    GetStdout.consume [0xC3, 0xA9] 2 0 = some (3, -1) := by
  decide

/-! ## The overflow guard of a multiplication -/

/-- The shift sequence of `DoDivByPowerOf2I` leaves the quotient truncated
toward zero, as a 32-bit value. -/
theorem DoDivByPowerOf2I_shift_run (w d : Bool) (entry : Nat → Address) (kk : Nat → Nat)
    (i t : Int) (hit : i ≠ t) (k : Nat) (hk : k ≤ 31) (divisor : Int)
    (hdiv : divisor = 2 ^ k ∨ divisor = -2 ^ k) (n pc : Nat) (m : Machine) :
    ∃ m1, exec w none pc (realize d entry kk n
        (if divisor == -1 then
          [Action.ins .LoadComplementRR [.reg (.allocated t), .reg (.allocated i)]]
        else
          (if k == 0 then [Action.ins .LoadRR [.reg (.allocated t), .reg (.allocated i)]]
          else
            (if k == 1 then
              [Action.ins .ShiftRight [.reg (.allocated t), .reg (.allocated i), .imm 31]]
            else
              [Action.ins .ShiftRightArith [.reg (.allocated t), .reg (.allocated i), .imm 31],
               Action.ins .ShiftRight
                 [.reg (.allocated t), .reg (.allocated t), .imm (32 - (k : Int))]]) ++
            [Action.ins .Add32 [.reg (.allocated t), .reg (.allocated i), .reg (.allocated t)],
             Action.ins .ShiftRightArith [.reg (.allocated t), .reg (.allocated t), .imm k]]) ++
          (if divisor < 0 then
            [Action.ins .LoadComplementRR [.reg (.allocated t), .reg (.allocated t)]]
          else []))) m = .finished m1 ∧
      int32 (m1.reg (.allocated t)) = int32 ((int32 (m.reg (.allocated i))).tdiv divisor) := by
  have hit2 : Register.allocated i ≠ Register.allocated t := fun e => hit (Register.allocated.inj e)
  have hpow := pow_two_bounds k hk
  obtain ⟨hx1, hx2⟩ := int32_range (m.reg (.allocated i))
  have e31 : (31 : Int).toNat = 31 := rfl
  have e32 : (32 - (k : Int)).toNat = 32 - k := by omega
  by_cases hk0 : k = 0
  · subst hk0
    rcases hdiv with hdiv | hdiv <;> subst hdiv
    · have hd1 : (((2 : Int) ^ 0) == -1) = false := by decide
      have hk0b : ((0 : Nat) == 0) = true := rfl
      have hk1b : ((0 : Nat) == 1) = false := rfl
      have hneg : ¬ ((2 : Int) ^ 0 < 0) := by decide
      simp only [hd1, hk0b, hk1b, hneg, pow_zero, pow_one, realize, Action.ins, beq_self_eq_true,
        if_true, if_false, Bool.false_eq_true, List.nil_append, List.append_nil, List.cons_append,
        exec_LoadRR, exec_LoadComplementRR, exec_ShiftRight, exec_ShiftRightArith, exec_Add32_reg,
        exec_nil]
      refine ⟨_, rfl, ?_⟩
      simp only [Machine.record_reg, Machine.setCode_reg, Machine.set_reg, Machine.set32_reg,
        Function.update_same, Function.update_noteq hit2, ne_eq, not_false_eq_true, int32_writeLow,
        writeLow_emod, int32_int32, e31, e32, Int.toNat_ofNat, Int.reducePow, pow_one]
      simp [int32_int32]
    · have hd1 : ((-(2 : Int) ^ 0) == -1) = true := by decide
      have hk0b : ((0 : Nat) == 0) = true := rfl
      have hk1b : ((0 : Nat) == 1) = false := rfl
      have hneg : (-(2 : Int) ^ 0 < 0) := by decide
      simp only [hd1, hk0b, hk1b, hneg, pow_zero, pow_one, realize, Action.ins, beq_self_eq_true,
        if_true, if_false, Bool.false_eq_true, List.nil_append, List.append_nil, List.cons_append,
        exec_LoadRR, exec_LoadComplementRR, exec_ShiftRight, exec_ShiftRightArith, exec_Add32_reg,
        exec_nil]
      refine ⟨_, rfl, ?_⟩
      simp only [Machine.record_reg, Machine.setCode_reg, Machine.set_reg, Machine.set32_reg,
        Function.update_same, Function.update_noteq hit2, ne_eq, not_false_eq_true, int32_writeLow,
        writeLow_emod, int32_int32, e31, e32, Int.toNat_ofNat, Int.reducePow, pow_one]
      apply int32_congr
      rw [wordP_emod32]
      have hneg1 : (int32 (m.reg (.allocated i))).tdiv (-1) = -(int32 (m.reg (.allocated i))) := by
        rw [Int.tdiv_neg, Int.tdiv_one]
      rw [hneg1]
      unfold int32
      omega
  have hk0b : (k == 0) = false := by simpa using hk0
  by_cases hk1 : k = 1
  · subst hk1
    have hk1b : ((1 : Nat) == 1) = true := rfl
    rcases hdiv with hdiv | hdiv <;> subst hdiv
    · have hd1 : (((2 : Int) ^ 1) == -1) = false := by decide
      have hneg : ¬ ((2 : Int) ^ 1 < 0) := by decide
      simp only [hd1, hk0b, hk1b, hneg, pow_zero, pow_one, realize, Action.ins, beq_self_eq_true,
        if_true, if_false, Bool.false_eq_true, List.nil_append, List.append_nil, List.cons_append,
        exec_LoadRR, exec_LoadComplementRR, exec_ShiftRight, exec_ShiftRightArith, exec_Add32_reg,
        exec_nil]
      refine ⟨_, rfl, ?_⟩
      simp only [Machine.record_reg, Machine.setCode_reg, Machine.set_reg, Machine.set32_reg,
        Function.update_same, Function.update_noteq hit2, ne_eq, not_false_eq_true, int32_writeLow,
        writeLow_emod, int32_int32, e31, e32, Int.toNat_ofNat, Int.reducePow, pow_one]
      exact congrArg int32 (shift_add_tdiv_one _)
    · have hd1 : ((-(2 : Int) ^ 1) == -1) = false := by decide
      have hneg : (-(2 : Int) ^ 1 < 0) := by decide
      simp only [hd1, hk0b, hk1b, hneg, pow_zero, pow_one, realize, Action.ins, beq_self_eq_true,
        if_true, if_false, Bool.false_eq_true, List.nil_append, List.append_nil, List.cons_append,
        exec_LoadRR, exec_LoadComplementRR, exec_ShiftRight, exec_ShiftRightArith, exec_Add32_reg,
        exec_nil]
      refine ⟨_, rfl, ?_⟩
      simp only [Machine.record_reg, Machine.setCode_reg, Machine.set_reg, Machine.set32_reg,
        Function.update_same, Function.update_noteq hit2, ne_eq, not_false_eq_true, int32_writeLow,
        writeLow_emod, int32_int32, e31, e32, Int.toNat_ofNat, Int.reducePow, pow_one]
      rw [int32_neg_writeLow, Int.tdiv_neg]
      exact congrArg (fun v => int32 (-v)) (shift_add_tdiv_one _)
  have hk1b : (k == 1) = false := by simpa using hk1
  have h2 : 2 ≤ k := by omega
  rcases hdiv with hdiv | hdiv <;> subst hdiv
  · have hd1 : (((2 : Int) ^ k) == -1) = false := by
      simp only [beq_eq_false_iff_ne, ne_eq]; omega
    have hneg : ¬ ((2 : Int) ^ k < 0) := by omega
    simp only [hd1, hk0b, hk1b, hneg, pow_zero, pow_one, realize, Action.ins, beq_self_eq_true,
        if_true, if_false, Bool.false_eq_true, List.nil_append, List.append_nil, List.cons_append,
        exec_LoadRR, exec_LoadComplementRR, exec_ShiftRight, exec_ShiftRightArith, exec_Add32_reg,
        exec_nil]
    refine ⟨_, rfl, ?_⟩
    simp only [Machine.record_reg, Machine.setCode_reg, Machine.set_reg, Machine.set32_reg,
        Function.update_same, Function.update_noteq hit2, ne_eq, not_false_eq_true, int32_writeLow,
        writeLow_emod, int32_int32, e31, e32, Int.toNat_ofNat, Int.reducePow, pow_one]
    exact congrArg int32 (shift_add_tdiv _ k h2 hk hx1 hx2)
  · have hd1 : ((-(2 : Int) ^ k) == -1) = false := by
      have h4 : (4 : Int) ≤ 2 ^ k := by
        calc (4 : Int) = 2 ^ 2 := by norm_num
          _ ≤ 2 ^ k := pow_le_pow_right₀ (by norm_num) h2
      simp only [beq_eq_false_iff_ne, ne_eq]; omega
    have hneg : (-(2 : Int) ^ k < 0) := by omega
    simp only [hd1, hk0b, hk1b, hneg, pow_zero, pow_one, realize, Action.ins, beq_self_eq_true,
        if_true, if_false, Bool.false_eq_true, List.nil_append, List.append_nil, List.cons_append,
        exec_LoadRR, exec_LoadComplementRR, exec_ShiftRight, exec_ShiftRightArith, exec_Add32_reg,
        exec_nil]
    refine ⟨_, rfl, ?_⟩
    simp only [Machine.record_reg, Machine.setCode_reg, Machine.set_reg, Machine.set32_reg,
        Function.update_same, Function.update_noteq hit2, ne_eq, not_false_eq_true, int32_writeLow,
        writeLow_emod, int32_int32, e31, e32, Int.toNat_ofNat, Int.reducePow, pow_one]
    rw [int32_neg_writeLow, Int.tdiv_neg]
    exact congrArg (fun v => int32 (-v)) (shift_add_tdiv _ k h2 hk hx1 hx2)

/-- The remainder check of `DoDivByPowerOf2I` and the shift sequence after it:
the check hands the run to the deoptimizer exactly when the low `k` bits of the
dividend are not all zero. -/
theorem DoDivByPowerOf2I_tail_run (w d : Bool) (entry : Nat → Address) (kk : Nat → Nat)
    (i t : Int) (hit : i ≠ t) (k : Nat) (hk : k ≤ 31) (divisor : Int)
    (hdiv : divisor = 2 ^ k ∨ divisor = -2 ^ k) (trunc : Bool) (n pc : Nat) (m : Machine)
    (xv : Int) (hx : m.reg (.allocated i) = xv) :
    ((trunc = true ∨ k = 0 ∨ int32 xv % 2 ^ k = 0) →
      ∃ m1, exec w none pc (realize d entry kk n
        ((if (!trunc && k != 0) = true then
          [Action.ins .TestBitRange [.reg (.allocated i), .imm ((k : Int) - 1), .imm 0, .reg .r0],
           Action.DeoptimizeIf .ne]
        else []) ++
        (if divisor == -1 then
          [Action.ins .LoadComplementRR [.reg (.allocated t), .reg (.allocated i)]]
        else
          (if k == 0 then [Action.ins .LoadRR [.reg (.allocated t), .reg (.allocated i)]]
          else
            (if k == 1 then
              [Action.ins .ShiftRight [.reg (.allocated t), .reg (.allocated i), .imm 31]]
            else
              [Action.ins .ShiftRightArith [.reg (.allocated t), .reg (.allocated i), .imm 31],
               Action.ins .ShiftRight
                 [.reg (.allocated t), .reg (.allocated t), .imm (32 - (k : Int))]]) ++
            [Action.ins .Add32 [.reg (.allocated t), .reg (.allocated i), .reg (.allocated t)],
             Action.ins .ShiftRightArith [.reg (.allocated t), .reg (.allocated t), .imm k]]) ++
          (if divisor < 0 then
            [Action.ins .LoadComplementRR [.reg (.allocated t), .reg (.allocated t)]]
          else [])))) m = .finished m1 ∧
      int32 (m1.reg (.allocated t)) = int32 ((int32 xv).tdiv divisor)) ∧
    (trunc = false → k ≠ 0 →
      ((∃ g m1, exec w none pc (realize d entry kk n
        ((if (!trunc && k != 0) = true then
          [Action.ins .TestBitRange [.reg (.allocated i), .imm ((k : Int) - 1), .imm 0, .reg .r0],
           Action.DeoptimizeIf .ne]
        else []) ++
        (if divisor == -1 then
          [Action.ins .LoadComplementRR [.reg (.allocated t), .reg (.allocated i)]]
        else
          (if k == 0 then [Action.ins .LoadRR [.reg (.allocated t), .reg (.allocated i)]]
          else
            (if k == 1 then
              [Action.ins .ShiftRight [.reg (.allocated t), .reg (.allocated i), .imm 31]]
            else
              [Action.ins .ShiftRightArith [.reg (.allocated t), .reg (.allocated i), .imm 31],
               Action.ins .ShiftRight
                 [.reg (.allocated t), .reg (.allocated t), .imm (32 - (k : Int))]]) ++
            [Action.ins .Add32 [.reg (.allocated t), .reg (.allocated i), .reg (.allocated t)],
             Action.ins .ShiftRightArith [.reg (.allocated t), .reg (.allocated t), .imm k]]) ++
          (if divisor < 0 then
            [Action.ins .LoadComplementRR [.reg (.allocated t), .reg (.allocated t)]]
          else [])))) m = .deoptimized g m1) ↔
        int32 xv % 2 ^ k ≠ 0)) := by
  subst hx
  have hrun := DoDivByPowerOf2I_shift_run w d entry kk i t hit k hk divisor hdiv
  generalize (if divisor == -1 then
          [Action.ins .LoadComplementRR [.reg (.allocated t), .reg (.allocated i)]]
        else
          (if k == 0 then [Action.ins .LoadRR [.reg (.allocated t), .reg (.allocated i)]]
          else
            (if k == 1 then
              [Action.ins .ShiftRight [.reg (.allocated t), .reg (.allocated i), .imm 31]]
            else
              [Action.ins .ShiftRightArith [.reg (.allocated t), .reg (.allocated i), .imm 31],
               Action.ins .ShiftRight
                 [.reg (.allocated t), .reg (.allocated t), .imm (32 - (k : Int))]]) ++
            [Action.ins .Add32 [.reg (.allocated t), .reg (.allocated i), .reg (.allocated t)],
             Action.ins .ShiftRightArith [.reg (.allocated t), .reg (.allocated t), .imm k]]) ++
          (if divisor < 0 then
            [Action.ins .LoadComplementRR [.reg (.allocated t), .reg (.allocated t)]]
          else [])) = shifts at hrun ⊢
  by_cases hg : (!trunc && k != 0) = true
  · have htr : trunc = false := by
      cases trunc
      · rfl
      · simp at hg
    have hk0 : k ≠ 0 := by
      intro hk0
      simp [hk0] at hg
    have hi0 : Register.allocated i ≠ Register.r0 := by simp
    simp only [hg, if_true, List.cons_append, List.nil_append, realize, Action.ins, guardCode_ne,
      exec_TestBitRange, exec_b, Machine.record_cc, Machine.setCode_cc, holds_ne_test,
      extract_low, decide_eq_true_eq]
    rw [int32_emod_pow (m.reg (.allocated i)) k hk]
    constructor
    · intro hcase
      have hzero : m.reg (.allocated i) % 2 ^ k = 0 := by
        rcases hcase with hc | hc | hc
        · rw [htr] at hc; cases hc
        · exact absurd hc hk0
        · exact hc
      rw [if_neg (by simpa using hzero)]
      obtain ⟨m1, h1, h2⟩ := hrun (n + 1 + 1) (pc + 1 + 1)
        ((((m.set .r0 (m.reg (.allocated i) % 2 ^ k)).setCode
          (if m.reg (.allocated i) % 2 ^ k = 0 then .cc0 else .cc1)).record
            (.ins .TestBitRange [.reg (.allocated i), .imm ((k : Int) - 1), .imm 0, .reg .r0])).record
              (.b .ne (kk (n + 1))))
      refine ⟨m1, h1, h2.trans ?_⟩
      simp only [Machine.record_reg, Machine.setCode_reg, Machine.set_reg,
        Function.update_noteq hi0, ne_eq, not_false_eq_true]
    · intro _ _
      constructor
      · rintro ⟨g, m1, hm1⟩
        intro hzero
        rw [if_neg (by simpa using hzero)] at hm1
        obtain ⟨m2, h1, _⟩ := hrun (n + 1 + 1) (pc + 1 + 1)
          ((((m.set .r0 (m.reg (.allocated i) % 2 ^ k)).setCode
            (if m.reg (.allocated i) % 2 ^ k = 0 then .cc0 else .cc1)).record
              (.ins .TestBitRange [.reg (.allocated i), .imm ((k : Int) - 1), .imm 0, .reg .r0])).record
                (.b .ne (kk (n + 1))))
        rw [h1] at hm1
        cases hm1
      · intro hnz
        rw [if_pos hnz]
        exact ⟨_, _, rfl⟩
  · simp only [hg, if_false, List.nil_append, Bool.false_eq_true]
    constructor
    · intro _
      exact hrun n pc m
    · intro htr hk0
      exfalso
      apply hg
      simp [htr, hk0]

/-- C25.  For a divisor `d` that is `2^k` or `-2^k` (`kMinInt` included) and
every dividend `x` that the minus-zero and overflow guards let through, with
the stress and trap flags off: when all uses truncate, or `k = 0`, or `x` is a
multiple of `2^k`, the code of `DoDivByPowerOf2I` runs to its end and leaves in
the result register the 32-bit value of `x / d` truncated toward zero, which
for `kMinInt / -1` is `kMinInt`; and unless all uses truncate, for `k > 0` the
run is handed to the deoptimizer exactly when the low `k` bits of `x` are not
all zero. -/
theorem power_of_two_division (x : Externals) (cg : LCodeGen) (outer : List LEnvironment)
    (m : Machine) (hp : cg.PlainGuards x) (instr : LDivByPowerOf2I)
    (r : LCodeGen × LEnvironment) (dividend result : Register) (k : Nat)
    (h : cg.DoDivByPowerOf2I x instr outer = some r)
    (hd : ToRegister instr.dividend = some dividend)
    (hres : ToRegister instr.result = some result)
    (hk : k ≤ 31) (hdiv : instr.divisor = 2 ^ k ∨ instr.divisor = -2 ^ k)
    (hmz : ¬ (instr.hydrogen.CheckFlag .kBailoutOnMinusZero = true ∧ instr.divisor < 0 ∧
      int32 (m.reg dividend) = 0))
    (hov : ¬ (instr.hydrogen.CheckFlag .kCanOverflow = true ∧ instr.divisor = -1 ∧
      int32 (m.reg dividend) = kMinInt)) :
    ((instr.hydrogen.CheckFlag .kAllUsesTruncatingToInt32 = true ∨ k = 0 ∨
        int32 (m.reg dividend) % 2 ^ k = 0) →
      ∃ m1, exec cg.info.V8_TARGET_ARCH_S390X none 0 (cg.codeSince r.1) m = .finished m1 ∧
        int32 (m1.reg result) = int32 ((int32 (m.reg dividend)).tdiv instr.divisor)) ∧
    (instr.hydrogen.CheckFlag .kAllUsesTruncatingToInt32 = false → k ≠ 0 →
      ((∃ g m1, exec cg.info.V8_TARGET_ARCH_S390X none 0 (cg.codeSince r.1) m =
          .deoptimized g m1) ↔
        int32 (m.reg dividend) % 2 ^ k ≠ 0)) ∧
    int32 (kMinInt.tdiv (-1)) = kMinInt := by
  refine and_assoc.mp ⟨?_, by decide⟩
  have hda := ToRegister_allocated _ _ hd
  have hra := ToRegister_allocated _ _ hres
  unfold LCodeGen.DoDivByPowerOf2I DoDivByPowerOf2I_steps at h
  simp only [hd, hres] at h
  by_cases hc1 : (!(instr.divisor == kMinInt || IsPowerOf2 (Abs instr.divisor))) = true
  · simp [hc1, LCodeGen.lower] at h
  by_cases hc2 : (result == dividend) = true
  · simp [hc1, hc2, LCodeGen.lower] at h
  simp only [hc1, hc2, Bool.false_eq_true, if_false] at h
  obtain ⟨entry, kk, hcode⟩ := lower_code x cg _ _ outer r hp h
  rw [hcode]
  have hshift : WhichPowerOf2Abs instr.divisor = k := by
    rcases hdiv with hdiv | hdiv <;> rw [hdiv]
    · exact (WhichPowerOf2Abs_pow k hk).1
    · exact (WhichPowerOf2Abs_pow k hk).2
  generalize hi : instr.dividend.index = i at hda
  generalize ht : instr.result.index = t at hra
  subst hda hra
  have hit : i ≠ t := by
    intro e
    apply hc2
    simp [e]
  generalize cg.info.V8_TARGET_ARCH_S390X = w
  have htail := DoDivByPowerOf2I_tail_run w (cg.frame_is_built_ && !cg.info.saves_caller_doubles)
    entry kk i t hit k hk instr.divisor hdiv
    (instr.hydrogen.CheckFlag .kAllUsesTruncatingToInt32)
  simp only [hshift, List.append_assoc]
  generalize ((if (!instr.hydrogen.CheckFlag .kAllUsesTruncatingToInt32 && k != 0) = true then
          [Action.ins .TestBitRange [.reg (.allocated i), .imm ((k : Int) - 1), .imm 0, .reg .r0],
           Action.DeoptimizeIf .ne]
        else []) ++
        (if instr.divisor == -1 then
          [Action.ins .LoadComplementRR [.reg (.allocated t), .reg (.allocated i)]]
        else
          (if k == 0 then [Action.ins .LoadRR [.reg (.allocated t), .reg (.allocated i)]]
          else
            (if k == 1 then
              [Action.ins .ShiftRight [.reg (.allocated t), .reg (.allocated i), .imm 31]]
            else
              [Action.ins .ShiftRightArith [.reg (.allocated t), .reg (.allocated i), .imm 31],
               Action.ins .ShiftRight
                 [.reg (.allocated t), .reg (.allocated t), .imm (32 - (k : Int))]]) ++
            [Action.ins .Add32 [.reg (.allocated t), .reg (.allocated i), .reg (.allocated t)],
             Action.ins .ShiftRightArith [.reg (.allocated t), .reg (.allocated t), .imm k]]) ++
          (if instr.divisor < 0 then
            [Action.ins .LoadComplementRR [.reg (.allocated t), .reg (.allocated t)]]
          else []))) = tl at htail
  by_cases hg1 : (instr.hydrogen.CheckFlag .kBailoutOnMinusZero && decide (instr.divisor < 0)) = true
  · have hne1 : int32 (m.reg (.allocated i)) ≠ int32 0 := by
      simp only [Bool.and_eq_true, decide_eq_true_eq] at hg1
      rw [int32_zero]
      intro e
      exact hmz ⟨hg1.1, hg1.2, e⟩
    by_cases hg2 : (instr.hydrogen.CheckFlag .kCanOverflow && instr.divisor == -1) = true
    · have hne2 : int32 (m.reg (.allocated i)) ≠ int32 0x80000000 := by
        simp only [Bool.and_eq_true, beq_iff_eq] at hg2
        rw [int32_hex]
        intro e
        exact hov ⟨hg2.1, hg2.2, e⟩
      simp only [hg1, hg2, if_true, if_false, Bool.false_eq_true, realize, Action.ins, guardCode_eq,
        List.nil_append, List.cons_append, List.length_nil, List.length_cons]
      simp only [exec_Cmp32_imm, exec_b, holds_eq_compare, Machine.record_cc, Machine.setCode_cc,
        Machine.record_reg, Machine.setCode_reg, hne1, hne2, decide_False, Bool.false_eq_true,
        if_false]
      exact htail _ _ _ _ (by rfl)
    ·
      simp only [hg1, hg2, if_true, if_false, Bool.false_eq_true, realize, Action.ins, guardCode_eq,
        List.nil_append, List.cons_append, List.length_nil, List.length_cons]
      simp only [exec_Cmp32_imm, exec_b, holds_eq_compare, Machine.record_cc, Machine.setCode_cc,
        Machine.record_reg, Machine.setCode_reg, hne1, decide_False, Bool.false_eq_true, if_false]
      exact htail _ _ _ _ (by rfl)
  · by_cases hg2 : (instr.hydrogen.CheckFlag .kCanOverflow && instr.divisor == -1) = true
    · have hne2 : int32 (m.reg (.allocated i)) ≠ int32 0x80000000 := by
        simp only [Bool.and_eq_true, beq_iff_eq] at hg2
        rw [int32_hex]
        intro e
        exact hov ⟨hg2.1, hg2.2, e⟩
      simp only [hg1, hg2, if_true, if_false, Bool.false_eq_true, realize, Action.ins, guardCode_eq,
        List.nil_append, List.cons_append, List.length_nil, List.length_cons]
      simp only [exec_Cmp32_imm, exec_b, holds_eq_compare, Machine.record_cc, Machine.setCode_cc,
        Machine.record_reg, Machine.setCode_reg, hne2, decide_False, Bool.false_eq_true, if_false]
      exact htail _ _ _ _ (by rfl)
    ·
      simp only [hg1, hg2, if_true, if_false, Bool.false_eq_true, realize, Action.ins, guardCode_eq,
        List.nil_append, List.cons_append, List.length_nil, List.length_cons]
      exact htail _ _ _ _ (by rfl)


theorem power_of_two_division_witness :
    (∃ r m1, sampleCodeGen.DoDivByPowerOf2I sampleExternals
        (sampleDivByPowerOf2 (-4) [.kAllUsesTruncatingToInt32]) [sampleOuter] = some r ∧
      exec true none 0 (sampleCodeGen.codeSince r.1) sampleMachine = .finished m1 ∧
      int32 (m1.reg (.allocated 3)) = 1) ∧
    (∃ r g m1, sampleCodeGen.DoDivByPowerOf2I sampleExternals (sampleDivByPowerOf2 (-4) [])
        [sampleOuter] = some r ∧
      exec true none 0 (sampleCodeGen.codeSince r.1) sampleMachine = .deoptimized g m1) :=
  ⟨(⟨_, rfl⟩ : ∃ r, sampleCodeGen.DoDivByPowerOf2I sampleExternals
      (sampleDivByPowerOf2 (-4) [.kAllUsesTruncatingToInt32]) [sampleOuter] = some r).elim
    fun r hr =>
      match (power_of_two_division sampleExternals sampleCodeGen [sampleOuter] sampleMachine
        samplePlainGuards (sampleDivByPowerOf2 (-4) [.kAllUsesTruncatingToInt32]) r (.allocated 1)
        (.allocated 3) 2 hr rfl rfl (by decide) (Or.inr (by decide)) (by decide) (by decide)).1
        (Or.inl rfl) with
      | ⟨m1, h1, h2⟩ => ⟨r, m1, hr, h1, h2.trans (by decide)⟩,
   (⟨_, rfl⟩ : ∃ r, sampleCodeGen.DoDivByPowerOf2I sampleExternals (sampleDivByPowerOf2 (-4) [])
      [sampleOuter] = some r).elim
    fun r hr =>
      match ((power_of_two_division sampleExternals sampleCodeGen [sampleOuter] sampleMachine
        samplePlainGuards (sampleDivByPowerOf2 (-4) []) r (.allocated 1) (.allocated 3) 2 hr rfl
        rfl (by decide) (Or.inr (by decide)) (by decide) (by decide)).2.1 rfl (by decide)).2
        (by decide) with
      | ⟨g, m1, h1⟩ => ⟨r, g, m1, hr, h1⟩⟩

/-! ## The cursor of dematerialized values -/

theorem forLoop_fst {σ τ : Type} (body : Nat → σ → Option σ)
    (traced : Nat → σ × τ → Option (σ × τ))
    (h : ∀ i s, (traced i s).map Prod.fst = body i s.1) :
    ∀ (count i : Nat) (s : σ × τ),
      (forLoop traced count i s).map Prod.fst = forLoop body count i s.1 := by
  intro count
  induction count with
  | zero => intro i s; simp [forLoop]
  | succ n ih =>
    intro i s
    simp only [forLoop]
    have hs := h i s
    cases hb : traced i s with
    | none =>
      rw [hb] at hs
      simp only [Option.map_none'] at hs
      simp [← hs]
    | some s1 =>
      rw [hb] at hs
      simp only [Option.map_some'] at hs
      simp only [← hs, Option.some_bind]
      exact ih _ _

theorem AddToTranslation_operand_fuel (fuel : Nat) (cg : LCodeGen) (environment : LEnvironment)
    (op : LOperand) (is_tagged is_uint32 : Bool) (cur : Cursors) :
    LCodeGen.AddToTranslation fuel cg environment (some op) is_tagged is_uint32 cur =
      LCodeGen.AddToTranslation 0 cg environment (some op) is_tagged is_uint32 cur := by
  cases fuel <;> simp only [LCodeGen.AddToTranslation]

/-- The traced writer is the writer: dropping the log gives
`AddToTranslation`. -/
theorem AddToTranslationTraced_fst (environment : LEnvironment) (fuel : Nat) :
    ∀ (cg : LCodeGen) (op : Option LOperand) (is_tagged is_uint32 : Bool) (cur : Cursors),
      (LCodeGen.AddToTranslationTraced fuel cg environment op is_tagged is_uint32 cur).map
        Prod.fst = LCodeGen.AddToTranslation fuel cg environment op is_tagged is_uint32 cur := by
  induction fuel with
  | zero =>
    intro cg op is_tagged is_uint32 cur
    cases op with
    | none => simp [LCodeGen.AddToTranslationTraced, LCodeGen.AddToTranslation]
    | some op =>
      simp only [LCodeGen.AddToTranslationTraced, Option.map_map]
      generalize LCodeGen.AddToTranslation 0 cg environment (some op) is_tagged is_uint32 cur = X
      cases X <;> rfl
  | succ fuel ih =>
    intro cg op is_tagged is_uint32 cur
    cases op with
    | some op =>
      rw [AddToTranslation_operand_fuel]
      simp only [LCodeGen.AddToTranslationTraced, Option.map_map]
      generalize LCodeGen.AddToTranslation 0 cg environment (some op) is_tagged is_uint32 cur = X
      cases X <;> rfl
    | none =>
      simp only [LCodeGen.AddToTranslationTraced, LCodeGen.AddToTranslation]
      cases hm : environment.object_mapping[cur.object_index]? with
      | none => simp
      | some mp =>
        cases mp with
        | duplicate dupe_of => simp
        | object object_length is_arguments =>
          simp only []
          apply forLoop_fst
          intro i s
          dsimp only
          split
          · rename_i hv
            simp [hv]
          · rename_i v hv
            simp only [hv, Option.map_map]
            rw [← ih]
            rfl

theorem writeValuesTraced_fst (cg : LCodeGen) (environment : LEnvironment) :
    (cg.writeValuesTraced environment).map Prod.fst = cg.writeValues environment := by
  unfold LCodeGen.writeValuesTraced LCodeGen.writeValues
  apply forLoop_fst
  intro i s
  dsimp only
  split
  · rename_i hv
    simp [hv]
  · rename_i v hv
    simp only [hv, Option.map_map]
    rw [← AddToTranslationTraced_fst]
    rfl

theorem begins_append (a b : List Access) : begins (a ++ b) = begins a ++ begins b := by
  simp [begins, List.filterMap_append]

theorem readsOf_append (id : Nat) (a b : List Access) :
    readsOf id (a ++ b) = readsOf id a ++ readsOf id b := by
  simp [readsOf, List.filterMap_append]

theorem lengthSum_append (a b : List Begun) : lengthSum (a ++ b) = lengthSum a + lengthSum b := by
  simp [lengthSum]

theorem Chained_append (a b : List Begun) :
    ∀ base, Chained base (a ++ b) ↔ Chained base a ∧ Chained (base + lengthSum a) b := by
  induction a with
  | nil => intro base; simp [Chained, lengthSum]
  | cons x rest ih =>
    intro base
    show (x.env_offset = base ∧ Chained (base + x.object_length) (rest ++ b)) ↔
      (x.env_offset = base ∧ Chained (base + x.object_length) rest) ∧
        Chained (base + lengthSum (x :: rest)) b
    rw [ih]
    simp only [lengthSum, List.map_cons, List.sum_cons, and_assoc, Nat.add_assoc]

theorem Chained_getElem (objects : List Begun) :
    ∀ (base k : Nat) (b : Begun), Chained base objects → objects[k]? = some b →
      b.env_offset = base + lengthSum (objects.take k) := by
  induction objects with
  | nil => intro base k b _ h; simp at h
  | cons x rest ih =>
    intro base k b hc h
    cases k with
    | zero =>
      simp only [List.getElem?_cons_zero, Option.some.injEq] at h
      subst h
      simp [lengthSum, hc.1]
    | succ k =>
      simp only [List.getElem?_cons_succ] at h
      rw [ih _ _ _ hc.2 h]
      simp [lengthSum, Nat.add_assoc]

theorem readsOf_eq_nil (id : Nat) (log : List Access) (h : ∀ p, Access.read id p ∉ log) :
    readsOf id log = [] := by
  induction log with
  | nil => rfl
  | cons a rest ih =>
    have hrest : ∀ p, Access.read id p ∉ rest := fun p hp => h p (List.mem_cons_of_mem _ hp)
    cases a with
    | begin i o n => simpa [readsOf, Access.readBy] using ih hrest
    | read owner p =>
      have hne : owner ≠ id := by
        intro e
        exact h p (by rw [e]; exact List.mem_cons_self _ _)
      simpa [readsOf, Access.readBy, hne] using ih hrest

theorem Tracks_empty (env : LEnvironment) (owner : Option Nat) (cur cur1 : Cursors)
    (ho : ∀ id, owner = some id → id < cur.object_index)
    (h1 : cur.object_index ≤ cur1.object_index)
    (h2 : cur1.dematerialized_index = cur.dematerialized_index) :
    Tracks env owner cur [] cur1 := by
  refine ⟨ho, h1, by simp [begins, lengthSum, h2], by simp [begins, Chained], ?_, ?_, ?_, ?_,
    ?_⟩ <;> simp [begins]

theorem Tracks_append (env : LEnvironment) (owner : Option Nat) (c0 c1 c2 : Cursors) (a b : List Access)
    (ha : Tracks env owner c0 a c1) (hb : Tracks env owner c1 b c2) :
    Tracks env owner c0 (a ++ b) c2 := by
  obtain ⟨a1, a2, a3, a4, a5, a6, a7, a8, a9⟩ := ha
  obtain ⟨b1, b2, b3, b4, b5, b6, b7, b8, b9⟩ := hb
  refine ⟨a1, le_trans a2 b2, ?_, ?_, ?_, ?_, ?_, ?_, ?_⟩
  · rw [begins_append, lengthSum_append, b3, a3]; omega
  · rw [begins_append, Chained_append]
    refine ⟨a4, ?_⟩
    rw [a3, ← Nat.add_assoc] at b4
    exact b4
  · intro x hx
    rw [begins_append, List.mem_append] at hx
    rcases hx with hx | hx
    · have hh := a5 x hx
      omega
    · have hh := b5 x hx
      omega
  · intro id p hp
    rw [List.mem_append] at hp
    rcases hp with hp | hp
    · rcases a6 id p hp with hh | hh
      · exact Or.inl hh
      · exact Or.inr (by omega)
    · rcases b6 id p hp with hh | hh
      · exact Or.inl hh
      · exact Or.inr (by omega)
  · intro x hx
    rw [begins_append, List.mem_append] at hx
    rw [readsOf_append]
    rcases hx with hx | hx
    · have hh := a5 x hx
      rw [a7 x hx, readsOf_eq_nil x.object_index b, List.append_nil]
      intro p hp
      rcases b6 _ p hp with ho | ho
      · have hlt := a1 _ ho
        omega
      · omega
    · have hh := b5 x hx
      rw [b7 x hx, readsOf_eq_nil x.object_index a, List.nil_append]
      intro p hp
      rcases a6 _ p hp with ho | ho
      · have hlt := b1 _ ho
        omega
      · omega
  · rw [begins_append, List.map_append, List.pairwise_append]
    refine ⟨a8, b8, ?_⟩
    intro x hx y hy
    rw [List.mem_map] at hx hy
    obtain ⟨bx, hbx, rfl⟩ := hx
    obtain ⟨by1, hby, rfl⟩ := hy
    have h1 := a5 bx hbx
    have h2 := b5 by1 hby
    omega
  · intro x hx
    rw [begins_append, List.mem_append] at hx
    rcases hx with hx | hx
    · exact a9 x hx
    · exact b9 x hx

theorem Tracks_owner (env : LEnvironment) (id : Nat) (c0 c1 : Cursors) (a : List Access) (hid : id < c0.object_index)
    (ha : Tracks env none c0 a c1) : Tracks env (some id) c0 a c1 := by
  obtain ⟨_, a2, a3, a4, a5, a6, a7, a8, a9⟩ := ha
  refine ⟨?_, a2, a3, a4, a5, ?_, a7, a8, a9⟩
  · intro i hi
    cases hi
    exact hid
  · intro i p hp
    rcases a6 i p hp with hh | hh
    · cases hh
    · exact Or.inr hh

theorem Tracks_read (env : LEnvironment) (id p : Nat) (c0 : Cursors) (hid : id < c0.object_index) :
    Tracks env (some id) c0 [Access.read id p] c0 := by
  refine ⟨?_, le_refl _, by simp [begins, Access.begun, lengthSum],
    by simp [begins, Access.begun, Chained], ?_, ?_, ?_, ?_, ?_⟩
  · intro i hi
    cases hi
    exact hid
  · simp [begins, Access.begun]
  · intro i q hq
    simp only [List.mem_singleton, Access.read.injEq] at hq
    exact Or.inl (by rw [hq.1])
  · simp [begins, Access.begun]
  · simp [begins, Access.begun]
  · simp [begins, Access.begun]

theorem Tracks_reads_nil (env : LEnvironment) (id : Nat) (c0 c1 : Cursors) (a : List Access)
    (hid : id < c0.object_index) (ha : Tracks env none c0 a c1) : readsOf id a = [] := by
  apply readsOf_eq_nil
  intro p hp
  rcases ha.2.2.2.2.2.1 id p hp with hh | hh
  · cases hh
  · omega

theorem Tracks_object (env : LEnvironment) (cur curB : Cursors) (n : Nat) (log : List Access)
    (is_arguments : Bool)
    (hm : env.object_mapping[cur.object_index]? = some (.object n is_arguments))
    (hL : Tracks env (some cur.object_index)
      { object_index := cur.object_index + 1,
        dematerialized_index := cur.dematerialized_index + n } log curB)
    (hr : readsOf cur.object_index log =
      List.range' (env.translation_size + cur.dematerialized_index) n) :
    Tracks env none cur
      (Access.begin cur.object_index (env.translation_size + cur.dematerialized_index) n :: log)
      curB := by
  obtain ⟨_, a2, a3, a4, a5, a6, a7, a8, a9⟩ := hL
  simp only at a2 a3 a4 a5 a6
  have hb : begins
      (Access.begin cur.object_index (env.translation_size + cur.dematerialized_index) n :: log) =
      ⟨cur.object_index, env.translation_size + cur.dematerialized_index, n⟩ :: begins log := by
    simp [begins, Access.begun]
  have hreads : ∀ id, readsOf id
      (Access.begin cur.object_index (env.translation_size + cur.dematerialized_index) n :: log) =
        readsOf id log := by
    intro id
    simp [readsOf, Access.readBy]
  refine ⟨by simp, by omega, ?_, ?_, ?_, ?_, ?_, ?_, ?_⟩
  · rw [hb, a3]
    simp [lengthSum]
    omega
  · rw [hb]
    refine ⟨rfl, ?_⟩
    rw [Nat.add_assoc]
    exact a4
  · intro x hx
    rw [hb, List.mem_cons] at hx
    rcases hx with hx | hx
    · subst hx
      simp only
      omega
    · have hh := a5 x hx
      omega
  · intro id p hp
    rw [List.mem_cons] at hp
    rcases hp with hp | hp
    · cases hp
    · rcases a6 id p hp with hh | hh
      · cases hh
        exact Or.inr (by omega)
      · exact Or.inr (by omega)
  · intro x hx
    rw [hb, List.mem_cons] at hx
    rw [hreads]
    rcases hx with hx | hx
    · subst hx
      exact hr
    · exact a7 x hx
  · rw [hb, List.map_cons, List.pairwise_cons]
    refine ⟨?_, a8⟩
    intro y hy
    rw [List.mem_map] at hy
    obtain ⟨by1, hby, rfl⟩ := hy
    have hh := a5 by1 hby
    show cur.object_index < by1.object_index
    omega
  · intro x hx
    rw [hb, List.mem_cons] at hx
    rcases hx with hx | hx
    · subst hx
      exact ⟨is_arguments, hm⟩
    · exact a9 x hx

/-- The loop of an object: it reads the positions from `offset + i` on, one for
each round, and its calls keep the cursors on track. -/
theorem objectLoop_tracks (environment : LEnvironment) (id offset : Nat)
    (step : LCodeGen → Option LOperand → Bool → Bool → Cursors →
      Option ((LCodeGen × Cursors) × List Access))
    (hstep : ∀ cg op is_tagged is_uint32 cur r, step cg op is_tagged is_uint32 cur = some r →
      Tracks environment none cur r.2 r.1.2)
    (count : Nat) :
    ∀ (i : Nat) (s r : (LCodeGen × Cursors) × List Access),
      forLoop (fun i (s : (LCodeGen × Cursors) × List Access) =>
          match environment.values[offset + i]? with
          | none => none
          | some v =>
            (step s.1.1 v.value v.is_tagged v.is_uint32 s.1.2).map
              (fun r => (r.1, s.2 ++ Access.read id (offset + i) :: r.2))) count i s = some r →
      id < s.1.2.object_index →
      ∃ log, r.2 = s.2 ++ log ∧
        Tracks environment (some id) s.1.2 log r.1.2 ∧
        readsOf id log = List.range' (offset + i) count := by
  induction count with
  | zero =>
    intro i s r h hid
    simp only [forLoop, Option.some.injEq] at h
    subst h
    exact ⟨[], by simp, Tracks_empty _ _ _ _ (fun j hj => by cases hj; exact hid) (le_refl _) rfl,
      rfl⟩
  | succ n ih =>
    intro i s r h hid
    simp only [forLoop] at h
    cases hv : environment.values[offset + i]? with
    | none => simp [hv] at h
    | some v =>
      simp only [hv] at h
      cases hs : step s.1.1 v.value v.is_tagged v.is_uint32 s.1.2 with
      | none => simp [hs] at h
      | some r1 =>
        simp only [hs, Option.map_some', Option.some_bind] at h
        have t1 := hstep _ _ _ _ _ _ hs
        have hle := t1.2.1
        obtain ⟨log, hlog, t2, hreads⟩ := ih _ _ _ h (by simp only; omega)
        simp only at hlog t2
        refine ⟨Access.read id (offset + i) :: r1.2 ++ log, ?_, ?_, ?_⟩
        · rw [hlog]
          simp
        · have t3 := Tracks_append _ _ _ _ _ _ _ (Tracks_read environment id
            (offset + i) s.1.2 hid) (Tracks_owner _ _ _ _ _ hid t1)
          have t4 := Tracks_append _ _ _ _ _ _ _ t3 t2
          simpa using t4
        · have hnil := Tracks_reads_nil _ _ _ _ _ hid t1
          have hcons : readsOf id (Access.read id (offset + i) :: r1.2 ++ log) =
              (offset + i) :: (readsOf id r1.2 ++ readsOf id log) := by
            rw [← readsOf_append]
            simp [readsOf, Access.readBy]
          rw [hcons, hnil, hreads, List.nil_append, List.range'_succ, Nat.add_assoc]

/-- The value loop of a frame keeps the cursors on track. -/
theorem valueLoop_tracks (environment : LEnvironment)
    (step : LCodeGen → Option LOperand → Bool → Bool → Cursors →
      Option ((LCodeGen × Cursors) × List Access))
    (hstep : ∀ cg op is_tagged is_uint32 cur r, step cg op is_tagged is_uint32 cur = some r →
      Tracks environment none cur r.2 r.1.2)
    (count : Nat) :
    ∀ (i : Nat) (s r : (LCodeGen × Cursors) × List Access),
      forLoop (fun i (s : (LCodeGen × Cursors) × List Access) =>
          match environment.values[i]? with
          | none => none
          | some v =>
            (step s.1.1 v.value v.is_tagged v.is_uint32 s.1.2).map
              (fun r => (r.1, s.2 ++ r.2))) count i s = some r →
      ∃ log, r.2 = s.2 ++ log ∧ Tracks environment none s.1.2 log r.1.2 := by
  induction count with
  | zero =>
    intro i s r h
    simp only [forLoop, Option.some.injEq] at h
    subst h
    exact ⟨[], by simp, Tracks_empty _ _ _ _ (fun j hj => by cases hj) (le_refl _) rfl⟩
  | succ n ih =>
    intro i s r h
    simp only [forLoop] at h
    cases hv : environment.values[i]? with
    | none => simp [hv] at h
    | some v =>
      simp only [hv] at h
      cases hs : step s.1.1 v.value v.is_tagged v.is_uint32 s.1.2 with
      | none => simp [hs] at h
      | some r1 =>
        simp only [hs, Option.map_some', Option.some_bind] at h
        have t1 := hstep _ _ _ _ _ _ hs
        obtain ⟨log, hlog, t2⟩ := ih _ _ _ h
        simp only at hlog t2
        exact ⟨r1.2 ++ log, by rw [hlog]; simp, Tracks_append _ _ _ _ _ _ _ t1 t2⟩

/-- Every call of the traced `AddToTranslation` keeps the cursors on track. -/
theorem AddToTranslationTraced_tracks (environment : LEnvironment) (fuel : Nat) :
    ∀ (cg : LCodeGen) (op : Option LOperand) (is_tagged is_uint32 : Bool) (cur : Cursors)
      (r : (LCodeGen × Cursors) × List Access),
      LCodeGen.AddToTranslationTraced fuel cg environment op is_tagged is_uint32 cur = some r →
      Tracks environment none cur r.2 r.1.2 := by
  have hoperand : ∀ (fuel : Nat) (cg : LCodeGen) (op : LOperand) (is_tagged is_uint32 : Bool)
      (cur : Cursors) (r : (LCodeGen × Cursors) × List Access),
      LCodeGen.AddToTranslationTraced fuel cg environment (some op) is_tagged is_uint32 cur =
        some r → Tracks environment none cur r.2 r.1.2 := by
    intro fuel cg op is_tagged is_uint32 cur r h
    have h0 : (LCodeGen.AddToTranslation 0 cg environment (some op) is_tagged is_uint32 cur).map
        (fun r => (r, ([] : List Access))) = some r := by
      cases fuel <;> simpa only [LCodeGen.AddToTranslationTraced] using h
    cases hr : LCodeGen.AddToTranslation 0 cg environment (some op) is_tagged is_uint32 cur with
    | none => simp [hr] at h0
    | some r0 =>
      simp only [hr, Option.map_some', Option.some.injEq] at h0
      subst h0
      have hcur := (AddToTranslation_operand _ _ _ _ _ _ _ _ hr).1
      exact Tracks_empty _ _ _ _ (fun j hj => by cases hj) (by simp [hcur]) (by simp [hcur])
  induction fuel with
  | zero =>
    intro cg op is_tagged is_uint32 cur r h
    cases op with
    | none => simp [LCodeGen.AddToTranslationTraced] at h
    | some op => exact hoperand _ _ _ _ _ _ _ h
  | succ fuel ih =>
    intro cg op is_tagged is_uint32 cur r h
    cases op with
    | some op => exact hoperand _ _ _ _ _ _ _ h
    | none =>
      simp only [LCodeGen.AddToTranslationTraced] at h
      cases hm : environment.object_mapping[cur.object_index]? with
      | none => simp [hm] at h
      | some mp =>
        cases mp with
        | duplicate dupe_of =>
          simp only [hm, Option.some.injEq] at h
          subst h
          exact Tracks_empty _ _ _ _ (fun j hj => by cases hj) (by simp) rfl
        | object object_length is_arguments =>
          simp only [hm] at h
          obtain ⟨log, hlog, t, hreads⟩ :=
            objectLoop_tracks environment cur.object_index
              (environment.translation_size + cur.dematerialized_index)
              (LCodeGen.AddToTranslationTraced fuel · environment) ih object_length 0 _ r h
              (by simp)
          simp only [Nat.add_zero] at hreads
          rw [hlog]
          exact Tracks_object _ _ _ _ _ is_arguments hm t hreads

/-- C26.  For the value loop of one frame written by `WriteTranslation`, run
with the log of its accesses (dropping the log gives the loop itself): the
`k`-th object begun, nested objects included, is not a duplicate, has the
length the environment records for it, starts at `translation_size` plus the
sum of the lengths of the objects begun before it, and the loop of its call
reads the environment's values at the positions from there on, one for each of
its nested descriptors; the objects are begun in the order of their indices;
the cursor ends at the sum of all lengths; and a call for a duplicate object
emits the back-reference alone, makes no access and leaves the cursor of
dematerialized values as it was. -/
theorem dematerialized_cursor (cg : LCodeGen) (environment : LEnvironment)
    (r : LCodeGen × Cursors) (log : List Access)
    (h : cg.writeValuesTraced environment = some (r, log)) :
    cg.writeValues environment = some r ∧
    (∀ k b, (begins log)[k]? = some b →
      b.env_offset = environment.translation_size + lengthSum ((begins log).take k) ∧
      readsOf b.object_index log = List.range' b.env_offset b.object_length ∧
      ∃ is_arguments, environment.object_mapping[b.object_index]? =
        some (.object b.object_length is_arguments)) ∧
    ((begins log).map Begun.object_index).Pairwise (· < ·) ∧
    r.2.dematerialized_index = lengthSum (begins log) ∧
    (∀ (fuel : Nat) (cg1 : LCodeGen) (is_tagged is_uint32 : Bool) (cur : Cursors) (dupe_of : Nat),
      environment.object_mapping[cur.object_index]? = some (.duplicate dupe_of) →
      LCodeGen.AddToTranslationTraced (fuel + 1) cg1 environment none is_tagged is_uint32 cur =
        some ((cg1.translate (.DuplicateObject dupe_of),
          { cur with object_index := cur.object_index + 1 }), [])) := by
  have hfst := writeValuesTraced_fst cg environment
  rw [h] at hfst
  obtain ⟨log1, hlog, t⟩ := valueLoop_tracks environment
    (LCodeGen.AddToTranslationTraced environment.object_mapping.length · environment)
    (AddToTranslationTraced_tracks environment _) environment.translation_size 0 _ _ h
  simp only [List.nil_append] at hlog t
  subst hlog
  obtain ⟨_, _, t3, t4, _, _, t7, t8, t9⟩ := t
  simp only [Nat.add_zero, Nat.zero_add] at t3 t4
  refine ⟨hfst.symm, ?_, t8, t3, ?_⟩
  · intro k b hb
    have hmem : b ∈ begins log := List.mem_iff_getElem?.mpr ⟨k, hb⟩
    exact ⟨Chained_getElem _ _ _ _ t4 hb, t7 b hmem, t9 b hmem⟩
  · intro fuel cg1 is_tagged is_uint32 cur dupe_of hm
    simp only [LCodeGen.AddToTranslationTraced, hm]

theorem dematerialized_cursor_witness :
    ∃ r log, sampleCodeGen.writeValuesTraced sampleEnvironment = some (r, log) ∧
      log = [.begin 0 4 2, .read 0 4, .read 0 5] ∧
      sampleCodeGen.writeValues sampleEnvironment = some r ∧
      r.2.dematerialized_index = lengthSum (begins log) :=
  (⟨_, rfl⟩ : ∃ p, sampleCodeGen.writeValuesTraced sampleEnvironment = some p).elim
    fun p hp =>
      match dematerialized_cursor sampleCodeGen sampleEnvironment p.1 p.2 hp with
      | ⟨h1, _, _, h4, _⟩ =>
        ⟨p.1, p.2, hp,
          Option.some.inj ((congrArg (Option.map Prod.snd) hp).symm.trans (by decide)), h1, h4⟩

/-! ## Bounds checks -/

/-- C27 as stated fails: in a debug build a bounds check marked `skip_check`
gets a branch around a `stop` and no guard, so its code never deoptimizes. -/
theorem DoBoundsCheck_debug_stop :
    (sampleDebug.DoBoundsCheck sampleExternals (sampleBoundsCheck true) [sampleOuter]).map
      (fun r => sampleDebug.codeSince r.1) =
      some [.ins .CmpLogical32 [.reg (.allocated 2), .reg (.allocated 1)],
        .branch .gt .done, .stop .al, .bind .done] := by
  decide

/-- C27, amended.  Unless the build has `FLAG_debug_code` and the check is
marked `skip_check`, with the stress and trap flags off the code of
`DoBoundsCheck` is one logical comparison followed by one guard, and whether
the length is a constant, the index is a constant, or both are registers, the
run is handed to the deoptimizer exactly when, as unsigned 32-bit values, the
index is not below the length, or is above the length when equality is
allowed; otherwise the run ends.  So a negative index deoptimizes for every
length that is not negative. -/
theorem bounds_check_all_shapes (x : Externals) (cg : LCodeGen) (outer : List LEnvironment)
    (m : Machine) (hp : cg.PlainGuards x) (instr : LBoundsCheck) (r : LCodeGen × LEnvironment)
    (index length : Int)
    (hdebug : (cg.info.FLAG_debug_code && instr.skip_check) = false)
    (h : cg.DoBoundsCheck x instr outer = some r)
    (hi : OperandHolds x cg.info m instr.index_representation instr.index index)
    (hl : OperandHolds x cg.info m instr.length_representation instr.length length)
    (hfi : FitsRepresentation cg.info instr.index_representation index)
    (hfl : FitsRepresentation cg.info instr.length_representation length) :
    (∃ compare guard, cg.codeSince r.1 = [compare, guard] ∧ guard.isGuard = true) ∧
    ((if instr.allow_equality then length % 4294967296 < index % 4294967296
      else length % 4294967296 ≤ index % 4294967296) →
      ∃ m1, exec cg.info.V8_TARGET_ARCH_S390X none 0 (cg.codeSince r.1) m = .deoptimized 1 m1) ∧
    (¬ (if instr.allow_equality then length % 4294967296 < index % 4294967296
      else length % 4294967296 ≤ index % 4294967296) →
      ∃ m1, exec cg.info.V8_TARGET_ARCH_S390X none 0 (cg.codeSince r.1) m = .finished m1) ∧
    (index < 0 → 0 ≤ length →
      ∃ m1, exec cg.info.V8_TARGET_ARCH_S390X none 0 (cg.codeSince r.1) m = .deoptimized 1 m1) := by
  unfold LCodeGen.DoBoundsCheck DoBoundsCheck_steps at h
  unfold OperandHolds at hi hl
  unfold FitsRepresentation at hfi hfl
  generalize hw : cg.info.V8_TARGET_ARCH_S390X = w at *
  by_cases h1 : (instr.length_representation == instr.index_representation) = true
  swap
  · simp [h1, LCodeGen.lower] at h
  have heq : instr.index_representation = instr.length_representation := (eq_of_beq h1).symm
  rw [heq] at hi hfi
  by_cases h2 : instr.length_representation.IsSmiOrInteger32 = true
  swap
  · simp [h1, h2, LCodeGen.lower] at h
  simp only [h1, h2, Bool.not_true, Bool.false_eq_true, if_false, hdebug] at h
  have hcases : ∃ (compare : Instr) (cond : Condition),
      cg.lower x (some [.emit compare, .DeoptimizeIf cond]) instr.environment outer = some r ∧
      cond ≠ .al ∧
      ∀ pc rest (mm : Machine), mm.reg = m.reg → ∃ cc,
        exec w none pc (compare :: rest) mm =
          exec w none (pc + 1) rest ((mm.setCode cc).record compare) ∧
        (cond.holds cc = true ↔
          (if instr.allow_equality then length % 4294967296 < index % 4294967296
           else length % 4294967296 ≤ index % 4294967296)) := by
    by_cases hs : instr.length_representation.IsSmi = true
    · simp only [hs, if_true, if_false, Bool.false_eq_true] at h hi hl
      by_cases hlc : instr.length.IsConstantOperand = true
      · simp only [hlc, if_true] at h hl
        cases hri : ToRegister instr.index with
        | none => simp [hri, LCodeGen.lower] at h
        | some ireg =>
          have hria := ToRegister_allocated _ _ hri
          have hinc : instr.index.IsConstantOperand = false := by
            unfold ToRegister at hri
            split_ifs at hri with hreg
            simp only [LOperand.IsRegister, LOperand.IsConstantOperand, beq_iff_eq] at hreg ⊢
            simp [hreg]
          simp only [hri, hinc, Bool.false_eq_true, if_false, List.singleton_append,
            List.cons_append, List.nil_append, Action.ins] at h hi
          subst hria
          subst hl
          have hsi := hi
          have hsl := hi
          cases hae : instr.allow_equality <;> cases w
          · simp only [hae, hs, if_true, if_false, Bool.false_eq_true, ReverseCondition,
              Bool.true_and, Bool.false_and, Bool.not_true, Bool.not_false] at h hfi hfl ⊢
            refine ⟨_, _, h, by decide, fun pc rest mm hmm => ?_⟩
            refine ⟨_, exec_CmpLogicalP_imm _ _ _ _ _ _, ?_⟩
            rw [hmm]
            simp only [holds_lt_compare, holds_le_compare, holds_gt_compare, holds_ge_compare,
              decide_eq_true_eq, unsignedP, SmiFromInt, CompilationInfo.kSmiShift, hw, if_true,
              if_false, Bool.false_eq_true, hsi, hsl]
            try unfold int32 at hsi hsl
            norm_num
            omega
          · simp only [hae, hs, if_true, if_false, Bool.false_eq_true, ReverseCondition,
              Bool.true_and, Bool.false_and, Bool.not_true, Bool.not_false] at h hfi hfl ⊢
            refine ⟨_, _, h, by decide, fun pc rest mm hmm => ?_⟩
            refine ⟨_, exec_CmpLogicalP_imm _ _ _ _ _ _, ?_⟩
            rw [hmm]
            simp only [holds_lt_compare, holds_le_compare, holds_gt_compare, holds_ge_compare,
              decide_eq_true_eq, unsignedP, SmiFromInt, CompilationInfo.kSmiShift, hw, if_true,
              if_false, Bool.false_eq_true, hsi, hsl]
            try unfold int32 at hsi hsl
            norm_num
            omega
          · simp only [hae, hs, if_true, if_false, Bool.false_eq_true, ReverseCondition,
              Bool.true_and, Bool.false_and, Bool.not_true, Bool.not_false] at h hfi hfl ⊢
            refine ⟨_, _, h, by decide, fun pc rest mm hmm => ?_⟩
            refine ⟨_, exec_CmpLogicalP_imm _ _ _ _ _ _, ?_⟩
            rw [hmm]
            simp only [holds_lt_compare, holds_le_compare, holds_gt_compare, holds_ge_compare,
              decide_eq_true_eq, unsignedP, SmiFromInt, CompilationInfo.kSmiShift, hw, if_true,
              if_false, Bool.false_eq_true, hsi, hsl]
            try unfold int32 at hsi hsl
            norm_num
            omega
          · simp only [hae, hs, if_true, if_false, Bool.false_eq_true, ReverseCondition,
              Bool.true_and, Bool.false_and, Bool.not_true, Bool.not_false] at h hfi hfl ⊢
            refine ⟨_, _, h, by decide, fun pc rest mm hmm => ?_⟩
            refine ⟨_, exec_CmpLogicalP_imm _ _ _ _ _ _, ?_⟩
            rw [hmm]
            simp only [holds_lt_compare, holds_le_compare, holds_gt_compare, holds_ge_compare,
              decide_eq_true_eq, unsignedP, SmiFromInt, CompilationInfo.kSmiShift, hw, if_true,
              if_false, Bool.false_eq_true, hsi, hsl]
            try unfold int32 at hsi hsl
            norm_num
            omega
      · simp only [hlc, if_false, Bool.false_eq_true] at h hl
        by_cases hic : instr.index.IsConstantOperand = true
        · simp only [hic, if_true] at h hi
          cases hrl : ToRegister instr.length with
          | none => simp [hrl, LCodeGen.lower] at h
          | some lreg =>
            have hrla := ToRegister_allocated _ _ hrl
            simp only [hrl, List.singleton_append, List.cons_append, List.nil_append,
              Action.ins] at h
            subst hrla
            subst hi
            have hsi := hl
            have hsl := hl
            cases hae : instr.allow_equality <;> cases w
            · simp only [hae, hs, if_true, if_false, Bool.false_eq_true, ReverseCondition,
                Bool.true_and, Bool.false_and, Bool.not_true, Bool.not_false] at h hfi hfl ⊢
              refine ⟨_, _, h, by decide, fun pc rest mm hmm => ?_⟩
              refine ⟨_, exec_CmpLogicalP_imm _ _ _ _ _ _, ?_⟩
              rw [hmm]
              simp only [holds_lt_compare, holds_le_compare, holds_gt_compare, holds_ge_compare,
                decide_eq_true_eq, unsignedP, SmiFromInt, CompilationInfo.kSmiShift, hw, if_true,
                if_false, Bool.false_eq_true, hsi, hsl]
              try unfold int32 at hsi hsl
              norm_num
              omega
            · simp only [hae, hs, if_true, if_false, Bool.false_eq_true, ReverseCondition,
                Bool.true_and, Bool.false_and, Bool.not_true, Bool.not_false] at h hfi hfl ⊢
              refine ⟨_, _, h, by decide, fun pc rest mm hmm => ?_⟩
              refine ⟨_, exec_CmpLogicalP_imm _ _ _ _ _ _, ?_⟩
              rw [hmm]
              simp only [holds_lt_compare, holds_le_compare, holds_gt_compare, holds_ge_compare,
                decide_eq_true_eq, unsignedP, SmiFromInt, CompilationInfo.kSmiShift, hw, if_true,
                if_false, Bool.false_eq_true, hsi, hsl]
              try unfold int32 at hsi hsl
              norm_num
              omega
            · simp only [hae, hs, if_true, if_false, Bool.false_eq_true, ReverseCondition,
                Bool.true_and, Bool.false_and, Bool.not_true, Bool.not_false] at h hfi hfl ⊢
              refine ⟨_, _, h, by decide, fun pc rest mm hmm => ?_⟩
              refine ⟨_, exec_CmpLogicalP_imm _ _ _ _ _ _, ?_⟩
              rw [hmm]
              simp only [holds_lt_compare, holds_le_compare, holds_gt_compare, holds_ge_compare,
                decide_eq_true_eq, unsignedP, SmiFromInt, CompilationInfo.kSmiShift, hw, if_true,
                if_false, Bool.false_eq_true, hsi, hsl]
              try unfold int32 at hsi hsl
              norm_num
              omega
            · simp only [hae, hs, if_true, if_false, Bool.false_eq_true, ReverseCondition,
                Bool.true_and, Bool.false_and, Bool.not_true, Bool.not_false] at h hfi hfl ⊢
              refine ⟨_, _, h, by decide, fun pc rest mm hmm => ?_⟩
              refine ⟨_, exec_CmpLogicalP_imm _ _ _ _ _ _, ?_⟩
              rw [hmm]
              simp only [holds_lt_compare, holds_le_compare, holds_gt_compare, holds_ge_compare,
                decide_eq_true_eq, unsignedP, SmiFromInt, CompilationInfo.kSmiShift, hw, if_true,
                if_false, Bool.false_eq_true, hsi, hsl]
              try unfold int32 at hsi hsl
              norm_num
              omega
        · simp only [hic, if_false, Bool.false_eq_true] at h hi
          cases hri : ToRegister instr.index with
          | none => simp [hri, LCodeGen.lower] at h
          | some ireg =>
            cases hrl : ToRegister instr.length with
            | none => simp [hri, hrl, LCodeGen.lower] at h
            | some lreg =>
              have hria := ToRegister_allocated _ _ hri
              have hrla := ToRegister_allocated _ _ hrl
              simp only [hri, hrl, List.singleton_append, List.cons_append, List.nil_append,
                Action.ins] at h
              subst hria
              subst hrla
              have hsi := hi
              have hsl := hl
              cases hae : instr.allow_equality <;> cases w
              · simp only [hae, hs, if_true, if_false, Bool.false_eq_true, ReverseCondition,
                  Bool.true_and, Bool.false_and, Bool.not_true, Bool.not_false] at h hfi hfl ⊢
                refine ⟨_, _, h, by decide, fun pc rest mm hmm => ?_⟩
                refine ⟨_, exec_CmpLogicalP_reg _ _ _ _ _ _, ?_⟩
                rw [hmm]
                simp only [holds_lt_compare, holds_le_compare, holds_gt_compare, holds_ge_compare,
                  decide_eq_true_eq, unsignedP, SmiFromInt, CompilationInfo.kSmiShift, hw, if_true,
                  if_false, Bool.false_eq_true, hsi, hsl]
                try unfold int32 at hsi hsl
                norm_num
                omega
              · simp only [hae, hs, if_true, if_false, Bool.false_eq_true, ReverseCondition,
                  Bool.true_and, Bool.false_and, Bool.not_true, Bool.not_false] at h hfi hfl ⊢
                refine ⟨_, _, h, by decide, fun pc rest mm hmm => ?_⟩
                refine ⟨_, exec_CmpLogicalP_reg _ _ _ _ _ _, ?_⟩
                rw [hmm]
                simp only [holds_lt_compare, holds_le_compare, holds_gt_compare, holds_ge_compare,
                  decide_eq_true_eq, unsignedP, SmiFromInt, CompilationInfo.kSmiShift, hw, if_true,
                  if_false, Bool.false_eq_true, hsi, hsl]
                try unfold int32 at hsi hsl
                norm_num
                omega
              · simp only [hae, hs, if_true, if_false, Bool.false_eq_true, ReverseCondition,
                  Bool.true_and, Bool.false_and, Bool.not_true, Bool.not_false] at h hfi hfl ⊢
                refine ⟨_, _, h, by decide, fun pc rest mm hmm => ?_⟩
                refine ⟨_, exec_CmpLogicalP_reg _ _ _ _ _ _, ?_⟩
                rw [hmm]
                simp only [holds_lt_compare, holds_le_compare, holds_gt_compare, holds_ge_compare,
                  decide_eq_true_eq, unsignedP, SmiFromInt, CompilationInfo.kSmiShift, hw, if_true,
                  if_false, Bool.false_eq_true, hsi, hsl]
                try unfold int32 at hsi hsl
                norm_num
                omega
              · simp only [hae, hs, if_true, if_false, Bool.false_eq_true, ReverseCondition,
                  Bool.true_and, Bool.false_and, Bool.not_true, Bool.not_false] at h hfi hfl ⊢
                refine ⟨_, _, h, by decide, fun pc rest mm hmm => ?_⟩
                refine ⟨_, exec_CmpLogicalP_reg _ _ _ _ _ _, ?_⟩
                rw [hmm]
                simp only [holds_lt_compare, holds_le_compare, holds_gt_compare, holds_ge_compare,
                  decide_eq_true_eq, unsignedP, SmiFromInt, CompilationInfo.kSmiShift, hw, if_true,
                  if_false, Bool.false_eq_true, hsi, hsl]
                try unfold int32 at hsi hsl
                norm_num
                omega
    · simp only [hs, if_true, if_false, Bool.false_eq_true] at h hi hl
      by_cases hlc : instr.length.IsConstantOperand = true
      · simp only [hlc, if_true] at h hl
        cases hri : ToRegister instr.index with
        | none => simp [hri, LCodeGen.lower] at h
        | some ireg =>
          have hria := ToRegister_allocated _ _ hri
          have hinc : instr.index.IsConstantOperand = false := by
            unfold ToRegister at hri
            split_ifs at hri with hreg
            simp only [LOperand.IsRegister, LOperand.IsConstantOperand, beq_iff_eq] at hreg ⊢
            simp [hreg]
          simp only [hri, hinc, Bool.false_eq_true, if_false, List.singleton_append,
            List.cons_append, List.nil_append, Action.ins] at h hi
          subst hria
          subst hl
          have hsi := hi
          have hsl := hi
          cases hae : instr.allow_equality <;> cases w
          · simp only [hae, hs, if_true, if_false, Bool.false_eq_true, ReverseCondition,
              Bool.true_and, Bool.false_and, Bool.not_true, Bool.not_false] at h hfi hfl ⊢
            refine ⟨_, _, h, by decide, fun pc rest mm hmm => ?_⟩
            refine ⟨_, exec_CmpLogical32_imm _ _ _ _ _ _, ?_⟩
            rw [hmm]
            simp only [holds_lt_compare, holds_le_compare, holds_gt_compare, holds_ge_compare,
              decide_eq_true_eq, unsignedP, SmiFromInt, CompilationInfo.kSmiShift, hw, if_true,
              if_false, Bool.false_eq_true, hsi, hsl]
            try unfold int32 at hsi hsl
            norm_num
            omega
          · simp only [hae, hs, if_true, if_false, Bool.false_eq_true, ReverseCondition,
              Bool.true_and, Bool.false_and, Bool.not_true, Bool.not_false] at h hfi hfl ⊢
            refine ⟨_, _, h, by decide, fun pc rest mm hmm => ?_⟩
            refine ⟨_, exec_CmpLogical32_imm _ _ _ _ _ _, ?_⟩
            rw [hmm]
            simp only [holds_lt_compare, holds_le_compare, holds_gt_compare, holds_ge_compare,
              decide_eq_true_eq, unsignedP, SmiFromInt, CompilationInfo.kSmiShift, hw, if_true,
              if_false, Bool.false_eq_true, hsi, hsl]
            try unfold int32 at hsi hsl
            norm_num
            omega
          · simp only [hae, hs, if_true, if_false, Bool.false_eq_true, ReverseCondition,
              Bool.true_and, Bool.false_and, Bool.not_true, Bool.not_false] at h hfi hfl ⊢
            refine ⟨_, _, h, by decide, fun pc rest mm hmm => ?_⟩
            refine ⟨_, exec_CmpLogical32_imm _ _ _ _ _ _, ?_⟩
            rw [hmm]
            simp only [holds_lt_compare, holds_le_compare, holds_gt_compare, holds_ge_compare,
              decide_eq_true_eq, unsignedP, SmiFromInt, CompilationInfo.kSmiShift, hw, if_true,
              if_false, Bool.false_eq_true, hsi, hsl]
            try unfold int32 at hsi hsl
            norm_num
            omega
          · simp only [hae, hs, if_true, if_false, Bool.false_eq_true, ReverseCondition,
              Bool.true_and, Bool.false_and, Bool.not_true, Bool.not_false] at h hfi hfl ⊢
            refine ⟨_, _, h, by decide, fun pc rest mm hmm => ?_⟩
            refine ⟨_, exec_CmpLogical32_imm _ _ _ _ _ _, ?_⟩
            rw [hmm]
            simp only [holds_lt_compare, holds_le_compare, holds_gt_compare, holds_ge_compare,
              decide_eq_true_eq, unsignedP, SmiFromInt, CompilationInfo.kSmiShift, hw, if_true,
              if_false, Bool.false_eq_true, hsi, hsl]
            try unfold int32 at hsi hsl
            norm_num
            omega
      · simp only [hlc, if_false, Bool.false_eq_true] at h hl
        by_cases hic : instr.index.IsConstantOperand = true
        · simp only [hic, if_true] at h hi
          cases hrl : ToRegister instr.length with
          | none => simp [hrl, LCodeGen.lower] at h
          | some lreg =>
            have hrla := ToRegister_allocated _ _ hrl
            simp only [hrl, List.singleton_append, List.cons_append, List.nil_append,
              Action.ins] at h
            subst hrla
            subst hi
            have hsi := hl
            have hsl := hl
            cases hae : instr.allow_equality <;> cases w
            · simp only [hae, hs, if_true, if_false, Bool.false_eq_true, ReverseCondition,
                Bool.true_and, Bool.false_and, Bool.not_true, Bool.not_false] at h hfi hfl ⊢
              refine ⟨_, _, h, by decide, fun pc rest mm hmm => ?_⟩
              refine ⟨_, exec_CmpLogical32_imm _ _ _ _ _ _, ?_⟩
              rw [hmm]
              simp only [holds_lt_compare, holds_le_compare, holds_gt_compare, holds_ge_compare,
                decide_eq_true_eq, unsignedP, SmiFromInt, CompilationInfo.kSmiShift, hw, if_true,
                if_false, Bool.false_eq_true, hsi, hsl]
              try unfold int32 at hsi hsl
              norm_num
              omega
            · simp only [hae, hs, if_true, if_false, Bool.false_eq_true, ReverseCondition,
                Bool.true_and, Bool.false_and, Bool.not_true, Bool.not_false] at h hfi hfl ⊢
              refine ⟨_, _, h, by decide, fun pc rest mm hmm => ?_⟩
              refine ⟨_, exec_CmpLogical32_imm _ _ _ _ _ _, ?_⟩
              rw [hmm]
              simp only [holds_lt_compare, holds_le_compare, holds_gt_compare, holds_ge_compare,
                decide_eq_true_eq, unsignedP, SmiFromInt, CompilationInfo.kSmiShift, hw, if_true,
                if_false, Bool.false_eq_true, hsi, hsl]
              try unfold int32 at hsi hsl
              norm_num
              omega
            · simp only [hae, hs, if_true, if_false, Bool.false_eq_true, ReverseCondition,
                Bool.true_and, Bool.false_and, Bool.not_true, Bool.not_false] at h hfi hfl ⊢
              refine ⟨_, _, h, by decide, fun pc rest mm hmm => ?_⟩
              refine ⟨_, exec_CmpLogical32_imm _ _ _ _ _ _, ?_⟩
              rw [hmm]
              simp only [holds_lt_compare, holds_le_compare, holds_gt_compare, holds_ge_compare,
                decide_eq_true_eq, unsignedP, SmiFromInt, CompilationInfo.kSmiShift, hw, if_true,
                if_false, Bool.false_eq_true, hsi, hsl]
              try unfold int32 at hsi hsl
              norm_num
              omega
            · simp only [hae, hs, if_true, if_false, Bool.false_eq_true, ReverseCondition,
                Bool.true_and, Bool.false_and, Bool.not_true, Bool.not_false] at h hfi hfl ⊢
              refine ⟨_, _, h, by decide, fun pc rest mm hmm => ?_⟩
              refine ⟨_, exec_CmpLogical32_imm _ _ _ _ _ _, ?_⟩
              rw [hmm]
              simp only [holds_lt_compare, holds_le_compare, holds_gt_compare, holds_ge_compare,
                decide_eq_true_eq, unsignedP, SmiFromInt, CompilationInfo.kSmiShift, hw, if_true,
                if_false, Bool.false_eq_true, hsi, hsl]
              try unfold int32 at hsi hsl
              norm_num
              omega
        · simp only [hic, if_false, Bool.false_eq_true] at h hi
          cases hri : ToRegister instr.index with
          | none => simp [hri, LCodeGen.lower] at h
          | some ireg =>
            cases hrl : ToRegister instr.length with
            | none => simp [hri, hrl, LCodeGen.lower] at h
            | some lreg =>
              have hria := ToRegister_allocated _ _ hri
              have hrla := ToRegister_allocated _ _ hrl
              simp only [hri, hrl, List.singleton_append, List.cons_append, List.nil_append,
                Action.ins] at h
              subst hria
              subst hrla
              have hsi := hi
              have hsl := hl
              cases hae : instr.allow_equality <;> cases w
              · simp only [hae, hs, if_true, if_false, Bool.false_eq_true, ReverseCondition,
                  Bool.true_and, Bool.false_and, Bool.not_true, Bool.not_false] at h hfi hfl ⊢
                refine ⟨_, _, h, by decide, fun pc rest mm hmm => ?_⟩
                refine ⟨_, exec_CmpLogical32_reg _ _ _ _ _ _, ?_⟩
                rw [hmm]
                simp only [holds_lt_compare, holds_le_compare, holds_gt_compare, holds_ge_compare,
                  decide_eq_true_eq, unsignedP, SmiFromInt, CompilationInfo.kSmiShift, hw, if_true,
                  if_false, Bool.false_eq_true, hsi, hsl]
                try unfold int32 at hsi hsl
                norm_num
                omega
              · simp only [hae, hs, if_true, if_false, Bool.false_eq_true, ReverseCondition,
                  Bool.true_and, Bool.false_and, Bool.not_true, Bool.not_false] at h hfi hfl ⊢
                refine ⟨_, _, h, by decide, fun pc rest mm hmm => ?_⟩
                refine ⟨_, exec_CmpLogical32_reg _ _ _ _ _ _, ?_⟩
                rw [hmm]
                simp only [holds_lt_compare, holds_le_compare, holds_gt_compare, holds_ge_compare,
                  decide_eq_true_eq, unsignedP, SmiFromInt, CompilationInfo.kSmiShift, hw, if_true,
                  if_false, Bool.false_eq_true, hsi, hsl]
                try unfold int32 at hsi hsl
                norm_num
                omega
              · simp only [hae, hs, if_true, if_false, Bool.false_eq_true, ReverseCondition,
                  Bool.true_and, Bool.false_and, Bool.not_true, Bool.not_false] at h hfi hfl ⊢
                refine ⟨_, _, h, by decide, fun pc rest mm hmm => ?_⟩
                refine ⟨_, exec_CmpLogical32_reg _ _ _ _ _ _, ?_⟩
                rw [hmm]
                simp only [holds_lt_compare, holds_le_compare, holds_gt_compare, holds_ge_compare,
                  decide_eq_true_eq, unsignedP, SmiFromInt, CompilationInfo.kSmiShift, hw, if_true,
                  if_false, Bool.false_eq_true, hsi, hsl]
                try unfold int32 at hsi hsl
                norm_num
                omega
              · simp only [hae, hs, if_true, if_false, Bool.false_eq_true, ReverseCondition,
                  Bool.true_and, Bool.false_and, Bool.not_true, Bool.not_false] at h hfi hfl ⊢
                refine ⟨_, _, h, by decide, fun pc rest mm hmm => ?_⟩
                refine ⟨_, exec_CmpLogical32_reg _ _ _ _ _ _, ?_⟩
                rw [hmm]
                simp only [holds_lt_compare, holds_le_compare, holds_gt_compare, holds_ge_compare,
                  decide_eq_true_eq, unsignedP, SmiFromInt, CompilationInfo.kSmiShift, hw, if_true,
                  if_false, Bool.false_eq_true, hsi, hsl]
                try unfold int32 at hsi hsl
                norm_num
                omega
  obtain ⟨compare, cond, hlow, hal, hrun⟩ := hcases
  obtain ⟨entry, k, hcode⟩ := lower_code x cg _ _ outer r hp hlow
  have hg : ∀ d e j, guardCode d e j cond = .b cond j := by
    intro d e j
    unfold guardCode
    have : (cond == Condition.al) = false := by simpa using hal
    simp [this]
  have hc : cg.codeSince r.1 = [compare, .b cond (k 1)] := by
    rw [hcode]
    simp [realize, hg]
  rw [hc]
  obtain ⟨cc, hexec, hiff⟩ := hrun 0 [.b cond (k 1)] m rfl
  have hyes : (if instr.allow_equality then length % 4294967296 < index % 4294967296
      else length % 4294967296 ≤ index % 4294967296) →
      ∃ m1, exec w none 0 [compare, .b cond (k 1)] m = .deoptimized 1 m1 := by
    intro hP
    rw [hexec, exec_b]
    simp only [Machine.record_cc, Machine.setCode_cc, hiff.2 hP, if_true]
    exact ⟨_, rfl⟩
  refine ⟨⟨_, _, rfl, rfl⟩, hyes, ?_, ?_⟩
  · intro hP
    rw [hexec, exec_b]
    have hno : cond.holds cc = false := by
      cases hh : cond.holds cc
      · rfl
      · exact absurd (hiff.1 hh) hP
    simp only [Machine.record_cc, Machine.setCode_cc, hno, Bool.false_eq_true, if_false, exec_nil]
    exact ⟨_, rfl⟩
  · intro hneg hpos
    apply hyes
    have hri : -2147483648 ≤ index ∧ index < 2147483648 := by
      split_ifs at hfi <;> omega
    have hrl : -2147483648 ≤ length ∧ length < 2147483648 := by
      split_ifs at hfl <;> omega
    split_ifs <;> omega

theorem bounds_check_all_shapes_witness :
    ∃ r m1, sampleCodeGen.DoBoundsCheck sampleExternals (sampleBoundsCheck false) [sampleOuter] =
        some r ∧
      exec true none 0 (sampleCodeGen.codeSince r.1) sampleMachine = .deoptimized 1 m1 :=
  (⟨_, rfl⟩ : ∃ r, sampleCodeGen.DoBoundsCheck sampleExternals (sampleBoundsCheck false)
      [sampleOuter] = some r).elim
    fun r hr =>
      match (bounds_check_all_shapes sampleExternals sampleCodeGen [sampleOuter] sampleMachine
        samplePlainGuards (sampleBoundsCheck false) r (-7) 2 rfl hr
        (by unfold OperandHolds; decide) (by unfold OperandHolds; decide)
        (by unfold FitsRepresentation; decide) (by unfold FitsRepresentation; decide)).2.2.2
        (by decide) (by decide) with
      | ⟨m1, h1⟩ => ⟨r, m1, hr, h1⟩

/-! ## Flooring division by a constant -/

theorem tdiv_small (v c : Int) (h1 : -c < v) (h2 : v < c) :
    v.tdiv c = 0 ∧ v.tdiv (-c) = 0 := by
  have hc : 0 < c := by omega
  have hz : v.tdiv c = 0 := by
    rw [tdiv_of_pos v c hc]
    split_ifs with hv
    · exact Int.ediv_eq_zero_of_lt hv h2
    · rw [Int.ediv_eq_zero_of_lt (by omega) (by omega)]
      rfl
  exact ⟨hz, by rw [Int.tdiv_neg, hz]; rfl⟩

/-- The flooring quotient of a 32-bit dividend fits 32 bits, but for `kMinInt`
divided by -1. -/
theorem fdiv_fits (v d : Int) (hd : d ≠ 0) (h1 : -2147483648 ≤ v) (h2 : v < 2147483648)
    (hne : ¬ (v = -2147483648 ∧ d = -1)) :
    -2147483648 ≤ v.fdiv d ∧ v.fdiv d < 2147483648 := by
  by_cases hpos : 0 < d
  · rw [Int.fdiv_eq_ediv _ (le_of_lt hpos)]
    constructor
    · apply Int.le_ediv_of_mul_le hpos
      nlinarith
    · apply Int.ediv_lt_of_lt_mul hpos
      nlinarith
  · have hneg : 0 < -d := by omega
    rw [← fdiv_neg_neg, Int.fdiv_eq_ediv _ (le_of_lt hneg)]
    constructor
    · apply Int.le_ediv_of_mul_le hneg
      nlinarith
    · apply Int.ediv_lt_of_lt_mul hneg
      by_cases h1d : d = -1
      · have hv : v ≠ -2147483648 := fun e => hne ⟨e, h1d⟩
        rw [h1d]
        omega
      · have h2d : 2 ≤ -d := by omega
        nlinarith

/-- The run of the code of `DoFlooringDivByConstI` for a divisor other than 0
and `kMinInt`: it ends with the low 32 bits of the flooring quotient. -/
theorem DoFlooringDivByConstI_run (x : Externals) (cg : LCodeGen) (outer : List LEnvironment)
    (m : Machine) (hp : cg.PlainGuards x) (instr : LFlooringDivByConstI)
    (r : LCodeGen × LEnvironment) (dividend result : Register)
    (h : cg.DoFlooringDivByConstI x instr outer = some r)
    (hd : ToRegister instr.dividend = some dividend)
    (hres : ToRegister instr.result = some result)
    (h0 : instr.divisor ≠ 0) (hmin : kMinInt < instr.divisor) (hmax : instr.divisor < 2147483648)
    (hmz : ¬ (instr.hydrogen.CheckFlag .kBailoutOnMinusZero = true ∧ instr.divisor < 0 ∧
      int32 (m.reg dividend) = 0))
    (hneg : instr.hydrogen.CheckFlag .kLeftCanBeNegative = false → 0 < instr.divisor →
      0 ≤ int32 (m.reg dividend))
    (hpos : instr.hydrogen.CheckFlag .kLeftCanBePositive = false → instr.divisor < 0 →
      int32 (m.reg dividend) ≤ 0) :
    (∃ m1, exec cg.info.V8_TARGET_ARCH_S390X none 0 (cg.codeSince r.1) m = .finished m1 ∧
      int32 (m1.reg result) = int32 ((int32 (m.reg dividend)).fdiv instr.divisor)) ∧
    (int32 (m.reg dividend)).fdiv instr.divisor =
      (if 0 < instr.divisor then
        (if 0 ≤ int32 (m.reg dividend) then (int32 (m.reg dividend)).tdiv instr.divisor
         else (int32 (m.reg dividend) + 1).tdiv instr.divisor - 1)
       else
        (if int32 (m.reg dividend) ≤ 0 then -((int32 (m.reg dividend)).tdiv (-instr.divisor))
         else -((int32 (m.reg dividend) - 1).tdiv (-instr.divisor)) - 1)) := by
  refine ⟨?_, fdiv_through_tdiv _ _ h0⟩
  have hxr := int32_range (m.reg dividend)
  generalize hw : cg.info.V8_TARGET_ARCH_S390X = w at *
  have hda := ToRegister_allocated _ _ hd
  have hra := ToRegister_allocated _ _ hres
  unfold LCodeGen.DoFlooringDivByConstI DoFlooringDivByConstI_steps at h
  simp only [hd, hres] at h
  by_cases hdr : (dividend == result) = true
  · simp [hdr, LCodeGen.lower] at h
  have hdr2 : dividend ≠ result := by simpa using hdr
  have h0b : (instr.divisor == 0) = false := by simpa using h0
  simp only [hdr, h0b, Bool.false_eq_true, if_false] at h
  have habs : Abs instr.divisor = if 0 < instr.divisor then instr.divisor else -instr.divisor := by
    unfold Abs int32 kMinInt at *
    split_ifs <;> omega
  by_cases hp0 : 0 < instr.divisor
  · have hn0 : ¬ instr.divisor < 0 := by omega
    have hgt : (instr.divisor > 0) = True := by simpa using hp0
    simp only [habs, hp0, hn0, if_true, if_false, decide_True, decide_False, Bool.and_false,
      Bool.false_eq_true, Bool.true_and, Bool.false_and, Bool.or_false, List.nil_append,
      List.append_nil, gt_iff_lt] at h
    cases hfn : instr.hydrogen.CheckFlag .kLeftCanBeNegative
    · simp only [hfn, Bool.not_false, if_true] at h
      obtain ⟨entry, k, hcode⟩ := lower_code x cg _ _ outer r hp h
      rw [hcode]
      have hx0 := hneg hfn hp0
      simp only [realize, Action.ins]
      rw [exec_TruncatingDiv _ _ _ _ _ _ _ h0, exec_nil]
      refine ⟨_, rfl, ?_⟩
      simp only [Machine.record_reg, Machine.set32_reg, Function.update_same, int32_writeLow]
      rw [Int.fdiv_eq_tdiv hx0 (le_of_lt hp0)]
    · simp only [hfn, Bool.not_true, Bool.false_eq_true, if_false] at h
      cases htmp : ToRegister instr.temp with
      | none => simp [htmp, LCodeGen.lower] at h
      | some temp =>
        simp only [htmp] at h
        by_cases hta : (temp != dividend && temp != result) = true
        swap
        · simp [hta, LCodeGen.lower] at h
        have htd : temp ≠ dividend ∧ temp ≠ result := by simpa using hta
        simp only [hta, Bool.not_true, Bool.false_eq_true, if_false] at h
        obtain ⟨entry, k, hcode⟩ := lower_code x cg _ _ outer r hp h
        rw [hcode]
        simp only [List.append_assoc, List.cons_append, List.nil_append, realize, Action.ins,
          Action.branch, Action.bind]
        rw [exec_Cmp32_imm, exec_branch]
        simp only [Machine.record_cc, Machine.setCode_cc, holds_lt_compare, int32_zero,
          decide_eq_true_eq]
        by_cases hx0 : int32 (m.reg dividend) < 0
        · simp only [hx0, if_true]
          rw [exec_seek_ins, exec_seek_branch, exec_seek_bind]
          simp only [if_true]
          rw [exec_AddP_imm, exec_TruncatingDiv _ _ _ _ _ _ _ h0, exec_SubP_imm, exec_bind,
            exec_nil]
          refine ⟨_, rfl, ?_⟩
          simp only [Machine.record_reg, Machine.set32_reg, Machine.set_reg, Machine.setCode_reg,
            Function.update_same, ne_eq, htd.1, htd.2, hdr2, Ne.symm htd.1, Ne.symm htd.2,
            Ne.symm hdr2, not_false_eq_true, Function.update_noteq]
          have ht : int32 (wordP w (m.reg dividend + wordP w 1)) = int32 (m.reg dividend) + 1 := by
            unfold int32 at hx0 ⊢
            unfold wordP int64
            cases w <;> simp only [if_true, if_false, Bool.false_eq_true, int32] <;> omega
          rw [ht, fdiv_through_tdiv _ _ h0]
          have hx1 : ¬ (0 ≤ int32 (m.reg dividend)) := by omega
          simp only [hp0, hx1, if_true, if_false]
          generalize (int32 (m.reg dividend) + 1).tdiv instr.divisor = q
          unfold wordP writeLow int32 int64
          cases w <;> simp only [if_true, if_false, Bool.false_eq_true] <;> omega
        · simp only [hx0, if_false]
          rw [exec_TruncatingDiv _ _ _ _ _ _ _ h0, exec_branch]
          simp only [holds_al, if_true]
          rw [exec_seek_bind]
          simp only [reduceCtorEq, if_false]
          rw [exec_seek_ins, exec_seek_ins, exec_seek_ins, exec_seek_bind]
          simp only [if_true, exec_nil]
          refine ⟨_, rfl, ?_⟩
          simp only [Machine.record_reg, Machine.set32_reg, Machine.set_reg, Machine.setCode_reg,
            Function.update_same, int32_writeLow]
          rw [Int.fdiv_eq_tdiv (by omega) (le_of_lt hp0)]
  · have hn0 : instr.divisor < 0 := by omega
    have hnd0 : -instr.divisor ≠ 0 := by omega
    simp only [habs, hp0, hn0, if_true, if_false, decide_True, decide_False, Bool.and_false,
      Bool.false_eq_true, Bool.and_true, Bool.false_or, gt_iff_lt] at h
    cases hmzf : instr.hydrogen.CheckFlag .kBailoutOnMinusZero
    · simp only [hmzf, Bool.false_and, Bool.false_eq_true, if_false, List.nil_append, List.append_assoc] at h
      cases hfp : instr.hydrogen.CheckFlag .kLeftCanBePositive
      · simp only [hfp, Bool.not_false, if_true, Bool.and_true, Bool.or_true] at h
        obtain ⟨entry, k, hcode⟩ := lower_code x cg _ _ outer r hp h
        rw [hcode]
        have hx0 := hpos hfp hn0
        simp only [List.append_assoc, List.cons_append, List.nil_append, realize, Action.ins,
          guardCode_eq]
        rw [exec_TruncatingDiv _ _ _ _ _ _ _ hnd0, exec_LoadComplementRR, exec_nil]
        refine ⟨_, rfl, ?_⟩
        simp only [Machine.record_reg, Machine.set32_reg, Machine.set_reg, Machine.setCode_reg,
          Function.update_same]
        rw [fdiv_through_tdiv _ _ h0]
        simp only [hp0, hx0, if_true, if_false]
        generalize (int32 (m.reg dividend)).tdiv (-instr.divisor) = q
        unfold wordP writeLow int32 int64
        cases w <;> simp only [if_true, if_false, Bool.false_eq_true] <;> omega
      · simp only [hfp, Bool.not_true, Bool.false_eq_true, if_false, Bool.and_false,
          Bool.or_false] at h
        cases htmp : ToRegister instr.temp with
        | none => simp [htmp, LCodeGen.lower] at h
        | some temp =>
          simp only [htmp] at h
          by_cases hta : (temp != dividend && temp != result) = true
          swap
          · simp [hta, LCodeGen.lower] at h
          have htd : temp ≠ dividend ∧ temp ≠ result := by simpa using hta
          simp only [hta, Bool.not_true, Bool.false_eq_true, if_false] at h
          obtain ⟨entry, k, hcode⟩ := lower_code x cg _ _ outer r hp h
          rw [hcode]
          simp only [List.append_assoc, List.cons_append, List.nil_append, realize, Action.ins,
            Action.branch, Action.bind, guardCode_eq]
          rw [exec_Cmp32_imm, exec_branch]
          simp only [Machine.record_cc, Machine.setCode_cc, holds_gt_compare, int32_zero,
            decide_eq_true_eq, Machine.record_reg, Machine.setCode_reg]
          by_cases hx0 : 0 < int32 (m.reg dividend)
          · simp only [hx0, if_true]
            rw [exec_seek_ins, exec_seek_ins, exec_seek_branch, exec_seek_bind]
            simp only [if_true]
            rw [exec_AddP_imm, exec_TruncatingDiv _ _ _ _ _ _ _ hnd0, exec_LoadComplementRR,
              exec_SubP_imm, exec_bind, exec_nil]
            refine ⟨_, rfl, ?_⟩
            simp only [Machine.record_reg, Machine.set32_reg, Machine.set_reg, Machine.setCode_reg,
              Function.update_same, ne_eq, htd.1, htd.2, hdr2, Ne.symm htd.1, Ne.symm htd.2,
              Ne.symm hdr2, not_false_eq_true, Function.update_noteq]
            have ht : int32 (wordP w (m.reg dividend + wordP w (-1))) =
                int32 (m.reg dividend) - 1 := by
              unfold int32 at hx0 ⊢
              unfold wordP int64
              cases w <;> simp only [if_true, if_false, Bool.false_eq_true, int32] <;> omega
            rw [ht, fdiv_through_tdiv _ _ h0]
            have hx1 : ¬ (int32 (m.reg dividend) ≤ 0) := by omega
            simp only [hp0, hx1, if_true, if_false]
            generalize (int32 (m.reg dividend) - 1).tdiv (-instr.divisor) = q
            unfold wordP writeLow int32 int64
            cases w <;> simp only [if_true, if_false, Bool.false_eq_true] <;> omega
          · simp only [hx0, if_false]
            rw [exec_TruncatingDiv _ _ _ _ _ _ _ hnd0, exec_LoadComplementRR, exec_branch]
            simp only [holds_al, if_true]
            rw [exec_seek_bind]
            simp only [reduceCtorEq, if_false]
            rw [exec_seek_ins, exec_seek_ins, exec_seek_ins, exec_seek_ins, exec_seek_bind]
            simp only [if_true, exec_nil]
            refine ⟨_, rfl, ?_⟩
            simp only [Machine.record_reg, Machine.set32_reg, Machine.set_reg, Machine.setCode_reg,
              Function.update_same]
            rw [fdiv_through_tdiv _ _ h0]
            have hx1 : int32 (m.reg dividend) ≤ 0 := by omega
            simp only [hp0, hx1, if_true, if_false]
            generalize (int32 (m.reg dividend)).tdiv (-instr.divisor) = q
            unfold wordP writeLow int32 int64
            cases w <;> simp only [if_true, if_false, Bool.false_eq_true] <;> omega
    · simp only [hmzf, Bool.true_and, decide_True, if_true, List.cons_append, List.nil_append, List.append_assoc] at h
      cases hfp : instr.hydrogen.CheckFlag .kLeftCanBePositive
      · simp only [hfp, Bool.not_false, if_true, Bool.and_true, Bool.or_true] at h
        obtain ⟨entry, k, hcode⟩ := lower_code x cg _ _ outer r hp h
        rw [hcode]
        have hx0 := hpos hfp hn0
        simp only [List.append_assoc, List.cons_append, List.nil_append, realize, Action.ins,
          guardCode_eq]
        rw [exec_Cmp32_imm, exec_b]
        have hxne : int32 (m.reg dividend) ≠ 0 := fun hz => hmz ⟨hmzf, hn0, hz⟩
        simp only [Machine.record_cc, Machine.setCode_cc, holds_eq_compare, int32_zero,
          decide_eq_true_eq, hxne, if_false]
        rw [exec_TruncatingDiv _ _ _ _ _ _ _ hnd0, exec_LoadComplementRR, exec_nil]
        refine ⟨_, rfl, ?_⟩
        simp only [Machine.record_reg, Machine.set32_reg, Machine.set_reg, Machine.setCode_reg,
          Function.update_same]
        rw [fdiv_through_tdiv _ _ h0]
        simp only [hp0, hx0, if_true, if_false]
        generalize (int32 (m.reg dividend)).tdiv (-instr.divisor) = q
        unfold wordP writeLow int32 int64
        cases w <;> simp only [if_true, if_false, Bool.false_eq_true] <;> omega
      · simp only [hfp, Bool.not_true, Bool.false_eq_true, if_false, Bool.and_false,
          Bool.or_false] at h
        cases htmp : ToRegister instr.temp with
        | none => simp [htmp, LCodeGen.lower] at h
        | some temp =>
          simp only [htmp] at h
          by_cases hta : (temp != dividend && temp != result) = true
          swap
          · simp [hta, LCodeGen.lower] at h
          have htd : temp ≠ dividend ∧ temp ≠ result := by simpa using hta
          simp only [hta, Bool.not_true, Bool.false_eq_true, if_false] at h
          obtain ⟨entry, k, hcode⟩ := lower_code x cg _ _ outer r hp h
          rw [hcode]
          simp only [List.append_assoc, List.cons_append, List.nil_append, realize, Action.ins,
            Action.branch, Action.bind, guardCode_eq]
          rw [exec_Cmp32_imm, exec_b]
          have hxne : int32 (m.reg dividend) ≠ 0 := fun hz => hmz ⟨hmzf, hn0, hz⟩
          simp only [Machine.record_cc, Machine.setCode_cc, holds_eq_compare, int32_zero,
            decide_eq_true_eq, hxne, if_false]
          rw [exec_Cmp32_imm, exec_branch]
          simp only [Machine.record_cc, Machine.setCode_cc, holds_gt_compare, int32_zero,
            decide_eq_true_eq, Machine.record_reg, Machine.setCode_reg]
          by_cases hx0 : 0 < int32 (m.reg dividend)
          · simp only [hx0, if_true]
            rw [exec_seek_ins, exec_seek_ins, exec_seek_branch, exec_seek_bind]
            simp only [if_true]
            rw [exec_AddP_imm, exec_TruncatingDiv _ _ _ _ _ _ _ hnd0, exec_LoadComplementRR,
              exec_SubP_imm, exec_bind, exec_nil]
            refine ⟨_, rfl, ?_⟩
            simp only [Machine.record_reg, Machine.set32_reg, Machine.set_reg, Machine.setCode_reg,
              Function.update_same, ne_eq, htd.1, htd.2, hdr2, Ne.symm htd.1, Ne.symm htd.2,
              Ne.symm hdr2, not_false_eq_true, Function.update_noteq]
            have ht : int32 (wordP w (m.reg dividend + wordP w (-1))) =
                int32 (m.reg dividend) - 1 := by
              unfold int32 at hx0 ⊢
              unfold wordP int64
              cases w <;> simp only [if_true, if_false, Bool.false_eq_true, int32] <;> omega
            rw [ht, fdiv_through_tdiv _ _ h0]
            have hx1 : ¬ (int32 (m.reg dividend) ≤ 0) := by omega
            simp only [hp0, hx1, if_true, if_false]
            generalize (int32 (m.reg dividend) - 1).tdiv (-instr.divisor) = q
            unfold wordP writeLow int32 int64
            cases w <;> simp only [if_true, if_false, Bool.false_eq_true] <;> omega
          · simp only [hx0, if_false]
            rw [exec_TruncatingDiv _ _ _ _ _ _ _ hnd0, exec_LoadComplementRR, exec_branch]
            simp only [holds_al, if_true]
            rw [exec_seek_bind]
            simp only [reduceCtorEq, if_false]
            rw [exec_seek_ins, exec_seek_ins, exec_seek_ins, exec_seek_ins, exec_seek_bind]
            simp only [if_true, exec_nil]
            refine ⟨_, rfl, ?_⟩
            simp only [Machine.record_reg, Machine.set32_reg, Machine.set_reg, Machine.setCode_reg,
              Function.update_same]
            rw [fdiv_through_tdiv _ _ h0]
            have hx1 : int32 (m.reg dividend) ≤ 0 := by omega
            simp only [hp0, hx1, if_true, if_false]
            generalize (int32 (m.reg dividend)).tdiv (-instr.divisor) = q
            unfold wordP writeLow int32 int64
            cases w <;> simp only [if_true, if_false, Bool.false_eq_true] <;> omega


/-- The run of the code of `DoFlooringDivByConstI` for the divisor `kMinInt`
and a dividend other than `kMinInt`. -/
theorem DoFlooringDivByConstI_run_min_int (x : Externals) (cg : LCodeGen)
    (outer : List LEnvironment) (m : Machine) (hp : cg.PlainGuards x)
    (instr : LFlooringDivByConstI) (r : LCodeGen × LEnvironment) (dividend result : Register)
    (h : cg.DoFlooringDivByConstI x instr outer = some r)
    (hd : ToRegister instr.dividend = some dividend)
    (hres : ToRegister instr.result = some result)
    (hdk : instr.divisor = -2147483648) (hxk : int32 (m.reg dividend) ≠ -2147483648)
    (hmz : ¬ (instr.hydrogen.CheckFlag .kBailoutOnMinusZero = true ∧ instr.divisor < 0 ∧
      int32 (m.reg dividend) = 0))
    (hpos : instr.hydrogen.CheckFlag .kLeftCanBePositive = false → instr.divisor < 0 →
      int32 (m.reg dividend) ≤ 0) :
    ∃ m1, exec cg.info.V8_TARGET_ARCH_S390X none 0 (cg.codeSince r.1) m = .finished m1 ∧
      int32 (m1.reg result) = int32 ((int32 (m.reg dividend)).fdiv instr.divisor) := by
  have h0 : instr.divisor ≠ 0 := by omega
  have hxr := int32_range (m.reg dividend)
  generalize hw : cg.info.V8_TARGET_ARCH_S390X = w at *
  have hda := ToRegister_allocated _ _ hd
  have hra := ToRegister_allocated _ _ hres
  unfold LCodeGen.DoFlooringDivByConstI DoFlooringDivByConstI_steps at h
  simp only [hd, hres] at h
  by_cases hdr : (dividend == result) = true
  · simp [hdr, LCodeGen.lower] at h
  have hdr2 : dividend ≠ result := by simpa using hdr
  have h0b : (instr.divisor == 0) = false := by simpa using h0
  simp only [hdr, h0b, Bool.false_eq_true, if_false] at h
  have habs : Abs instr.divisor = instr.divisor := by
    rw [hdk]
    decide
  have hsmall : ∀ v : Int, -2147483648 < v → v < 2147483648 →
      v.tdiv instr.divisor = 0 ∧ v.tdiv (-instr.divisor) = 0 := by
    intro v h1 h2
    have hz := (tdiv_small v 2147483648 h1 h2)
    rw [hdk]
    exact ⟨hz.2, by simpa using hz.1⟩
  have hp0 : ¬ (0 < instr.divisor) := by omega
  have hn0 : instr.divisor < 0 := by omega
  simp only [habs, hp0, hn0, if_true, if_false, decide_True, decide_False, Bool.and_false,
    Bool.false_eq_true, Bool.and_true, Bool.false_or, gt_iff_lt] at h
  cases hmzf : instr.hydrogen.CheckFlag .kBailoutOnMinusZero
  · simp only [hmzf, Bool.false_and, Bool.false_eq_true, if_false, List.nil_append, List.append_assoc] at h
    cases hfp : instr.hydrogen.CheckFlag .kLeftCanBePositive
    · simp only [hfp, Bool.not_false, if_true, Bool.and_true, Bool.or_true] at h
      obtain ⟨entry, k, hcode⟩ := lower_code x cg _ _ outer r hp h
      rw [hcode]
      have hx0 := hpos hfp hn0
      simp only [List.append_assoc, List.cons_append, List.nil_append, realize, Action.ins,
        guardCode_eq]
      rw [exec_TruncatingDiv _ _ _ _ _ _ _ h0, exec_LoadComplementRR, exec_nil]
      refine ⟨_, rfl, ?_⟩
      simp only [Machine.record_reg, Machine.set32_reg, Machine.set_reg, Machine.setCode_reg,
        Function.update_same]
      rw [fdiv_through_tdiv _ _ h0]
      simp only [hp0, hx0, if_true, if_false]
      rw [(hsmall _ (by omega) (by omega)).1, (hsmall _ (by omega) (by omega)).2]
      unfold wordP writeLow int32 int64
      cases w <;> simp only [if_true, if_false, Bool.false_eq_true] <;> omega
    · simp only [hfp, Bool.not_true, Bool.false_eq_true, if_false, Bool.and_false,
        Bool.or_false] at h
      cases htmp : ToRegister instr.temp with
      | none => simp [htmp, LCodeGen.lower] at h
      | some temp =>
        simp only [htmp] at h
        by_cases hta : (temp != dividend && temp != result) = true
        swap
        · simp [hta, LCodeGen.lower] at h
        have htd : temp ≠ dividend ∧ temp ≠ result := by simpa using hta
        simp only [hta, Bool.not_true, Bool.false_eq_true, if_false] at h
        obtain ⟨entry, k, hcode⟩ := lower_code x cg _ _ outer r hp h
        rw [hcode]
        simp only [List.append_assoc, List.cons_append, List.nil_append, realize, Action.ins,
          Action.branch, Action.bind, guardCode_eq]
        rw [exec_Cmp32_imm, exec_branch]
        simp only [Machine.record_cc, Machine.setCode_cc, holds_gt_compare, int32_zero,
          decide_eq_true_eq, Machine.record_reg, Machine.setCode_reg]
        by_cases hx0 : 0 < int32 (m.reg dividend)
        · simp only [hx0, if_true]
          rw [exec_seek_ins, exec_seek_ins, exec_seek_branch, exec_seek_bind]
          simp only [if_true]
          rw [exec_AddP_imm, exec_TruncatingDiv _ _ _ _ _ _ _ h0, exec_LoadComplementRR,
            exec_SubP_imm, exec_bind, exec_nil]
          refine ⟨_, rfl, ?_⟩
          simp only [Machine.record_reg, Machine.set32_reg, Machine.set_reg, Machine.setCode_reg,
            Function.update_same, ne_eq, htd.1, htd.2, hdr2, Ne.symm htd.1, Ne.symm htd.2,
            Ne.symm hdr2, not_false_eq_true, Function.update_noteq]
          have ht : int32 (wordP w (m.reg dividend + wordP w (-1))) =
              int32 (m.reg dividend) - 1 := by
            unfold int32 at hx0 ⊢
            unfold wordP int64
            cases w <;> simp only [if_true, if_false, Bool.false_eq_true, int32] <;> omega
          rw [ht, fdiv_through_tdiv _ _ h0]
          have hx1 : ¬ (int32 (m.reg dividend) ≤ 0) := by omega
          simp only [hp0, hx1, if_true, if_false]
          rw [(hsmall _ (by omega) (by omega)).1, (hsmall _ (by omega) (by omega)).2]
          unfold wordP writeLow int32 int64
          cases w <;> simp only [if_true, if_false, Bool.false_eq_true] <;> omega
        · simp only [hx0, if_false]
          rw [exec_TruncatingDiv _ _ _ _ _ _ _ h0, exec_LoadComplementRR, exec_branch]
          simp only [holds_al, if_true]
          rw [exec_seek_bind]
          simp only [reduceCtorEq, if_false]
          rw [exec_seek_ins, exec_seek_ins, exec_seek_ins, exec_seek_ins, exec_seek_bind]
          simp only [if_true, exec_nil]
          refine ⟨_, rfl, ?_⟩
          simp only [Machine.record_reg, Machine.set32_reg, Machine.set_reg, Machine.setCode_reg,
            Function.update_same]
          rw [fdiv_through_tdiv _ _ h0]
          have hx1 : int32 (m.reg dividend) ≤ 0 := by omega
          simp only [hp0, hx1, if_true, if_false]
          rw [(hsmall _ (by omega) (by omega)).1, (hsmall _ (by omega) (by omega)).2]
          unfold wordP writeLow int32 int64
          cases w <;> simp only [if_true, if_false, Bool.false_eq_true] <;> omega
  · simp only [hmzf, Bool.true_and, decide_True, if_true, List.cons_append, List.nil_append, List.append_assoc] at h
    cases hfp : instr.hydrogen.CheckFlag .kLeftCanBePositive
    · simp only [hfp, Bool.not_false, if_true, Bool.and_true, Bool.or_true] at h
      obtain ⟨entry, k, hcode⟩ := lower_code x cg _ _ outer r hp h
      rw [hcode]
      have hx0 := hpos hfp hn0
      simp only [List.append_assoc, List.cons_append, List.nil_append, realize, Action.ins,
        guardCode_eq]
      rw [exec_Cmp32_imm, exec_b]
      have hxne : int32 (m.reg dividend) ≠ 0 := fun hz => hmz ⟨hmzf, hn0, hz⟩
      simp only [Machine.record_cc, Machine.setCode_cc, holds_eq_compare, int32_zero,
        decide_eq_true_eq, hxne, if_false]
      rw [exec_TruncatingDiv _ _ _ _ _ _ _ h0, exec_LoadComplementRR, exec_nil]
      refine ⟨_, rfl, ?_⟩
      simp only [Machine.record_reg, Machine.set32_reg, Machine.set_reg, Machine.setCode_reg,
        Function.update_same]
      rw [fdiv_through_tdiv _ _ h0]
      simp only [hp0, hx0, if_true, if_false]
      rw [(hsmall _ (by omega) (by omega)).1, (hsmall _ (by omega) (by omega)).2]
      unfold wordP writeLow int32 int64
      cases w <;> simp only [if_true, if_false, Bool.false_eq_true] <;> omega
    · simp only [hfp, Bool.not_true, Bool.false_eq_true, if_false, Bool.and_false,
        Bool.or_false] at h
      cases htmp : ToRegister instr.temp with
      | none => simp [htmp, LCodeGen.lower] at h
      | some temp =>
        simp only [htmp] at h
        by_cases hta : (temp != dividend && temp != result) = true
        swap
        · simp [hta, LCodeGen.lower] at h
        have htd : temp ≠ dividend ∧ temp ≠ result := by simpa using hta
        simp only [hta, Bool.not_true, Bool.false_eq_true, if_false] at h
        obtain ⟨entry, k, hcode⟩ := lower_code x cg _ _ outer r hp h
        rw [hcode]
        simp only [List.append_assoc, List.cons_append, List.nil_append, realize, Action.ins,
          Action.branch, Action.bind, guardCode_eq]
        rw [exec_Cmp32_imm, exec_b]
        have hxne : int32 (m.reg dividend) ≠ 0 := fun hz => hmz ⟨hmzf, hn0, hz⟩
        simp only [Machine.record_cc, Machine.setCode_cc, holds_eq_compare, int32_zero,
          decide_eq_true_eq, hxne, if_false]
        rw [exec_Cmp32_imm, exec_branch]
        simp only [Machine.record_cc, Machine.setCode_cc, holds_gt_compare, int32_zero,
          decide_eq_true_eq, Machine.record_reg, Machine.setCode_reg]
        by_cases hx0 : 0 < int32 (m.reg dividend)
        · simp only [hx0, if_true]
          rw [exec_seek_ins, exec_seek_ins, exec_seek_branch, exec_seek_bind]
          simp only [if_true]
          rw [exec_AddP_imm, exec_TruncatingDiv _ _ _ _ _ _ _ h0, exec_LoadComplementRR,
            exec_SubP_imm, exec_bind, exec_nil]
          refine ⟨_, rfl, ?_⟩
          simp only [Machine.record_reg, Machine.set32_reg, Machine.set_reg, Machine.setCode_reg,
            Function.update_same, ne_eq, htd.1, htd.2, hdr2, Ne.symm htd.1, Ne.symm htd.2,
            Ne.symm hdr2, not_false_eq_true, Function.update_noteq]
          have ht : int32 (wordP w (m.reg dividend + wordP w (-1))) =
              int32 (m.reg dividend) - 1 := by
            unfold int32 at hx0 ⊢
            unfold wordP int64
            cases w <;> simp only [if_true, if_false, Bool.false_eq_true, int32] <;> omega
          rw [ht, fdiv_through_tdiv _ _ h0]
          have hx1 : ¬ (int32 (m.reg dividend) ≤ 0) := by omega
          simp only [hp0, hx1, if_true, if_false]
          rw [(hsmall _ (by omega) (by omega)).1, (hsmall _ (by omega) (by omega)).2]
          unfold wordP writeLow int32 int64
          cases w <;> simp only [if_true, if_false, Bool.false_eq_true] <;> omega
        · simp only [hx0, if_false]
          rw [exec_TruncatingDiv _ _ _ _ _ _ _ h0, exec_LoadComplementRR, exec_branch]
          simp only [holds_al, if_true]
          rw [exec_seek_bind]
          simp only [reduceCtorEq, if_false]
          rw [exec_seek_ins, exec_seek_ins, exec_seek_ins, exec_seek_ins, exec_seek_bind]
          simp only [if_true, exec_nil]
          refine ⟨_, rfl, ?_⟩
          simp only [Machine.record_reg, Machine.set32_reg, Machine.set_reg, Machine.setCode_reg,
            Function.update_same]
          rw [fdiv_through_tdiv _ _ h0]
          have hx1 : int32 (m.reg dividend) ≤ 0 := by omega
          simp only [hp0, hx1, if_true, if_false]
          rw [(hsmall _ (by omega) (by omega)).1, (hsmall _ (by omega) (by omega)).2]
          unfold wordP writeLow int32 int64
          cases w <;> simp only [if_true, if_false, Bool.false_eq_true] <;> omega

/-- C28 as stated fails for the dividend `kMinInt`: for the divisor -1 the code
is the division by 1 and a negation, and its run ends with the 32-bit value
`kMinInt` where the flooring quotient is `2^31`; for the divisor `kMinInt`,
whose `Abs` is `kMinInt` again, the run ends with -1 where the flooring
quotient is 1. -/
theorem DoFlooringDivByConstI_min_int_dividend :
    ((sampleCodeGen.DoFlooringDivByConstI sampleExternals (sampleFlooringMinInt (-1))
        [sampleOuter]).map (fun r => sampleCodeGen.codeSince r.1) =
      some [.ins .TruncatingDiv [.reg (.allocated 3), .reg (.allocated 4), .imm 1],
        .ins .LoadComplementRR [.reg (.allocated 3), .reg (.allocated 3)]] ∧
     (∃ m1, exec true none 0
        [.ins .TruncatingDiv [.reg (.allocated 3), .reg (.allocated 4), .imm 1],
          .ins .LoadComplementRR [.reg (.allocated 3), .reg (.allocated 3)]] sampleMachine =
          .finished m1 ∧ int32 (m1.reg (.allocated 3)) = -2147483648) ∧
     (int32 (sampleMachine.reg (.allocated 4))).fdiv (-1) = 2147483648) ∧
    ((sampleCodeGen.DoFlooringDivByConstI sampleExternals (sampleFlooringMinInt kMinInt)
        [sampleOuter]).map (fun r => sampleCodeGen.codeSince r.1) =
      some [.ins .TruncatingDiv [.reg (.allocated 3), .reg (.allocated 4), .imm (-2147483648)],
        .ins .LoadComplementRR [.reg (.allocated 3), .reg (.allocated 3)]] ∧
     (∃ m1, exec true none 0
        [.ins .TruncatingDiv [.reg (.allocated 3), .reg (.allocated 4), .imm (-2147483648)],
          .ins .LoadComplementRR [.reg (.allocated 3), .reg (.allocated 3)]] sampleMachine =
          .finished m1 ∧ int32 (m1.reg (.allocated 3)) = -1) ∧
     (int32 (sampleMachine.reg (.allocated 4))).fdiv kMinInt = 1) :=
  ⟨⟨by decide,
      ⟨_, (exec_TruncatingDiv true 0 _ _ _ _ _ (by decide)).trans
        ((exec_LoadComplementRR true _ _ _ _ _).trans (exec_nil _ _ _)), by decide⟩,
      by decide⟩,
    ⟨by decide,
      ⟨_, (exec_TruncatingDiv true 0 _ _ _ _ _ (by decide)).trans
        ((exec_LoadComplementRR true _ _ _ _ _).trans (exec_nil _ _ _)), by decide⟩,
      by decide⟩⟩

/-- C28, amended.  For every non-zero 32-bit constant divisor `d` and every
32-bit dividend `x` that the minus-zero guard lets through and that has a sign
the flags allow, other than `x = kMinInt` with `d = -1` or `d = kMinInt`: with
`TruncatingDiv` leaving the quotient truncated toward zero and the stress and
trap flags off, the code of `DoFlooringDivByConstI` runs to its end and leaves
`floor(x / d)` as the 32-bit value of the result register; and `floor(x / d)`
is `trunc(x / d)` when `x` has the sign that needs no adjustment,
`trunc((x + 1) / d) - 1` for `d > 0` and `x < 0`, and `trunc((x - 1) / d) - 1`
for `d < 0` and `x > 0`. -/
theorem flooring_division_by_constant (x : Externals) (cg : LCodeGen) (outer : List LEnvironment)
    (m : Machine) (hp : cg.PlainGuards x) (instr : LFlooringDivByConstI)
    (r : LCodeGen × LEnvironment) (dividend result : Register)
    (h : cg.DoFlooringDivByConstI x instr outer = some r)
    (hd : ToRegister instr.dividend = some dividend)
    (hres : ToRegister instr.result = some result)
    (h0 : instr.divisor ≠ 0) (hmin : kMinInt ≤ instr.divisor) (hmax : instr.divisor < 2147483648)
    (hx : ¬ (int32 (m.reg dividend) = kMinInt ∧
      (instr.divisor = -1 ∨ instr.divisor = kMinInt)))
    (hmz : ¬ (instr.hydrogen.CheckFlag .kBailoutOnMinusZero = true ∧ instr.divisor < 0 ∧
      int32 (m.reg dividend) = 0))
    (hneg : instr.hydrogen.CheckFlag .kLeftCanBeNegative = false → 0 < instr.divisor →
      0 ≤ int32 (m.reg dividend))
    (hpos : instr.hydrogen.CheckFlag .kLeftCanBePositive = false → instr.divisor < 0 →
      int32 (m.reg dividend) ≤ 0) :
    (∃ m1, exec cg.info.V8_TARGET_ARCH_S390X none 0 (cg.codeSince r.1) m = .finished m1 ∧
      int32 (m1.reg result) = (int32 (m.reg dividend)).fdiv instr.divisor) ∧
    (int32 (m.reg dividend)).fdiv instr.divisor =
      (if 0 < instr.divisor then
        (if 0 ≤ int32 (m.reg dividend) then (int32 (m.reg dividend)).tdiv instr.divisor
         else (int32 (m.reg dividend) + 1).tdiv instr.divisor - 1)
       else
        (if int32 (m.reg dividend) ≤ 0 then -((int32 (m.reg dividend)).tdiv (-instr.divisor))
         else -((int32 (m.reg dividend) - 1).tdiv (-instr.divisor)) - 1)) := by
  refine ⟨?_, fdiv_through_tdiv _ _ h0⟩
  obtain ⟨hx1, hx2⟩ := int32_range (m.reg dividend)
  have hfit := fdiv_fits (int32 (m.reg dividend)) instr.divisor h0 hx1 hx2
    (fun hh => hx ⟨hh.1, Or.inl hh.2⟩)
  have hexact : int32 ((int32 (m.reg dividend)).fdiv instr.divisor) =
      (int32 (m.reg dividend)).fdiv instr.divisor := int32_of_range _ hfit.1 hfit.2
  by_cases hdk : instr.divisor = -2147483648
  · have hxk : int32 (m.reg dividend) ≠ -2147483648 := fun e => hx ⟨e, Or.inr hdk⟩
    obtain ⟨m1, h1, h2⟩ := DoFlooringDivByConstI_run_min_int x cg outer m hp instr r dividend
      result h hd hres hdk hxk hmz hpos
    exact ⟨m1, h1, h2.trans hexact⟩
  · have hmin2 : kMinInt < instr.divisor := by
      have hle : -2147483648 ≤ instr.divisor := hmin
      show -2147483648 < instr.divisor
      omega
    obtain ⟨m1, h1, h2⟩ := (DoFlooringDivByConstI_run x cg outer m hp instr r dividend result h
      hd hres h0 hmin2 hmax hmz hneg hpos).1
    exact ⟨m1, h1, h2.trans hexact⟩

theorem flooring_division_by_constant_witness :
    ∃ r m1, sampleCodeGen.DoFlooringDivByConstI sampleExternals sampleFlooringDiv [sampleOuter] =
        some r ∧
      exec true none 0 (sampleCodeGen.codeSince r.1) sampleMachine = .finished m1 ∧
      int32 (m1.reg (.allocated 3)) = -4 :=
  (⟨_, rfl⟩ : ∃ r, sampleCodeGen.DoFlooringDivByConstI sampleExternals sampleFlooringDiv
      [sampleOuter] = some r).elim
    fun r hr =>
      match (flooring_division_by_constant sampleExternals sampleCodeGen [sampleOuter]
        sampleMachine samplePlainGuards sampleFlooringDiv r (.allocated 1) (.allocated 3) hr rfl
        rfl (by decide) (by decide) (by decide) (by decide) (by decide) (by decide)
        (by decide)).1 with
      | ⟨m1, h1, h2⟩ => ⟨r, m1, hr, h1, h2.trans (by decide)⟩

/-! ## Multiplication by a constant -/

/-- C29.  For every 32-bit constant `c`, the mask-and-xor of `DoMulI` is `|c|`
as an unsigned 32-bit value (`0x80000000` for `kMinInt`); and with the stress
and trap flags off, a run of the code that `DoMulI` emits for a constant right
operand `c` that reaches its end leaves `x * c` modulo `2^32` in the low 32 bits
of the result register, `x` being the value of the left register; the run
reaches its end when the instruction has no minus-zero bailout and, for the
constant -1, no overflow check. -/
theorem multiply_by_constant (x : Externals) (cg : LCodeGen) (outer : List LEnvironment)
    (m : Machine) (hp : cg.PlainGuards x) (instr : LMulI) (r : LCodeGen × LEnvironment)
    (left result : Register)
    (h : cg.DoMulI x instr outer = some r)
    (hl : ToRegister instr.left = some left) (hres : ToRegister instr.result = some result)
    (hc : instr.right.IsConstantOperand = true)
    (h1 : kMinInt ≤ x.Integer32Value instr.right)
    (h2 : x.Integer32Value instr.right < 2147483648) :
    constantAbs (x.Integer32Value instr.right) = |x.Integer32Value instr.right| ∧
    constantAbs kMinInt = 0x80000000 ∧
    (∀ m1, exec cg.info.V8_TARGET_ARCH_S390X none 0 (cg.codeSince r.1) m = .finished m1 →
      m1.reg result % 4294967296 =
        (m.reg left * x.Integer32Value instr.right) % 4294967296) ∧
    (instr.hydrogen.CheckFlag .kBailoutOnMinusZero = false →
      (instr.hydrogen.CheckFlag .kCanOverflow = false ∨ x.Integer32Value instr.right ≠ -1) →
      ∃ m1, exec cg.info.V8_TARGET_ARCH_S390X none 0 (cg.codeSince r.1) m = .finished m1 ∧
        m1.reg result % 4294967296 =
          (m.reg left * x.Integer32Value instr.right) % 4294967296) := by
  have h1b : -2147483648 ≤ x.Integer32Value instr.right := h1
  refine ⟨?_, by decide, DoMulI_constant_operand_run x cg outer m hp instr r left result h hl hres
    hc h1b h2⟩
  rw [constantAbs_eq _ h1b h2]
  split_ifs with hneg
  · exact (abs_of_neg hneg).symm
  · exact (abs_of_nonneg (not_lt.mp hneg)).symm

theorem multiply_by_constant_witness :
    ∃ r m1, sampleCodeGen.DoMulI sampleExternals (sampleMulI (-3) []) [sampleOuter] = some r ∧
      exec true none 0 (sampleCodeGen.codeSince r.1) sampleMachine = .finished m1 ∧
      m1.reg (.allocated 3) % 4294967296 = 21 :=
  (⟨_, rfl⟩ : ∃ r, sampleCodeGen.DoMulI sampleExternals (sampleMulI (-3) []) [sampleOuter] =
      some r).elim
    fun r hr =>
      match (multiply_by_constant sampleExternals sampleCodeGen [sampleOuter] sampleMachine
        samplePlainGuards (sampleMulI (-3) []) r (.allocated 1) (.allocated 3) hr rfl rfl rfl
        (by decide) (by decide)).2.2.2 rfl (Or.inl rfl) with
      | ⟨m1, h1, h2⟩ => ⟨r, m1, hr, h1, h2.trans (by decide)⟩

end Lithium
